import Mathlib

/-!
SherLogDB: a verification development of the chunk storage engine.

Shallow embedding of the storage core of SherLogDB (Go):
`models`, `tools`, `agents/time_range`, `agents/log_utils`, `relays/file_sys`
and `agents/storage` (writer, reader, deleter, scheduler, metas map).

Conventions of the embedding

* Go `int`/`int64` values are `Int`, `uint64` values are `Nat`.
* A Go function that mutates the `*Meta` it is given returns the new meta.
* A run-time panic or a `trace.FATAL` (which ends the process) is `none`.
* Trace output, mutexes, wait groups and channels carry no data and are left out.
* Library behaviour the program relies on but does not define (the length of a
  msgpack encoding, the order `sort.Slice` gives to equal keys) is a parameter,
  collected in `Lib`.
-/

namespace SherLogDB

/-! ## models -/

/-- The record `models.TimeRange`: bounds in milliseconds, `0` stands for "unbounded". -/
structure TimeRange where
  Start : Int
  End : Int
deriving DecidableEq, Repr, Inhabited

/-- The record `models.Log` with its nine columns. -/
structure Log where
  Timestamp : Int
  Level : Nat
  Traces : List String
  Entity : String
  EntityID : String
  Message : String
  Modules : List String
  Labels : List String
  Fields : List (String × String)
deriving DecidableEq, Repr, Inhabited

/-- The record `models.Offsets`: one byte offset per column file. -/
structure Offsets where
  Timestamp : Int
  Level : Int
  Traces : Int
  Entity : Int
  EntityID : Int
  Message : Int
  Modules : Int
  Labels : Int
  Fields : Int
deriving DecidableEq, Repr, Inhabited

/-- The zero value `&m.Offsets{}`. -/
def Offsets.zero : Offsets := ⟨0, 0, 0, 0, 0, 0, 0, 0, 0⟩

/-- The method `Offsets.IsZero`. -/
def Offsets.IsZero (o : Offsets) : Bool := o.Timestamp == 0

/-- The record `models.Meta` (the mutex `Mx` is not data). `Offsets = none` is Go's `nil`. -/
structure Meta where
  ID : Nat
  Version : Nat
  TimeRange : TimeRange
  LogsLen : Int
  Offsets : Option Offsets
  IsDeleted : Bool
deriving DecidableEq, Repr, Inhabited

/-- The constructor `models.NewMeta`. -/
def NewMeta (id : Nat) (timestamp : Int) : Meta :=
  { ID := id, Version := 1, TimeRange := ⟨timestamp, timestamp⟩, LogsLen := 0,
    Offsets := some Offsets.zero, IsDeleted := false }

/-- The column names of `models.GetLogColumns`, in its order. -/
def GetLogColumns : List String :=
  ["timestamp", "level", "traces", "entity", "entity_id", "message", "modules", "labels", "fields"]

/-! ## Library parameters -/

/-- What `sort.Slice` promises for a comparison `key i < key j`: the result is a
rearrangement of the input in non-decreasing key order. The order of equal keys is
left to the implementation. -/
structure SliceSort (α : Type) (key : α → Int) where
  run : List α → List α
  perm : ∀ l, (run l).Perm l
  sorted : ∀ l, (run l).Sorted (fun a b => key a ≤ key b)

/-- Library behaviour taken as a parameter: `marshalLen c l` is the number of bytes of
the msgpack encoding of column `c` of `l`; `sortLogs` is `sort.Slice` by timestamp;
`sortMetas` is `sort.Slice` by chunk id. -/
structure Lib where
  marshalLen : String → Log → Nat
  sortLogs : SliceSort Log (fun l => l.Timestamp)
  sortMetas : SliceSort Meta (fun m => (m.ID : Int))

/-- The stable sort `sort.SliceStable` by timestamp. A stable sort is determined by its
input, so it is a definition and not a parameter. -/
def sortSliceStable (logs : List Log) : List Log :=
  logs.insertionSort (fun a b => a.Timestamp ≤ b.Timestamp)

/-- The loop of `sort.Search`: binary search on `[i, j)`. -/
def sortSearchLoop (f : Nat → Bool) : Nat → Nat → Nat → Nat
  | 0, i, _ => i
  | fuel + 1, i, j =>
    if i < j then
      let h := (i + j) / 2
      if !f h then sortSearchLoop f fuel (h + 1) j else sortSearchLoop f fuel i h
    else i

/-- The library function `sort.Search(n, f)`; `n` rounds are enough for the loop to stop. -/
def sortSearch (n : Nat) (f : Nat → Bool) : Nat := sortSearchLoop f n 0 n

/-! ## tools -/

/-- The generic `tools.Min`. -/
def Min (a b : Int) : Int := if a < b then a else b

/-- The generic `tools.JoinSlices`: a fresh slice holding the arguments one after another. -/
def JoinSlices {α : Type} (arrs : List (List α)) : List α := arrs.flatten

/-- A Go slice expression `s[lo:hi]`, which panics unless `0 ≤ lo ≤ hi ≤ len(s)`
(the capacity of a slice is taken to be its length). -/
def slice {α : Type} (s : List α) (lo hi : Int) : Option (List α) :=
  if 0 ≤ lo ∧ lo ≤ hi ∧ hi ≤ s.length then some ((s.drop lo.toNat).take (hi.toNat - lo.toNat))
  else none

/-! ## agents/time_range -/

/-- The function `time_range.IsCrossed`. -/
def IsCrossed (tr1 tr2 : TimeRange) : Bool :=
  !((tr1.End != 0 && tr2.Start != 0 && decide (tr1.End < tr2.Start)) ||
    (tr2.End != 0 && tr1.Start != 0 && decide (tr2.End < tr1.Start)))

/-- The function `time_range.IsInside`. -/
def IsInside (outer inner : TimeRange) : Bool :=
  !((outer.Start != 0 && inner.Start != 0 && decide (inner.Start < outer.Start)) ||
    (outer.End != 0 && inner.End != 0 && decide (outer.End < inner.End)))

/-! ## agents/log_utils: Selector -/

/-- Timestamp of `logs[i]` (only read for `i < len(logs)`). -/
def tsAt (logs : List Log) (i : Nat) : Int := (logs.getD i default).Timestamp

/-- The method `Selector.GetIndicesOfRange`. It sorts `logs` in place when `isSorted` is
false, so the slice as the caller sees it afterwards is returned as well. -/
def GetIndicesOfRange (lib : Lib) (logs : List Log) (tr : TimeRange) (isSorted : Bool) :
    List Log × Int × Int :=
  if tr.Start = 0 ∧ tr.End = 0 then (logs, 0, logs.length)
  else if logs.length = 0 then (logs, -1, -1)
  else
    let logs := if !isSorted then lib.sortLogs.run logs else logs
    let lastTs := tsAt logs (logs.length - 1)
    let logsTr : TimeRange := ⟨tsAt logs 0, lastTs⟩
    if !IsCrossed tr logsTr then (logs, -1, -1)
    else
      let startInx : Nat :=
        if tr.Start ≠ 0 ∧ tsAt logs 0 < tr.Start then
          sortSearch logs.length (fun i => decide (tr.Start ≤ tsAt logs i))
        else 0
      let endInx : Nat :=
        if tr.End ≠ 0 ∧ tr.End < lastTs then
          sortSearch logs.length (fun i => decide (tr.End < tsAt logs i))
        else logs.length
      (logs, startInx, endInx)

/-- The method `Selector.GetLogsInRange`. -/
def GetLogsInRange (lib : Lib) (logs : List Log) (tr : TimeRange) (isSorted : Bool) :
    Option (List Log) :=
  let (logs, startInx, endInx) := GetIndicesOfRange lib logs tr isSorted
  if startInx = -1 then some [] else slice logs startInx endInx

/-- The method `Selector.GetLogsOutOfRange`. -/
def GetLogsOutOfRange (lib : Lib) (logs : List Log) (tr : TimeRange) (isSorted : Bool) :
    Option (List Log) :=
  let (logs, startInx, endInx) := GetIndicesOfRange lib logs tr isSorted
  if startInx = -1 then some logs
  else if endInx = logs.length then slice logs 0 startInx
  else if startInx = 0 then slice logs endInx logs.length
  else do
    let a ← slice logs 0 startInx
    let b ← slice logs endInx logs.length
    pure (JoinSlices [a, b])

/-! ## relays/file_sys: chunk directories, journals

The nine column files of a chunk directory are appended to and read in lock step by the
column workers, so a directory keeps them as one list of rows. A directory that does not
exist and an empty one are the same (`ReadFile` opens with `O_CREATE`). -/

/-- The directory `storages/<storage>/<id>_<version>`. -/
structure ChunkPath where
  storage : String
  id : Nat
  version : Nat
deriving DecidableEq, Repr, Inhabited

/-- The path `path.Join(DIR_STORAGES, storage, meta.Name())`. -/
def chunkPath (storage : String) (mt : Meta) : ChunkPath := ⟨storage, mt.ID, mt.Version⟩

/-- File names that occur in journals. -/
inductive FilePath where
  | chunk (p : ChunkPath)
  | column (p : ChunkPath) (c : String)
  | metaNew (p : ChunkPath)
  | metaFile (p : ChunkPath)
  | storageDir (storage : String)
deriving DecidableEq, Repr

/-- The journal entries `CutAction`, `RemoveAction`, `RenameAction`. -/
inductive Action where
  | cut (name : FilePath) (size : Int)
  | remove (name : FilePath)
  | rename (name newName : FilePath)
deriving DecidableEq, Repr

/-- One chunk directory: the rows of its column files, its `meta` and its `meta.new`. -/
structure ChunkDir where
  rows : List Log
  metaFile : Option Meta
  metaNew : Option Meta
deriving DecidableEq, Repr

/-- The absent (or empty) directory. -/
def ChunkDir.empty : ChunkDir := ⟨[], none, none⟩

/-- File-system calls made by the storage agents, in the order they are made. -/
inductive FsEvent where
  | readColumns (p : ChunkPath)
  | appendColumns (p : ChunkPath) (n : Nat)
  | writeMetaNew (p : ChunkPath)
  | renameMetaNew (p : ChunkPath)
  | writeJournal (name : String)
  | removeJournal (name : String)
deriving DecidableEq, Repr

/-- The files under `storages/` and `transactions/`, with the calls made so far. -/
structure World where
  chunks : ChunkPath → ChunkDir
  journals : String → Option (List Action)
  events : List FsEvent

/-- A file system with no chunk and no journal. -/
def World.empty : World := ⟨fun _ => ChunkDir.empty, fun _ => none, []⟩

/-- Replace one chunk directory. -/
def World.setChunk (w : World) (p : ChunkPath) (d : ChunkDir) : World :=
  { w with chunks := fun q => if q = p then d else w.chunks q }

/-- Record one call. -/
def World.emit (w : World) (e : FsEvent) : World := { w with events := w.events ++ [e] }

/-- The record `file_sys.Backuper`. `backupTx` is the backup journal. `cancelTx` is nil
until the first `AddForReplace`; it only ever receives `RenameAction(p/meta.new, p/meta)`,
kept here as the chunk `p`. -/
structure Backuper where
  name : String
  backupTx : List Action
  cancelTx : Option (List ChunkPath)
deriving DecidableEq, Repr

/-- The constructor `file_sys.NewBackuper`. -/
def NewBackuper (name : String) : Backuper := ⟨name, [], none⟩

/-- The method `Backuper.AddForReplace` for the file `p/meta.new`. -/
def Backuper.AddForReplace (b : Backuper) (p : ChunkPath) : Backuper :=
  { b with backupTx := b.backupTx ++ [Action.remove (FilePath.metaNew p)],
           cancelTx := some ((b.cancelTx.getD []) ++ [p]) }

/-- The method `Backuper.AddChunk`. -/
def Backuper.AddChunk (b : Backuper) (p : ChunkPath) (offsets : Option Offsets) : Backuper :=
  let b1 : Backuper :=
    match offsets with
    | none => { b with backupTx := b.backupTx ++ [Action.remove (FilePath.chunk p)] }
    | some o =>
      if o.IsZero then { b with backupTx := b.backupTx ++ [Action.remove (FilePath.chunk p)] }
      else
        { b with backupTx := b.backupTx ++
            [Action.cut (FilePath.column p "timestamp") o.Timestamp,
             Action.cut (FilePath.column p "level") o.Level,
             Action.cut (FilePath.column p "traces") o.Traces,
             Action.cut (FilePath.column p "entity") o.Entity,
             Action.cut (FilePath.column p "entity_id") o.EntityID,
             Action.cut (FilePath.column p "message") o.Message,
             Action.cut (FilePath.column p "modules") o.Modules,
             Action.cut (FilePath.column p "labels") o.Labels,
             Action.cut (FilePath.column p "fields") o.Fields] }
  b1.AddForReplace p

/-- The method `Backuper.Commit`, that is `Transaction.Commit` of the backup journal:
nothing for an empty action list, else the journal file is (re)written. -/
def Backuper.Commit (b : Backuper) (w : World) : World :=
  if b.backupTx.length = 0 then w
  else ({ w with journals := fun n => if n = b.name then some b.backupTx else w.journals n }).emit
    (FsEvent.writeJournal b.name)

/-- One `rename(p/meta.new, p/meta)` of `Transaction.Apply`; a missing `meta.new` is skipped. -/
def applyRename (w : World) (p : ChunkPath) : World :=
  match (w.chunks p).metaNew with
  | none => w
  | some mt =>
    (w.setChunk p { (w.chunks p) with metaFile := some mt, metaNew := none }).emit
      (FsEvent.renameMetaNew p)

/-- The method `Backuper.Cancel`. With a cancel journal: `Commit` (skipped when it has no
action), then `Apply`, which runs the renames and removes the journal file, fatally if
that file does not exist. Without one: `Transaction.Cancel` of the backup journal. -/
def Backuper.Cancel (b : Backuper) (w : World) : Option (Backuper × World) :=
  match b.cancelTx with
  | some acts =>
    let w1 : World :=
      if acts.length = 0 then w
      else ({ w with journals := fun n =>
                if n = b.name then
                  some (acts.map (fun p => Action.rename (FilePath.metaNew p) (FilePath.metaFile p)))
                else w.journals n }).emit (FsEvent.writeJournal b.name)
    let w2 := acts.foldl applyRename w1
    match w2.journals b.name with
    | none => none
    | some _ =>
      some ({ b with cancelTx := some [] },
            ({ w2 with journals := fun n => if n = b.name then none else w2.journals n }).emit
              (FsEvent.removeJournal b.name))
  | none =>
    if b.backupTx.length = 0 then some (b, w)
    else
      match w.journals b.name with
      | none => none
      | some _ =>
        some ({ b with backupTx := [] },
              ({ w with journals := fun n => if n = b.name then none else w.journals n }).emit
                (FsEvent.removeJournal b.name))

/-! ## agents/storage: Reader -/

/-- The method `Reader.ReadChunk` for all columns (`columns == nil`): the first
`meta.LogsLen` rows of the chunk directory. Allocating a negative number of logs panics,
and a column file with fewer records than `LogsLen` is fatal. -/
def ReadChunk (storage : String) (mt : Meta) (w : World) : Option (List Log × World) :=
  let p := chunkPath storage mt
  if 0 ≤ mt.LogsLen ∧ mt.LogsLen ≤ ((w.chunks p).rows.length : Int) then
    some ((w.chunks p).rows.take mt.LogsLen.toNat, w.emit (FsEvent.readColumns p))
  else none

/-! ## agents/storage: Writer -/

/-- The record `storage.Writer` (its column queues are channels). -/
structure Writer where
  maxLogsInChunk : Int
deriving DecidableEq, Repr

/-- Bytes appended to column `c` for `logs`: a two-byte length and the encoding, per log. -/
def columnBytes (lib : Lib) (c : String) (logs : List Log) : Int :=
  ((logs.map (fun l => 2 + lib.marshalLen c l)).sum : Nat)

/-- The `meta.TimeRange` update of `columnWriter` for one timestamp. -/
def stepTimeRange (tr : TimeRange) (l : Log) : TimeRange :=
  if l.Timestamp < tr.Start then { tr with Start := l.Timestamp }
  else if tr.End < l.Timestamp then { tr with End := l.Timestamp }
  else tr

/-- The effect of the nine `columnWriter` workers on the meta of the task: the timestamp
worker widens `TimeRange`, every worker advances its own offset when `Offsets != nil`. -/
def columnWriters (lib : Lib) (mt : Meta) (logs : List Log) : Meta :=
  { mt with
    TimeRange := logs.foldl stepTimeRange mt.TimeRange,
    Offsets := mt.Offsets.map (fun o =>
      { Timestamp := o.Timestamp + columnBytes lib "timestamp" logs,
        Level := o.Level + columnBytes lib "level" logs,
        Traces := o.Traces + columnBytes lib "traces" logs,
        Entity := o.Entity + columnBytes lib "entity" logs,
        EntityID := o.EntityID + columnBytes lib "entity_id" logs,
        Message := o.Message + columnBytes lib "message" logs,
        Modules := o.Modules + columnBytes lib "modules" logs,
        Labels := o.Labels + columnBytes lib "labels" logs,
        Fields := o.Fields + columnBytes lib "fields" logs }) }

/-- The method `Writer.WriteToChunk`: returns `writed`, the meta as mutated, the backuper
and the file system. -/
def Writer.WriteToChunk (lib : Lib) (sw : Writer) (storage : String) (mt : Meta)
    (logs : List Log) (b : Backuper) (w : World) : Option (Int × Meta × Backuper × World) :=
  if logs.length = 0 then some (0, mt, b, w)
  else
    let free := sw.maxLogsInChunk - mt.LogsLen
    let willWritten := Min free logs.length
    if willWritten = 0 then some (0, mt, b, w)
    else
      let mt1 : Meta := { mt with LogsLen := mt.LogsLen + willWritten }
      let mt2 : Meta := if mt1.LogsLen = sw.maxLogsInChunk then { mt1 with Offsets := none } else mt1
      let name := chunkPath storage mt2
      let b1 := b.AddChunk name mt2.Offsets
      let w1 := b1.Commit w
      match slice logs 0 willWritten with
      | none => none
      | some part =>
        let mt3 := columnWriters lib mt2 part
        let w2 := (w1.setChunk name { (w1.chunks name) with rows := (w1.chunks name).rows ++ part }).emit
          (FsEvent.appendColumns name part.length)
        let w3 := (w2.setChunk name { (w2.chunks name) with metaNew := some mt3 }).emit
          (FsEvent.writeMetaNew name)
        some (willWritten, mt3, b1, w3)

/-- The method `Writer.WriteNewVersionChunk`; `logs[0]` panics on an empty list. -/
def Writer.WriteNewVersionChunk (lib : Lib) (sw : Writer) (storage : String) (mt : Meta)
    (logs : List Log) (b : Backuper) (w : World) : Option (Int × Meta × Backuper × World) :=
  let mt1 : Meta := { mt with Version := mt.Version + 1, LogsLen := 0 }
  match logs.head?, logs.getLast? with
  | some first, some last =>
    let mt2 : Meta :=
      match mt1.Offsets with
      | none => { mt1 with TimeRange := ⟨first.Timestamp, last.Timestamp⟩ }
      | some _ =>
        { mt1 with Offsets := some Offsets.zero, TimeRange := ⟨first.Timestamp, first.Timestamp⟩ }
    sw.WriteToChunk lib storage mt2 logs b w
  | _, _ => none

/-! ## agents/storage: Deleter -/

/-- The method `Deleter.MarkChunkAsDeleted`. -/
def MarkChunkAsDeleted (storage : String) (mt : Meta) (b : Backuper) (w : World) :
    Meta × Backuper × World :=
  let p := chunkPath storage mt
  let b1 := b.AddForReplace p
  let w1 := b1.Commit w
  let mt1 : Meta := { mt with IsDeleted := true }
  (mt1, b1, (w1.setChunk p { (w1.chunks p) with metaNew := some mt1 }).emit (FsEvent.writeMetaNew p))

/-- The method `Deleter.DeleteByTimeRange`. -/
def DeleteByTimeRange (lib : Lib) (sw : Writer) (storage : String) (mt : Meta) (tr : TimeRange)
    (b : Backuper) (w : World) : Option (Meta × Backuper × World) :=
  if IsInside tr mt.TimeRange then some (MarkChunkAsDeleted storage mt b w)
  else
    match ReadChunk storage mt w with
    | none => none
    | some (logs, w1) =>
      match GetLogsOutOfRange lib logs tr (mt.Offsets == none) with
      | none => none
      | some kept =>
        match sw.WriteNewVersionChunk lib storage mt kept b w1 with
        | none => none
        | some (_, mt1, b1, w2) => some (mt1, b1, w2)

/-- The filter loop of `DeleteByCondition` from index `i` on: `cond l` is
`cond.Check(trace, l)`, with `none` for a returned error, and the result is `none` as soon
as a check fails with an error. -/
def filterLogs (cond : Log → Option Bool) (startInx endInx : Int) : Nat → List Log → Option (List Log)
  | _, [] => some []
  | i, l :: rest =>
    if (i : Int) < startInx ∨ (i : Int) > endInx then
      (filterLogs cond startInx endInx (i + 1) rest).map (fun r => l :: r)
    else
      match cond l with
      | none => none
      | some ok =>
        if !ok then (filterLogs cond startInx endInx (i + 1) rest).map (fun r => l :: r)
        else filterLogs cond startInx endInx (i + 1) rest

/-- The method `Deleter.DeleteByCondition`: its boolean result with the meta, backuper and
file system as it leaves them. -/
def DeleteByCondition (lib : Lib) (sw : Writer) (storage : String) (mt : Meta) (tr : TimeRange)
    (cond : Log → Option Bool) (b : Backuper) (w : World) :
    Option (Bool × Meta × Backuper × World) :=
  match ReadChunk storage mt w with
  | none => none
  | some (logs0, w1) =>
    let (logs, startInx, endInx) := GetIndicesOfRange lib logs0 tr (mt.Offsets == none)
    match filterLogs cond startInx endInx 0 logs with
    | none => some (false, mt, b, w1)
    | some filteredLogs =>
      if filteredLogs.length = logs.length then some (false, mt, b, w1)
      else if filteredLogs.length = 0 then
        let (mt1, b1, w2) := MarkChunkAsDeleted storage mt b w1
        some (true, mt1, b1, w2)
      else
        match sw.WriteNewVersionChunk lib storage mt filteredLogs b w1 with
        | none => none
        | some (_, mt1, b1, w2) => some (true, mt1, b1, w2)

/-! ## agents/storage: Scheduler -/

/-- The packs `logs[offset : offset+size]` assigned by the loop of `AlignChunks` to the
first `k` packs. -/
def alignPacks (logs : List Log) (size : Nat) : Nat → Nat → List (List Log)
  | 0, _ => []
  | k + 1, offset => (logs.drop offset).take size :: alignPacks logs size k (offset + size)

/-- The method `Scheduler.AlignChunks`: the packs as it leaves them. With no pack the
division `len(logs) / len(logPacks)` panics. -/
def AlignChunks (logPacks : List (List Log)) : Option (List (List Log)) :=
  if logPacks.length = 0 then none
  else
    let logs := sortSliceStable (JoinSlices logPacks)
    let size := logs.length / logPacks.length
    let n := logPacks.length - 1
    some (alignPacks logs size n 0 ++ [logs.drop (n * size)])

/-! ## agents/storage: MetasMap

Go maps are kept as association lists with one entry per key; the order of the entries
stands for the (unspecified) iteration order of the map. -/

/-- The statement `m[k] = v` on a map. -/
def mapSet {κ ν : Type} [DecidableEq κ] (m : List (κ × ν)) (k : κ) (v : ν) : List (κ × ν) :=
  m.filter (fun e => e.1 ≠ k) ++ [(k, v)]

/-- The statement `delete(m, k)` on a map. -/
def mapDelete {κ ν : Type} [DecidableEq κ] (m : List (κ × ν)) (k : κ) : List (κ × ν) :=
  m.filter (fun e => e.1 ≠ k)

/-- The record `storage.stateManager`: the published blocks of every storage and the
state version. -/
structure StateManager where
  metasMap : List (String × List (List Meta))
  version : Nat
deriving DecidableEq, Repr

/-- The record `storage.MetasMap`. The users of `uses` (Go values of type `any`, compared
by identity) are numbered. -/
structure MetasMap where
  state : StateManager
  deleteList : List (FilePath × Nat)
  uses : List (Nat × Nat)
  deletedCount : Int
  blockMaxSize : Int
deriving DecidableEq, Repr

/-- The constant `math.MaxUint64`. -/
def MaxUint64 : Nat := 2 ^ 64 - 1

/-- The constructor `storage.NewMetasMap`. -/
def NewMetasMap (blockMaxSize : Int) : MetasMap :=
  { state := ⟨[], 1⟩, deleteList := [], uses := [], deletedCount := 0, blockMaxSize := blockMaxSize }

/-- The method `MetasMap.ReserveVersion`, up to the closure it returns. -/
def MetasMap.ReserveVersion (mm : MetasMap) (user : Nat) : MetasMap :=
  { mm with uses := mapSet mm.uses user mm.state.version }

/-- The closure returned by `MetasMap.ReserveVersion`. -/
def MetasMap.unreserve (mm : MetasMap) (user : Nat) : MetasMap :=
  { mm with uses := mapDelete mm.uses user }

/-- The minimum computed by the first loop of `GetForRemove`. -/
def minReserved (uses : List (Nat × Nat)) : Nat :=
  uses.foldl (fun minVer e => if e.2 < minVer then e.2 else minVer) MaxUint64

/-- The method `MetasMap.GetForRemove`. -/
def MetasMap.GetForRemove (mm : MetasMap) : List FilePath × MetasMap :=
  if mm.deleteList.length = 0 then ([], mm)
  else
    let minVer := minReserved mm.uses
    let forDelete := (mm.deleteList.filter (fun e => decide (minVer ≥ e.2))).map Prod.fst
    (forDelete, { mm with deleteList := forDelete.foldl mapDelete mm.deleteList })

/-- The state of `TestRemoving` before its first `GetForRemove`: `1_1` registered at
version 3, `2_1` at version 4, one reservation at version 3. -/
def testRemovingState : MetasMap :=
  { state := ⟨[], 4⟩,
    deleteList := [(FilePath.chunk ⟨"storage", 1, 1⟩, 3), (FilePath.chunk ⟨"storage", 2, 1⟩, 4)],
    uses := [(0, 3)], deletedCount := 2, blockMaxSize := 2 }

/-! ## Concrete library instance and test data -/

/-- Insertion sort meets the contract of `sort.Slice`. -/
def insertionSliceSort {α : Type} (key : α → Int) : SliceSort α key :=
  { run := List.insertionSort (fun a b => key a ≤ key b),
    perm := List.perm_insertionSort _,
    sorted := fun l =>
      @List.sorted_insertionSort α (fun a b => key a ≤ key b) _
        ⟨fun a b => le_total (key a) (key b)⟩ ⟨fun _ _ _ h1 h2 => le_trans h1 h2⟩ l }

/-- A library instance for evaluating the embedding on concrete inputs: every encoding
has one byte and `sort.Slice` is insertion sort. -/
def testLib : Lib :=
  { marshalLen := fun _ _ => 1,
    sortLogs := insertionSliceSort _,
    sortMetas := insertionSliceSort _ }

/-- A log that only carries a timestamp, `&m.Log{Timestamp: ts}`. -/
def logAt (ts : Int) : Log := ⟨ts, 0, [], "", "", "", [], [], []⟩

/-- The packs of `TestAlignChunks`. -/
def testAlignPacks : List (List Log) :=
  [[logAt 1, logAt 3, logAt 9], [logAt 2, logAt 4, logAt 6, logAt 8, logAt 10], [logAt 5, logAt 7]]

/-! ## agents/storage: the aligner pass on one storage -/

/-- The loop `logPacks[j] = s.sr.ReadChunk(trace, storage, crossedMetas[j], nil)`. -/
def readPacks (storage : String) : List Meta → World → Option (List (List Log) × World)
  | [], w => some ([], w)
  | mt :: rest, w =>
    match ReadChunk storage mt w with
    | none => none
    | some (logs, w1) =>
      match readPacks storage rest w1 with
      | none => none
      | some (packs, w2) => some (logs :: packs, w2)

/-- The loop `s.sw.WriteNewVersionChunk(trace, storage, meta, logPacks[j], backuper)` over
`crossedMetas`; the metas are returned as the loop leaves them. -/
def writePacks (lib : Lib) (sw : Writer) (storage : String) :
    List Meta → List (List Log) → Backuper → World → Option (List Meta × Backuper × World)
  | [], _, b, w => some ([], b, w)
  | _ :: _, [], _, _ => none
  | mt :: ms, pack :: ps, b, w =>
    match sw.WriteNewVersionChunk lib storage mt pack b w with
    | none => none
    | some (_, mt1, b1, w1) =>
      match writePacks lib sw storage ms ps b1 w1 with
      | none => none
      | some (ms1, b2, w2) => some (mt1 :: ms1, b2, w2)

/-- The journal name `fmt.Sprintf("%s_%d", storage, id)`. -/
def journalName (storage : String) (id : Nat) : String := storage ++ "_" ++ toString id

/-- The body of `Scheduler.aligner` for one storage once at least two crossed metas are
locked: read the packs, `AlignChunks`, write every pack as a new version, `Cancel` the
backuper. The result is the `ForUpdate` list of the update task. -/
def alignStorage (lib : Lib) (sw : Writer) (storage : String) (crossedMetas : List Meta)
    (w : World) : Option (List Meta × World) :=
  match crossedMetas with
  | [] => none
  | first :: _ =>
    match readPacks storage crossedMetas w with
    | none => none
    | some (logPacks, w1) =>
      match AlignChunks logPacks with
      | none => none
      | some aligned =>
        match writePacks lib sw storage crossedMetas aligned
            (NewBackuper (journalName storage first.ID)) w1 with
        | none => none
        | some (metas, b, w2) =>
          match b.Cancel w2 with
          | none => none
          | some (_, w3) => some (metas, w3)

/-- A sealed chunk meta with `n` records and the given time range. -/
def sealedMeta (id : Nat) (n : Int) (tr : TimeRange) : Meta :=
  { ID := id, Version := 1, TimeRange := tr, LogsLen := n, Offsets := none, IsDeleted := false }

/-- Three sealed, time-crossed chunks of a storage with `maxLogsInChunk = 3`: `1_1` holds
timestamps 1,5,9, `2_1` holds 2,6,10 and `3_1` holds 3,7 (a sealed chunk that lost a
record to a delete). -/
def crossedWorld : World :=
  { chunks := fun p =>
      if p = ⟨"s", 1, 1⟩ then ⟨[logAt 1, logAt 5, logAt 9], none, none⟩
      else if p = ⟨"s", 2, 1⟩ then ⟨[logAt 2, logAt 6, logAt 10], none, none⟩
      else if p = ⟨"s", 3, 1⟩ then ⟨[logAt 3, logAt 7], none, none⟩
      else ChunkDir.empty,
    journals := fun _ => none,
    events := [] }

/-- The metas of the chunks of `crossedWorld`. -/
def crossedMetas : List Meta :=
  [sealedMeta 1 3 ⟨1, 9⟩, sealedMeta 2 3 ⟨2, 10⟩, sealedMeta 3 2 ⟨3, 7⟩]

/-- The rows held by the chunk directories of the given metas. -/
def storedRows (storage : String) (metas : List Meta) (w : World) : List Log :=
  (metas.map (fun mt => (w.chunks (chunkPath storage mt)).rows)).flatten

/-! ## Invariants of a chunk meta -/

/-- The meta invariant as the specification states it:
`0 ≤ LogsLen ≤ maxLogsInChunk` and `Offsets == nil ⇔ LogsLen == maxLogsInChunk`. -/
def MetaInv (maxLogsInChunk : Int) (mt : Meta) : Prop :=
  0 ≤ mt.LogsLen ∧ mt.LogsLen ≤ maxLogsInChunk ∧
    (mt.Offsets = none ↔ mt.LogsLen = maxLogsInChunk)

instance (maxLogsInChunk : Int) (mt : Meta) : Decidable (MetaInv maxLogsInChunk mt) := by
  unfold MetaInv; infer_instance

/-- The part of the meta invariant that every rewrite keeps:
`0 ≤ LogsLen ≤ maxLogsInChunk` and `LogsLen == maxLogsInChunk ⇒ Offsets == nil`. -/
def MetaBound (maxLogsInChunk : Int) (mt : Meta) : Prop :=
  0 ≤ mt.LogsLen ∧ mt.LogsLen ≤ maxLogsInChunk ∧
    (mt.LogsLen = maxLogsInChunk → mt.Offsets = none)

instance (maxLogsInChunk : Int) (mt : Meta) : Decidable (MetaBound maxLogsInChunk mt) := by
  unfold MetaBound; infer_instance

/-- A log with a timestamp and a level, as built in `TestDeleter`. -/
def logLv (ts : Int) (level : Nat) : Log := ⟨ts, level, [], "", "", "", [], [], []⟩

/-- The file system of `TestDeleter` after the three chunks are written
(`maxLogsInChunk = 4`) and the journals are cancelled. -/
def deleterWorld : World :=
  { chunks := fun p =>
      if p = ⟨"storage", 1, 1⟩ then ⟨[logLv 1 1, logLv 2 1, logLv 3 2, logLv 4 2], none, none⟩
      else if p = ⟨"storage", 2, 1⟩ then ⟨[logLv 5 1, logLv 6 2, logLv 7 3, logLv 8 4], none, none⟩
      else if p = ⟨"storage", 3, 1⟩ then
        ⟨[logLv 9 4, logLv 10 5, logLv 11 4, logLv 12 5], none, none⟩
      else ChunkDir.empty,
    journals := fun _ => none,
    events := [] }

/-- The timestamp `ts` lies in the range `[Start, End]`, where a bound `0` is no bound. -/
def TimeRange.Contains (tr : TimeRange) (ts : Int) : Prop :=
  (tr.Start = 0 ∨ tr.Start ≤ ts) ∧ (tr.End = 0 ∨ ts ≤ tr.End)

instance (tr : TimeRange) (ts : Int) : Decidable (tr.Contains ts) := by
  unfold TimeRange.Contains; infer_instance

/-- The condition `level == ?0` with `?0 = 5`, as in `TestDeleter`. -/
def levelIsFive (l : Log) : Option Bool := some (l.Level == 5)

/-! ## agents/storage: MetasMap blocks -/

/-- The expression `m[k]` with its `ok` flag on a map. -/
def mapGet {κ ν : Type} [DecidableEq κ] (m : List (κ × ν)) (k : κ) : Option ν :=
  (m.find? (fun e => decide (e.1 = k))).map Prod.snd

/-- The method `stateManager.Get`: the blocks of the storage and the state version, or
`nil` and `0` when the storage does not exist. -/
def StateManager.Get (sm : StateManager) (storage : String) : List (List Meta) × Nat :=
  match mapGet sm.metasMap storage with
  | some blocks => (blocks, sm.version)
  | none => ([], 0)

/-- The method `stateManager.Exists`. -/
def StateManager.Exists (sm : StateManager) (storage : String) : Bool :=
  (mapGet sm.metasMap storage).isSome

/-- The method `stateManager.Add`. -/
def StateManager.Add (sm : StateManager) (storage : String) (blocks : List (List Meta)) :
    StateManager × Nat :=
  match mapGet sm.metasMap storage with
  | none => (⟨mapSet sm.metasMap storage blocks, sm.version + 1⟩, sm.version + 1)
  | some _ => (sm, 0)

/-- The method `stateManager.Set`. -/
def StateManager.Set (sm : StateManager) (storage : String) (blocks : List (List Meta)) :
    StateManager × Nat :=
  match mapGet sm.metasMap storage with
  | some _ => (⟨mapSet sm.metasMap storage blocks, sm.version + 1⟩, sm.version + 1)
  | none => (sm, 0)

/-- The method `MetasMap.Exists`. -/
def MetasMap.Exists (mm : MetasMap) (storage : String) : Bool := mm.state.Exists storage

/-- The loop of `binSearchBlock` on `[l, r)`; `len(blocks)` rounds are enough for it to
stop. Reading `blocks[i][0]` of an empty block panics. -/
def binSearchBlockLoop (blocks : List (List Meta)) (id : Nat) : Nat → Nat → Nat → Option Int
  | 0, _, _ => some (-1)
  | fuel + 1, l, r =>
    if l < r then
      match blocks[(l + r) / 2]? with
      | none => none
      | some blk =>
        match blk.head?, blk.getLast? with
        | some first, some last =>
          if first.ID ≤ id ∧ id ≤ last.ID then some (((l + r) / 2 : Nat) : Int)
          else if id < first.ID then binSearchBlockLoop blocks id fuel l ((l + r) / 2)
          else binSearchBlockLoop blocks id fuel ((l + r) / 2 + 1) r
        | _, _ => none
    else some (-1)

/-- The method `MetasMap.binSearchBlock`: the index of the block whose id range holds
`id`, or `-1`. -/
def binSearchBlock (blocks : List (List Meta)) (id : Nat) : Option Int :=
  match blocks.head?, blocks.getLast? with
  | some b0, some lastBlock =>
    match b0.head? with
    | none => none
    | some first =>
      if id < first.ID then some (-1)
      else
        match lastBlock.getLast? with
        | none => none
        | some last =>
          if last.ID < id then some (-1)
          else binSearchBlockLoop blocks id blocks.length 0 blocks.length
  | _, _ => some (-1)

/-- The loop of `binSearchMeta` on `[l, r)`. -/
def binSearchMetaLoop (metas : List Meta) (id : Nat) : Nat → Nat → Nat → Int
  | 0, _, _ => -1
  | fuel + 1, l, r =>
    if l < r then
      match metas[(l + r) / 2]? with
      | none => -1
      | some m =>
        if m.ID = id then (((l + r) / 2 : Nat) : Int)
        else if m.ID < id then binSearchMetaLoop metas id fuel ((l + r) / 2 + 1) r
        else binSearchMetaLoop metas id fuel l ((l + r) / 2)
    else -1

/-- The method `MetasMap.binSearchMeta`: the index of the meta with this id, or `-1`. -/
def binSearchMeta (metas : List Meta) (id : Nat) : Int :=
  match metas.head?, metas.getLast? with
  | some first, some last =>
    if id < first.ID ∨ last.ID < id then -1
    else binSearchMetaLoop metas id metas.length 0 metas.length
  | _, _ => -1

/-- The method `MetasMap.calcIndices`; Go's `/` truncates, and panics on a zero divisor. -/
def MetasMap.calcIndices (mm : MetasMap) (index : Int) : Option (Int × Int) :=
  if mm.blockMaxSize = 0 then none
  else some (index.tdiv mm.blockMaxSize, index - index.tdiv mm.blockMaxSize * mm.blockMaxSize)

/-- The method `MetasMap.metasLen`. -/
def MetasMap.metasLen (mm : MetasMap) (blocks : List (List Meta)) : Int :=
  match blocks.getLast? with
  | none => 0
  | some lastBlock => ((blocks.length : Int) - 1) * mm.blockMaxSize + lastBlock.length

/-- The method `MetasMap.Find`: `some none` is Go's `nil`. -/
def MetasMap.Find (mm : MetasMap) (storage : String) (chunkID : Nat) : Option (Option Meta) :=
  let (blocks, version) := mm.state.Get storage
  if version = 0 then some none
  else
    match binSearchBlock blocks chunkID with
    | none => none
    | some i =>
      if i = -1 then some none
      else
        match blocks[i.toNat]? with
        | none => none
        | some blk =>
          if binSearchMeta blk chunkID = -1 then some none
          else
            match blk[(binSearchMeta blk chunkID).toNat]? with
            | none => none
            | some m => if m.IsDeleted then some none else some (some m)

/-- The record `models.UpdateStateTask` (its callback releases mutexes). -/
structure UpdateStateTask where
  Storage : String
  ForUpdate : List Meta
  ForAdd : List Meta
deriving DecidableEq, Repr

/-- The element `blocks[i][j]`. -/
def blockGet (bs : List (List Meta)) (i j : Int) : Option Meta :=
  if 0 ≤ i ∧ 0 ≤ j then (bs[i.toNat]?).bind (fun blk => blk[j.toNat]?) else none

/-- The assignment `blocks[i][j] = m`. -/
def blockSet (bs : List (List Meta)) (i j : Int) (m : Meta) : Option (List (List Meta)) :=
  if 0 ≤ i ∧ 0 ≤ j then
    match bs[i.toNat]? with
    | none => none
    | some blk =>
      if j.toNat < blk.length then some (bs.set i.toNat (blk.set j.toNat m)) else none
  else none

/-- The assignment `blocks[i] = blk`. -/
def blocksSet (bs : List (List Meta)) (i : Int) (blk : List Meta) : Option (List (List Meta)) :=
  if 0 ≤ i ∧ i.toNat < bs.length then some (bs.set i.toNat blk) else none

/-- The loop of `MetasMap.update` over `forUpd`. The variable `block` of the source is
the block `newBlocks[prevBlockIdx]`. -/
def updateLoop (blocks : List (List Meta)) :
    List Meta → List (List Meta) → Int → List Meta → Int →
      Option (List (List Meta) × List Meta × Int)
  | [], newBlocks, _, deleted, deletedCount => some (newBlocks, deleted, deletedCount)
  | u :: rest, newBlocks, prevBlockIdx, deleted, deletedCount =>
    match binSearchBlock blocks u.ID with
    | none => none
    | some i =>
      if i = -1 then updateLoop blocks rest newBlocks prevBlockIdx deleted deletedCount
      else
        match blocks[i.toNat]? with
        | none => none
        | some blk =>
          if binSearchMeta blk u.ID = -1 then
            updateLoop blocks rest newBlocks prevBlockIdx deleted deletedCount
          else
            match (if i > prevBlockIdx then (blocksSet newBlocks i blk).map (fun nb => (nb, i))
                   else some (newBlocks, prevBlockIdx)) with
            | none => none
            | some (nb1, prev1) =>
              match blockGet nb1 prev1 (binSearchMeta blk u.ID) with
              | none => none
              | some old =>
                match blockSet nb1 prev1 (binSearchMeta blk u.ID) u with
                | none => none
                | some nb2 =>
                  if u.Version > old.Version ∨ u.IsDeleted then
                    updateLoop blocks rest nb2 prev1 (deleted ++ [old])
                      (if u.IsDeleted then deletedCount + 1 else deletedCount)
                  else updateLoop blocks rest nb2 prev1 deleted deletedCount

/-- The method `MetasMap.update`: new blocks, `index`, `deleted` and the new
`deletedCount`. `copy(newBlocks, blocks)` fills as many entries as both slices have. -/
def MetasMap.update (mm : MetasMap) (newBlocks blocks : List (List Meta)) (forUpd : List Meta) :
    Option (List (List Meta) × Int × List Meta × Int) :=
  match updateLoop blocks forUpd
      (blocks.take newBlocks.length ++ newBlocks.drop blocks.length) (-1) [] mm.deletedCount with
  | none => none
  | some (nb, deleted, dc) => some (nb, mm.metasLen blocks, deleted, dc)

/-- The loops of `MetasMap.updateAndReconstruct` over the metas of all blocks. The block
`newBlocks[i]`, allocated with `blockMaxSize` cells and cut to `j` cells at the end, is
kept with the `j` cells filled so far. -/
def reconstructLoop (blockMaxSize : Int) :
    List Meta → List (List Meta) → Nat → Int → List Meta → List Meta →
      Option (List (List Meta) × Nat × Int × List Meta)
  | [], newBlocks, i, j, _, deleted => some (newBlocks, i, j, deleted)
  | m :: rest, newBlocks, i, j, forUpd, deleted =>
    match (if j = blockMaxSize then (blocksSet newBlocks ((i : Int) + 1) []).map
              (fun nb => (nb, i + 1, (0 : Int)))
           else some (newBlocks, i, j)) with
    | none => none
    | some (nb, i1, j1) =>
      if m.IsDeleted then reconstructLoop blockMaxSize rest nb i1 j1 forUpd deleted
      else
        match forUpd with
        | u :: us =>
          if m.ID = u.ID then
            if u.Version > m.Version ∨ u.IsDeleted then
              if u.IsDeleted then reconstructLoop blockMaxSize rest nb i1 j1 us (deleted ++ [m])
              else
                match nb[i1]? with
                | none => none
                | some blk =>
                  reconstructLoop blockMaxSize rest (nb.set i1 (blk ++ [u])) i1 (j1 + 1) us
                    (deleted ++ [m])
            else
              match nb[i1]? with
              | none => none
              | some blk =>
                reconstructLoop blockMaxSize rest (nb.set i1 (blk ++ [u])) i1 (j1 + 1) us deleted
          else
            match nb[i1]? with
            | none => none
            | some blk =>
              reconstructLoop blockMaxSize rest (nb.set i1 (blk ++ [m])) i1 (j1 + 1) forUpd deleted
        | [] =>
          match nb[i1]? with
          | none => none
          | some blk =>
            reconstructLoop blockMaxSize rest (nb.set i1 (blk ++ [m])) i1 (j1 + 1) forUpd deleted

/-- The method `MetasMap.updateAndReconstruct`: new blocks, `index`, `deleted` and the new
`deletedCount` (reset to 0). Allocating a block of negative length panics; -/
def MetasMap.updateAndReconstruct (mm : MetasMap) (newBlocks blocks : List (List Meta))
    (forUpd : List Meta) : Option (List (List Meta) × Int × List Meta × Int) :=
  if mm.blockMaxSize < 0 then none
  else
    match blocksSet newBlocks 0 [] with
    | none => none
    | some nb0 =>
      match reconstructLoop mm.blockMaxSize blocks.flatten nb0 0 0 forUpd [] with
      | none => none
      | some (nb, i, j, deleted) => some (nb, (i : Int) * mm.blockMaxSize + j, deleted, 0)

/-- The inner loop of `updateHandler` that moves the meta at flat position `k + 1` left
until the metas are in id order; `fuel` bounds the `k + 1` rounds. -/
def bubbleLoop (mm : MetasMap) : Nat → Int → List (List Meta) → Option (List (List Meta))
  | 0, _, nb => some nb
  | fuel + 1, k, nb =>
    if k < 0 then some nb
    else
      match mm.calcIndices k, mm.calcIndices (k + 1) with
      | some (i1, j1), some (i2, j2) =>
        match blockGet nb i1 j1, blockGet nb i2 j2 with
        | some a, some b =>
          if a.ID < b.ID then some nb
          else
            match blockSet nb i1 j1 b with
            | none => none
            | some nb1 =>
              match blockSet nb1 i2 j2 a with
              | none => none
              | some nb2 => bubbleLoop mm fuel (k - 1) nb2
        | _, _ => none
      | _, _ => none

/-- The loop of `updateHandler` over `task.ForAdd`. -/
def addLoop (mm : MetasMap) :
    List Meta → Int → Int → List (List Meta) → Option (List (List Meta) × Int × Int)
  | [], index, lastBlockIdx, nb => some (nb, index, lastBlockIdx)
  | m :: rest, index, lastBlockIdx, nb =>
    match mm.calcIndices index with
    | none => none
    | some (i, _) =>
      match (if i > lastBlockIdx then (blocksSet nb i []).map (fun nb1 => (nb1, i))
             else some (nb, lastBlockIdx)) with
      | none => none
      | some (nb1, last1) =>
        match (if 0 ≤ i then nb1[i.toNat]? else none) with
        | none => none
        | some blk =>
          match bubbleLoop mm index.toNat (index - 1) (nb1.set i.toNat (blk ++ [m])) with
          | none => none
          | some nb2 => addLoop mm rest (index + 1) last1 nb2

/-- The test `float64(newLen)/float64(deletedCount) > 0.1` for a positive `deletedCount`,
as the exact comparison `newLen / deletedCount > 1/10`; the two agree for every count
below `2^52`. -/
def ratioAboveTenth (newLen deletedCount : Int) : Bool := decide (deletedCount < 10 * newLen)

/-- The registration of the `deleted` metas at the end of `updateHandler`. -/
def registerDeleted (storage : String) (version : Nat) (deleteList : List (FilePath × Nat))
    (deleted : List Meta) : List (FilePath × Nat) :=
  deleted.foldl (fun dl mt => mapSet dl (FilePath.chunk (chunkPath storage mt)) version) deleteList

/-- The body of `MetasMap.updateHandler` for one task of the queue. -/
def MetasMap.updateHandler (lib : Lib) (mm : MetasMap) (task : UpdateStateTask) : Option MetasMap :=
  let (blocks, version) := mm.state.Get task.Storage
  if version = 0 then some mm
  else if blocks.length = 0 ∧ task.ForAdd.length = 0 then some mm
  else
    let newLen := mm.metasLen blocks + task.ForAdd.length
    match mm.calcIndices (newLen - 1) with
    | none => none
    | some (lastBlockIdx, _) =>
      if lastBlockIdx + 1 < 0 then none
      else
        let newBlocks : List (List Meta) := List.replicate (lastBlockIdx + 1).toNat []
        match (if blocks.length > 0 then
                 if mm.deletedCount > 0 ∧ ratioAboveTenth newLen mm.deletedCount = true then
                   mm.updateAndReconstruct newBlocks blocks (lib.sortMetas.run task.ForUpdate)
                 else mm.update newBlocks blocks (lib.sortMetas.run task.ForUpdate)
               else (blocksSet newBlocks 0 []).map (fun nb => (nb, 0, [], mm.deletedCount))) with
        | none => none
        | some (nb, index, deleted, deletedCount) =>
          match mm.calcIndices (index - 1) with
          | none => none
          | some (lastIdx, _) =>
            match addLoop mm task.ForAdd index lastIdx nb with
            | none => none
            | some (nb1, _, lastIdx1) =>
              match slice nb1 0 (lastIdx1 + 1) with
              | none => none
              | some nb2 =>
                let (state, ver) := mm.state.Set task.Storage nb2
                if ver = 0 then some { mm with state := state, deletedCount := deletedCount }
                else
                  some { mm with state := state, deletedCount := deletedCount,
                                 deleteList := registerDeleted task.Storage ver mm.deleteList deleted }

/-- The loop of `AddStorage` that fills the blocks. -/
def fillBlocks (blockMaxSize : Int) : List Meta → List (List Meta) → Nat → Option (List (List Meta))
  | [], blocks, _ => some blocks
  | m :: rest, blocks, i =>
    match blocks[i]? with
    | none => none
    | some blk =>
      fillBlocks blockMaxSize rest (blocks.set i (blk ++ [m]))
        (if ((blk.length : Int) + 1) = blockMaxSize then i + 1 else i)

/-- The method `MetasMap.AddStorage` with its boolean result. -/
def MetasMap.AddStorage (mm : MetasMap) (storage : String) (metas : List Meta) :
    Option (Bool × MetasMap) :=
  match (if metas.length > 0 then
           match mm.calcIndices ((metas.length : Int) - 1) with
           | none => none
           | some (i, _) =>
             if i + 1 < 0 ∨ mm.blockMaxSize < 0 then none
             else fillBlocks mm.blockMaxSize metas (List.replicate (i + 1).toNat []) 0
         else some []) with
  | none => none
  | some blocks =>
    let (state, version) := mm.state.Add storage blocks
    some (decide (version > 0), { mm with state := state })

/-! ## agents/storage: the writer task -/

/-- The record `models.WriteLogsTask` (without its error channel and trace). -/
structure WriteLogsTask where
  Storage : String
  Logs : List Log
deriving DecidableEq, Repr

/-- The variables of the loop `for writed < len(task.Logs)` of `Writer.writer`. -/
structure WriteLoop where
  id : Nat
  writed : Int
  forUpdate : List Meta
  forAdd : List Meta
  backuper : Backuper
  world : World

/-- The loop `for writed < len(task.Logs)` of `Writer.writer`. A round that writes
nothing repeats for ever; `fuel` bounds the number of rounds and running out of it while
the loop condition still holds is `none`. -/
def writeLoop (lib : Lib) (sw : Writer) (step : Nat) (mm : MetasMap) (task : WriteLogsTask) :
    Nat → WriteLoop → Option WriteLoop
  | 0, st => if st.writed < task.Logs.length then none else some st
  | fuel + 1, st =>
    if st.writed < task.Logs.length then
      match mm.Find task.Storage st.id, task.Logs.head? with
      | some found, some first =>
        let mt : Meta := found.getD (NewMeta st.id first.Timestamp)
        let totalLogs := mt.LogsLen + task.Logs.length - st.writed
        if totalLogs < sw.maxLogsInChunk then
          match slice task.Logs st.writed task.Logs.length with
          | none => none
          | some logs =>
            match sw.WriteToChunk lib task.Storage mt logs st.backuper st.world with
            | none => none
            | some (n, mt1, b1, w1) =>
              writeLoop lib sw step mm task fuel
                { id := st.id, writed := st.writed + n,
                  forUpdate := if found.isSome then st.forUpdate ++ [mt1] else st.forUpdate,
                  forAdd := if found.isSome then st.forAdd else st.forAdd ++ [mt1],
                  backuper := b1, world := w1 }
        else
          match ReadChunk task.Storage mt st.world with
          | none => none
          | some (stored, w0) =>
            match slice task.Logs st.writed (st.writed + (sw.maxLogsInChunk - mt.LogsLen)) with
            | none => none
            | some fresh =>
              match sw.WriteToChunk lib task.Storage
                  { mt with Version := mt.Version + 1, LogsLen := 0 }
                  (lib.sortLogs.run (JoinSlices [stored, fresh])) st.backuper w0 with
              | none => none
              | some (n, mt1, b1, w1) =>
                writeLoop lib sw step mm task fuel
                  { id := st.id + step, writed := st.writed + n,
                    forUpdate := if found.isSome then st.forUpdate ++ [mt1] else st.forUpdate,
                    forAdd := if found.isSome then st.forAdd else st.forAdd ++ [mt1],
                    backuper := b1, world := w1 }
      | _, _ => none
    else some st

/-- What one task of the queue leaves behind: the error sent on `task.ErrCh` (`true` for
`NotFound`), the writer's `chunksForWrite`, the metas map, the files, and the update task
handed to `metasMap.Update`. -/
structure WriteResult where
  notFound : Bool
  chunksForWrite : List (String × Nat)
  metasMap : MetasMap
  world : World
  update : Option UpdateStateTask

/-- The body of the loop of `Writer.writer` for one task, up to `metasMap.Update`. The
writer reserves the version under the key `user` and releases it on return. -/
def Writer.writeTask (lib : Lib) (sw : Writer) (instanceNum step user : Nat)
    (chunksForWrite : List (String × Nat)) (mm : MetasMap) (task : WriteLogsTask) (w : World) :
    Option WriteResult :=
  let mm1 := mm.ReserveVersion user
  if !mm1.Exists task.Storage then
    some { notFound := true, chunksForWrite := mapDelete chunksForWrite task.Storage,
           metasMap := mm1.unreserve user, world := w, update := none }
  else
    let id := (mapGet chunksForWrite task.Storage).getD (1 + instanceNum)
    let cfw := if (mapGet chunksForWrite task.Storage).isSome then chunksForWrite
               else mapSet chunksForWrite task.Storage id
    match writeLoop lib sw step mm1 task task.Logs.length
        ⟨id, 0, [], [], NewBackuper (journalName task.Storage id), w⟩ with
    | none => none
    | some st =>
      match st.backuper.Cancel st.world with
      | none => none
      | some (_, w1) =>
        some { notFound := false, chunksForWrite := mapSet cfw task.Storage st.id,
               metasMap := mm1.unreserve user, world := w1,
               update := some ⟨task.Storage, st.forUpdate, st.forAdd⟩ }

/-- One task of the queue with the update it submits applied: the writer waits for the
callback of its update (`waitUpdates`) before it takes the next task. -/
def Writer.processTask (lib : Lib) (sw : Writer) (instanceNum step user : Nat)
    (chunksForWrite : List (String × Nat)) (mm : MetasMap) (task : WriteLogsTask) (w : World) :
    Option WriteResult :=
  match sw.writeTask lib instanceNum step user chunksForWrite mm task w with
  | none => none
  | some r =>
    match r.update with
    | none => some r
    | some upd =>
      match r.metasMap.updateHandler lib upd with
      | none => none
      | some mm1 => some { r with metasMap := mm1 }

/-- The goroutine `Writer.writer` on a queue of tasks. -/
def Writer.writer (lib : Lib) (sw : Writer) (instanceNum step user : Nat) :
    List WriteLogsTask → List (String × Nat) → MetasMap → World → Option WriteResult
  | [], cfw, mm, w =>
    some { notFound := false, chunksForWrite := cfw, metasMap := mm, world := w, update := none }
  | task :: rest, cfw, mm, w =>
    match sw.processTask lib instanceNum step user cfw mm task w with
    | none => none
    | some r => Writer.writer lib sw instanceNum step user rest r.chunksForWrite r.metasMap r.world

/-- The method `Writer.RunWriter`: `chunksForWrite` starts from `firstRawChunks`. -/
def Writer.RunWriter (lib : Lib) (sw : Writer) (queue : List WriteLogsTask) (instanceNum : Nat)
    (firstRawChunks : List (String × Nat)) (step user : Nat) (mm : MetasMap) (w : World) :
    Option WriteResult :=
  sw.writer lib instanceNum step user queue
    (firstRawChunks.map (fun e => (e.1, e.2 + instanceNum))) mm w

/-- The live metas of a storage: the metas of its blocks that are not marked deleted. -/
def liveMetas (mm : MetasMap) (storage : String) : List Meta :=
  ((mm.state.Get storage).1.flatten).filter (fun mt => !mt.IsDeleted)

/-- The records held by the live chunks of a storage: for every live meta the first
`LogsLen` rows of its directory, as `ReadChunk` returns them. -/
def liveRecords (mm : MetasMap) (w : World) (storage : String) : List Log :=
  ((liveMetas mm storage).map
    (fun mt => (w.chunks (chunkPath storage mt)).rows.take mt.LogsLen.toNat)).flatten

/-- The logs of `TestWriterAndReader`. -/
def testWriterLogs : List Log :=
  [logAt 9, logAt 5, logAt 7, logAt 3, logAt 8, logAt 1, logAt 4, logAt 2]

/-- The metas map of `TestWriterAndReader`: block size 100 and the empty storage
`storage`. -/
def testWriterMetasMap : MetasMap :=
  { state := ⟨[("storage", [])], 2⟩, deleteList := [], uses := [], deletedCount := 0,
    blockMaxSize := 100 }

/-! ## agents/storage: MetasMap.GetExpired -/

/-- The method `MetasMap.GetExpired`: the two nested loops append to `expired`. The `nil`
returned for a storage that does not exist and the empty slice are both `[]`. -/
def MetasMap.GetExpired (mm : MetasMap) (storage : String) (deadline : Int) : List Meta :=
  let (blocks, version) := mm.state.Get storage
  if version = 0 then []
  else
    blocks.foldl (fun expired blk =>
      blk.foldl (fun expired mt =>
        if mt.TimeRange.End < deadline ∧ mt.IsDeleted = false ∧ mt.Offsets.isNone = true then
          expired ++ [mt]
        else expired) expired) []

/-- The metas of `TestGetExpired`, case "with raw chunk", as `AddStorage` lays them out
with block size 2. -/
def testExpiredMetasMap : MetasMap :=
  { state := ⟨[("with raw chunk",
        [[⟨1, 0, ⟨1, 2⟩, 0, none, false⟩, ⟨2, 0, ⟨3, 4⟩, 0, some Offsets.zero, false⟩],
         [⟨3, 0, ⟨5, 6⟩, 0, none, false⟩]])], 2⟩,
    deleteList := [], uses := [], deletedCount := 0, blockMaxSize := 2 }

/-- The logs of `TestGetLogsInRange`: timestamps 1 to 6. -/
def testSelectorLogs : List Log := [logAt 1, logAt 2, logAt 3, logAt 4, logAt 5, logAt 6]

/-! ## Linear scan for a chunk id -/

/-- A linear scan of the metas of all blocks for the first meta with the id; a meta that
is marked deleted is not reported. -/
def linearFind (blocks : List (List Meta)) (id : Nat) : Option Meta :=
  match blocks.flatten.find? (fun m => decide (m.ID = id)) with
  | some m => if m.IsDeleted then none else some m
  | none => none

/-- A meta that only carries an id and the deletion mark, `&m.Meta{ID: id, IsDeleted: d}`. -/
def metaOf (id : Nat) (isDeleted : Bool) : Meta := ⟨id, 0, ⟨0, 0⟩, 0, none, isDeleted⟩

/-- The metas map of `TestFind`: ids 3, 4, 6, 7 (deleted), 8, 9 in blocks of size 3. -/
def testFindMetasMap : MetasMap :=
  { state := ⟨[("storage", [[metaOf 3 false, metaOf 4 false, metaOf 6 false],
                             [metaOf 7 true, metaOf 8 false, metaOf 9 false]])], 2⟩,
    deleteList := [], uses := [], deletedCount := 0, blockMaxSize := 3 }

/-! ## The file tree of the operating system

The calls of package `os` are modelled on a tree of regular files. A path is the list of
its components relative to the working directory; a directory exists when a file lies
beneath it. Errors other than `ENOENT`, a negative size and the removal of a non-empty
directory (permissions, a directory where a file is expected) are not modelled. -/

/-- A path relative to the working directory, as the list of its components. -/
abbrev Path := List String

/-- The regular files of the tree with their bytes; the first entry of a path counts. -/
abbrev Disk := List (Path × List Nat)

/-- The bytes of the regular file at `p`. -/
def Disk.get (d : Disk) (p : Path) : Option (List Nat) := mapGet d p

/-- Whether a file lies at `p` or beneath it. -/
def Disk.has (d : Disk) (p : Path) : Bool := d.any (fun e => p.isPrefixOf e.1)

/-- The errors of package `os`: `notExist` is an error for which `os.IsNotExist` holds. -/
inductive OsError where
  | notExist
  | other
deriving DecidableEq, Repr

/-- The bytes of a file after `truncate` to `size` bytes: a longer file is cut, a shorter
one is extended with zero bytes. -/
def truncateBytes (size : Nat) (bytes : List Nat) : List Nat :=
  bytes.take size ++ List.replicate (size - bytes.length) 0

/-- The call `os.Truncate(name, size)`. -/
def osTruncate (d : Disk) (name : Path) (size : Int) : Except OsError Disk :=
  if size < 0 then .error .other
  else
    match d.get name with
    | none => .error .notExist
    | some _ =>
      .ok (d.map (fun e => if e.1 = name then (e.1, truncateBytes size.toNat e.2) else e))

/-- The call `os.RemoveAll(name)`: the file or the whole subtree; a missing path is no
error. -/
def osRemoveAll (d : Disk) (name : Path) : Except OsError Disk :=
  .ok (d.filter (fun e => !name.isPrefixOf e.1))

/-- The call `os.Rename(name, newName)` of a file or of a subtree; what was at the new
name is replaced. -/
def osRename (d : Disk) (name newName : Path) : Except OsError Disk :=
  if !d.has name then .error .notExist
  else
    .ok ((d.filter (fun e => name.isPrefixOf e.1)).map
            (fun e => (newName ++ e.1.drop name.length, e.2))
          ++ d.filter (fun e => !name.isPrefixOf e.1 && !newName.isPrefixOf e.1))

/-- The call `os.Remove(name)` of a file; a directory with files in it is not removed. -/
def osRemove (d : Disk) (name : Path) : Except OsError Disk :=
  match d.get name with
  | some _ => .ok (d.filter (fun e => decide (e.1 ≠ name)))
  | none => if d.has name then .error .other else .error .notExist

/-- An entry of `os.ReadDir`. -/
structure DirEntry where
  name : String
  isDir : Bool
deriving DecidableEq, Repr

/-- The order of Go strings, byte by byte (the order of the code points). -/
def nameLt : List Char → List Char → Bool
  | [], [] => false
  | [], _ :: _ => true
  | _ :: _, [] => false
  | a :: as, b :: bs =>
    if a.toNat < b.toNat then true else if b.toNat < a.toNat then false else nameLt as bs

/-- Insertion of a name into a list of names in ascending order without repetition. -/
def insertName (n : String) : List String → List String
  | [] => [n]
  | a :: rest =>
    if n = a then a :: rest
    else if nameLt n.data a.data then n :: a :: rest
    else a :: insertName n rest

/-- The call `os.ReadDir(dir)`: the entries of the directory sorted by name. -/
def osReadDir (d : Disk) (dir : Path) : List DirEntry :=
  ((d.filterMap (fun e =>
      if dir.isPrefixOf e.1 then (e.1.drop dir.length).head? else none)).foldr insertName []).map
    (fun n => ⟨n, (d.get (dir ++ [n])).isNone⟩)

/-- The method `FileSys.ReadFile`: the bytes of the file, which is created empty when it
does not exist. -/
def ReadFile (d : Disk) (name : Path) : List Nat × Disk :=
  match d.get name with
  | some bytes => (bytes, d)
  | none => ([], d ++ [(name, [])])

/-! ## relays/file_sys: Transaction -/

/-- The record `file_sys.action` over plain paths. -/
inductive FileAction where
  | cut (name : Path) (size : Int)
  | remove (name : Path)
  | rename (name newName : Path)
deriving DecidableEq, Repr

/-- The record `file_sys.Transaction`: the path of the journal file and the actions. -/
structure Transaction where
  name : Path
  actions : List FileAction
deriving DecidableEq, Repr

/-- The test `err != nil && !os.IsNotExist(err)` of `Apply`, after which `trace.FATAL`
ends the program: a missing file leaves the tree as it was. -/
def skipNotExist (d : Disk) : Except OsError Disk → Option Disk
  | .ok d1 => some d1
  | .error .notExist => some d
  | .error .other => none

/-- The `switch act.Type` of `Transaction.Apply`: the call of package `os` for one action. -/
def runAction (d : Disk) : FileAction → Except OsError Disk
  | .cut name size => osTruncate d name size
  | .remove name => osRemoveAll d name
  | .rename name newName => osRename d name newName

/-- The loop of `Transaction.Apply` over the actions. -/
def applyActions : List FileAction → Disk → Option Disk
  | [], d => some d
  | act :: rest, d =>
    match skipNotExist d (runAction d act) with
    | none => none
    | some d1 => applyActions rest d1

/-- The method `Transaction.Apply`: the actions in order, then the journal file is
removed; failing to remove it is fatal. -/
def Transaction.Apply (tx : Transaction) (d : Disk) : Option (Transaction × Disk) :=
  match applyActions tx.actions d with
  | none => none
  | some d1 =>
    match osRemove d1 tx.name with
    | .ok d2 => some ({ tx with actions := [] }, d2)
    | .error _ => none

/-- The function `file_sys.NewTransactionFromFile` with `ReadTransaction`: the journal is
read from `transactions/<name>`; `unmarshal` is `msgpack.Unmarshal` into a list of actions
and bytes that do not decode are fatal. -/
def NewTransactionFromFile (unmarshal : List Nat → Option (List FileAction)) (d : Disk)
    (name : String) : Option (Transaction × Disk) :=
  match unmarshal (ReadFile d ["transactions", name]).1 with
  | none => none
  | some actions => some (⟨["transactions", name], actions⟩, (ReadFile d ["transactions", name]).2)

/-- The test `strings.HasSuffix(name, ".new")`. -/
def hasSuffixNew (name : String) : Bool := ".new".data.isSuffixOf name.data

/-- The loop of `RunTransactions` over the entries of `transactions/`. -/
def runEntries (unmarshal : List Nat → Option (List FileAction)) : List DirEntry → Disk → Option Disk
  | [], d => some d
  | entry :: rest, d =>
    if hasSuffixNew entry.name then
      match osRemove d [entry.name] with
      | .ok d1 => runEntries unmarshal rest d1
      | .error _ => none
    else
      match NewTransactionFromFile unmarshal d entry.name with
      | none => none
      | some (tx, d1) =>
        match tx.Apply d1 with
        | none => none
        | some (_, d2) => runEntries unmarshal rest d2

/-- The function `file_sys.RunTransactions`; `os.MkdirAll` leaves the files as they are. -/
def RunTransactions (unmarshal : List Nat → Option (List FileAction)) (d : Disk) : Option Disk :=
  runEntries unmarshal (osReadDir d ["transactions"]) d

/-- A decoder for evaluating the embedding: the byte `7` stands for the journal of
`TestTransaction`, and nothing else decodes. -/
def testUnmarshal (bytes : List Nat) : Option (List FileAction) :=
  if bytes = [7] then
    some [.cut ["forCut.txt"] 5, .remove ["forRemove.txt"], .rename ["forRename.txt"] ["renamed.txt"]]
  else none

/-- The files of `TestTransaction` with its journal committed. -/
def testTransactionDisk : Disk :=
  [(["forCut.txt"], [1, 2, 3, 4, 5, 6, 7, 8, 9, 0]), (["forRemove.txt"], []),
   (["forRename.txt"], []), (["transactions", "test"], [7])]
/-! ## Journals that can be replayed -/

/-- Whether one of two paths is the other or lies beneath it. -/
def related (p q : Path) : Bool := p.isPrefixOf q || q.isPrefixOf p

/-- The field `Name` of an action: the file that is cut, removed or renamed. -/
def FileAction.name : FileAction → Path
  | .cut name _ => name
  | .remove name => name
  | .rename name _ => name

/-- The fields `NewName` of the rename actions of a journal. -/
def renameTargets : List FileAction → List Path
  | [] => []
  | .rename _ newName :: rest => newName :: renameTargets rest
  | _ :: rest => renameTargets rest

/-- A journal in which no rename puts a file at, above or beneath the `Name` of an action
of the journal. The journals of `Backuper` (cuts and removes only, or renames of
`meta.new` to `meta` only), of `AtomicRemove` and of `TestTransaction` are of this kind. -/
def targetsApart (l : List FileAction) : Bool :=
  (renameTargets l).all (fun t => l.all (fun a => !related t a.name))

/-- What an action does to the bytes `c` of a file at `p` that no rename of the journal
replaces: a rename moves the file away like a remove. -/
def stepBytes (a : FileAction) (p : Path) (c : List Nat) : Option (List Nat) :=
  match a with
  | .cut name size => some (if p = name then truncateBytes size.toNat c else c)
  | .remove name => if name.isPrefixOf p then none else some c
  | .rename name _ => if name.isPrefixOf p then none else some c

/-- The actions of a journal in order on the bytes of one file. -/
def runBytes : List FileAction → Path → List Nat → Option (List Nat)
  | [], _, c => some c
  | a :: rest, p, c => (stepBytes a p c).bind (runBytes rest p)

/-- An action on bytes, lifted to the entries of the tree. -/
def entryOf (f : Path → List Nat → Option (List Nat)) (e : Path × List Nat) :
    Option (Path × List Nat) :=
  (f e.1 e.2).map (fun c => (e.1, c))

/-- The first `k` bytes of a file followed by zero bytes up to the length `m`. -/
def keepThenZeros (k m : Nat) (c : List Nat) : List Nat :=
  c.take k ++ List.replicate (m - min k c.length) 0

/-- The journal `remove(a), rename(b, a)` and a tree with the files `a` and `b`. -/
def replayJournal : List FileAction := [.remove ["a"], .rename ["b"] ["a"]]

/-- A tree with the files `a` and `b`. -/
def replayDisk : Disk := [(["a"], [1]), (["b"], [2])]

/-- The journal of `TestTransaction`. -/
def testJournal : List FileAction :=
  [.cut ["forCut.txt"] 5, .remove ["forRemove.txt"], .rename ["forRename.txt"] ["renamed.txt"]]

/-! ## relays/file_sys: discovery of the chunks of a storage on boot -/

/-- The call `strings.Split(s, "_")` on the characters of `s`. -/
def splitUnderscore : List Char → List (List Char)
  | [] => [[]]
  | c :: rest =>
    if c = '_' then [] :: splitUnderscore rest
    else
      match splitUnderscore rest with
      | [] => [[c]]
      | part :: parts => (c :: part) :: parts

/-- The loop of `strconv.ParseUint(s, 10, 64)` over the digits. -/
def parseUintLoop : List Char → Nat → Option Nat
  | [], acc => some acc
  | c :: rest, acc =>
    if '0'.toNat ≤ c.toNat ∧ c.toNat ≤ '9'.toNat then
      parseUintLoop rest (acc * 10 + (c.toNat - '0'.toNat))
    else none

/-- The call `strconv.ParseUint(s, 10, 64)`: `none` is an error. -/
def ParseUint (s : List Char) : Option Nat :=
  if s = [] then none
  else
    match parseUintLoop s 0 with
    | some n => if n ≤ MaxUint64 then some n else none
    | none => none

/-- The function `models.NewMetaEmpty`: `none` is an error. -/
def NewMetaEmpty (chunkName : String) : Option Meta :=
  match splitUnderscore chunkName.data with
  | [idPart, versionPart] =>
    match ParseUint idPart, ParseUint versionPart with
    | some id, some version => some ⟨id, version, ⟨0, 0⟩, 0, none, false⟩
    | _, _ => none
  | _ => none

/-- The method `Meta.Name`. -/
def Meta.Name (mt : Meta) : String := toString mt.ID ++ "_" ++ toString mt.Version

/-- The method `FileSys.AtomicRemove`: a journal of remove actions is committed and
applied, which also removes the journal again; a journal without actions is not written
and its removal is fatal. -/
def AtomicRemove (d : Disk) (names : List Path) : Option Disk :=
  if names.length = 0 then none else applyActions (names.map FileAction.remove) d

/-- The first loop of `filterAndReadMetas`: the chunk directories with a well-formed
name; `none` when the file `_deleted_` is met. -/
def findChunks : List DirEntry → List Meta → Option (List Meta)
  | [], metas => some metas
  | entry :: rest, metas =>
    if !entry.isDir then
      if entry.name = "_deleted_" then none else findChunks rest metas
    else
      match NewMetaEmpty entry.name with
      | some mt => findChunks rest (metas ++ [mt])
      | none => findChunks rest metas

/-- The key of the comparison that `filterAndReadMetas` hands to `sort.Slice`: by id, and
for one id by version from the highest down. -/
def chunkOrderKey (mt : Meta) : Int := (mt.ID : Int) * 2 ^ 64 + ((MaxUint64 : Int) - mt.Version)

/-- The loop "Read and filter metas" of `filterAndReadMetas`: the metas kept, the
directories for removal and the tree. `unmarshalMeta` is `msgpack.Unmarshal` into a meta,
which fills the fields other than `ID` and `Version`; bytes that do not decode are fatal. -/
def readMetasLoop (unmarshalMeta : List Nat → Option Meta) (storagePath : Path) :
    List Meta → Disk → Nat → List Meta → List Path → Option (List Meta × List Path × Disk)
  | [], d, _, kept, forRemove => some (kept, forRemove, d)
  | mt :: rest, d, currID, kept, forRemove =>
    if currID = mt.ID then
      readMetasLoop unmarshalMeta storagePath rest d currID kept
        (forRemove ++ [storagePath ++ [mt.Name]])
    else if (ReadFile d (storagePath ++ [mt.Name, "meta"])).1.length = 0 then
      readMetasLoop unmarshalMeta storagePath rest
        (ReadFile d (storagePath ++ [mt.Name, "meta"])).2 currID kept
        (forRemove ++ [storagePath ++ [mt.Name]])
    else
      match unmarshalMeta (ReadFile d (storagePath ++ [mt.Name, "meta"])).1 with
      | none => none
      | some fields =>
        if fields.IsDeleted then
          readMetasLoop unmarshalMeta storagePath rest
            (ReadFile d (storagePath ++ [mt.Name, "meta"])).2 currID kept
            (forRemove ++ [storagePath ++ [mt.Name]])
        else
          readMetasLoop unmarshalMeta storagePath rest
            (ReadFile d (storagePath ++ [mt.Name, "meta"])).2 mt.ID
            (kept ++ [{ fields with ID := mt.ID, Version := mt.Version }]) forRemove

/-- The method `FileSys.filterAndReadMetas`: the metas, the flag `ok` and the tree.
`sortChunks` is `sort.Slice` with the comparison of the source. -/
def filterAndReadMetas (unmarshalMeta : List Nat → Option Meta)
    (sortChunks : SliceSort Meta chunkOrderKey) (d : Disk) (storage : String) :
    Option (List Meta × Bool × Disk) :=
  match findChunks (osReadDir d ["storages", storage]) [] with
  | none => (AtomicRemove d [["storages", storage]]).map (fun d1 => ([], false, d1))
  | some metas =>
    if metas.length = 0 then some ([], true, d)
    else
      match readMetasLoop unmarshalMeta ["storages", storage] (sortChunks.run metas) d 0 [] [] with
      | none => none
      | some (kept, forRemove, d1) =>
        if forRemove.length > 0 then (AtomicRemove d1 forRemove).map (fun d2 => (kept, true, d2))
        else some (kept, true, d1)

/-- A decoder for evaluating the embedding: the byte `1` is the meta file of a sealed
chunk with 3 logs, the byte `2` the same with the mark `IsDeleted`. -/
def testUnmarshalMeta (bytes : List Nat) : Option Meta :=
  if bytes = [1] then some ⟨0, 0, ⟨1, 3⟩, 3, none, false⟩
  else if bytes = [2] then some ⟨0, 0, ⟨1, 3⟩, 3, none, true⟩
  else none

/-- A storage `s` with two versions of chunk 1: version 2 is marked deleted and the
directory of version 1 has not been removed yet. -/
def bootDiskDeleted : Disk :=
  [(["storages", "s", "1_1", "meta"], [1]), (["storages", "s", "1_2", "meta"], [2])]

/-- A storage `s` with two versions of chunk 1: the meta file of version 2 is empty. -/
def bootDiskEmptyMeta : Disk :=
  [(["storages", "s", "1_1", "meta"], [1]), (["storages", "s", "1_2", "meta"], []),
   (["storages", "s", "1_2", "timestamp"], [9])]

/-! ## The chunk ids a writer instance uses -/

/-- The chunk directory a file-system call works on. -/
def FsEvent.chunk : FsEvent → Option ChunkPath
  | .readColumns p => some p
  | .appendColumns p _ => some p
  | .writeMetaNew p => some p
  | .renameMetaNew p => some p
  | .writeJournal _ => none
  | .removeJournal _ => none

/-- The first chunk id of a storage for the writers: its entry of `firstRawChunks`, and
`1` for a storage that has none. -/
def firstID (firstRawChunks : List (String × Nat)) (storage : String) : Nat :=
  (mapGet firstRawChunks storage).getD 1

/-- The ids `first + instanceNum + j * step`. -/
def onShard (first instanceNum step id : Nat) : Prop := ∃ j, id = first + instanceNum + j * step

/-! ## agents/storage: the blocks of `MetasMap` as slices with backing arrays

The model of `updateHandler` above works on the values of the blocks. To see what an
update does to a block list published earlier, the blocks are kept here as Go keeps them:
a slice is a window on a backing array, and two slices can share an array. All slices of
`MetasMap` start at the first cell of their array. -/

/-- A slice `[]*m.Meta`: the backing array, the length and the capacity. The `nil` slice
has length and capacity 0. -/
structure MetaSlice where
  arr : Nat
  len : Nat
  cap : Nat
deriving DecidableEq, Repr

/-- The backing arrays by address; a cell holds a pointer to a meta or `nil`. -/
abbrev Heap := List (List (Option Meta))

/-- The `nil` slice. -/
def MetaSlice.nil : MetaSlice := ⟨0, 0, 0⟩

/-- The call `make([]*m.Meta, len, cap)`; a negative size or `len > cap` panics. -/
def Heap.make (h : Heap) (len cap : Int) : Option (Heap × MetaSlice) :=
  if 0 ≤ len ∧ len ≤ cap then
    some (h ++ [List.replicate cap.toNat none], ⟨h.length, len.toNat, cap.toNat⟩)
  else none

/-- The element `s[j]`; an index out of range panics. -/
def Heap.read (h : Heap) (s : MetaSlice) (j : Int) : Option (Option Meta) :=
  if 0 ≤ j ∧ j.toNat < s.len then (h[s.arr]?).bind (fun cells => cells[j.toNat]?) else none

/-- The assignment `s[j] = m`; an index out of range panics. -/
def Heap.write (h : Heap) (s : MetaSlice) (j : Int) (m : Option Meta) : Option Heap :=
  if 0 ≤ j ∧ j.toNat < s.len then
    match h[s.arr]? with
    | none => none
    | some cells => some (h.set s.arr (cells.set j.toNat m))
  else none

/-- The call `append(s, m)`: in place when the capacity allows, else into a new array of
twice the capacity (the growth of the runtime only matters for later appends to the new
array). -/
def Heap.append (h : Heap) (s : MetaSlice) (m : Meta) : Option (Heap × MetaSlice) :=
  match h[s.arr]? with
  | none => if s.cap = 0 then some (h ++ [[some m]], ⟨h.length, 1, 1⟩) else none
  | some cells =>
    if s.len < s.cap then some (h.set s.arr (cells.set s.len (some m)), { s with len := s.len + 1 })
    else
      some (h ++ [cells.take s.len ++ [some m] ++ List.replicate (2 * s.cap - s.len - 1) none],
            ⟨h.length, s.len + 1, if s.cap = 0 then 1 else 2 * s.cap⟩)

/-- The metas a reader sees through the slice; a `nil` pointer among them panics. -/
def Heap.view (h : Heap) (s : MetaSlice) : Option (List Meta) :=
  match h[s.arr]? with
  | none => if s.len = 0 then some [] else none
  | some cells => if s.len ≤ cells.length then (cells.take s.len).mapM id else none

/-- The metas a reader sees through a block list. -/
def Heap.views (h : Heap) (blocks : List MetaSlice) : Option (List (List Meta)) :=
  blocks.mapM h.view

/-- The statements `block = make([]*m.Meta, len(blocks[i])); copy(block, blocks[i])`. -/
def Heap.clone (h : Heap) (s : MetaSlice) : Option (Heap × MetaSlice) :=
  match h[s.arr]? with
  | none => if s.len = 0 then some (h ++ [[]], ⟨h.length, 0, 0⟩) else none
  | some cells => some (h ++ [cells.take s.len], ⟨h.length, s.len, s.len⟩)

/-- The assignment `newBlocks[i] = s`. -/
def setSlice (nb : List MetaSlice) (i : Int) (s : MetaSlice) : Option (List MetaSlice) :=
  if 0 ≤ i ∧ i.toNat < nb.length then some (nb.set i.toNat s) else none

/-- The slice `newBlocks[i]`. -/
def getSlice (nb : List MetaSlice) (i : Int) : Option MetaSlice :=
  if 0 ≤ i then nb[i.toNat]? else none

/-- The loop of `MetasMap.update` on slices: `seen` are the metas of `blocks`, which the
loop does not write to. -/
def sliceUpdateLoop (seen : List (List Meta)) (blocks : List MetaSlice) :
    List Meta → Heap → List MetaSlice → Int → Option (Heap × List MetaSlice)
  | [], h, newBlocks, _ => some (h, newBlocks)
  | u :: rest, h, newBlocks, prevBlockIdx =>
    match binSearchBlock seen u.ID with
    | none => none
    | some i =>
      if i = -1 then sliceUpdateLoop seen blocks rest h newBlocks prevBlockIdx
      else
        match seen[i.toNat]?, blocks[i.toNat]? with
        | some blk, some src =>
          if binSearchMeta blk u.ID = -1 then
            sliceUpdateLoop seen blocks rest h newBlocks prevBlockIdx
          else
            match (if i > prevBlockIdx then
                     match h.clone src with
                     | none => none
                     | some (h1, block) =>
                       (setSlice newBlocks i block).map (fun nb => (h1, nb, i))
                   else some (h, newBlocks, prevBlockIdx)) with
            | none => none
            | some (h1, nb1, prev1) =>
              match getSlice nb1 prev1 with
              | none => none
              | some block =>
                match h1.read block (binSearchMeta blk u.ID) with
                | some (some _) =>
                  match h1.write block (binSearchMeta blk u.ID) (some u) with
                  | none => none
                  | some h2 => sliceUpdateLoop seen blocks rest h2 nb1 prev1
                | _ => none
        | _, _ => none

/-- The blocks that `updateAndReconstruct` fills, each in an array of `blockMaxSize` cells
that it allocates itself: block `k ≤ i` of the values `nb` becomes a slice on a new
array. -/
def allocBlocks (blockMaxSize : Int) : List (List Meta) → Nat → Heap → Option (Heap × List MetaSlice)
  | [], _, h => some (h, [])
  | blk :: rest, fill, h =>
    match fill with
    | 0 => some (h, List.replicate (rest.length + 1) MetaSlice.nil)
    | fill + 1 =>
      if (blk.length : Int) ≤ blockMaxSize then
        match allocBlocks blockMaxSize rest fill
            (h ++ [blk.map some ++ List.replicate (blockMaxSize.toNat - blk.length) none]) with
        | none => none
        | some (h1, slices) => some (h1, ⟨h.length, blk.length, blockMaxSize.toNat⟩ :: slices)
      else none

/-- The inner loop of `updateHandler` on slices: the swaps write into the arrays of the
blocks, whoever else holds a slice on them. -/
def sliceBubbleLoop (mm : MetasMap) (nb : List MetaSlice) : Nat → Int → Heap → Option Heap
  | 0, _, h => some h
  | fuel + 1, k, h =>
    if k < 0 then some h
    else
      match mm.calcIndices k, mm.calcIndices (k + 1) with
      | some (i1, j1), some (i2, j2) =>
        match getSlice nb i1, getSlice nb i2 with
        | some s1, some s2 =>
          match h.read s1 j1, h.read s2 j2 with
          | some (some a), some (some b) =>
            if a.ID < b.ID then some h
            else
              match h.write s1 j1 (some b) with
              | none => none
              | some h1 =>
                match h1.write s2 j2 (some a) with
                | none => none
                | some h2 => sliceBubbleLoop mm nb fuel (k - 1) h2
          | _, _ => none
        | _, _ => none
      | _, _ => none

/-- The loop of `updateHandler` over `task.ForAdd` on slices. -/
def sliceAddLoop (mm : MetasMap) :
    List Meta → Int → Int → Heap → List MetaSlice → Option (Heap × List MetaSlice × Int)
  | [], _, lastBlockIdx, h, nb => some (h, nb, lastBlockIdx)
  | m :: rest, index, lastBlockIdx, h, nb =>
    match mm.calcIndices index with
    | none => none
    | some (i, _) =>
      match (if i > lastBlockIdx then
               match h.make 0 mm.blockMaxSize with
               | none => none
               | some (h1, s) => (setSlice nb i s).map (fun nb1 => (h1, nb1, i))
             else some (h, nb, lastBlockIdx)) with
      | none => none
      | some (h1, nb1, last1) =>
        match getSlice nb1 i with
        | none => none
        | some s =>
          match h1.append s m with
          | none => none
          | some (h2, s2) =>
            match setSlice nb1 i s2 with
            | none => none
            | some nb2 =>
              match sliceBubbleLoop mm nb2 index.toNat (index - 1) h2 with
              | none => none
              | some h3 => sliceAddLoop mm rest (index + 1) last1 h3 nb2

/-- The body of `MetasMap.updateHandler` for one task on the slices `blocks` of the
storage: the arrays afterwards and the block list that is published. The bookkeeping of
`deleted` and of the versions is that of `MetasMap.updateHandler`. -/
def sliceUpdateHandler (lib : Lib) (mm : MetasMap) (h : Heap) (blocks : List MetaSlice)
    (task : UpdateStateTask) : Option (Heap × List MetaSlice) :=
  match h.views blocks with
  | none => none
  | some seen =>
    if blocks.length = 0 ∧ task.ForAdd.length = 0 then some (h, blocks)
    else
      let newLen := mm.metasLen seen + task.ForAdd.length
      match mm.calcIndices (newLen - 1) with
      | none => none
      | some (lastBlockIdx, _) =>
        if lastBlockIdx + 1 < 0 then none
        else
          let newBlocks : List MetaSlice := List.replicate (lastBlockIdx + 1).toNat MetaSlice.nil
          match (if blocks.length > 0 then
                   if mm.deletedCount > 0 ∧ ratioAboveTenth newLen mm.deletedCount = true then
                     if mm.blockMaxSize < 0 then none
                     else
                       match blocksSet (List.replicate (lastBlockIdx + 1).toNat []) 0 [] with
                       | none => none
                       | some nb0 =>
                         match reconstructLoop mm.blockMaxSize seen.flatten nb0 0 0
                             (lib.sortMetas.run task.ForUpdate) [] with
                         | none => none
                         | some (nb, i, j, _) =>
                           (allocBlocks mm.blockMaxSize nb (i + 1) h).map
                             (fun r => (r.1, r.2, (i : Int) * mm.blockMaxSize + j))
                   else
                     (sliceUpdateLoop seen blocks (lib.sortMetas.run task.ForUpdate) h
                        (blocks.take newBlocks.length ++ newBlocks.drop blocks.length) (-1)).map
                       (fun r => (r.1, r.2, mm.metasLen seen))
                 else
                   match h.make 0 mm.blockMaxSize with
                   | none => none
                   | some (h1, s) => (setSlice newBlocks 0 s).map (fun nb => (h1, nb, (0 : Int)))) with
          | none => none
          | some (h1, nb, index) =>
            match mm.calcIndices (index - 1) with
            | none => none
            | some (lastIdx, _) =>
              match sliceAddLoop mm task.ForAdd index lastIdx h1 nb with
              | none => none
              | some (h2, nb1, lastIdx1) =>
                (slice nb1 0 (lastIdx1 + 1)).map (fun nb2 => (h2, nb2))

/-- The arrays of a storage with the metas 1 and 3 in one block of size 2, as `AddStorage`
lays them out. -/
def sharedHeap : Heap := [[some (metaOf 1 false), some (metaOf 3 false)]]

/-- The block list published for `sharedHeap`. -/
def sharedBlocks : List MetaSlice := [⟨0, 2, 2⟩]

/-- A metas map with blocks of size 2 and no deleted meta. -/
def sharedMetasMap : MetasMap :=
  { state := ⟨[("storage", [[metaOf 1 false, metaOf 3 false]])], 2⟩, deleteList := [],
    uses := [], deletedCount := 0, blockMaxSize := 2 }

/-! ## The layout of the blocks -/

/-- The block list of `n` blocks that holds the metas `L` in order in blocks of size `b`:
full blocks, then the rest of the metas, then empty blocks. -/
def pack (b : Nat) : Nat → List Meta → List (List Meta)
  | 0, _ => []
  | n + 1, L => L.take b :: pack b n (L.drop b)

/-- The invariant of the blocks of a storage: the metas are in strict id order across the
blocks, every block but the last holds exactly `blockMaxSize` metas and no block holds
more. -/
def BlocksInv (blockMaxSize : Int) (blocks : List (List Meta)) : Prop :=
  blocks.flatten.Pairwise (fun a b => a.ID < b.ID) ∧
  (∀ i, i + 1 < blocks.length → ∀ blk, blocks[i]? = some blk → (blk.length : Int) = blockMaxSize) ∧
  (∀ blk ∈ blocks, (blk.length : Int) ≤ blockMaxSize)

/-- A meta `&m.Meta{ID: id, Version: version, IsDeleted: isDeleted}`. -/
def metaVer (id version : Nat) (isDeleted : Bool) : Meta :=
  ⟨id, version, ⟨0, 0⟩, 0, none, isDeleted⟩

/-- The metas map of `TestRemoving` after its `AddStorage`: ids 1, 2, 3 of version 1 in
blocks of size 2, state version 2. -/
def removingMetasMap : MetasMap :=
  { state := ⟨[("storage", [[metaVer 1 1 false, metaVer 2 1 false], [metaVer 3 1 false]])], 2⟩,
    deleteList := [], uses := [], deletedCount := 0, blockMaxSize := 2 }

/-- The first update task of `TestRemoving`: the meta of id 1 is replaced by a deleted
meta of version 2. -/
def removingTask : UpdateStateTask :=
  { Storage := "storage", ForUpdate := [metaVer 1 2 true], ForAdd := [] }

/-- A task like the first of `TestRemoving` that also adds the metas of ids 5 and 4, in
this order. -/
def removingAddTask : UpdateStateTask :=
  { Storage := "storage", ForUpdate := [metaVer 1 2 true],
    ForAdd := [metaVer 5 1 false, metaVer 4 1 false] }

/-- A metas map with one storage that holds the single meta of id 1. -/
def loneMetasMap : MetasMap :=
  { state := ⟨[("storage", [[metaVer 1 1 false]])], 2⟩,
    deleteList := [], uses := [], deletedCount := 0, blockMaxSize := 2 }

/-- A task without metas. -/
def idleTask : UpdateStateTask := { Storage := "storage", ForUpdate := [], ForAdd := [] }

/-- A task that updates the meta of id 5. -/
def probeTask : UpdateStateTask :=
  { Storage := "storage", ForUpdate := [metaVer 5 2 false], ForAdd := [] }

/-- The metas map that `loneMetasMap` becomes once its meta has been marked deleted and
the next update has dropped it: the storage keeps one block, and the block is empty. -/
def emptiedMetasMap : MetasMap :=
  { state := ⟨[("storage", [[]])], 4⟩,
    deleteList := [(FilePath.chunk ⟨"storage", 1, 1⟩, 3)], uses := [], deletedCount := 0,
    blockMaxSize := 2 }

/-- A metas map whose storage has no metas, as after `AddStorage` with an empty list. -/
def blankMetasMap : MetasMap :=
  { state := ⟨[("storage", [])], 2⟩,
    deleteList := [], uses := [], deletedCount := 0, blockMaxSize := 2 }

/-- The metas map of `TestRemoving` after its first update: the meta of id 1 is marked
deleted and counted. -/
def removedMetasMap : MetasMap :=
  { state := ⟨[("storage", [[metaVer 1 2 true, metaVer 2 1 false], [metaVer 3 1 false]])], 3⟩,
    deleteList := [(FilePath.chunk ⟨"storage", 1, 1⟩, 3)], uses := [], deletedCount := 1,
    blockMaxSize := 2 }

/-- A task that updates a meta of id 0, which the storage does not hold, and marks the
meta of id 2 deleted. -/
def strayTask : UpdateStateTask :=
  { Storage := "storage", ForUpdate := [metaVer 0 2 false, metaVer 2 2 true], ForAdd := [] }

/-! ## agents/storage: MetasMap.GetFulledCrossedMetas -/

/-- The loop of `GetFulledCrossedMetas` that collects the metas which are not marked
deleted into `metas`, a slice of length `len`: writing beyond the length panics. -/
def collectLive (len : Int) : List Meta → List Meta → Option (List Meta)
  | [], metas => some metas
  | mt :: rest, metas =>
    if mt.IsDeleted then collectLive len rest metas
    else if (metas.length : Int) < len then collectLive len rest (metas ++ [mt])
    else none

/-- The loop of `GetFulledCrossedMetas` over the pairs `metas[i-1]`, `metas[i]`, with
`prev = metas[i-1]` and the accumulated `crossedMetas`, a slice of capacity 5. -/
def crossedLoop : Meta → List Meta → List Meta → List Meta
  | _, [], crossed => crossed
  | prev, cur :: rest, crossed =>
    if prev.Offsets ≠ none ∨ cur.Offsets ≠ none then
      if crossed.length > 0 then crossed else crossedLoop cur rest crossed
    else if prev.TimeRange.End > cur.TimeRange.Start then
      if ((if crossed.length = 0 then crossed ++ [prev] else crossed) ++ [cur]).length = 5 then
        (if crossed.length = 0 then crossed ++ [prev] else crossed) ++ [cur]
      else crossedLoop cur rest ((if crossed.length = 0 then crossed ++ [prev] else crossed) ++ [cur])
    else if crossed.length > 0 then crossed
    else crossedLoop cur rest crossed

/-- The method `MetasMap.GetFulledCrossedMetas`; `sort.Slice` by `TimeRange.Start` is the
parameter `sortByStart`. `none` is a panic (`make` with a negative length, or more live
metas than `metasLen` counts), `some []` also stands for the `nil` of a missing storage. -/
def MetasMap.GetFulledCrossedMetas (sortByStart : SliceSort Meta (fun mt => mt.TimeRange.Start))
    (mm : MetasMap) (storage : String) : Option (List Meta) :=
  let (blocks, version) := mm.state.Get storage
  if version = 0 then some []
  else if mm.metasLen blocks < 0 then none
  else
    match collectLive (mm.metasLen blocks) blocks.flatten [] with
    | none => none
    | some metas =>
      match sortByStart.run metas with
      | [] => some []
      | first :: rest => some (crossedLoop first rest [])

/-- A sealed meta with a time range. -/
def rangeMeta (id : Nat) (start stop : Int) : Meta := ⟨id, 0, ⟨start, stop⟩, 0, none, false⟩

/-- The metas map of `TestGetFulledCrossedMetas`, case "simple", after `AddStorage`. -/
def testCrossedMetasMap : MetasMap :=
  { state := ⟨[("simple", [[rangeMeta 1 4 7, rangeMeta 2 1 2, rangeMeta 3 6 8],
                           [rangeMeta 4 3 5, rangeMeta 5 10 12, rangeMeta 6 9 11]])], 2⟩,
    deleteList := [], uses := [], deletedCount := 0, blockMaxSize := 3 }

/-! ## app_errors

Strings of the query layer are lists of characters. The code indexes the bytes of a
string; every byte it compares with is an ASCII character, and a byte of a character
outside ASCII is equal to none of them. -/

/-- The type `app_errors.ErrType`. -/
inductive ErrType where
  | BadReq
  | NotFound
  | Forbidden
  | Conflict
deriving DecidableEq, Repr

/-- The ways in which a call of the query layer fails: it returns an `AppErr` of some
type, it returns another `error`, or it panics at run time. -/
inductive Failure where
  | app (t : ErrType)
  | other
  | panic
deriving DecidableEq, Repr

/-- Results of fallible calls can be compared. -/
instance {ε α : Type} [DecidableEq ε] [DecidableEq α] : DecidableEq (Except ε α) :=
  fun a b =>
    match a, b with
    | .ok x, .ok y => if h : x = y then isTrue (by rw [h]) else isFalse (fun e => h (by cases e; rfl))
    | .error x, .error y =>
      if h : x = y then isTrue (by rw [h]) else isFalse (fun e => h (by cases e; rfl))
    | .ok _, .error _ => isFalse (fun e => by cases e)
    | .error _, .ok _ => isFalse (fun e => by cases e)

/-! ## Library functions on strings -/

/-- The predicate `unicode.IsSpace`. -/
def isSpace (c : Char) : Bool :=
  c.toNat = 32 || (9 ≤ c.toNat && c.toNat ≤ 13) || c.toNat = 0x85 || c.toNat = 0xA0 ||
  c.toNat = 0x1680 || (0x2000 ≤ c.toNat && c.toNat ≤ 0x200a) || c.toNat = 0x2028 ||
  c.toNat = 0x2029 || c.toNat = 0x202f || c.toNat = 0x205f || c.toNat = 0x3000

/-- The function `strings.TrimSpace`. -/
def TrimSpace (s : List Char) : List Char :=
  ((s.dropWhile isSpace).reverse.dropWhile isSpace).reverse

/-- The loop of `strings.Split(s, sep)` for a separator that is not empty: `skip`
characters of a separator that has been found are still to be passed, `cur` is the part
read so far. -/
def splitLoop (sep : List Char) : Nat → List Char → List Char → List (List Char)
  | _, [], cur => [cur]
  | skip + 1, _ :: rest, cur => splitLoop sep skip rest cur
  | 0, c :: rest, cur =>
    if sep.isPrefixOf (c :: rest) then cur :: splitLoop sep (sep.length - 1) rest []
    else splitLoop sep 0 rest (cur ++ [c])

/-- The function `strings.Split(s, sep)` for a separator that is not empty. -/
def Split (s sep : List Char) : List (List Char) := splitLoop sep 0 s []

/-- The function `strings.IndexByte(s, c)`. -/
def IndexByte (s : List Char) (c : Char) : Int :=
  if c ∈ s then (s.indexOf c : Int) else -1

/-- The function `strconv.ParseInt(s, 10, bitSize)`: an optional sign and decimal digits,
with a value that fits in `bitSize` bits; `none` is an error. -/
def ParseInt (s : List Char) (bitSize : Nat) : Option Int :=
  match s with
  | [] => none
  | c :: rest =>
    if (if c = '+' ∨ c = '-' then rest else s) = [] then none
    else
      match parseUintLoop (if c = '+' ∨ c = '-' then rest else s) 0 with
      | none => none
      | some un =>
        if c = '-' then (if un ≤ 2 ^ (bitSize - 1) then some (-(un : Int)) else none)
        else (if un < 2 ^ (bitSize - 1) then some (un : Int) else none)

/-- The decimal digit `d` as a character. -/
def digitChar (d : Nat) : Char := Char.ofNat (48 + d)

/-- The decimal digits of a natural number, as `strconv.FormatUint(n, 10)` writes them. -/
def decimalNat (n : Nat) : List Char :=
  if n = 0 then [digitChar 0] else (Nat.digits 10 n).reverse.map digitChar

/-- The decimal form of an integer, as `strconv.FormatInt(n, 10)` writes it. -/
def decimal (n : Int) : List Char :=
  if n < 0 then '-' :: decimalNat n.natAbs else decimalNat n.natAbs

/-- The arithmetic of `int64`: the value is taken modulo `2^64` into the signed range. -/
def wrapInt64 (x : Int) : Int := (x + 2 ^ 63) % 2 ^ 64 - 2 ^ 63

/-! ## agents/time_range: Parser -/

/-- The constant `time.Second` in nanoseconds. -/
def Second : Int := 1000000000

/-- The map `timeSuff` from a suffix to its duration in nanoseconds. -/
def timeSuff (c : Char) : Option Int :=
  if c = 'w' then some (Second * 60 * 60 * 24 * 7)
  else if c = 'd' then some (Second * 60 * 60 * 24)
  else if c = 'h' then some (Second * 60 * 60)
  else if c = 'm' then some (Second * 60)
  else if c = 's' then some Second
  else none

/-- The body of the loop of `ParseDuration` for one part: `part[last]` with
`last = len(part) - 1` panics on an empty part. -/
def durationStep (duration : Int) (part : List Char) : Except Failure Int :=
  match part.getLast? with
  | none => .error .panic
  | some c =>
    match timeSuff c with
    | none => .error (.app .BadReq)
    | some dur =>
      match ParseInt part.dropLast 32 with
      | none => .error (.app .BadReq)
      | some num =>
        if num < 1 then .error (.app .BadReq)
        else .ok (wrapInt64 (duration + wrapInt64 (num * dur)))

/-- The loop of `ParseDuration` over the parts. -/
def durationLoop : List (List Char) → Int → Except Failure Int
  | [], duration => .ok duration
  | part :: parts, duration =>
    match durationStep duration part with
    | .ok d => durationLoop parts d
    | .error e => .error e

/-- The method `Parser.ParseDuration`, with the duration in nanoseconds. -/
def ParseDuration (source : List Char) : Except Failure Int :=
  durationLoop (Split source [' ']) 0

/-- The method `Parser.parseLastRange`; `clock delta` is
`time.Now().Add(-delta).UnixMilli()`. -/
def parseLastRange (clock : Int → Int) (value : List Char) : Except Failure TimeRange :=
  match ParseDuration value with
  | .ok delta => .ok ⟨clock delta, 0⟩
  | .error .panic => .error .panic
  | .error _ => .error (.app .BadReq)

/-- The method `Parser.parseRelativeRange`. -/
def parseRelativeRange (option value : List Char) : Except Failure TimeRange :=
  match ParseInt value 64 with
  | none => .error (.app .BadReq)
  | some ts => if option = "before".data then .ok ⟨0, ts⟩ else .ok ⟨ts, 0⟩

/-- The method `Parser.parseSimpleRange`. -/
def parseSimpleRange (timeRange : List Char) : Except Failure TimeRange :=
  match Split timeRange " - ".data with
  | [p0, p1] =>
    match ParseInt (TrimSpace p0) 64 with
    | none => .error (.app .BadReq)
    | some start =>
      match ParseInt (TrimSpace p1) 64 with
      | none => .error (.app .BadReq)
      | some stop => if stop < start then .error (.app .BadReq) else .ok ⟨start, stop⟩
  | _ => .error (.app .BadReq)

/-- The method `Parser.Parse` of the time-range parser. -/
def Parse (clock : Int → Int) (timeRange : List Char) : Except Failure TimeRange :=
  if timeRange = [] then .ok ⟨0, 0⟩
  else if IndexByte timeRange ' ' = -1 then .error (.app .BadReq)
  else if timeRange.take (IndexByte timeRange ' ').toNat = "last".data then
    parseLastRange clock (timeRange.drop ((IndexByte timeRange ' ').toNat + 1))
  else if timeRange.take (IndexByte timeRange ' ').toNat = "before".data ∨
      timeRange.take (IndexByte timeRange ' ').toNat = "after".data then
    parseRelativeRange (timeRange.take (IndexByte timeRange ' ').toNat)
      (timeRange.drop ((IndexByte timeRange ' ').toNat + 1))
  else parseSimpleRange timeRange

/-- A clock for evaluating the parser: the current time is 10^12 ms. -/
def testClock (delta : Int) : Int := (1000000000000000000 - delta) / 1000000

/-- The text of a duration: the parts `n u` of a count in decimal form and a suffix,
separated by single spaces. -/
def durationText (parts : List (Nat × Char)) : List Char :=
  [' '].intercalate (parts.map (fun p => decimalNat p.1 ++ [p.2]))

/-- The sum of the durations `n * unit(u)` of the parts, in nanoseconds. -/
def durationSum (parts : List (Nat × Char)) : Int :=
  (parts.map (fun p => (p.1 : Int) * (timeSuff p.2).getD 0)).sum

/-! ## models: values, operands, conditions -/

/-- The type `models.ValueType`. -/
inductive ValueType where
  | STR
  | INT
  | STR_ARRAY
  | INT_ARRAY
  | STR_MAP
deriving DecidableEq, Repr

/-- A value of type `any` that a condition compares: `nil`, a `string`, an `int64`, a
`[]string`, a `[]int64` or a `map[string]string`. -/
inductive AnyValue where
  | null
  | str (s : List Char)
  | int (n : Int)
  | strs (l : List (List Char))
  | ints (l : List Int)
  | smap (m : List (List Char × List Char))
deriving DecidableEq, Repr

/-- An item of an array of a value list, as decoded from JSON: a `string`, a `float64`
(kept as the `int64` that the conversion `int64(val)` yields) or something else. -/
inductive JsonItem where
  | str (s : List Char)
  | num (n : Int)
  | other
deriving DecidableEq, Repr

/-- A value of a value list (`[]any`), as decoded from JSON. -/
inductive JsonValue where
  | str (s : List Char)
  | num (n : Int)
  | arr (items : List JsonItem)
  | other
deriving DecidableEq, Repr

/-- The function `models.GetColumnType`. -/
def GetColumnType (column : List Char) : Option ValueType :=
  if column = "timestamp".data then some .INT
  else if column = "level".data then some .INT
  else if column = "traces".data then some .STR_ARRAY
  else if column = "entity".data then some .STR
  else if column = "entity_id".data then some .STR
  else if column = "message".data then some .STR
  else if column = "modules".data then some .STR_ARRAY
  else if column = "labels".data then some .STR_ARRAY
  else if column = "fields".data then some .STR_MAP
  else none

/-- The function `models.GetAggrType`. -/
def GetAggrType (aggrName : List Char) : Option ValueType :=
  if aggrName = "count".data ∨ aggrName = "avg".data ∨ aggrName = "max".data ∨
      aggrName = "min".data ∨ aggrName = "sum".data then some .INT
  else none

/-- The method `Log.GetValue`. -/
def Log.GetValue (l : Log) (column : List Char) : Option AnyValue :=
  if column = "timestamp".data then some (.int l.Timestamp)
  else if column = "level".data then some (.int l.Level)
  else if column = "traces".data then some (.strs (l.Traces.map String.data))
  else if column = "entity".data then some (.str l.Entity.data)
  else if column = "entity_id".data then some (.str l.EntityID.data)
  else if column = "message".data then some (.str l.Message.data)
  else if column = "modules".data then some (.strs (l.Modules.map String.data))
  else if column = "labels".data then some (.strs (l.Labels.map String.data))
  else if column = "fields".data then some (.smap (l.Fields.map (fun e => (e.1.data, e.2.data))))
  else none

/-- The record `models.Operant`; an empty `SourceKey` marks a constant. -/
structure Operant where
  T : ValueType
  Value : AnyValue
  SourceKey : List Char
deriving DecidableEq, Repr

/-- The type `conditions.Operator`. -/
inductive Operator where
  | EQUAL
  | NOT_EQUAL
  | GEATER_THAN
  | GEATER_EQUAL
  | LESS_THAN
  | LESS_EQUAL
  | IN
deriving DecidableEq, Repr

/-- The record `conditions.Condition`: one atom. -/
structure Condition where
  oper1 : Operant
  oper2 : Operant
  operator : Operator
  invert : Bool
deriving DecidableEq, Repr

/-- The type `conditions.CmprOperator`. -/
inductive CmprOperator where
  | AND
  | OR
deriving DecidableEq, Repr

/-- The values of the interface `models.ICondition`: a `*Condition` or a `*Comparator`
with its two conditions. -/
inductive ICondition where
  | condition (c : Condition)
  | comparator (operator : CmprOperator) (first second : ICondition) (invert : Bool)
deriving DecidableEq, Repr

/-- The method `Invert` of both kinds of condition. -/
def ICondition.Invert : ICondition → ICondition
  | .condition c => .condition { c with invert := !c.invert }
  | .comparator op first second invert => .comparator op first second (!invert)

/-! ## agents/conditions: evaluation -/

/-- The comparison `val1 == val2` of two values of type `any`: values of the same type
that is a slice or a map cannot be compared, which panics. -/
def anyEqual (val1 val2 : AnyValue) : Except Failure Bool :=
  match val1, val2 with
  | .strs _, .strs _ => .error .panic
  | .ints _, .ints _ => .error .panic
  | .smap _, .smap _ => .error .panic
  | a, b => .ok (decide (a = b))

/-- The type assertion `val.(int64)`. -/
def asInt : AnyValue → Except Failure Int
  | .int n => .ok n
  | _ => .error .panic

/-- The type assertion `val.(string)`. -/
def asStr : AnyValue → Except Failure (List Char)
  | .str s => .ok s
  | _ => .error .panic

/-- The type assertion `val.([]string)`. -/
def asStrs : AnyValue → Except Failure (List (List Char))
  | .strs l => .ok l
  | _ => .error .panic

/-- The type assertion `val.([]int64)`. -/
def asInts : AnyValue → Except Failure (List Int)
  | .ints l => .ok l
  | _ => .error .panic

/-- The method `Condition.condition`. -/
def Condition.condition (c : Condition) (val1 val2 : AnyValue) : Except Failure Bool :=
  match c.operator with
  | .EQUAL | .NOT_EQUAL =>
    if c.oper1.T = .STR_ARRAY then do
      let a ← asStrs val1
      let b ← asStrs val2
      pure (decide (a = b) == decide (c.operator = .EQUAL))
    else if c.oper1.T = .INT_ARRAY then do
      let a ← asInts val1
      let b ← asInts val2
      pure (decide (a = b) == decide (c.operator = .EQUAL))
    else do
      let e ← anyEqual val1 val2
      pure (e == decide (c.operator = .EQUAL))
  | .GEATER_THAN => do
    let a ← asInt val1
    let b ← asInt val2
    pure (decide (a > b))
  | .GEATER_EQUAL => do
    let a ← asInt val1
    let b ← asInt val2
    pure (decide (a ≥ b))
  | .LESS_THAN => do
    let a ← asInt val1
    let b ← asInt val2
    pure (decide (a < b))
  | .LESS_EQUAL => do
    let a ← asInt val1
    let b ← asInt val2
    pure (decide (a ≤ b))
  | .IN =>
    if c.oper1.T = .STR then do
      let a ← asStr val1
      let b ← asStrs val2
      pure (decide (a ∈ b))
    else if c.oper1.T = .INT then do
      let a ← asInt val1
      let b ← asInts val2
      pure (decide (a ∈ b))
    else .error .other

/-- The value of an operand in `Condition.Check`. -/
def Operant.valueIn (o : Operant) (source : List Char → Option AnyValue) :
    Except Failure AnyValue :=
  if o.SourceKey ≠ [] then
    match source o.SourceKey with
    | some val => .ok val
    | none => .error .other
  else .ok o.Value

/-- The method `Condition.Check` on a source of values (a log, or the results of the
aggregators of a group). -/
def Condition.Check (c : Condition) (source : List Char → Option AnyValue) :
    Except Failure Bool := do
  let val1 ← c.oper1.valueIn source
  let val2 ← c.oper2.valueIn source
  let result ← c.condition val1 val2
  pure (if c.invert then !result else result)

/-- The method `Check` of a condition: `Condition.Check` for an atom and
`Comparator.Check`, which evaluates the second condition only when the first one does
not decide the result. -/
def ICondition.Check : ICondition → (List Char → Option AnyValue) → Except Failure Bool
  | .condition c, source => c.Check source
  | .comparator op first second invert, source =>
    match first.Check source with
    | .error e => .error e
    | .ok result =>
      if result ≠ decide (op = .OR) then
        match second.Check source with
        | .error e => .error e
        | .ok result2 => .ok (if invert then !result2 else result2)
      else .ok (if invert then !result else result)

/-! ## agents/aggregators: values -/

/-- The values of the interface `models.IAggregator`: the records `Count`, `Avg`, `Max`,
`Min` and `Sum` with their `int64` fields, column and condition (`none` is `nil`). -/
inductive IAggregator where
  | Count (count : Int) (condition : Option ICondition)
  | Avg (sum count : Int) (column : List Char) (condition : Option ICondition)
  | Max (max : Int) (column : List Char) (condition : Option ICondition)
  | Min (min : Int) (column : List Char) (condition : Option ICondition)
  | Sum (sum : Int) (column : List Char) (condition : Option ICondition)
deriving DecidableEq, Repr

/-- The record `models.LoadLogsData`; the map `Columns` is kept as the list of its keys. -/
structure LoadLogsData where
  Storage : List Char
  Columns : List (List Char)
  TimeRange : TimeRange
deriving DecidableEq, Repr

/-- The constructor `models.NewLoadLogsData`. -/
def NewLoadLogsData : LoadLogsData := ⟨[], [], ⟨0, 0⟩⟩

/-- The statement `lld.Columns[column] = true`. -/
def LoadLogsData.addColumn (lld : LoadLogsData) (column : List Char) : LoadLogsData :=
  if column ∈ lld.Columns then lld else { lld with Columns := lld.Columns ++ [column] }

/-- What parsing a query writes to: the `LoadLogsData` behind the pointer `lld` (`none`
is `nil`) and the map `aggrs` of `NewProcessor`, which its `SetAggregator` fills. -/
structure ParseState where
  lld : Option LoadLogsData
  aggrs : List (List Char × IAggregator)
deriving DecidableEq, Repr

/-- The statement `if lld != nil { lld.Columns[column] = true }`. -/
def ParseState.addColumn (st : ParseState) (column : List Char) : ParseState :=
  match st.lld with
  | some lld => { st with lld := some (lld.addColumn column) }
  | none => st

/-- The record `models.AggrData`. -/
structure AggrData where
  GropingField : List Char
  SetAggregator : List Char → ParseState → Except Failure ParseState

/-! ## agents/conditions: ConditionParser -/

/-- The map `operFirstChars`. -/
def operFirstChars (c : Char) : Bool := c = '>' || c = '<' || c = '=' || c = '!'

/-- The first loop of `splitConditionStr`: the index of the first character of an
operator, or the length. -/
def findOper : List Char → Nat
  | [] => 0
  | c :: rest => if operFirstChars c then 0 else findOper rest + 1

/-- The table `operators` of `splitConditionStr`, in its order. -/
def operators : List (List Char × Operator) :=
  [("==".data, .EQUAL), (">=".data, .GEATER_EQUAL), (">".data, .GEATER_THAN),
   ("!=".data, .NOT_EQUAL), ("<=".data, .LESS_EQUAL), ("<".data, .LESS_THAN),
   ("=>".data, .IN)]

/-- The method `ConditionParser.splitConditionStr`. -/
def splitConditionStr (s : List Char) : Except Failure (List Char × List Char × Operator) :=
  if findOper s + 2 > s.length then .error (.app .BadReq)
  else
    match operators.find? (fun op => op.1.isPrefixOf ((s.drop (findOper s)).take 2)) with
    | none => .error (.app .BadReq)
    | some op =>
      if TrimSpace (s.take (findOper s)) = [] ∨
          TrimSpace (s.drop (findOper s + op.1.length)) = [] then .error (.app .BadReq)
      else .ok (TrimSpace (s.take (findOper s)), TrimSpace (s.drop (findOper s + op.1.length)),
        op.2)

/-- The method `ConditionParser.arrayToOperant`. -/
def arrayToOperant (arr : List JsonItem) : Except Failure Operant :=
  match arr with
  | [] => .error (.app .BadReq)
  | .str _ :: _ =>
    if arr.all (fun v => match v with | .str _ => true | _ => false) then
      .ok ⟨.STR_ARRAY, .strs (arr.filterMap (fun v => match v with | .str s => some s | _ => none)),
        []⟩
    else .error (.app .BadReq)
  | .num _ :: _ =>
    if arr.all (fun v => match v with | .num _ => true | _ => false) then
      .ok ⟨.INT_ARRAY, .ints (arr.filterMap (fun v => match v with | .num n => some n | _ => none)),
        []⟩
    else .error (.app .BadReq)
  | .other :: _ => .error (.app .BadReq)

/-- The method `ConditionParser.getOperant`. -/
def getOperant (s : List Char) (values : List JsonValue) (ad : Option AggrData)
    (st : ParseState) : Except Failure (Operant × ParseState) :=
  if s.length < 2 then .error (.app .BadReq)
  else if s.head? = some '?' then
    match ParseInt (s.drop 1) 32 with
    | none => .error (.app .BadReq)
    | some num =>
      if num < 0 ∨ num ≥ values.length then .error (.app .BadReq)
      else
        match values[num.toNat]? with
        | some (.str val) => .ok (⟨.STR, .str val, []⟩, st)
        | some (.num val) => .ok (⟨.INT, .int val, []⟩, st)
        | some (.arr val) =>
          match arrayToOperant val with
          | .ok oper => .ok (oper, st)
          | .error e => .error e
        | some .other => .error (.app .BadReq)
        | none => .error .panic
  else
    match ad with
    | none =>
      match GetColumnType s with
      | some t => .ok (⟨t, .null, s⟩, st.addColumn s)
      | none => .error (.app .BadReq)
    | some ad =>
      if s = ad.GropingField then
        match GetColumnType s with
        | none => .error (.app .BadReq)
        | some t => .ok (⟨t, .null, s⟩, st.addColumn s)
      else if IndexByte s '[' > -1 ∧ s.getLast? = some ']' then
        match GetAggrType (s.take (IndexByte s '[').toNat) with
        | some t =>
          match ad.SetAggregator s st with
          | .error e => .error e
          | .ok st1 => .ok (⟨t, .null, s⟩, st1)
        | none => .error (.app .BadReq)
      else .error (.app .BadReq)

/-- The type rules at the end of `ConditionParser.Parse`. -/
def typesAllowed (operator : Operator) (t1 t2 : ValueType) : Bool :=
  if operator = .IN then (t1 = .STR && t2 = .STR_ARRAY) || (t1 = .INT && t2 = .INT_ARRAY)
  else if t1 ≠ t2 then false
  else if t1 = .STR_MAP then false
  else if (operator = .GEATER_THAN || operator = .GEATER_EQUAL || operator = .LESS_THAN ||
      operator = .LESS_EQUAL) && t1 ≠ .INT then false
  else true

/-- The method `ConditionParser.Parse`. -/
def ConditionParser.Parse (s : List Char) (values : List JsonValue) (ad : Option AggrData)
    (st : ParseState) : Except Failure (Condition × ParseState) :=
  match splitConditionStr s with
  | .error e => .error e
  | .ok (strOper1, strOper2, operator) =>
    match getOperant strOper1 values ad st with
    | .error e => .error e
    | .ok (oper1, st1) =>
      match getOperant strOper2 values ad st1 with
      | .error e => .error e
      | .ok (oper2, st2) =>
        if typesAllowed operator oper1.T oper2.T then .ok (⟨oper1, oper2, operator, false⟩, st2)
        else .error (.app .BadReq)

/-! ## agents/conditions: parseCondition -/

/-- The map `keyChars`. -/
def keyChars (c : Char) : Bool := c = '&' || c = '|' || c = '!' || c = '(' || c = ')'

/-- The condition that `parseCondition` holds at an operator or at its end: the one a
group has left, or else the atom `s[start:i]`. -/
def currentCondition (s : List Char) (values : List JsonValue) (ad : Option AggrData)
    (i start : Nat) (condition : Option ICondition) (st : ParseState) :
    Except Failure (ICondition × ParseState) :=
  match condition with
  | some c => .ok (c, st)
  | none =>
    match ConditionParser.Parse ((s.drop start).take (i - start)) values ad st with
    | .ok (c, st1) => .ok (.condition c, st1)
    | .error e => .error e

/-- The assignment `comparator.SecondCondition = condition; condition = comparator` when
there is a comparator. -/
def closeComparator (comparator : Option (CmprOperator × ICondition)) (condition : ICondition) :
    ICondition :=
  match comparator with
  | some (operator, first) => .comparator operator first condition false
  | none => condition

/-- The statements of `parseCondition` after its loop. Building the message of the error
for `start == len(s)` reads `s[*i]`, which panics when `*i` is the length. -/
def finishCondition (s : List Char) (values : List JsonValue) (ad : Option AggrData)
    (isMainCond : Bool) (i start : Nat) (condition : Option ICondition)
    (comparator : Option (CmprOperator × ICondition)) (st : ParseState) :
    Except Failure (ICondition × Nat × ParseState) :=
  if isMainCond = false ∧ i = s.length then .error (.app .BadReq)
  else if start = s.length then
    (if i < s.length then .error (.app .BadReq) else .error .panic)
  else
    match currentCondition s values ad i start condition st with
    | .error e => .error e
    | .ok (c, st1) => .ok (closeComparator comparator c, i, st1)

/-- The function `parseCondition` with the state of its loop: the index `*i`, `start`,
`condition` and `comparator`. A call for a group is a call with a fresh state. The first
argument bounds the number of steps; `len(s) + 1` steps are enough, running out of them
is reported as a panic. -/
def parseCondition (s : List Char) (values : List JsonValue) (ad : Option AggrData) :
    Nat → Bool → Nat → Nat → Option ICondition → Option (CmprOperator × ICondition) →
    ParseState → Except Failure (ICondition × Nat × ParseState)
  | 0, _, _, _, _, _, _ => .error .panic
  | fuel + 1, isMainCond, i, start, condition, comparator, st =>
    match s[i]? with
    | none => finishCondition s values ad isMainCond i start condition comparator st
    | some char =>
      if keyChars char = false then
        parseCondition s values ad fuel isMainCond (i + 1) start condition comparator st
      else if char = '!' then
        if i + 1 = s.length then .error (.app .BadReq)
        else if s[i + 1]? ≠ some '(' then
          parseCondition s values ad fuel isMainCond (i + 1) start condition comparator st
        else
          match parseCondition s values ad fuel (decide (i + 2 = 0)) (i + 2) (i + 2) none none st with
          | .error e => .error e
          | .ok (c, i2, st2) =>
            parseCondition s values ad fuel isMainCond (i2 + 1) start (some c.Invert)
              comparator st2
      else if char = '(' then
        match parseCondition s values ad fuel (decide (i + 1 = 0)) (i + 1) (i + 1) none none st with
        | .error e => .error e
        | .ok (c, i2, st2) =>
          parseCondition s values ad fuel isMainCond (i2 + 1) start (some c) comparator st2
      else if char = ')' then
        if isMainCond then .error (.app .BadReq)
        else finishCondition s values ad isMainCond i start condition comparator st
      else
        match currentCondition s values ad i start condition st with
        | .error e => .error e
        | .ok (c, st1) =>
          parseCondition s values ad fuel isMainCond (i + 1) (i + 1) none
            (some (if char = '|' then .OR else .AND, closeComparator comparator c)) st1

/-- The function `conditions.ParseCondition`. -/
def ParseCondition (s : List Char) (values : List JsonValue) (ad : Option AggrData)
    (st : ParseState) : Except Failure (ICondition × ParseState) :=
  match parseCondition s values ad (s.length + 1) true 0 0 none none st with
  | .ok (c, _, st1) => .ok (c, st1)
  | .error e => .error e

/-- A parse state with a fresh `LoadLogsData` and no aggregators. -/
def freshState : ParseState := ⟨some NewLoadLogsData, []⟩

/-! ## agents/aggregators -/

/-- The constant `math.MinInt64`. -/
def MinInt64 : Int := -(2 ^ 63)

/-- The constant `math.MaxInt64`. -/
def MaxInt64 : Int := 2 ^ 63 - 1

/-- The test of the condition at the start of every `Update`: an aggregator without a
condition takes every log. -/
def passes (condition : Option ICondition) (l : Log) : Except Failure Bool :=
  match condition with
  | none => .ok true
  | some c => c.Check l.GetValue

/-- The value `val.(int64)` of `l.GetValue(column)` in `Update`; a missing column is an
error. -/
def columnInt (l : Log) (column : List Char) : Except Failure Int :=
  match l.GetValue column with
  | none => .error .other
  | some val => asInt val

/-- The method `Update` of the aggregators: the aggregator after the call, or the error
it returns (the aggregator is then unchanged). -/
def IAggregator.Update (a : IAggregator) (l : Log) : Except Failure IAggregator :=
  match a with
  | .Count count condition =>
    match passes condition l with
    | .error e => .error e
    | .ok false => .ok a
    | .ok true => .ok (.Count (wrapInt64 (count + 1)) condition)
  | .Avg sum count column condition =>
    match passes condition l with
    | .error e => .error e
    | .ok false => .ok a
    | .ok true =>
      match columnInt l column with
      | .error e => .error e
      | .ok val => .ok (.Avg (wrapInt64 (sum + val)) (wrapInt64 (count + 1)) column condition)
  | .Max max column condition =>
    match passes condition l with
    | .error e => .error e
    | .ok false => .ok a
    | .ok true =>
      match columnInt l column with
      | .error e => .error e
      | .ok val => .ok (.Max (if val > max then val else max) column condition)
  | .Min min column condition =>
    match passes condition l with
    | .error e => .error e
    | .ok false => .ok a
    | .ok true =>
      match columnInt l column with
      | .error e => .error e
      | .ok val => .ok (.Min (if val < min then val else min) column condition)
  | .Sum sum column condition =>
    match passes condition l with
    | .error e => .error e
    | .ok false => .ok a
    | .ok true =>
      match columnInt l column with
      | .error e => .error e
      | .ok val => .ok (.Sum (wrapInt64 (sum + val)) column condition)

/-- The method `GetResult` of the aggregators; the division of `Avg` panics for a count
of zero. -/
def IAggregator.GetResult : IAggregator → Except Failure AnyValue
  | .Count count _ => .ok (.int count)
  | .Avg sum count _ _ => if count = 0 then .error .panic else .ok (.int (wrapInt64 (sum.tdiv count)))
  | .Max max _ _ => .ok (.int max)
  | .Min min _ _ => .ok (.int min)
  | .Sum sum _ _ => .ok (.int sum)

/-- The method `CopyDefault` of the aggregators. -/
def IAggregator.CopyDefault : IAggregator → IAggregator
  | .Count _ condition => .Count 0 condition
  | .Avg _ _ column condition => .Avg 0 0 column condition
  | .Max _ column condition => .Max MinInt64 column condition
  | .Min _ column condition => .Min MaxInt64 column condition
  | .Sum _ column condition => .Sum 0 column condition

/-- The calls of `Update` that `Processor.PutLogs` and `Groups.Update` make: the error
that `Update` returns is dropped. -/
def IAggregator.updateDropErr (a : IAggregator) (l : Log) : Except Failure IAggregator :=
  match a.Update l with
  | .ok a1 => .ok a1
  | .error .panic => .error .panic
  | .error _ => .ok a

/-- The aggregator after `Update` has been called on each log of a list, errors being
dropped as the callers do. -/
def updateAll : List Log → IAggregator → Except Failure IAggregator
  | [], a => .ok a
  | l :: rest, a =>
    match a.updateDropErr l with
    | .ok a1 => updateAll rest a1
    | .error e => .error e

/-- The optional condition of the constructors of the aggregators: `ParseCondition` with
`ad == nil` when the argument is there. -/
def aggrCondition (arg : Option (List Char)) (values : List JsonValue) (st : ParseState) :
    Except Failure (Option ICondition × ParseState) :=
  match arg with
  | none => .ok (none, st)
  | some s =>
    match ParseCondition s values none st with
    | .ok (c, st1) => .ok (some c, st1)
    | .error e => .error e

/-- The constructor `NewCount`. -/
def NewCount (args : List (List Char)) (values : List JsonValue) (st : ParseState) :
    Except Failure (IAggregator × ParseState) :=
  if args.length > 1 then .error (.app .BadReq)
  else
    match aggrCondition args[0]? values st with
    | .ok (condition, st1) => .ok (.Count 0 condition, st1)
    | .error e => .error e

/-- The common part of `NewAvg`, `NewMax`, `NewMin` and `NewSum`: the number of the
arguments, the type of the column and the condition. -/
def columnAggrArgs (args : List (List Char)) (values : List JsonValue) (st : ParseState) :
    Except Failure (List Char × Option ICondition × ParseState) :=
  if args.length < 1 ∨ args.length > 2 then .error (.app .BadReq)
  else
    match args[0]? with
    | none => .error .panic
    | some column =>
      if GetColumnType column ≠ some .INT then .error (.app .BadReq)
      else
        match aggrCondition args[1]? values st with
        | .ok (condition, st1) => .ok (column, condition, st1)
        | .error e => .error e

/-- The constructor `NewAvg`. -/
def NewAvg (args : List (List Char)) (values : List JsonValue) (st : ParseState) :
    Except Failure (IAggregator × ParseState) :=
  match columnAggrArgs args values st with
  | .ok (column, condition, st1) => .ok (.Avg 0 0 column condition, st1)
  | .error e => .error e

/-- The constructor `NewMax`. -/
def NewMax (args : List (List Char)) (values : List JsonValue) (st : ParseState) :
    Except Failure (IAggregator × ParseState) :=
  match columnAggrArgs args values st with
  | .ok (column, condition, st1) => .ok (.Max MinInt64 column condition, st1)
  | .error e => .error e

/-- The constructor `NewMin`. -/
def NewMin (args : List (List Char)) (values : List JsonValue) (st : ParseState) :
    Except Failure (IAggregator × ParseState) :=
  match columnAggrArgs args values st with
  | .ok (column, condition, st1) => .ok (.Min MaxInt64 column condition, st1)
  | .error e => .error e

/-- The constructor `NewSum`. -/
def NewSum (args : List (List Char)) (values : List JsonValue) (st : ParseState) :
    Except Failure (IAggregator × ParseState) :=
  match columnAggrArgs args values st with
  | .ok (column, condition, st1) => .ok (.Sum 0 column condition, st1)
  | .error e => .error e

/-- The function `aggregators.ParseAggregator`. -/
def ParseAggregator (s : List Char) (values : List JsonValue) (st : ParseState) :
    Except Failure (IAggregator × ParseState) :=
  if IndexByte s '[' = -1 ∨ s.getLast? ≠ some ']' then .error (.app .BadReq)
  else
    match (match Split ((s.drop ((IndexByte s '[').toNat + 1)).dropLast) [','] with
        | [[]] => []
        | args => args) with
    | args =>
      if s.take (IndexByte s '[').toNat = "count".data then NewCount args values st
      else if s.take (IndexByte s '[').toNat = "avg".data then NewAvg args values st
      else if s.take (IndexByte s '[').toNat = "max".data then NewMax args values st
      else if s.take (IndexByte s '[').toNat = "min".data then NewMin args values st
      else if s.take (IndexByte s '[').toNat = "sum".data then NewSum args values st
      else .error (.app .BadReq)

/-! ## agents/log_utils: Groups and Processor -/

/-- The function `tools.ToOrderedValue`; the entries of a map are taken in the order of
the list. -/
def ToOrderedValue : AnyValue → AnyValue
  | .strs v => .str ([','].intercalate v)
  | .smap v => .str ([','].intercalate (v.map (fun _ => []) ++ v.map (fun e => e.1 ++ ':' :: e.2)))
  | v => v

/-- The record `log_utils.Groups`; `groups` maps the key of a group to its aggregators. -/
structure Groups where
  groupBy : List Char
  aggrs : List (List Char × IAggregator)
  groups : List (AnyValue × List (List Char × IAggregator))
  groupingVals : List (AnyValue × AnyValue)
  havingCond : Option ICondition
deriving DecidableEq, Repr

/-- The constructor `NewGroups`. -/
def NewGroups (groupBy : List Char) (aggrs : List (List Char × IAggregator))
    (havingCond : Option ICondition) : Groups := ⟨groupBy, aggrs, [], [], havingCond⟩

/-- The loop `for _, aggr := range aggrs { aggr.Update(trace, l) }`. -/
def updateAggrs (l : Log) : List (List Char × IAggregator) →
    Except Failure (List (List Char × IAggregator))
  | [] => .ok []
  | (key, aggr) :: rest =>
    match aggr.updateDropErr l with
    | .error e => .error e
    | .ok aggr1 =>
      match updateAggrs l rest with
      | .error e => .error e
      | .ok rest1 => .ok ((key, aggr1) :: rest1)

/-- The method `Groups.Update`. -/
def Groups.Update (g : Groups) (l : Log) : Except Failure Groups :=
  match mapGet g.groups (ToOrderedValue ((l.GetValue g.groupBy).getD .null)) with
  | some aggrs =>
    match updateAggrs l aggrs with
    | .error e => .error e
    | .ok aggrs1 =>
      .ok { g with groups := mapSet g.groups (ToOrderedValue ((l.GetValue g.groupBy).getD .null)) aggrs1 }
  | none =>
    match updateAggrs l (g.aggrs.map (fun e => (e.1, e.2.CopyDefault))) with
    | .error e => .error e
    | .ok aggrs1 =>
      .ok { g with
        groups := mapSet g.groups (ToOrderedValue ((l.GetValue g.groupBy).getD .null)) aggrs1,
        groupingVals := mapSet g.groupingVals
          (ToOrderedValue ((l.GetValue g.groupBy).getD .null)) ((l.GetValue g.groupBy).getD .null) }

/-- The record `models.SearchQuery`. -/
structure SearchQuery where
  Storage : List Char
  Select : List (List Char)
  TimeRange : List Char
  AggregValues : List JsonValue
  Where : List Char
  WhereValues : List JsonValue
  GroupBy : List Char
  Having : List Char
  HavingValues : List JsonValue
  OrderBy : List Char
  Limit : Nat
  Offset : Nat
deriving DecidableEq, Repr

/-- The record `log_utils.Processor`. -/
structure Processor where
  logPacks : List (List Log)
  query : SearchQuery
  whereCond : Option ICondition
  aggrs : List (List Char × IAggregator)
  groups : Option Groups
  offset : Nat
  limit : Nat
deriving DecidableEq, Repr

/-- The loop of `NewProcessor` over the entries of `select`; reading the last byte of an
empty entry panics. -/
def selectEntries (query : SearchQuery) : List (List Char) → ParseState → Except Failure ParseState
  | [], st => .ok st
  | entry :: rest, st =>
    match (TrimSpace entry).getLast? with
    | none => .error .panic
    | some last =>
      if last = ']' then
        match ParseAggregator (TrimSpace entry) query.AggregValues st with
        | .error e => .error e
        | .ok (aggr, st1) =>
          selectEntries query rest { st1 with aggrs := mapSet st1.aggrs (TrimSpace entry) aggr }
      else if (GetColumnType (TrimSpace entry)).isSome then
        if query.GroupBy ≠ [] ∧ query.GroupBy ≠ TrimSpace entry then .error (.app .BadReq)
        else selectEntries query rest (st.addColumn (TrimSpace entry))
      else selectEntries query rest st

/-- The closure `SetAggregator` of `NewProcessor`. -/
def setAggregator (query : SearchQuery) (s : List Char) (st : ParseState) :
    Except Failure ParseState :=
  if (mapGet st.aggrs s).isSome then .ok st
  else
    match ParseAggregator s query.AggregValues st with
    | .error e => .error e
    | .ok (aggr, st1) => .ok { st1 with aggrs := mapSet st1.aggrs s aggr }

/-- The part of `NewProcessor` on `group_by` and `having`. -/
def groupByAndHaving (query : SearchQuery) (st : ParseState) :
    Except Failure (Option Groups × ParseState) :=
  if query.GroupBy ≠ [] then
    if (GetColumnType query.GroupBy).isNone ∨ query.GroupBy = "fields".data then
      .error (.app .BadReq)
    else if query.Having ≠ [] then
      match ParseCondition query.Having query.HavingValues
          (some ⟨query.GroupBy, setAggregator query⟩) (st.addColumn query.GroupBy) with
      | .error e => .error e
      | .ok (havingCond, st1) =>
        .ok (some (NewGroups query.GroupBy st1.aggrs (some havingCond)), st1)
    else .ok (some (NewGroups query.GroupBy st.aggrs none), st.addColumn query.GroupBy)
  else .ok (none, st)

/-- The check of `order_by` in `NewProcessor`. -/
def orderByPassed (query : SearchQuery) (aggrs : List (List Char × IAggregator)) : Bool :=
  if query.OrderBy = [] then true
  else if (if query.OrderBy.head? = some '-' then query.OrderBy.drop 1 else query.OrderBy)
      = "fields".data then false
  else if query.GroupBy = [] then
    (GetColumnType (if query.OrderBy.head? = some '-' then query.OrderBy.drop 1
      else query.OrderBy)).isSome
  else
    (mapGet aggrs (if query.OrderBy.head? = some '-' then query.OrderBy.drop 1
      else query.OrderBy)).isSome ||
    decide (query.GroupBy = (if query.OrderBy.head? = some '-' then query.OrderBy.drop 1
      else query.OrderBy))

/-- The part of `NewProcessor` on `where`. -/
def whereCondition (query : SearchQuery) (st : ParseState) :
    Except Failure (Option ICondition × ParseState) :=
  if query.Where ≠ [] then
    match ParseCondition query.Where query.WhereValues none st with
    | .ok (c, st1) => .ok (some c, st1)
    | .error e => .error e
  else .ok (none, st)

/-- The constructor `NewProcessor`, which returns the processor and the
`LoadLogsData`. -/
def NewProcessor (clock : Int → Int) (query : SearchQuery) :
    Except Failure (Processor × LoadLogsData) :=
  if query.Storage = [] then .error (.app .BadReq)
  else
    match Parse clock query.TimeRange with
    | .error e => .error e
    | .ok tr =>
      match whereCondition query
          ⟨some { NewLoadLogsData with Storage := query.Storage, TimeRange := tr }, []⟩ with
      | .error e => .error e
      | .ok (whereCond, st) =>
        match selectEntries query query.Select st with
        | .error e => .error e
        | .ok st1 =>
          match groupByAndHaving query st1 with
          | .error e => .error e
          | .ok (groups, st2) =>
            if orderByPassed query st2.aggrs = false then .error (.app .BadReq)
            else
              match st2.lld with
              | none => .error .panic
              | some lld =>
                .ok (⟨[], query, whereCond, st2.aggrs, groups, query.Offset, query.Limit⟩, lld)

/-- The columns that `Reader.ReadChunk` loads for a set of columns: the set and the
timestamp, or every column when the set is empty. -/
def loadedColumns (columns : List (List Char)) : List (List Char) :=
  if columns.length > 0 then
    (if "timestamp".data ∈ columns then columns else columns ++ ["timestamp".data])
  else GetLogColumns.map String.data

/-- The logs of `TestProcessor`. -/
def testProcessorLogs : List Log :=
  [⟨1, 0, ["trace1"], "log1", "", "", ["m1", "m2"], [], []⟩,
   ⟨2, 1, ["trace1"], "log2", "", "", ["m2", "m3"], [], []⟩,
   ⟨3, 2, ["trace2"], "log3", "", "", ["m3", "m4"], [], []⟩,
   ⟨4, 3, ["trace2"], "log4", "", "", ["m4", "m5"], [], []⟩]

/-- The query "aggregation query" of `TestProcessor`. -/
def testAggregationQuery : SearchQuery :=
  { Storage := "storage".data, Select := ["traces".data, "sum[level, level > ?0]".data],
    TimeRange := [], AggregValues := [.num 1], Where := [], WhereValues := [],
    GroupBy := "traces".data, Having := "count[] > ?0".data, HavingValues := [.num 0],
    OrderBy := "traces".data, Limit := 0, Offset := 0 }

/-- A query that sums a column without a condition in every group. -/
def sumLevelQuery : SearchQuery :=
  { Storage := "storage".data, Select := ["traces".data, "sum[level]".data],
    TimeRange := [], AggregValues := [], Where := [], WhereValues := [],
    GroupBy := "traces".data, Having := [], HavingValues := [],
    OrderBy := [], Limit := 0, Offset := 0 }

/-- The loop of `Processor.PutLogs` for a query with `group_by` and without `where`. -/
def groupsUpdateAll : List Log → Groups → Except Failure Groups
  | [], g => .ok g
  | l :: rest, g =>
    match g.Update l with
    | .ok g1 => groupsUpdateAll rest g1
    | .error e => .error e

/-- The logs of a list that satisfy the condition of an aggregator: all logs when it has
none, else those on which `Check` returns `true`. -/
def satisfying (condition : Option ICondition) (logs : List Log) : List Log :=
  logs.filter (fun l => decide (passes condition l = .ok true))

/-- The `int64` value of a column of a log (`0` for a column of another type). -/
def columnValue (column : List Char) (l : Log) : Int :=
  match l.GetValue column with
  | some (.int v) => v
  | _ => 0

/-- The result of an aggregator after `Update` has been called on each log of a list. -/
def resultAfter (logs : List Log) (a : IAggregator) : Except Failure AnyValue :=
  match updateAll logs a with
  | .ok a1 => a1.GetResult
  | .error e => .error e

/-- The condition `level > ?0` with `?0 = 1`, as `ParseCondition` builds it. -/
def levelAboveOne : ICondition :=
  .condition ⟨⟨.INT, .null, "level".data⟩, ⟨.INT, .int 1, []⟩, .GEATER_THAN, false⟩

/-- The results of the aggregators of every group after the logs have been put into the
groups of a processor. -/
def groupResults (clock : Int → Int) (query : SearchQuery) (logs : List Log) :
    Except Failure (List (AnyValue × List (List Char × Except Failure AnyValue))) :=
  match NewProcessor clock query with
  | .error e => .error e
  | .ok (proc, _) =>
    match proc.groups with
    | none => .ok []
    | some g =>
      match groupsUpdateAll logs g with
      | .error e => .error e
      | .ok g1 => .ok (g1.groups.map (fun e => (e.1, e.2.map (fun a => (a.1, a.2.GetResult)))))

/-- The text of an atom as it can stand in a condition: it has none of the characters
`&`, `|`, `(`, `)` and does not end in `!`. -/
def plainText (a : List Char) : Bool :=
  a.all (fun ch => ch != '&' && ch != '|' && ch != '(' && ch != ')') && (a.getLast? != some '!')

/-! ## Test data of the condition parser -/

/-- A value list with an integer at `?0` and a string at `?1`. -/
def testValues : List JsonValue := [.num 1, .str "log2".data]

/-- The column operand `level`. -/
def levelOperant : Operant := ⟨.INT, .null, "level".data⟩

/-- The column operand `entity`. -/
def entityOperant : Operant := ⟨.STR, .null, "entity".data⟩

/-- The condition of the atom `level >= ?0` over `testValues`. -/
def levelAtLeastOne : Condition := ⟨levelOperant, ⟨.INT, .int 1, []⟩, .GEATER_EQUAL, false⟩

/-- The condition of the atom `entity == ?1` over `testValues`. -/
def entityIsLog2 : Condition := ⟨entityOperant, ⟨.STR, .str "log2".data, []⟩, .EQUAL, false⟩

/-- The condition of the atom `level != ?0` over `testValues`. -/
def levelNotOne : Condition := ⟨levelOperant, ⟨.INT, .int 1, []⟩, .NOT_EQUAL, false⟩

/-- The parse state whose `LoadLogsData` holds the given columns and no aggregator. -/
def stateWith (columns : List (List Char)) : ParseState :=
  ⟨some { NewLoadLogsData with Columns := columns }, []⟩

/-- The type rules of an atom in the words of the description of the query language: for
`=>` the left operand is a string and the right an array of strings, or the left is an
integer and the right an array of integers; for every other operator both operands have
the same type, which is not the map type, and which is the integer type for the four
operators of order. -/
def typeRule (operator : Operator) (t1 t2 : ValueType) : Prop :=
  if operator = .IN then (t1 = .STR ∧ t2 = .STR_ARRAY) ∨ (t1 = .INT ∧ t2 = .INT_ARRAY)
  else t1 = t2 ∧ t1 ≠ .STR_MAP ∧
    ((operator = .GEATER_THAN ∨ operator = .GEATER_EQUAL ∨ operator = .LESS_THAN ∨
      operator = .LESS_EQUAL) → t1 = .INT)

instance (operator : Operator) (t1 t2 : ValueType) : Decidable (typeRule operator t1 t2) := by
  unfold typeRule
  infer_instance

/-- A query whose `having` compares a count that has a condition. -/
def countAboveQuery : SearchQuery :=
  { Storage := "storage".data, Select := ["traces".data],
    TimeRange := [], AggregValues := [.num 1], Where := [], WhereValues := [],
    GroupBy := "traces".data, Having := "count[level > ?0] > ?0".data, HavingValues := [.num 0],
    OrderBy := [], Limit := 0, Offset := 0 }

/-- The `AggrData` that `NewProcessor` makes for `countAboveQuery`. -/
def countAboveAggrData : AggrData := ⟨"traces".data, setAggregator countAboveQuery⟩

/-! ## tools: JoinSlicesRevers -/

/-- The assignment `arr[k] = x`, which panics for an index out of range. -/
def sliceSet {α : Type} (arr : List α) (k : Int) (x : α) : Option (List α) :=
  if 0 ≤ k ∧ k < arr.length then some (arr.set k.toNat x) else none

/-- The inner loop of `JoinSlicesRevers`, `for j := len(a) - 1; j >= 0; j--`, over the
elements of `a` from the last one: `arr[k] = a[j]; k--`. -/
def reversInner {α : Type} : List α → List α → Int → Option (List α × Int)
  | [], arr, k => some (arr, k)
  | x :: rest, arr, k =>
    match sliceSet arr k x with
    | none => none
    | some arr1 => reversInner rest arr1 (k - 1)

/-- The outer loop of `JoinSlicesRevers`, `for i := len(arrs) - 1; i >= 0; i--`, over the
slices from the last one. -/
def reversOuter {α : Type} : List (List α) → List α → Int → Option (List α × Int)
  | [], arr, k => some (arr, k)
  | a :: rest, arr, k =>
    match reversInner a.reverse arr k with
    | none => none
    | some (arr1, k1) => reversOuter rest arr1 k1

/-- The generic `tools.JoinSlicesRevers`: a slice of the total length is filled from its
last cell, `k := len(arr) - 1`, with the slices taken from the last one and the elements
of each slice taken from its last one. -/
def JoinSlicesRevers {α : Type} [Inhabited α] (arrs : List (List α)) : Option (List α) :=
  (reversOuter arrs.reverse (List.replicate (arrs.map List.length).sum default)
    (((arrs.map List.length).sum : Nat) - 1 : Int)).map Prod.fst

/-! ## agents/log_utils: the order of the logs of a processor -/

/-- The method `Processor.mergeLogPacks`: the packs joined and sorted with
`sort.SliceStable` by timestamp. -/
def mergeLogPacks (logPacks : List (List Log)) : List Log :=
  sortSliceStable (JoinSlices logPacks)

/-- The key `pack[0].Timestamp` by which `sortAndJoinLogPacks` sorts the packs. -/
def packKey (pack : List Log) : Int := tsAt pack 0

/-- The closure `isNotCrossed` of `sortAndJoinLogPacks`. -/
def isNotCrossed (pack1 pack2 : List Log) : Bool :=
  decide (tsAt pack1 (pack1.length - 1) < tsAt pack2 0)

/-- The loop of `sortAndJoinLogPacks` over `i = 1 .. len - 1`, with `pack1` the pack at
`i - 1` and the packs from `i` on: the new `logPacks` and `crossed`. -/
def crossLoop : List Log → List (List Log) → List (List Log) → List (List Log) →
    List (List Log) × List (List Log)
  | _, [], logPacks, crossed => (logPacks, crossed)
  | pack1, pack2 :: rest, logPacks, crossed =>
    if isNotCrossed pack1 pack2 then
      if crossed.length = 0 then crossLoop pack2 rest (logPacks ++ [pack1]) crossed
      else crossLoop pack2 rest (logPacks ++ [mergeLogPacks crossed]) []
    else
      if crossed.length = 0 then crossLoop pack2 rest logPacks [pack1, pack2]
      else crossLoop pack2 rest logPacks (crossed ++ [pack2])

/-- The method `Processor.sortAndJoinLogPacks`. `sort.Slice` on the packs is the
parameter `sortPacks`. Reading `pack[0]` of an empty pack panics; with two packs or more
every pack is read. -/
def sortAndJoinLogPacks (sortPacks : SliceSort (List Log) packKey)
    (logPacks : List (List Log)) (desc : Bool) : Option (List Log) :=
  if logPacks.length = 0 then some []
  else if 2 ≤ logPacks.length ∧ [] ∈ logPacks then none
  else
    match sortPacks.run logPacks with
    | [] => none
    | first :: rest =>
      let (joined, crossed) := crossLoop first rest [] []
      let logPacks1 :=
        if crossed.length > 0 then joined ++ [mergeLogPacks crossed]
        else joined ++ [(first :: rest).getLastD []]
      if desc then some (JoinSlices logPacks1) else JoinSlicesRevers logPacks1

/-- The packs with the timestamps 1, 100 and 2, 3 and 4, 5. -/
def overlapPacks : List (List Log) :=
  [[logAt 1, logAt 100], [logAt 2, logAt 3], [logAt 4, logAt 5]]

/-! ## models: Log.Validate -/

/-- The length `len(s)` of a string in bytes. -/
def byteLen (s : String) : Nat := (s.data.map Char.utf8Size).sum

/-- The method `Log.Validate`: whether it returns no error. -/
def Log.Validate (l : Log) : Bool :=
  if l.Timestamp = 0 then false
  else if l.Level > 7 then false
  else if l.Entity = "" ∨ byteLen l.Entity > 50 then false
  else if l.EntityID = "" ∨ byteLen l.EntityID > 50 then false
  else if l.Message = "" ∨ byteLen l.Message > 255 then false
  else if l.Traces.length = 0 ∨ l.Traces.length > 20 then false
  else if l.Traces.any (fun t => decide (t = "" ∨ byteLen t > 50)) then false
  else if l.Modules.length = 0 ∨ l.Modules.length > 40 then false
  else if l.Modules.any (fun t => decide (t = "" ∨ byteLen t > 50)) then false
  else if l.Labels.length > 20 then false
  else if l.Labels.any (fun t => decide (t = "" ∨ byteLen t > 50)) then false
  else if l.Fields.length > 20 then false
  else if l.Fields.any (fun e => decide (e.1 = "" ∨ byteLen e.1 > 50 ∨ e.2 = "" ∨ byteLen e.2 > 50))
    then false
  else true

/-- A log that passes `Validate`, with the given traces. -/
def tracedLog (ts : Int) (traces : List String) : Log :=
  ⟨ts, 1, traces, "app", "1", "started", ["main"], [], []⟩

/-- The groups of a query grouped by `traces` that counts the logs of every group. -/
def traceCountGroups : Groups := NewGroups "traces".data [("count[]".data, .Count 0 none)] none

/-- The query of `TestProcessor` with the average in the place of the sum. -/
def avgLevelQuery : SearchQuery :=
  { Storage := "storage".data, Select := ["traces".data, "avg[level, level > ?0]".data],
    TimeRange := [], AggregValues := [.num 1], Where := [], WhereValues := [],
    GroupBy := "traces".data, Having := [], HavingValues := [],
    OrderBy := [], Limit := 0, Offset := 0 }

/-- A metas map whose storage holds the ten metas of ids 1 to 10 in blocks of size 5; the
meta of id 1 is marked deleted and counted. -/
def tenMetasMap : MetasMap :=
  { state := ⟨[("storage",
      [[metaVer 1 2 true, metaVer 2 1 false, metaVer 3 1 false, metaVer 4 1 false,
        metaVer 5 1 false],
       [metaVer 6 1 false, metaVer 7 1 false, metaVer 8 1 false, metaVer 9 1 false,
        metaVer 10 1 false]])], 3⟩,
    deleteList := [], uses := [], deletedCount := 1, blockMaxSize := 5 }

/-! ## agents/storage: MetasMap.GetLastVersionMetas -/

/-- The loop of `GetLastVersionMetas` over `oldMetas`. -/
def lastVersionLoop (blocks : List (List Meta)) : List Meta → List Meta → Option (List Meta)
  | [], lastMetas => some lastMetas
  | mt :: rest, lastMetas =>
    match binSearchBlock blocks mt.ID with
    | none => none
    | some i =>
      if i = -1 then lastVersionLoop blocks rest lastMetas
      else
        match blocks[i.toNat]? with
        | none => none
        | some blk =>
          if binSearchMeta blk mt.ID = -1 then lastVersionLoop blocks rest lastMetas
          else
            match blk[(binSearchMeta blk mt.ID).toNat]? with
            | none => none
            | some x =>
              if x.IsDeleted then lastVersionLoop blocks rest lastMetas
              else lastVersionLoop blocks rest (lastMetas ++ [x])

/-- The method `MetasMap.GetLastVersionMetas`; Go's `nil` for a storage that does not
exist is the empty list. -/
def MetasMap.GetLastVersionMetas (mm : MetasMap) (storage : String) (oldMetas : List Meta) :
    Option (List Meta) :=
  let (blocks, version) := mm.state.Get storage
  if version = 0 then some [] else lastVersionLoop blocks oldMetas []

/-- The file system after `TestWriterAndReader`: the timestamps 9, 5, 7, 3, 8, 1, 4, 2
written to the empty storage with `maxLogsInChunk = 3`. -/
def seedWorld : World :=
  match (⟨3⟩ : Writer).RunWriter testLib [⟨"storage", testWriterLogs⟩] 0 [("storage", 1)] 1 7
      testWriterMetasMap World.empty with
  | some r => r.world
  | none => World.empty

/-- The metas of the storage after `TestWriterAndReader`. -/
def seedMetas : List Meta :=
  match (⟨3⟩ : Writer).RunWriter testLib [⟨"storage", testWriterLogs⟩] 0 [("storage", 1)] 1 7
      testWriterMetasMap World.empty with
  | some r => liveMetas r.metasMap "storage"
  | none => []

/-- The meta of the second chunk after `TestWriterAndReader`: sealed, version 2, with the
time range from 1 to 9. -/
def seedSecondMeta : Meta :=
  { ID := 2, Version := 2, TimeRange := ⟨1, 9⟩, LogsLen := 3, Offsets := none, IsDeleted := false }

/-! ## agents/storage: the loop of `Deleter.deleter` over the chunks of a task -/

/-- The loop `for _, meta := range metas` of `Deleter.deleter`: every chunk is looked up
with `Find`, handed to `DeleteByCondition` or `DeleteByTimeRange`, and the backuper of
the task is cancelled; the result is the file system and the update tasks sent to the
metas map. A meta that `Find` does not return is `nil`, and reading it panics. -/
def deleterLoop (lib : Lib) (sw : Writer) (mm : MetasMap) (storage : String) (tr : TimeRange)
    (cond : Option (Log → Option Bool)) :
    List Meta → Backuper → World → List UpdateStateTask → Option (World × List UpdateStateTask)
  | [], _, w, updates => some (w, updates)
  | meta :: rest, b, w, updates =>
    match mm.Find storage meta.ID with
    | some (some mt) =>
      match (match cond with
             | some c => DeleteByCondition lib sw storage mt tr c b w
             | none => (DeleteByTimeRange lib sw storage mt tr b w).map (fun r => (true, r))) with
      | none => none
      | some (isDeleted, mt1, b1, w1) =>
        match b1.Cancel w1 with
        | none => none
        | some (b2, w2) =>
          deleterLoop lib sw mm storage tr cond rest b2 w2
            (if isDeleted then updates ++ [⟨storage, [mt1], []⟩] else updates)
    | _ => none

/-- The metas of the three chunks of `TestDeleter`. -/
def deleterMetas : List Meta :=
  [sealedMeta 1 4 ⟨1, 4⟩, sealedMeta 2 4 ⟨5, 8⟩, sealedMeta 3 4 ⟨9, 12⟩]

/-- The metas map of `TestDeleter`. -/
def deleterMetasMap : MetasMap :=
  { state := ⟨[("storage", [deleterMetas])], 2⟩, deleteList := [], uses := [],
    deletedCount := 0, blockMaxSize := 100 }

/-- The condition `level == ?0` with `?0 = 1`. -/
def levelIsOne (l : Log) : Option Bool := some (l.Level == 1)

/-! ## agents/storage: the framing of a column file

A byte is a natural number below 256. -/

/-- The method `Writer.lenToBytes`: `binary.LittleEndian.PutUint16` of `uint16(len(data))`,
the low byte first. -/
def lenToBytes (data : List Nat) : List Nat :=
  [(data.length % 65536) % 256, (data.length % 65536) / 256 % 256]

/-- The function `binary.LittleEndian.Uint16` on a slice of two bytes:
`b[0] | b[1] << 8`. -/
def uint16LE (b : List Nat) : Nat := b.getD 0 0 % 256 + 256 * (b.getD 1 0 % 256)

/-- The bytes that `columnWriter` appends to a column file for the encoded values of the
logs of a task: for every value its length and the value, joined by `AppendFile`. -/
def columnFrames (datas : List (List Nat)) : List Nat :=
  (datas.map (fun data => lenToBytes data ++ data)).flatten

/-- The method `Reader.getLine`: the line that starts at `i` and the index after it. A
slice expression beyond the data panics, a length beyond the data is a returned error. -/
def getLine (data : List Nat) (i : Int) : Except Failure (List Nat × Int) :=
  if data.length = 0 then .ok ([], i)
  else
    match slice data i (i + 2) with
    | none => .error .panic
    | some lenByte =>
      if i + 2 + (uint16LE lenByte : Int) > data.length then .error .other
      else
        match slice data (i + 2) (i + 2 + (uint16LE lenByte : Int)) with
        | none => .error .panic
        | some line => .ok (line, i + 2 + (uint16LE lenByte : Int))

/-- The loop of `Reader.columnReader` over the logs of the task: `n` successive calls of
`getLine` from the index `j`; the lines and the index after the last one. An error of
`getLine` is fatal. -/
def readLines (data : List Nat) : Nat → Int → Except Failure (List (List Nat) × Int)
  | 0, j => .ok ([], j)
  | n + 1, j =>
    match getLine data j with
    | .error e => .error e
    | .ok (line, j1) =>
      match readLines data n j1 with
      | .error e => .error e
      | .ok (lines, j2) => .ok (line :: lines, j2)

/-! ## The two update paths on the flat list of the metas -/

/-- The loops of `updateAndReconstruct` without the blocks: the metas they keep, in their
order, and the metas they append to `deleted`. -/
def rebuildFlat : List Meta → List Meta → List Meta × List Meta
  | [], _ => ([], [])
  | m :: rest, forUpd =>
    if m.IsDeleted then rebuildFlat rest forUpd
    else
      match forUpd with
      | u :: us =>
        if m.ID = u.ID then
          if u.Version > m.Version ∨ u.IsDeleted then
            if u.IsDeleted then ((rebuildFlat rest us).1, m :: (rebuildFlat rest us).2)
            else (u :: (rebuildFlat rest us).1, m :: (rebuildFlat rest us).2)
          else (u :: (rebuildFlat rest us).1, (rebuildFlat rest us).2)
        else (m :: (rebuildFlat rest forUpd).1, (rebuildFlat rest forUpd).2)
      | [] => (m :: (rebuildFlat rest []).1, (rebuildFlat rest []).2)

/-- The meta of a list with the given id. -/
def findByID (metas : List Meta) (id : Nat) : Option Meta :=
  metas.find? (fun x => decide (x.ID = id))

/-- The metas after the loop of `update`, without the blocks: every meta with the id of
an update is replaced by the update. -/
def updatedFlat (forUpd metas : List Meta) : List Meta :=
  metas.map (fun m => (findByID forUpd m.ID).getD m)

/-- The metas that the loop of `update` appends to `deleted`: for every update, in the
order of the updates, the meta of its id when the update has a higher version or is
marked deleted. -/
def supersededFlat (forUpd metas : List Meta) : List Meta :=
  forUpd.filterMap (fun u => (findByID metas u.ID).bind
    (fun old => if u.Version > old.Version ∨ u.IsDeleted then some old else none))

/-! # Theorems -/

/-! ## Lemmas on maps -/

theorem foldl_mapDelete {κ ν : Type} [DecidableEq κ] (ks : List κ) (m : List (κ × ν)) :
    ks.foldl mapDelete m = m.filter (fun e => decide (e.1 ∉ ks)) := by
  induction ks generalizing m with
  | nil => simp
  | cons k ks ih =>
    simp only [List.foldl_cons, ih, mapDelete, List.filter_filter]
    congr 1
    funext e
    simp [List.mem_cons, not_or, Bool.and_comm]

theorem le_foldl_min (uses : List (Nat × Nat)) (m V : Nat) :
    V ≤ uses.foldl (fun minVer e => if e.2 < minVer then e.2 else minVer) m ↔
      V ≤ m ∧ ∀ u ∈ uses, V ≤ u.2 := by
  induction uses generalizing m with
  | nil => simp
  | cons u us ih =>
    simp only [List.foldl_cons, ih, List.mem_cons, forall_eq_or_imp]
    by_cases h : u.2 < m
    · simp only [h, if_true]
      constructor
      · rintro ⟨h1, h2⟩; exact ⟨by omega, h1, h2⟩
      · rintro ⟨h1, h2, h3⟩; exact ⟨h2, h3⟩
    · simp only [h, if_false]
      constructor
      · rintro ⟨h1, h2⟩; exact ⟨h1, by omega, h2⟩
      · rintro ⟨h1, h2, h3⟩; exact ⟨h1, h3⟩

theorem le_minReserved (uses : List (Nat × Nat)) (V : Nat) :
    V ≤ minReserved uses ↔ V ≤ MaxUint64 ∧ ∀ u ∈ uses, V ≤ u.2 :=
  le_foldl_min uses MaxUint64 V

/-- C2. `GetForRemove` returns exactly the paths of `deleteList` whose version is at most
every reserved version (every path when nothing is reserved), removes exactly those
entries from `deleteList` and changes nothing else; so a path registered at version `V`
is not returned while a reservation holds a version below `V`. -/
theorem C2_GetForRemove_spec (mm : MetasMap)
    (hkeys : (mm.deleteList.map Prod.fst).Nodup)
    (hver : ∀ e ∈ mm.deleteList, e.2 ≤ MaxUint64) :
    (∀ p, p ∈ mm.GetForRemove.1 ↔ ∃ V, (p, V) ∈ mm.deleteList ∧ ∀ u ∈ mm.uses, V ≤ u.2) ∧
    (mm.uses = [] → ∀ e ∈ mm.deleteList, e.1 ∈ mm.GetForRemove.1) ∧
    mm.GetForRemove.1.Nodup ∧
    mm.GetForRemove.2.deleteList =
      mm.deleteList.filter (fun e => decide (¬ ∀ u ∈ mm.uses, e.2 ≤ u.2)) ∧
    mm.GetForRemove.2.uses = mm.uses ∧
    mm.GetForRemove.2.state = mm.state ∧
    mm.GetForRemove.2.deletedCount = mm.deletedCount ∧
    mm.GetForRemove.2.blockMaxSize = mm.blockMaxSize ∧
    (∀ p V u, (p, V) ∈ mm.deleteList → u ∈ mm.uses → u.2 < V → p ∉ mm.GetForRemove.1) := by
  have hres : ∀ p, p ∈ mm.GetForRemove.1 ↔
      ∃ V, (p, V) ∈ mm.deleteList ∧ ∀ u ∈ mm.uses, V ≤ u.2 := by
    intro p
    unfold MetasMap.GetForRemove
    by_cases h0 : mm.deleteList.length = 0
    · have hnil : mm.deleteList = [] := List.length_eq_zero.mp h0
      simp [hnil]
    · simp only [h0, if_false, List.mem_map, List.mem_filter, decide_eq_true_eq, ge_iff_le,
        le_minReserved]
      constructor
      · rintro ⟨⟨q, V⟩, ⟨hmem, _, hall⟩, rfl⟩
        exact ⟨V, hmem, hall⟩
      · rintro ⟨V, hmem, hall⟩
        exact ⟨(p, V), ⟨hmem, hver _ hmem, hall⟩, rfl⟩
  have huniq : ∀ p V V2, (p, V) ∈ mm.deleteList → (p, V2) ∈ mm.deleteList → V = V2 := by
    intro p V V2 h1 h2
    have hinj := List.inj_on_of_nodup_map hkeys h1 h2 rfl
    exact (Prod.mk.inj hinj).2
  refine ⟨hres, ?_, ?_, ?_, ?_, ?_, ?_, ?_, ?_⟩
  · intro hu e he
    rw [hres]
    exact ⟨e.2, he, by simp [hu]⟩
  · unfold MetasMap.GetForRemove
    by_cases h0 : mm.deleteList.length = 0
    · simp [h0]
    · simp only [h0, if_false]
      have hsub : (mm.deleteList.filter (fun e => decide (minReserved mm.uses ≥ e.2))).Sublist
          mm.deleteList := List.filter_sublist _
      exact (hsub.map Prod.fst).nodup hkeys
  · have hfil : mm.GetForRemove.2.deleteList =
        mm.deleteList.filter (fun e => decide (e.1 ∉ mm.GetForRemove.1)) := by
      unfold MetasMap.GetForRemove
      by_cases h0 : mm.deleteList.length = 0
      · have hnil : mm.deleteList = [] := List.length_eq_zero.mp h0
        simp [hnil]
      · simp only [h0, if_false, foldl_mapDelete]
    rw [hfil]
    apply List.filter_congr
    intro e he
    have : e.1 ∈ mm.GetForRemove.1 ↔ ∀ u ∈ mm.uses, e.2 ≤ u.2 := by
      rw [hres]
      constructor
      · rintro ⟨V, hmem, hall⟩
        have := huniq e.1 V e.2 hmem he
        subst this
        exact hall
      · intro hall
        exact ⟨e.2, he, hall⟩
    simp only [this]
  · unfold MetasMap.GetForRemove
    split <;> rfl
  · unfold MetasMap.GetForRemove
    split <;> rfl
  · unfold MetasMap.GetForRemove
    split <;> rfl
  · unfold MetasMap.GetForRemove
    split <;> rfl
  · intro p V u hmem hu hlt hp
    obtain ⟨V2, hmem2, hall⟩ := (hres p).mp hp
    have := huniq p V V2 hmem hmem2
    subst this
    have := hall u hu
    omega

/-- Witness for C2 on the state of `TestRemoving`: only `1_1` is returned. -/
theorem C2_GetForRemove_spec_witness :
    testRemovingState.GetForRemove.1 = [FilePath.chunk ⟨"storage", 1, 1⟩] ∧
    ∀ p V u, (p, V) ∈ testRemovingState.deleteList → u ∈ testRemovingState.uses → u.2 < V →
      p ∉ testRemovingState.GetForRemove.1 :=
  ⟨by decide,
   (C2_GetForRemove_spec testRemovingState (by decide) (by decide)).2.2.2.2.2.2.2.2⟩

/-! ## Lemmas on `AlignChunks` -/

theorem alignPacks_length (logs : List Log) (size k off : Nat) :
    (alignPacks logs size k off).length = k := by
  induction k generalizing off with
  | zero => rfl
  | succ k ih => simp [alignPacks, ih]

theorem alignPacks_getElem? (logs : List Log) (size k off i : Nat) (hi : i < k) :
    (alignPacks logs size k off)[i]? = some ((logs.drop (off + i * size)).take size) := by
  induction k generalizing off i with
  | zero => omega
  | succ k ih =>
    cases i with
    | zero => simp [alignPacks]
    | succ i =>
      simp only [alignPacks, List.getElem?_cons_succ]
      rw [ih (off + size) i (by omega)]
      congr 3
      ring

theorem alignPacks_flatten (logs : List Log) (size k off : Nat) :
    (alignPacks logs size k off).flatten = (logs.drop off).take (k * size) := by
  induction k generalizing off with
  | zero => simp [alignPacks]
  | succ k ih =>
    simp only [alignPacks, List.flatten_cons, ih]
    have h : (k + 1) * size = size + k * size := by ring
    rw [h, List.take_add, List.drop_drop]

theorem filter_orderedInsert_ts (t : Int) (a : Log) (l : List Log) :
    (l.orderedInsert (fun a b => a.Timestamp ≤ b.Timestamp) a).filter
        (fun x => decide (x.Timestamp = t)) =
      if a.Timestamp = t then a :: l.filter (fun x => decide (x.Timestamp = t))
      else l.filter (fun x => decide (x.Timestamp = t)) := by
  induction l with
  | nil => by_cases h : a.Timestamp = t <;> simp [h]
  | cons b l ih =>
    simp only [List.orderedInsert]
    by_cases hab : a.Timestamp ≤ b.Timestamp
    · simp only [hab, if_true]
      by_cases h : a.Timestamp = t <;> simp [List.filter_cons, h]
    · simp only [hab, if_false, List.filter_cons, ih]
      have hne : ¬ (a.Timestamp = t ∧ b.Timestamp = t) := by
        rintro ⟨h1, h2⟩; omega
      by_cases h : a.Timestamp = t
      · have hb : ¬ b.Timestamp = t := fun hb => hne ⟨h, hb⟩
        simp [h, hb]
      · by_cases hb : b.Timestamp = t <;> simp [h, hb]

theorem sortSliceStable_filter (t : Int) (l : List Log) :
    (sortSliceStable l).filter (fun x => decide (x.Timestamp = t)) =
      l.filter (fun x => decide (x.Timestamp = t)) := by
  induction l with
  | nil => rfl
  | cons a l ih =>
    have h := filter_orderedInsert_ts t a (sortSliceStable l)
    simp only [sortSliceStable, List.insertionSort] at h ih ⊢
    rw [h, ih]
    by_cases hat : a.Timestamp = t <;> simp [List.filter_cons, hat]

theorem sortSliceStable_perm (l : List Log) : (sortSliceStable l).Perm l :=
  List.perm_insertionSort _ l

theorem sortSliceStable_sorted (l : List Log) :
    (sortSliceStable l).Sorted (fun a b => a.Timestamp ≤ b.Timestamp) :=
  (insertionSliceSort (fun l : Log => l.Timestamp)).sorted l

theorem sortSliceStable_length (l : List Log) : (sortSliceStable l).length = l.length :=
  (sortSliceStable_perm l).length_eq

/-- C7. For a non-empty list of `n` packs with `total` records, `AlignChunks` replaces pack
`i < n-1` by `sorted[i*s, (i+1)*s)` and the last pack by `sorted[(n-1)*s, total)`, where
`sorted` is the stable sort by timestamp of the concatenation of the packs and
`s = total / n`; the number of packs is kept and the concatenation of the output is
`sorted`, which is in timestamp order, a permutation of the input and keeps the input order
of records with equal timestamps. -/
theorem C7_AlignChunks_spec (logPacks : List (List Log)) (hne : logPacks ≠ []) :
    ∃ out, AlignChunks logPacks = some out ∧
      out.length = logPacks.length ∧
      (∀ i, i < logPacks.length - 1 →
        out[i]? = some (((sortSliceStable (JoinSlices logPacks)).drop
            (i * ((JoinSlices logPacks).length / logPacks.length))).take
            ((JoinSlices logPacks).length / logPacks.length)) ∧
        (i + 1) * ((JoinSlices logPacks).length / logPacks.length) ≤ (JoinSlices logPacks).length) ∧
      out[logPacks.length - 1]? = some ((sortSliceStable (JoinSlices logPacks)).drop
            ((logPacks.length - 1) * ((JoinSlices logPacks).length / logPacks.length))) ∧
      JoinSlices out = sortSliceStable (JoinSlices logPacks) ∧
      (JoinSlices out).Sorted (fun a b => a.Timestamp ≤ b.Timestamp) ∧
      (JoinSlices out).Perm (JoinSlices logPacks) ∧
      (∀ t, (JoinSlices out).filter (fun x => decide (x.Timestamp = t)) =
        (JoinSlices logPacks).filter (fun x => decide (x.Timestamp = t))) := by
  have hlen : logPacks.length ≠ 0 := fun h => hne (List.length_eq_zero.mp h)
  have hjoin : JoinSlices (alignPacks (sortSliceStable (JoinSlices logPacks))
      ((sortSliceStable (JoinSlices logPacks)).length / logPacks.length) (logPacks.length - 1) 0 ++
      [(sortSliceStable (JoinSlices logPacks)).drop ((logPacks.length - 1) *
        ((sortSliceStable (JoinSlices logPacks)).length / logPacks.length))]) =
      sortSliceStable (JoinSlices logPacks) := by
    simp only [JoinSlices, List.flatten_append, alignPacks_flatten, List.drop_zero,
      List.flatten_cons, List.flatten_nil, List.append_nil, List.take_append_drop]
  have hA : AlignChunks logPacks = some (alignPacks (sortSliceStable (JoinSlices logPacks))
      ((sortSliceStable (JoinSlices logPacks)).length / logPacks.length) (logPacks.length - 1) 0 ++
      [(sortSliceStable (JoinSlices logPacks)).drop ((logPacks.length - 1) *
        ((sortSliceStable (JoinSlices logPacks)).length / logPacks.length))]) := by
    simp only [AlignChunks, hlen, if_false]
  refine ⟨_, hA, ?_, ?_, ?_, ?_, ?_, ?_, ?_⟩
  · simp [alignPacks_length]; omega
  · intro i hi
    constructor
    · rw [List.getElem?_append_left (by rw [alignPacks_length]; exact hi),
        alignPacks_getElem? _ _ _ _ _ hi, sortSliceStable_length]
      simp
    · calc (i + 1) * ((JoinSlices logPacks).length / logPacks.length)
          ≤ logPacks.length * ((JoinSlices logPacks).length / logPacks.length) :=
            Nat.mul_le_mul_right _ (by omega)
        _ ≤ (JoinSlices logPacks).length := Nat.mul_div_le _ _
  · rw [List.getElem?_append_right (by rw [alignPacks_length]), alignPacks_length,
      sortSliceStable_length]
    simp
  · exact hjoin
  · rw [hjoin]; exact sortSliceStable_sorted _
  · rw [hjoin]; exact sortSliceStable_perm _
  · intro t; rw [hjoin]; exact sortSliceStable_filter t _

/-- Witness for C7 on the packs of `TestAlignChunks`. -/
theorem C7_AlignChunks_spec_witness :
    ∃ out, AlignChunks testAlignPacks = some out ∧ out.length = 3 ∧
      JoinSlices out = sortSliceStable (JoinSlices testAlignPacks) :=
  let ⟨out, h1, h2, _, _, h5, _⟩ := C7_AlignChunks_spec testAlignPacks (by decide)
  ⟨out, h1, h2, h5⟩

/-- C6 (failing input). Three sealed chunks of 3, 3 and 2 records with
`maxLogsInChunk = 3`: every input chunk holds at most 3 records, `AlignChunks` gives the
last pack 4 records, `WriteNewVersionChunk` writes 3 of them, and the record with
timestamp 10, stored before the pass, is in no chunk of the group after it. -/
theorem C6_aligner_drops_record :
    (∀ mt ∈ crossedMetas, mt.LogsLen ≤ 3) ∧
    (AlignChunks [[logAt 1, logAt 5, logAt 9], [logAt 2, logAt 6, logAt 10],
        [logAt 3, logAt 7]]).map (fun o => o.map List.length) = some [2, 2, 4] ∧
    (alignStorage testLib ⟨3⟩ "s" crossedMetas crossedWorld).map
        (fun r => (r.1.map (fun mt => (mt.Version, mt.LogsLen)), storedRows "s" r.1 r.2)) =
      some ([(2, 2), (2, 2), (2, 3)],
        [logAt 1, logAt 2, logAt 3, logAt 5, logAt 6, logAt 7, logAt 9]) ∧
    logAt 10 ∈ storedRows "s" crossedMetas crossedWorld := by
  decide
/-! ## The deleter -/

theorem IsInside_of_bounds (tr inner : TimeRange)
    (hs : tr.Start = 0 ∨ tr.Start ≤ inner.Start) (he : tr.End = 0 ∨ inner.End ≤ tr.End) :
    IsInside tr inner = true := by
  have h1 : ¬ (tr.Start ≠ 0 ∧ inner.Start < tr.Start) := by
    rintro ⟨h, h2⟩; rcases hs with hs | hs
    · exact h hs
    · omega
  have h2 : ¬ (tr.End ≠ 0 ∧ tr.End < inner.End) := by
    rintro ⟨h, h2⟩; rcases he with he | he
    · exact h he
    · omega
  unfold IsInside
  by_cases ha : tr.Start = 0 <;> by_cases hb : tr.End = 0 <;>
    by_cases hc : inner.Start < tr.Start <;> by_cases hd : tr.End < inner.End <;>
    simp_all

/-- C5. When the deletion range covers the time range of the chunk (each bound of `tr`
is `0` or lies on the outer side of the bound of `meta.TimeRange`), `DeleteByTimeRange`
returns the meta with `IsDeleted` set and every other field as it was; the rows and the
`meta` file of every chunk directory are as before, `meta.new` of this chunk holds the new
meta, the only file-system calls are the journal commit and the write of `meta.new` (no
column file is read or appended to), and the journals stage `meta.new` only. -/
theorem C5_DeleteByTimeRange_covered (lib : Lib) (sw : Writer) (storage : String) (mt : Meta)
    (tr : TimeRange) (b : Backuper) (w : World)
    (hs : tr.Start = 0 ∨ tr.Start ≤ mt.TimeRange.Start)
    (he : tr.End = 0 ∨ mt.TimeRange.End ≤ tr.End) :
    ∃ b1 w1, DeleteByTimeRange lib sw storage mt tr b w =
        some ({ mt with IsDeleted := true }, b1, w1) ∧
      (∀ p, (w1.chunks p).rows = (w.chunks p).rows ∧
        (w1.chunks p).metaFile = (w.chunks p).metaFile) ∧
      (∀ p, p ≠ chunkPath storage mt → (w1.chunks p).metaNew = (w.chunks p).metaNew) ∧
      (w1.chunks (chunkPath storage mt)).metaNew = some { mt with IsDeleted := true } ∧
      w1.events = w.events ++
        [FsEvent.writeJournal b.name, FsEvent.writeMetaNew (chunkPath storage mt)] ∧
      b1.name = b.name ∧
      b1.backupTx = b.backupTx ++ [Action.remove (FilePath.metaNew (chunkPath storage mt))] ∧
      b1.cancelTx = some (b.cancelTx.getD [] ++ [chunkPath storage mt]) := by
  have hin := IsInside_of_bounds tr mt.TimeRange hs he
  refine ⟨(MarkChunkAsDeleted storage mt b w).2.1, (MarkChunkAsDeleted storage mt b w).2.2,
    by simp only [DeleteByTimeRange, hin, if_true]; rfl, ?_, ?_, ?_, ?_, ?_, ?_, ?_⟩
  all_goals simp only [MarkChunkAsDeleted]
  · intro p
    by_cases hp : p = chunkPath storage mt <;>
      simp [World.setChunk, World.emit, Backuper.Commit, Backuper.AddForReplace, hp]
  · intro p hp
    simp [World.setChunk, World.emit, Backuper.Commit, Backuper.AddForReplace, hp]
  · simp [World.setChunk, World.emit]
  · simp [World.setChunk, World.emit, Backuper.Commit, Backuper.AddForReplace]
  · rfl
  · rfl
  · rfl

/-- Witness for C5: chunk 2 of `TestDeleter` (time range 5..8) under the range 1..10. -/
theorem C5_DeleteByTimeRange_covered_witness :
    ∃ b1 w1, DeleteByTimeRange testLib ⟨4⟩ "storage" (sealedMeta 2 4 ⟨5, 8⟩) ⟨1, 10⟩
        (NewBackuper "del_t") World.empty =
      some ({ sealedMeta 2 4 ⟨5, 8⟩ with IsDeleted := true }, b1, w1) ∧
      w1.events = [FsEvent.writeJournal "del_t", FsEvent.writeMetaNew ⟨"storage", 2, 1⟩] :=
  let ⟨b1, w1, h1, _, _, _, h5, _⟩ :=
    C5_DeleteByTimeRange_covered testLib ⟨4⟩ "storage" (sealedMeta 2 4 ⟨5, 8⟩) ⟨1, 10⟩
      (NewBackuper "del_t") World.empty (Or.inr (by decide)) (Or.inr (by decide))
  ⟨b1, w1, h1, h5⟩

/-! ## The writer: `WriteToChunk` and `WriteNewVersionChunk` -/

theorem slice_zero {α : Type} (s : List α) (k : Int) (h0 : 0 ≤ k) (h1 : k ≤ s.length) :
    slice s 0 k = some (s.take k.toNat) := by
  simp [slice, h0, h1]

theorem Min_nonneg_le (a : Int) (n : Nat) (ha : 0 ≤ a) : 0 ≤ Min a n ∧ Min a n ≤ n ∧ Min a n ≤ a := by
  unfold Min; split <;> omega

/-- Under `0 ≤ LogsLen ≤ maxLogsInChunk` the call `WriteToChunk` returns, and the meta it
leaves differs from the one it got in `LogsLen`, `Offsets` and `TimeRange` only. -/
theorem WriteToChunk_meta (lib : Lib) (sw : Writer) (storage : String) (mt : Meta)
    (logs : List Log) (b : Backuper) (w : World) (h1 : mt.LogsLen ≤ sw.maxLogsInChunk) :
    ∃ r, sw.WriteToChunk lib storage mt logs b w = some r ∧
      r.1 = Min (sw.maxLogsInChunk - mt.LogsLen) logs.length ∧
      0 ≤ r.1 ∧ r.1 ≤ logs.length ∧ r.1 ≤ sw.maxLogsInChunk - mt.LogsLen ∧
      r.2.1.LogsLen = mt.LogsLen + r.1 ∧
      r.2.1.ID = mt.ID ∧ r.2.1.Version = mt.Version ∧ r.2.1.IsDeleted = mt.IsDeleted ∧
      (r.2.1.LogsLen = sw.maxLogsInChunk → r.1 ≠ 0 → r.2.1.Offsets = none) ∧
      (r.1 = 0 → r.2.1 = mt) ∧
      (r.2.1.LogsLen ≠ sw.maxLogsInChunk → (r.2.1.Offsets = none ↔ mt.Offsets = none)) ∧
      (mt.Offsets = none → r.2.1.Offsets = none) := by
  have hm := Min_nonneg_le (sw.maxLogsInChunk - mt.LogsLen) logs.length (by omega)
  unfold Writer.WriteToChunk
  by_cases hl : logs.length = 0
  · have hcast : (logs.length : Int) = 0 := by exact_mod_cast hl
    have hmin : Min (sw.maxLogsInChunk - mt.LogsLen) logs.length = 0 := by
      unfold Min; rw [hcast]; split
      · omega
      · rfl
    rw [if_pos hl]
    refine ⟨(0, mt, b, w), rfl, ?_⟩
    simp only [hmin]
    simp
    omega
  · simp only [hl, if_false]
    by_cases hw : Min (sw.maxLogsInChunk - mt.LogsLen) logs.length = 0
    · simp only [hw, if_true]
      refine ⟨(0, mt, b, w), rfl, ?_⟩
      simp
      omega
    · simp only [hw, if_false, slice_zero logs _ hm.1 hm.2.1]
      refine ⟨_, rfl, rfl, hm.1, hm.2.1, hm.2.2, ?_⟩
      by_cases hfull : mt.LogsLen + Min (sw.maxLogsInChunk - mt.LogsLen) logs.length
          = sw.maxLogsInChunk
      · simp [columnWriters, hfull, hw]
      · simp [columnWriters, hfull, hw]

/-- When the list is not empty and the chunk has room, `WriteToChunk` writes something. -/
theorem Min_pos (a : Int) (n : Nat) (ha : 0 < a) (hn : n ≠ 0) : Min a n ≠ 0 := by
  unfold Min; split <;> omega

/-- C10 (as amended). Started from a meta that satisfies the invariant, `WriteToChunk`
(append, rotation) returns a meta that satisfies it. `WriteNewVersionChunk` (delete
rewrite, alignment) on a non-empty list returns a meta with
`0 ≤ LogsLen ≤ maxLogsInChunk` and `LogsLen == maxLogsInChunk ⇒ Offsets == nil`; it
satisfies the whole invariant when the chunk was raw, and a sealed chunk stays sealed
(`Offsets == nil`) whatever the number of records written. -/
theorem C10_meta_invariant (lib : Lib) (sw : Writer) (storage : String) (mt : Meta)
    (logs : List Log) (b : Backuper) (w : World) (hinv : MetaInv sw.maxLogsInChunk mt) :
    (∃ r, sw.WriteToChunk lib storage mt logs b w = some r ∧
      MetaInv sw.maxLogsInChunk r.2.1) ∧
    (logs ≠ [] → ∃ r, sw.WriteNewVersionChunk lib storage mt logs b w = some r ∧
      MetaBound sw.maxLogsInChunk r.2.1 ∧
      (mt.Offsets ≠ none → MetaInv sw.maxLogsInChunk r.2.1) ∧
      (mt.Offsets = none → r.2.1.Offsets = none)) := by
  obtain ⟨h0, h1, h2⟩ := hinv
  constructor
  · obtain ⟨r, hr, _, hk0, _, hkM, hlen, _, _, _, hfull, hzero, hoff, _⟩ :=
      WriteToChunk_meta lib sw storage mt logs b w h1
    refine ⟨r, hr, by omega, by omega, ?_⟩
    by_cases hk : r.1 = 0
    · rw [hzero hk]; exact h2
    · constructor
      · intro hnone
        by_contra hne
        have := (hoff hne).mp hnone
        have := h2.mp this
        omega
      · intro hfl; exact hfull hfl hk
  · intro hne
    unfold Writer.WriteNewVersionChunk
    obtain ⟨a, l, rfl⟩ := List.exists_cons_of_ne_nil hne
    have hlast : ∃ z, (a :: l).getLast? = some z := by
      cases hz : (a :: l).getLast? with
      | none => simp at hz
      | some z => exact ⟨z, rfl⟩
    obtain ⟨z, hz⟩ := hlast
    simp only [List.head?_cons, hz]
    cases hoffs : mt.Offsets with
    | none =>
      simp only
      obtain ⟨r, hr, _, hk0, _, hkM, hlen, _, _, _, hfull, hzero, hoff, hkeep⟩ :=
        WriteToChunk_meta lib sw storage
          { ID := mt.ID, Version := mt.Version + 1, TimeRange := ⟨a.Timestamp, z.Timestamp⟩,
            LogsLen := 0, Offsets := none, IsDeleted := mt.IsDeleted } (a :: l) b w
          (le_trans h0 h1)
      simp only [zero_add, sub_zero] at hlen hkM
      exact ⟨r, hr, ⟨by omega, by omega, fun _ => hkeep rfl⟩,
        fun h => absurd rfl h, fun _ => hkeep rfl⟩
    | some o =>
      simp only
      have hlt : mt.LogsLen < sw.maxLogsInChunk := by
        rcases lt_or_eq_of_le h1 with h | h
        · exact h
        · have := h2.mpr h; rw [hoffs] at this; cases this
      obtain ⟨r, hr, hk, hk0, _, hkM, hlen, _, _, _, hfull, hzero, hoff, hkeep⟩ :=
        WriteToChunk_meta lib sw storage
          { ID := mt.ID, Version := mt.Version + 1, TimeRange := ⟨a.Timestamp, a.Timestamp⟩,
            LogsLen := 0, Offsets := some Offsets.zero, IsDeleted := mt.IsDeleted } (a :: l) b w
          (le_trans h0 h1)
      have hkne : r.1 ≠ 0 := by
        rw [hk]; exact Min_pos _ _ (by simp only [sub_zero]; omega) (by simp)
      simp only [zero_add, sub_zero] at hlen hkM
      have hb : MetaBound sw.maxLogsInChunk r.2.1 :=
        ⟨by omega, by omega, fun hfl => hfull hfl hkne⟩
      refine ⟨r, hr, hb, fun _ => ⟨hb.1, hb.2.1, ?_, hb.2.2⟩, fun h => by cases h⟩
      intro hnone
      by_contra hne2
      have := (hoff hne2).mp hnone
      cases this

/-- Witness for C10: a raw chunk with one of three records, two more appended. -/
theorem C10_meta_invariant_witness :
    ∃ r, (⟨3⟩ : Writer).WriteToChunk testLib "s" { NewMeta 1 4 with LogsLen := 1 }
        [logAt 5, logAt 6] (NewBackuper "s_1") World.empty = some r ∧ MetaInv 3 r.2.1 :=
  (C10_meta_invariant testLib ⟨3⟩ "s" { NewMeta 1 4 with LogsLen := 1 } [logAt 5, logAt 6]
    (NewBackuper "s_1") World.empty (by decide)).1

/-- C10 (counterexample). The delete rewrite of `TestDeleter`: chunk 2 is sealed and full
(4 of 4 records, invariant holds); after `DeleteByTimeRange` with the range 6..7 its meta
has version 2, `LogsLen = 2` and `Offsets == nil`, which breaks
`Offsets == nil ⇔ LogsLen == maxLogsInChunk`. -/
theorem C10_counterexample :
    MetaInv 4 (sealedMeta 2 4 ⟨5, 8⟩) ∧
    (DeleteByTimeRange testLib ⟨4⟩ "storage" (sealedMeta 2 4 ⟨5, 8⟩) ⟨6, 7⟩
        (NewBackuper "del_t") deleterWorld).map
      (fun r => (r.1.Version, r.1.LogsLen, r.1.Offsets, decide (MetaInv 4 r.1))) =
      some (2, 2, none, false) := by
  decide

/-! ## The selector on sorted logs -/

theorem sortSearchLoop_spec (f : Nat → Bool) (n : Nat)
    (hmono : ∀ i j, i ≤ j → j < n → f i = true → f j = true) :
    ∀ fuel i j, i ≤ j → j ≤ n → j - i ≤ fuel →
      (∀ k, k < i → f k = false) → (∀ k, j ≤ k → k < n → f k = true) →
      sortSearchLoop f fuel i j ≤ n ∧
      (∀ k, k < sortSearchLoop f fuel i j → f k = false) ∧
      (∀ k, sortSearchLoop f fuel i j ≤ k → k < n → f k = true) := by
  intro fuel
  induction fuel with
  | zero =>
    intro i j hij hjn hfuel hlo hhi
    have : i = j := by omega
    subst this
    exact ⟨hjn, hlo, hhi⟩
  | succ fuel ih =>
    intro i j hij hjn hfuel hlo hhi
    unfold sortSearchLoop
    by_cases hlt : i < j
    · simp only [hlt, if_true]
      have hh : (i + j) / 2 < j := by omega
      have hh2 : i ≤ (i + j) / 2 := by omega
      cases hf : f ((i + j) / 2) with
      | false =>
        simp only [Bool.not_false, if_true]
        apply ih ((i + j) / 2 + 1) j (by omega) hjn (by omega) _ hhi
        intro k hk
        by_contra hne
        have hk1 : f k = true := by simpa using hne
        have := hmono k ((i + j) / 2) (by omega) (by omega) hk1
        rw [hf] at this; cases this
      | true =>
        simp only [Bool.not_true, Bool.false_eq_true, if_false]
        apply ih i ((i + j) / 2) hh2 (by omega) (by omega) hlo
        intro k hk hkn
        exact hmono _ k hk hkn hf
    · simp only [hlt, if_false]
      have : i = j := by omega
      subst this
      exact ⟨hjn, hlo, hhi⟩

theorem sortSearch_spec (f : Nat → Bool) (n : Nat)
    (hmono : ∀ i j, i ≤ j → j < n → f i = true → f j = true) :
    sortSearch n f ≤ n ∧ (∀ k, k < sortSearch n f → f k = false) ∧
      (∀ k, sortSearch n f ≤ k → k < n → f k = true) :=
  sortSearchLoop_spec f n hmono n 0 n (Nat.zero_le _) (le_refl _) (by omega)
    (fun k hk => absurd hk (Nat.not_lt_zero _)) (fun k hk hkn => absurd hkn (by omega))

theorem filter_of_boundary (p : Log → Bool) (l : List Log) :
    ∀ r, r ≤ l.length → (∀ k, k < r → p (l.getD k default) = false) →
      (∀ k, r ≤ k → k < l.length → p (l.getD k default) = true) →
      l.filter (fun x => !p x) = l.take r ∧ l.filter p = l.drop r := by
  induction l with
  | nil => intro r _ _ _; simp
  | cons a t ih =>
    intro r hr hlo hhi
    cases r with
    | zero =>
      have hall : ∀ x ∈ a :: t, p x = true := by
        intro x hx
        obtain ⟨k, hk, rfl⟩ := List.getElem_of_mem hx
        have := hhi k (Nat.zero_le _) hk
        rwa [List.getD_eq_getElem _ _ hk] at this
      constructor
      · simp only [List.take_zero, List.filter_eq_nil_iff]
        intro x hx; simp [hall x hx]
      · simp only [List.drop_zero, List.filter_eq_self]
        exact hall
    | succ r =>
      have ha : p a = false := by simpa using hlo 0 (Nat.succ_pos _)
      obtain ⟨h1, h2⟩ := ih r (by simpa using hr)
        (fun k hk => by simpa using hlo (k + 1) (by omega))
        (fun k hk hkl => by simpa using hhi (k + 1) (by omega) (by simpa using hkl))
      simp [List.filter_cons, ha, h1, h2]

theorem tsAt_mono (l : List Log) (hs : l.Sorted (fun a b => a.Timestamp ≤ b.Timestamp))
    (i j : Nat) (hij : i ≤ j) (hj : j < l.length) : tsAt l i ≤ tsAt l j := by
  unfold tsAt
  rw [List.getD_eq_getElem _ _ (by omega), List.getD_eq_getElem _ _ hj]
  rcases Nat.lt_or_eq_of_le hij with h | h
  · exact List.pairwise_iff_getElem.mp hs i j (by omega) hj h
  · subst h; exact le_refl _

theorem startInx_spec (logs : List Log) (tr : TimeRange)
    (hs : logs.Sorted (fun a b => a.Timestamp ≤ b.Timestamp)) :
    (if tr.Start ≠ 0 ∧ tsAt logs 0 < tr.Start then
        sortSearch logs.length (fun i => decide (tr.Start ≤ tsAt logs i)) else 0) ≤ logs.length ∧
    logs.filter (fun l => !decide (tr.Start = 0 ∨ tr.Start ≤ l.Timestamp)) =
      logs.take (if tr.Start ≠ 0 ∧ tsAt logs 0 < tr.Start then
        sortSearch logs.length (fun i => decide (tr.Start ≤ tsAt logs i)) else 0) ∧
    logs.filter (fun l => decide (tr.Start = 0 ∨ tr.Start ≤ l.Timestamp)) =
      logs.drop (if tr.Start ≠ 0 ∧ tsAt logs 0 < tr.Start then
        sortSearch logs.length (fun i => decide (tr.Start ≤ tsAt logs i)) else 0) := by
  by_cases hc : tr.Start ≠ 0 ∧ tsAt logs 0 < tr.Start
  · simp only [if_pos hc]
    obtain ⟨h1, h2, h3⟩ := sortSearch_spec (fun i => decide (tr.Start ≤ tsAt logs i)) logs.length
      (by
        intro i j hij hj hi
        have := tsAt_mono logs hs i j hij hj
        simp only [decide_eq_true_eq] at hi ⊢
        omega)
    refine ⟨h1, ?_⟩
    apply filter_of_boundary (fun l => decide (tr.Start = 0 ∨ tr.Start ≤ l.Timestamp)) logs _ h1
    · intro k hk
      have := h2 k hk
      simp only [decide_eq_false_iff_not, tsAt] at this ⊢
      rintro (h | h)
      · exact hc.1 h
      · exact this h
    · intro k hk hkl
      have := h3 k hk hkl
      simp only [decide_eq_true_eq, tsAt] at this ⊢
      exact Or.inr this
  · simp only [if_neg hc]
    refine ⟨Nat.zero_le _, ?_⟩
    apply filter_of_boundary (fun l => decide (tr.Start = 0 ∨ tr.Start ≤ l.Timestamp)) logs 0
      (Nat.zero_le _)
    · intro k hk; omega
    · intro k _ hkl
      simp only [decide_eq_true_eq]
      by_cases h0 : tr.Start = 0
      · exact Or.inl h0
      · right
        have h1 : ¬ tsAt logs 0 < tr.Start := fun h => hc ⟨h0, h⟩
        have := tsAt_mono logs hs 0 k (Nat.zero_le _) hkl
        unfold tsAt at this h1
        omega

theorem endInx_spec (logs : List Log) (tr : TimeRange)
    (hs : logs.Sorted (fun a b => a.Timestamp ≤ b.Timestamp)) :
    (if tr.End ≠ 0 ∧ tr.End < tsAt logs (logs.length - 1) then
        sortSearch logs.length (fun i => decide (tr.End < tsAt logs i)) else logs.length)
      ≤ logs.length ∧
    logs.filter (fun l => !decide (tr.End ≠ 0 ∧ tr.End < l.Timestamp)) =
      logs.take (if tr.End ≠ 0 ∧ tr.End < tsAt logs (logs.length - 1) then
        sortSearch logs.length (fun i => decide (tr.End < tsAt logs i)) else logs.length) ∧
    logs.filter (fun l => decide (tr.End ≠ 0 ∧ tr.End < l.Timestamp)) =
      logs.drop (if tr.End ≠ 0 ∧ tr.End < tsAt logs (logs.length - 1) then
        sortSearch logs.length (fun i => decide (tr.End < tsAt logs i)) else logs.length) := by
  by_cases hc : tr.End ≠ 0 ∧ tr.End < tsAt logs (logs.length - 1)
  · simp only [if_pos hc]
    obtain ⟨h1, h2, h3⟩ := sortSearch_spec (fun i => decide (tr.End < tsAt logs i)) logs.length
      (by
        intro i j hij hj hi
        have := tsAt_mono logs hs i j hij hj
        simp only [decide_eq_true_eq] at hi ⊢
        omega)
    refine ⟨h1, ?_⟩
    apply filter_of_boundary (fun l => decide (tr.End ≠ 0 ∧ tr.End < l.Timestamp)) logs _ h1
    · intro k hk
      have := h2 k hk
      simp only [decide_eq_false_iff_not, tsAt] at this ⊢
      rintro ⟨_, h⟩
      exact this h
    · intro k hk hkl
      have := h3 k hk hkl
      simp only [decide_eq_true_eq, tsAt] at this ⊢
      exact ⟨hc.1, this⟩
  · simp only [if_neg hc]
    refine ⟨le_refl _, ?_⟩
    apply filter_of_boundary (fun l => decide (tr.End ≠ 0 ∧ tr.End < l.Timestamp)) logs
      logs.length (le_refl _)
    · intro k hk
      simp only [decide_eq_false_iff_not]
      rintro ⟨h0, h⟩
      have h1 : ¬ tr.End < tsAt logs (logs.length - 1) := fun h => hc ⟨h0, h⟩
      have := tsAt_mono logs hs k (logs.length - 1) (by omega) (by omega)
      unfold tsAt at this h1
      omega
    · intro k hk hkl; omega

theorem slice_nat {α : Type} (l : List α) (a b : Nat) (hab : a ≤ b) (hb : b ≤ l.length) :
    slice l (a : Int) (b : Int) = some ((l.drop a).take (b - a)) := by
  have h : (0 : Int) ≤ a ∧ (a : Int) ≤ b ∧ (b : Int) ≤ l.length := by omega
  simp [slice, h]

theorem kept_of_boundaries (logs : List Log) (tr : TimeRange) (s e : Nat)
    (htr : tr.Start = 0 ∨ tr.End = 0 ∨ tr.Start ≤ tr.End)
    (hs1 : logs.filter (fun l => !decide (tr.Start = 0 ∨ tr.Start ≤ l.Timestamp)) = logs.take s)
    (hs2 : logs.filter (fun l => decide (tr.Start = 0 ∨ tr.Start ≤ l.Timestamp)) = logs.drop s)
    (he2 : logs.filter (fun l => decide (tr.End ≠ 0 ∧ tr.End < l.Timestamp)) = logs.drop e) :
    logs.take s ++ logs.drop e =
      logs.filter (fun l => decide (¬ tr.Contains l.Timestamp)) := by
  have hA : ∀ x ∈ logs.take s, ¬ (tr.Start = 0 ∨ tr.Start ≤ x.Timestamp) := by
    intro x hx
    rw [← hs1] at hx
    simpa using (List.mem_filter.mp hx).2
  have hB : ∀ x ∈ logs.drop s, tr.Start = 0 ∨ tr.Start ≤ x.Timestamp := by
    intro x hx
    rw [← hs2] at hx
    simpa using (List.mem_filter.mp hx).2
  have h1 : (logs.take s).filter (fun l => decide (¬ tr.Contains l.Timestamp)) = logs.take s := by
    rw [List.filter_eq_self]
    intro x hx
    have := hA x hx
    simp only [TimeRange.Contains, decide_eq_true_eq]
    tauto
  have h2 : (logs.take s).filter (fun l => decide (tr.End ≠ 0 ∧ tr.End < l.Timestamp)) = [] := by
    rw [List.filter_eq_nil_iff]
    intro x hx
    have := hA x hx
    simp only [decide_eq_true_eq]
    push_neg at this
    rintro ⟨h0, hlt⟩
    rcases htr with h | h | h
    · exact this.1 h
    · exact h0 h
    · omega
  have h3 : (logs.drop s).filter (fun l => decide (¬ tr.Contains l.Timestamp)) =
      (logs.drop s).filter (fun l => decide (tr.End ≠ 0 ∧ tr.End < l.Timestamp)) := by
    apply List.filter_congr
    intro x hx
    have := hB x hx
    simp only [TimeRange.Contains, decide_eq_decide]
    constructor
    · intro h
      by_contra hn
      apply h
      refine ⟨this, ?_⟩
      by_cases h0 : tr.End = 0
      · exact Or.inl h0
      · right
        by_contra hlt
        exact hn ⟨h0, by omega⟩
    · rintro ⟨h0, hlt⟩ ⟨_, h | h⟩
      · exact h0 h
      · omega
  have h4 : (logs.drop s).filter (fun l => decide (tr.End ≠ 0 ∧ tr.End < l.Timestamp)) =
      logs.drop e := by
    rw [← he2]
    conv_rhs => rw [← List.take_append_drop s logs, List.filter_append, h2, List.nil_append]
  conv_rhs => rw [← List.take_append_drop s logs, List.filter_append, h1, h3, h4]

theorem of_not_IsCrossed (tr a : TimeRange) (h : IsCrossed tr a = false) :
    (tr.End ≠ 0 ∧ a.Start ≠ 0 ∧ tr.End < a.Start) ∨ (a.End ≠ 0 ∧ tr.Start ≠ 0 ∧ a.End < tr.Start) := by
  unfold IsCrossed at h
  by_cases h1 : tr.End = 0 <;> by_cases h2 : a.Start = 0 <;> by_cases h3 : tr.End < a.Start <;>
    by_cases h4 : a.End = 0 <;> by_cases h5 : tr.Start = 0 <;> by_cases h6 : a.End < tr.Start <;>
    simp_all

/-- On logs in timestamp order and a range that is not inverted, `GetLogsOutOfRange`
returns, in their order, the logs whose timestamp is not in the range. -/
theorem GetLogsOutOfRange_sorted (lib : Lib) (logs : List Log) (tr : TimeRange)
    (hs : logs.Sorted (fun a b => a.Timestamp ≤ b.Timestamp))
    (htr : tr.Start = 0 ∨ tr.End = 0 ∨ tr.Start ≤ tr.End) :
    GetLogsOutOfRange lib logs tr true =
      some (logs.filter (fun l => decide (¬ tr.Contains l.Timestamp))) := by
  unfold GetLogsOutOfRange GetIndicesOfRange
  by_cases h00 : tr.Start = 0 ∧ tr.End = 0
  · simp only [if_pos h00]
    have hnil : logs.filter (fun l => decide (¬ tr.Contains l.Timestamp)) = [] := by
      rw [List.filter_eq_nil_iff]
      intro x _
      simp [TimeRange.Contains, h00.1, h00.2]
    have hs0 := slice_nat logs 0 0 (le_refl _) (Nat.zero_le _)
    simp only [Nat.cast_zero, List.drop_zero, Nat.sub_zero, List.take_zero] at hs0
    rw [hnil]
    simp [hs0]
  · simp only [if_neg h00]
    by_cases hl : logs.length = 0
    · have : logs = [] := List.length_eq_zero.mp hl
      subst this
      simp
    · simp only [if_neg hl, Bool.not_true, Bool.false_eq_true, if_false]
      cases hcr : IsCrossed tr ⟨tsAt logs 0, tsAt logs (logs.length - 1)⟩ with
      | false =>
        simp only [Bool.not_false, if_true]
        congr 1
        symm
        rw [List.filter_eq_self]
        intro x hx
        obtain ⟨k, hk, rfl⟩ := List.getElem_of_mem hx
        have hlo := tsAt_mono logs hs 0 k (Nat.zero_le _) hk
        have hhi := tsAt_mono logs hs k (logs.length - 1) (by omega) (by omega)
        have hk2 : tsAt logs k = logs[k].Timestamp := by
          unfold tsAt; rw [List.getD_eq_getElem _ _ hk]
        rw [hk2] at hlo hhi
        simp only [TimeRange.Contains, decide_eq_true_eq]
        rcases of_not_IsCrossed _ _ hcr with ⟨h1, _, h3⟩ | ⟨_, h2, h3⟩
        · simp only at h3
          rintro ⟨_, h | h⟩
          · exact h1 h
          · omega
        · simp only at h3
          rintro ⟨h | h, _⟩
          · exact h2 h
          · omega
      | true =>
        simp only [Bool.not_true, Bool.false_eq_true, if_false]
        obtain ⟨hsl, hs1, hs2⟩ := startInx_spec logs tr hs
        obtain ⟨hel, he1, he2⟩ := endInx_spec logs tr hs
        generalize (if tr.Start ≠ 0 ∧ tsAt logs 0 < tr.Start then
          sortSearch logs.length (fun i => decide (tr.Start ≤ tsAt logs i)) else 0) = s at *
        generalize (if tr.End ≠ 0 ∧ tr.End < tsAt logs (logs.length - 1) then
          sortSearch logs.length (fun i => decide (tr.End < tsAt logs i)) else logs.length) = e at *
        have hkept := kept_of_boundaries logs tr s e htr hs1 hs2 he2
        have hneg : ¬ ((s : Int) = -1) := by omega
        simp only [if_neg hneg]
        by_cases hee : (e : Int) = logs.length
        · have hee2 : e = logs.length := by exact_mod_cast hee
          simp only [if_pos hee]
          have := slice_nat logs 0 s (Nat.zero_le _) hsl
          simp only [Nat.cast_zero, List.drop_zero, Nat.sub_zero] at this
          rw [this, ← hkept, hee2, List.drop_length, List.append_nil]
        · simp only [if_neg hee]
          by_cases hs0 : (s : Int) = 0
          · have hs02 : s = 0 := by exact_mod_cast hs0
            simp only [if_pos hs0]
            rw [slice_nat logs e logs.length hel (le_refl _), ← hkept, hs02]
            simp
          · simp only [if_neg hs0]
            have h1 := slice_nat logs 0 s (Nat.zero_le _) hsl
            simp only [Nat.cast_zero, List.drop_zero, Nat.sub_zero] at h1
            rw [h1, slice_nat logs e logs.length hel (le_refl _), ← hkept]
            simp [JoinSlices]

theorem Min_eq_right (a : Int) (n : Nat) (h : (n : Int) ≤ a) : Min a n = n := by
  unfold Min; split <;> omega

@[simp] theorem Commit_chunks (b : Backuper) (w : World) : (b.Commit w).chunks = w.chunks := by
  unfold Backuper.Commit; split <;> rfl

@[simp] theorem emit_chunks (w : World) (e : FsEvent) : (w.emit e).chunks = w.chunks := rfl

@[simp] theorem setChunk_same (w : World) (p : ChunkPath) (d : ChunkDir) :
    (w.setChunk p d).chunks p = d := by
  simp [World.setChunk]

theorem setChunk_other (w : World) (p q : ChunkPath) (d : ChunkDir) (h : q ≠ p) :
    (w.setChunk p d).chunks q = w.chunks q := by
  simp [World.setChunk, h]

/-- Effect of `WriteToChunk` on the files: the written logs are appended to the rows of the
chunk directory of the meta, the rows of every other directory stay, and `meta.new` of
the chunk holds the returned meta whenever something was written. -/
theorem WriteToChunk_rows (lib : Lib) (sw : Writer) (storage : String) (mt : Meta)
    (logs : List Log) (b : Backuper) (w : World) (r : Int × Meta × Backuper × World)
    (h : sw.WriteToChunk lib storage mt logs b w = some r) :
    (∀ p, (r.2.2.2.chunks p).rows =
      if p = chunkPath storage mt then (w.chunks p).rows ++ logs.take r.1.toNat
      else (w.chunks p).rows) ∧
    (r.1 ≠ 0 → (r.2.2.2.chunks (chunkPath storage mt)).metaNew = some r.2.1) := by
  unfold Writer.WriteToChunk at h
  by_cases hl : logs.length = 0
  · rw [if_pos hl] at h
    cases h
    constructor
    · intro p; split <;> simp
    · intro h; exact absurd rfl h
  · rw [if_neg hl] at h
    by_cases hw : Min (sw.maxLogsInChunk - mt.LogsLen) logs.length = 0
    · simp only [hw, if_true] at h
      cases h
      constructor
      · intro p; split <;> simp
      · intro h; exact absurd rfl h
    · simp only [hw, if_false] at h
      cases hsl : slice logs 0 (Min (sw.maxLogsInChunk - mt.LogsLen) logs.length) with
      | none => rw [hsl] at h; cases h
      | some part =>
        rw [hsl] at h
        simp only [Option.some.injEq] at h
        subst h
        have hpart : part = logs.take (Min (sw.maxLogsInChunk - mt.LogsLen) logs.length).toNat := by
          unfold slice at hsl
          split at hsl
          · simpa using hsl.symm
          · cases hsl
        have hname : chunkPath storage
            (if mt.LogsLen + Min (sw.maxLogsInChunk - mt.LogsLen) logs.length = sw.maxLogsInChunk
              then { mt with LogsLen := mt.LogsLen + Min (sw.maxLogsInChunk - mt.LogsLen) logs.length,
                             Offsets := none }
              else { mt with LogsLen := mt.LogsLen + Min (sw.maxLogsInChunk - mt.LogsLen) logs.length })
            = chunkPath storage mt := by
          split <;> rfl
        constructor
        · intro p
          simp only [hname]
          by_cases hp : p = chunkPath storage mt
          · subst hp
            simp [hpart]
          · simp [hp, setChunk_other]
        · intro _
          simp only [hname]
          simp

/-- The call `WriteNewVersionChunk` on a sealed chunk with a non-empty list of at most
`maxLogsInChunk` logs: the whole list is appended to the directory of the next version. -/
theorem WriteNewVersionChunk_sealed (lib : Lib) (sw : Writer) (storage : String) (mt : Meta)
    (logs : List Log) (b : Backuper) (w : World)
    (hsealed : mt.Offsets = none) (hne : logs ≠ []) (hM : (logs.length : Int) ≤ sw.maxLogsInChunk) :
    ∃ r, sw.WriteNewVersionChunk lib storage mt logs b w = some r ∧
      r.1 = logs.length ∧ r.2.1.ID = mt.ID ∧ r.2.1.Version = mt.Version + 1 ∧
      r.2.1.LogsLen = logs.length ∧ r.2.1.Offsets = none ∧ r.2.1.IsDeleted = mt.IsDeleted ∧
      (∀ p, (r.2.2.2.chunks p).rows =
        if p = ⟨storage, mt.ID, mt.Version + 1⟩ then (w.chunks p).rows ++ logs
        else (w.chunks p).rows) ∧
      (r.2.2.2.chunks ⟨storage, mt.ID, mt.Version + 1⟩).metaNew = some r.2.1 := by
  unfold Writer.WriteNewVersionChunk
  obtain ⟨a, l, rfl⟩ := List.exists_cons_of_ne_nil hne
  have hlast : ∃ z, (a :: l).getLast? = some z := by
    cases hz : (a :: l).getLast? with
    | none => simp at hz
    | some z => exact ⟨z, rfl⟩
  obtain ⟨z, hz⟩ := hlast
  simp only [List.head?_cons, hz, hsealed]
  obtain ⟨r, hr, hk, _, _, _, hlen, hid, hver, hdel, _, _, _, hkeep⟩ :=
    WriteToChunk_meta lib sw storage
      { ID := mt.ID, Version := mt.Version + 1, TimeRange := ⟨a.Timestamp, z.Timestamp⟩,
        LogsLen := 0, Offsets := none, IsDeleted := mt.IsDeleted } (a :: l) b w
      (by simp only; omega)
  obtain ⟨hrows, hmeta⟩ := WriteToChunk_rows _ _ _ _ _ _ _ r hr
  simp only [sub_zero] at hk
  rw [Min_eq_right _ _ hM] at hk
  have hk0 : r.1 ≠ 0 := by rw [hk]; simp only [List.length_cons]; omega
  refine ⟨r, hr, hk, hid, hver, by simpa [hk] using hlen, hkeep rfl, hdel, ?_, hmeta hk0⟩
  intro p
  rw [hrows p, hk]
  simp [chunkPath]

/-- C4 (as amended). For a sealed chunk whose directory holds its `LogsLen ≤
maxLogsInChunk` records in timestamp order, whose next version directory is empty, whose
time range is not covered by the deletion range and that has a record outside the range,
and for a deletion range that is not inverted (`Start ≤ End` when both are set),
`DeleteByTimeRange` writes version+1 of the chunk holding exactly, in their order, the
records whose timestamp is outside `[Start, End]` (`0` is no bound). -/
theorem C4_DeleteByTimeRange_rewrite (lib : Lib) (sw : Writer) (storage : String) (mt : Meta)
    (tr : TimeRange) (b : Backuper) (w : World)
    (hsealed : mt.Offsets = none)
    (hlen : mt.LogsLen = ((w.chunks (chunkPath storage mt)).rows.length : Int))
    (hM : mt.LogsLen ≤ sw.maxLogsInChunk)
    (hsorted : (w.chunks (chunkPath storage mt)).rows.Sorted
      (fun a b => a.Timestamp ≤ b.Timestamp))
    (hfresh : (w.chunks ⟨storage, mt.ID, mt.Version + 1⟩).rows = [])
    (hnot : IsInside tr mt.TimeRange = false)
    (hout : ∃ l ∈ (w.chunks (chunkPath storage mt)).rows, ¬ tr.Contains l.Timestamp)
    (htr : tr.Start = 0 ∨ tr.End = 0 ∨ tr.Start ≤ tr.End) :
    ∃ mt1 b1 w1, DeleteByTimeRange lib sw storage mt tr b w = some (mt1, b1, w1) ∧
      mt1.ID = mt.ID ∧ mt1.Version = mt.Version + 1 ∧ mt1.Offsets = none ∧
      mt1.IsDeleted = mt.IsDeleted ∧
      (mt1.LogsLen : Int) = (((w.chunks (chunkPath storage mt)).rows.filter
        (fun l => decide (¬ tr.Contains l.Timestamp))).length : Int) ∧
      (w1.chunks (chunkPath storage mt1)).rows =
        (w.chunks (chunkPath storage mt)).rows.filter
          (fun l => decide (¬ tr.Contains l.Timestamp)) ∧
      (w1.chunks (chunkPath storage mt1)).metaNew = some mt1 ∧
      (w1.chunks (chunkPath storage mt)).rows = (w.chunks (chunkPath storage mt)).rows := by
  unfold DeleteByTimeRange
  simp only [hnot, Bool.false_eq_true, if_false]
  have hread : ReadChunk storage mt w =
      some ((w.chunks (chunkPath storage mt)).rows, w.emit (FsEvent.readColumns (chunkPath storage mt))) := by
    unfold ReadChunk
    have hc : 0 ≤ mt.LogsLen ∧ mt.LogsLen ≤ ((w.chunks (chunkPath storage mt)).rows.length : Int) := by
      omega
    rw [if_pos hc, hlen, Int.toNat_ofNat, List.take_length]
  rw [hread]
  simp only [hsealed, beq_self_eq_true]
  rw [GetLogsOutOfRange_sorted lib _ tr hsorted htr]
  simp only
  have hne : (w.chunks (chunkPath storage mt)).rows.filter
      (fun l => decide (¬ tr.Contains l.Timestamp)) ≠ [] := by
    obtain ⟨l, hl, hlo⟩ := hout
    intro hnil
    rw [List.filter_eq_nil_iff] at hnil
    exact hnil l hl (by simpa using hlo)
  have hle : (((w.chunks (chunkPath storage mt)).rows.filter
      (fun l => decide (¬ tr.Contains l.Timestamp))).length : Int) ≤ sw.maxLogsInChunk := by
    have := List.length_filter_le (fun l => decide (¬ tr.Contains l.Timestamp))
      (w.chunks (chunkPath storage mt)).rows
    omega
  obtain ⟨r, hr, _, hid, hver, hll, hoff, hdel, hrows, hmeta⟩ :=
    WriteNewVersionChunk_sealed lib sw storage mt _ b
      (w.emit (FsEvent.readColumns (chunkPath storage mt))) hsealed hne hle
  rw [hr]
  have hp1 : chunkPath storage r.2.1 = ⟨storage, mt.ID, mt.Version + 1⟩ := by
    simp [chunkPath, hid, hver]
  refine ⟨r.2.1, r.2.2.1, r.2.2.2, rfl, hid, hver, hoff, hdel, hll, ?_, ?_, ?_⟩
  · rw [hp1, hrows]
    simp only [if_true, World.emit]
    rw [hfresh, List.nil_append]
  · rw [hp1]; exact hmeta
  · rw [hrows]
    have : chunkPath storage mt ≠ ⟨storage, mt.ID, mt.Version + 1⟩ := by
      simp [chunkPath]
    simp [this, World.emit]

/-- Witness for C4, the delete by time range of `TestDeleter`: the range 6..7 on the
timestamps 5..8 with levels 1,2,3,4 leaves the levels 1 and 4 in version 2. -/
theorem C4_DeleteByTimeRange_rewrite_witness :
    ∃ mt1 b1 w1, DeleteByTimeRange testLib ⟨4⟩ "storage" (sealedMeta 2 4 ⟨5, 8⟩) ⟨6, 7⟩
        (NewBackuper "del_t") deleterWorld = some (mt1, b1, w1) ∧
      mt1.Version = 2 ∧ (w1.chunks (chunkPath "storage" mt1)).rows = [logLv 5 1, logLv 8 4] :=
  let ⟨mt1, b1, w1, h, _, hv, _, _, _, hrows, _⟩ :=
    C4_DeleteByTimeRange_rewrite testLib ⟨4⟩ "storage" (sealedMeta 2 4 ⟨5, 8⟩) ⟨6, 7⟩
      (NewBackuper "del_t") deleterWorld (by decide) (by decide) (by decide) (by decide)
      (by decide) (by decide) ⟨logLv 5 1, by decide, by decide⟩ (by decide)
  ⟨mt1, b1, w1, h, hv, hrows.trans (by decide)⟩

/-- C4 (counterexample). With the inverted range `{Start: 5, End: 2}` no timestamp is in
the range, so every record of the sealed chunk 1,3,6 is outside it; the chunk is not
covered and `DeleteByTimeRange` writes 1,3,3 as version 2: the record 3 twice, 6 lost. -/
theorem C4_counterexample :
    IsInside ⟨5, 2⟩ (sealedMeta 1 3 ⟨1, 6⟩).TimeRange = false ∧
    (∀ l ∈ [logAt 1, logAt 3, logAt 6], ¬ (⟨5, 2⟩ : TimeRange).Contains l.Timestamp) ∧
    (DeleteByTimeRange testLib ⟨3⟩ "s" (sealedMeta 1 3 ⟨1, 6⟩) ⟨5, 2⟩ (NewBackuper "del_t")
        (World.empty.setChunk ⟨"s", 1, 1⟩ ⟨[logAt 1, logAt 3, logAt 6], none, none⟩)).map
      (fun r => (r.1.Version, (r.2.2.chunks (chunkPath "s" r.1)).rows)) =
      some (2, [logAt 1, logAt 3, logAt 3]) ∧
    [logAt 1, logAt 3, logAt 3] ≠
      [logAt 1, logAt 3, logAt 6].filter
        (fun l => decide (¬ (⟨5, 2⟩ : TimeRange).Contains l.Timestamp)) := by
  decide

/-- C3 (failing input). A sealed chunk with timestamps 1,2,3 and levels 1,1,5, the range
1..2 and the condition `level == 5`. The record with timestamp 3 is outside the range and
no record inside it has level 5, yet `DeleteByCondition` returns true and writes version 2
without the record 3: the loop tests `i > endInx` where `endInx` is already one past the
last index in range. The delete by condition of `TestDeleter` (range from 11 on) is given
for comparison: there `endInx` is `len(logs)` and the result is right. -/
theorem C3_removes_record_outside_range :
    ¬ (⟨1, 2⟩ : TimeRange).Contains 3 ∧
    GetIndicesOfRange testLib [logLv 1 1, logLv 2 1, logLv 3 5] ⟨1, 2⟩ true =
      ([logLv 1 1, logLv 2 1, logLv 3 5], 0, 2) ∧
    (DeleteByCondition testLib ⟨3⟩ "s" (sealedMeta 1 3 ⟨1, 3⟩) ⟨1, 2⟩ levelIsFive
        (NewBackuper "del_t")
        (World.empty.setChunk ⟨"s", 1, 1⟩ ⟨[logLv 1 1, logLv 2 1, logLv 3 5], none, none⟩)).map
      (fun r => (r.1, r.2.1.Version, r.2.1.LogsLen, (r.2.2.2.chunks (chunkPath "s" r.2.1)).rows)) =
      some (true, 2, 2, [logLv 1 1, logLv 2 1]) ∧
    (DeleteByCondition testLib ⟨4⟩ "storage" (sealedMeta 3 4 ⟨9, 12⟩) ⟨11, 0⟩ levelIsFive
        (NewBackuper "del_t") deleterWorld).map
      (fun r => (r.1, r.2.1.Version, (r.2.2.2.chunks (chunkPath "storage" r.2.1)).rows)) =
      some (true, 2, [logLv 9 4, logLv 10 5, logLv 11 4]) := by
  decide

set_option maxRecDepth 4000 in
/-- C1 (failing input). One writer (`maxLogsInChunk = 3`, step 1) on the existing, empty
storage `storage` gets the task `[4]` and then the task `[5, 6, 7]`. The first task leaves
the raw chunk `1_1` with one record. The second fills it: the chunk is rewritten as `1_2`
with 4, 5, 6 and `writed` advances by the 3 records written, of which only 2 are the
task's own, so the loop ends and the record 7 is stored nowhere. -/
theorem C1_fill_drops_records :
    ((⟨3⟩ : Writer).RunWriter testLib [⟨"storage", [logAt 4]⟩] 0 [("storage", 1)] 1 7
        testWriterMetasMap World.empty).map
      (fun r => ((liveMetas r.metasMap "storage").map (fun m => (m.ID, m.Version, m.LogsLen)),
        liveRecords r.metasMap r.world "storage")) = some ([(1, 1, 1)], [logAt 4]) ∧
    ((⟨3⟩ : Writer).RunWriter testLib
        [⟨"storage", [logAt 4]⟩, ⟨"storage", [logAt 5, logAt 6, logAt 7]⟩] 0 [("storage", 1)] 1 7
        testWriterMetasMap World.empty).map
      (fun r => ((liveMetas r.metasMap "storage").map (fun m => (m.ID, m.Version, m.LogsLen)),
        liveRecords r.metasMap r.world "storage")) =
      some ([(1, 2, 3)], [logAt 4, logAt 5, logAt 6]) := by
  decide

set_option maxRecDepth 4000 in
/-- C9 (counterexample). The seed of the claim, `TestWriterAndReader`:
`maxLogsInChunk = 3` and the timestamps 9,5,7,3,8,1,4,2 written to the empty storage. The
chunks read back hold 5,7,9 and 1,3,8 and 4,2: the raw chunk `3_1` keeps the order of
submission and is not in timestamp order. -/
theorem C9_counterexample :
    ((⟨3⟩ : Writer).RunWriter testLib [⟨"storage", testWriterLogs⟩] 0 [("storage", 1)] 1 7
        testWriterMetasMap World.empty).map
      (fun r => ((liveMetas r.metasMap "storage").map
        (fun m => (m.ID, m.Version, m.Offsets.isSome,
          ((r.world.chunks (chunkPath "storage" m)).rows.map (fun l => l.Timestamp))))) ) =
      some [(1, 2, false, [5, 7, 9]), (2, 2, false, [1, 3, 8]), (3, 1, true, [4, 2])] ∧
    ¬ ([logAt 4, logAt 2].Sorted (fun a b => a.Timestamp ≤ b.Timestamp)) := by
  decide

/-! ## The writer task on an empty storage -/

theorem Find_of_no_blocks (mm : MetasMap) (storage : String) (id : Nat)
    (h : (mm.state.Get storage).1 = []) : mm.Find storage id = some none := by
  unfold MetasMap.Find
  cases hg : mm.state.Get storage with
  | mk blocks version =>
    rw [hg] at h
    simp only at h
    subst h
    simp only
    split
    · rfl
    · simp [binSearchBlock]

theorem WriteToChunk_backuper (lib : Lib) (sw : Writer) (storage : String) (mt : Meta)
    (logs : List Log) (b : Backuper) (w : World) (r : Int × Meta × Backuper × World)
    (h : sw.WriteToChunk lib storage mt logs b w = some r) :
    r.2.2.1.name = b.name ∧
    (r.1 ≠ 0 → ∃ acts, r.2.2.1.cancelTx = some acts ∧ acts ≠ []) ∧
    (r.1 = 0 → r.2.2.1 = b) := by
  unfold Writer.WriteToChunk at h
  by_cases hl : logs.length = 0
  · rw [if_pos hl] at h
    cases h
    exact ⟨rfl, fun h => absurd rfl h, fun _ => rfl⟩
  · rw [if_neg hl] at h
    by_cases hw : Min (sw.maxLogsInChunk - mt.LogsLen) logs.length = 0
    · simp only [hw, if_true] at h
      cases h
      exact ⟨rfl, fun h => absurd rfl h, fun _ => rfl⟩
    · simp only [hw, if_false] at h
      cases hsl : slice logs 0 (Min (sw.maxLogsInChunk - mt.LogsLen) logs.length) with
      | none => rw [hsl] at h; cases h
      | some part =>
        rw [hsl] at h
        simp only [Option.some.injEq] at h
        subst h
        refine ⟨?_, ?_, fun h => absurd h hw⟩
        · simp only [Backuper.AddChunk, Backuper.AddForReplace]
          split
          · rfl
          · split <;> rfl
        · intro _
          simp only [Backuper.AddChunk, Backuper.AddForReplace]
          exact ⟨_, rfl, by simp⟩

theorem Cancel_rows_foldl (acts : List ChunkPath) (w : World) (p : ChunkPath) :
    ((acts.foldl applyRename w).chunks p).rows = (w.chunks p).rows ∧
    (acts.foldl applyRename w).journals = w.journals := by
  induction acts generalizing w with
  | nil => exact ⟨rfl, rfl⟩
  | cons a acts ih =>
    simp only [List.foldl_cons]
    obtain ⟨h1, h2⟩ := ih (applyRename w a)
    rw [h1, h2]
    unfold applyRename
    split
    · exact ⟨rfl, rfl⟩
    · constructor
      · by_cases hp : p = a
        · subst hp; simp
        · simp [setChunk_other _ _ _ _ hp]
      · rfl

/-- With a staged rename, `Backuper.Cancel` completes and leaves the rows of every chunk
directory as they are. -/
theorem Cancel_of_staged (b : Backuper) (w : World) (acts : List ChunkPath)
    (h : b.cancelTx = some acts) (hne : acts ≠ []) :
    ∃ b1 w1, b.Cancel w = some (b1, w1) ∧ ∀ p, (w1.chunks p).rows = (w.chunks p).rows := by
  unfold Backuper.Cancel
  rw [h]
  have hlen : ¬ acts.length = 0 := fun h0 => hne (List.length_eq_zero.mp h0)
  simp only [hlen, if_false]
  have hj := (Cancel_rows_foldl acts
    (({ w with journals := fun n =>
          if n = b.name then
            some (acts.map (fun p => Action.rename (FilePath.metaNew p) (FilePath.metaFile p)))
          else w.journals n } : World).emit (FsEvent.writeJournal b.name)))
  have hjn := (hj ⟨"", 0, 0⟩).2
  rw [hjn]
  simp only [World.emit, eq_self_iff_true, ite_true]
  refine ⟨_, _, rfl, ?_⟩
  intro p
  simp only [emit_chunks]
  exact (hj p).1

theorem writeLoop_done (lib : Lib) (sw : Writer) (step : Nat) (mm : MetasMap)
    (task : WriteLogsTask) (fuel : Nat) (st : WriteLoop)
    (h : ¬ st.writed < task.Logs.length) : writeLoop lib sw step mm task fuel st = some st := by
  cases fuel with
  | zero => simp [writeLoop, h]
  | succ n => simp [writeLoop, h]

/-- One round of the writer loop that seals a new chunk of an empty storage. -/
theorem writeLoop_rotate (lib : Lib) (sw : Writer) (step : Nat) (mm : MetasMap)
    (task : WriteLogsTask) (fuel : Nat) (st : WriteLoop) (M k : Nat)
    (hM : sw.maxLogsInChunk = M) (hM1 : 1 ≤ M)
    (hfind : ∀ id, mm.Find task.Storage id = some none)
    (hk : st.writed = k) (hkM : k + M ≤ task.Logs.length) :
    ∃ mt1 b1 w1,
      writeLoop lib sw step mm task (fuel + 1) st =
        writeLoop lib sw step mm task fuel
          { id := st.id + step, writed := ((k + M : Nat) : Int), forUpdate := st.forUpdate,
            forAdd := st.forAdd ++ [mt1], backuper := b1, world := w1 } ∧
      mt1.ID = st.id ∧ mt1.Version = 2 ∧ mt1.LogsLen = M ∧ mt1.Offsets = none ∧
      mt1.IsDeleted = false ∧
      (∀ p, (w1.chunks p).rows =
        if p = ⟨task.Storage, st.id, 2⟩ then
          (st.world.chunks p).rows ++ lib.sortLogs.run ((task.Logs.drop k).take M)
        else (st.world.chunks p).rows) ∧
      b1.name = st.backuper.name ∧ (∃ acts, b1.cancelTx = some acts ∧ acts ≠ []) := by
  have hne : task.Logs ≠ [] := by
    intro h; rw [h] at hkM; simp at hkM; omega
  obtain ⟨first, rest, hL⟩ := List.exists_cons_of_ne_nil hne
  have hhead : task.Logs.head? = some first := by rw [hL]; rfl
  have hlt : st.writed < (task.Logs.length : Int) := by rw [hk]; omega
  have hsl : slice task.Logs st.writed (st.writed + (sw.maxLogsInChunk - 0)) =
      some ((task.Logs.drop k).take M) := by
    rw [hk, hM, sub_zero]
    have := slice_nat task.Logs k (k + M) (by omega) hkM
    rw [Nat.add_sub_cancel_left] at this
    exact_mod_cast this
  have hsortlen : (lib.sortLogs.run ((task.Logs.drop k).take M)).length = M := by
    rw [(lib.sortLogs.perm _).length_eq, List.length_take, List.length_drop]
    omega
  obtain ⟨r, hr, hr1, _, _, _, hlen, hid, hver, hdel, hfull, _, _, _⟩ :=
    WriteToChunk_meta lib sw task.Storage
      { NewMeta st.id first.Timestamp with Version := 1 + 1, LogsLen := 0 }
      (lib.sortLogs.run ((task.Logs.drop k).take M)) st.backuper
      (st.world.emit (FsEvent.readColumns (chunkPath task.Storage (NewMeta st.id first.Timestamp))))
      (by simp only; omega)
  obtain ⟨hrows, _⟩ := WriteToChunk_rows _ _ _ _ _ _ _ r hr
  obtain ⟨hbn, hbc, _⟩ := WriteToChunk_backuper _ _ _ _ _ _ _ r hr
  have hr1M : r.1 = M := by
    rw [hr1, hsortlen, hM]
    simp only [sub_zero]
    exact Min_eq_right _ _ (le_refl _)
  have hr0 : r.1 ≠ 0 := by omega
  refine ⟨r.2.1, r.2.2.1, r.2.2.2, ?_, hid, hver, by simpa [hr1M] using hlen,
    hfull (by simpa [hr1M, hM] using hlen) hr0, hdel, ?_, hbn, hbc hr0⟩
  · rw [writeLoop]
    have hread : ReadChunk task.Storage (NewMeta st.id first.Timestamp) st.world =
        some ([], st.world.emit
          (FsEvent.readColumns (chunkPath task.Storage (NewMeta st.id first.Timestamp)))) := by
      simp [ReadChunk, NewMeta]
    have htot : ¬ ((NewMeta st.id first.Timestamp).LogsLen + (task.Logs.length : Int) - st.writed
        < sw.maxLogsInChunk) := by
      simp only [NewMeta]; rw [hk, hM]; omega
    simp only [if_pos hlt, hfind, hhead, Option.getD_none, if_neg htot, hread]
    have hsl2 : slice task.Logs st.writed
        (st.writed + (sw.maxLogsInChunk - (NewMeta st.id first.Timestamp).LogsLen)) =
        some ((task.Logs.drop k).take M) := hsl
    simp only [hsl2, JoinSlices, List.flatten_cons, List.flatten_nil, List.nil_append,
      List.append_nil]
    have hr2 : Writer.WriteToChunk lib sw task.Storage
        { ID := (NewMeta st.id first.Timestamp).ID,
          Version := (NewMeta st.id first.Timestamp).Version + 1,
          TimeRange := (NewMeta st.id first.Timestamp).TimeRange, LogsLen := 0,
          Offsets := (NewMeta st.id first.Timestamp).Offsets,
          IsDeleted := (NewMeta st.id first.Timestamp).IsDeleted }
        (lib.sortLogs.run ((task.Logs.drop k).take M)) st.backuper
        (st.world.emit (FsEvent.readColumns (chunkPath task.Storage (NewMeta st.id first.Timestamp))))
        = some r := hr
    rw [hr2]
    simp only [Option.isSome_none, Bool.false_eq_true, if_false, hk, hr1M]
    congr 2
  · intro p
    rw [hrows p, hr1M]
    simp only [chunkPath, NewMeta, emit_chunks, Int.toNat_ofNat]
    rw [List.take_of_length_le (le_of_eq hsortlen)]

/-- The last round of the writer loop on an empty storage: fewer than `maxLogsInChunk`
logs are left and go to a new raw chunk, in the order of the task. -/
theorem writeLoop_append (lib : Lib) (sw : Writer) (step : Nat) (mm : MetasMap)
    (task : WriteLogsTask) (fuel : Nat) (st : WriteLoop) (M k : Nat)
    (hM : sw.maxLogsInChunk = M)
    (hfind : ∀ id, mm.Find task.Storage id = some none)
    (hk : st.writed = k) (hkN : k < task.Logs.length) (hkM : task.Logs.length - k < M) :
    ∃ mt1 b1 w1,
      writeLoop lib sw step mm task (fuel + 1) st =
        some { id := st.id, writed := (task.Logs.length : Int), forUpdate := st.forUpdate,
               forAdd := st.forAdd ++ [mt1], backuper := b1, world := w1 } ∧
      mt1.ID = st.id ∧ mt1.Version = 1 ∧ mt1.LogsLen = ((task.Logs.length - k : Nat) : Int) ∧
      mt1.Offsets ≠ none ∧ mt1.IsDeleted = false ∧
      (∀ p, (w1.chunks p).rows =
        if p = ⟨task.Storage, st.id, 1⟩ then (st.world.chunks p).rows ++ task.Logs.drop k
        else (st.world.chunks p).rows) ∧
      b1.name = st.backuper.name ∧ (∃ acts, b1.cancelTx = some acts ∧ acts ≠ []) := by
  have hne : task.Logs ≠ [] := by
    intro h; rw [h] at hkN; simp at hkN
  obtain ⟨first, rest, hL⟩ := List.exists_cons_of_ne_nil hne
  have hhead : task.Logs.head? = some first := by rw [hL]; rfl
  have hlt : st.writed < (task.Logs.length : Int) := by rw [hk]; omega
  have hsl : slice task.Logs st.writed task.Logs.length = some (task.Logs.drop k) := by
    rw [hk, slice_nat task.Logs k task.Logs.length (by omega) (le_refl _)]
    rw [List.take_of_length_le (by rw [List.length_drop])]
  have hdl : (task.Logs.drop k).length = task.Logs.length - k := List.length_drop _ _
  obtain ⟨r, hr, hr1, _, _, _, hlen, hid, hver, hdel, _, _, hoff, _⟩ :=
    WriteToChunk_meta lib sw task.Storage (NewMeta st.id first.Timestamp)
      (task.Logs.drop k) st.backuper st.world (by simp only [NewMeta]; omega)
  obtain ⟨hrows, _⟩ := WriteToChunk_rows _ _ _ _ _ _ _ r hr
  obtain ⟨hbn, hbc, _⟩ := WriteToChunk_backuper _ _ _ _ _ _ _ r hr
  have hr1N : r.1 = ((task.Logs.length - k : Nat) : Int) := by
    rw [hr1, hdl, hM]
    simp only [NewMeta, sub_zero]
    exact Min_eq_right _ _ (by omega)
  have hr0 : r.1 ≠ 0 := by omega
  have hll : r.2.1.LogsLen = ((task.Logs.length - k : Nat) : Int) := by
    rw [hlen, hr1N]; simp [NewMeta]
  refine ⟨r.2.1, r.2.2.1, r.2.2.2, ?_, hid, hver, hll, ?_, hdel, ?_, hbn, hbc hr0⟩
  · rw [writeLoop]
    have htot : (NewMeta st.id first.Timestamp).LogsLen + (task.Logs.length : Int) - st.writed
        < sw.maxLogsInChunk := by
      simp only [NewMeta]; rw [hk, hM]; omega
    simp only [if_pos hlt, hfind, hhead, Option.getD_none, if_pos htot, hsl, hr,
      Option.isSome_none, Bool.false_eq_true, if_false]
    have hw : st.writed + r.1 = (task.Logs.length : Int) := by rw [hk, hr1N]; omega
    rw [hw]
    exact writeLoop_done _ _ _ _ _ _ _ (by simp)
  · intro hnone
    have hne2 : r.2.1.LogsLen ≠ sw.maxLogsInChunk := by rw [hll, hM]; omega
    have := (hoff hne2).mp hnone
    simp [NewMeta] at this
  · intro p
    rw [hrows p, hr1N]
    simp only [chunkPath, NewMeta, Int.toNat_ofNat]
    rw [List.take_of_length_le (le_of_eq hdl)]

/-- The writer loop on an empty storage, from the round that starts the chunk number `j`
on: it returns, adds one meta per chunk to `forAdd` and appends the records of each chunk
to the directory of its meta. -/
theorem writeLoop_empty (lib : Lib) (sw : Writer) (step : Nat) (mm : MetasMap)
    (task : WriteLogsTask) (M f : Nat)
    (hM : sw.maxLogsInChunk = M) (hM1 : 1 ≤ M) (hW : 1 ≤ step)
    (hfind : ∀ id, mm.Find task.Storage id = some none) :
    ∀ d j fuel (st : WriteLoop), d = task.Logs.length / M - j → j ≤ task.Logs.length / M →
      task.Logs.length - j * M ≤ fuel →
      st.id = f + j * step → st.writed = ((j * M : Nat) : Int) →
      ∃ st1 added, writeLoop lib sw step mm task fuel st = some st1 ∧
        st1.forUpdate = st.forUpdate ∧ st1.forAdd = st.forAdd ++ added ∧
        st1.id = f + (task.Logs.length / M) * step ∧
        st1.backuper.name = st.backuper.name ∧
        ((j * M < task.Logs.length ∨ ∃ acts, st.backuper.cancelTx = some acts ∧ acts ≠ []) →
          ∃ acts, st1.backuper.cancelTx = some acts ∧ acts ≠ []) ∧
        added.length = (task.Logs.length / M - j) + (if task.Logs.length % M = 0 then 0 else 1) ∧
        (∀ i, i < task.Logs.length / M - j → ∃ mt, added[i]? = some mt ∧
          mt.ID = f + (j + i) * step ∧ mt.Version = 2 ∧ mt.LogsLen = M ∧ mt.Offsets = none ∧
          mt.IsDeleted = false) ∧
        (task.Logs.length % M ≠ 0 → ∃ mt, added[task.Logs.length / M - j]? = some mt ∧
          mt.ID = f + (task.Logs.length / M) * step ∧ mt.Version = 1 ∧
          mt.LogsLen = ((task.Logs.length % M : Nat) : Int) ∧ mt.Offsets ≠ none ∧
          mt.IsDeleted = false) ∧
        (∀ i, j ≤ i → i < task.Logs.length / M →
          (st1.world.chunks ⟨task.Storage, f + i * step, 2⟩).rows =
            (st.world.chunks ⟨task.Storage, f + i * step, 2⟩).rows ++
              lib.sortLogs.run ((task.Logs.drop (i * M)).take M)) ∧
        (task.Logs.length % M ≠ 0 →
          (st1.world.chunks ⟨task.Storage, f + (task.Logs.length / M) * step, 1⟩).rows =
            (st.world.chunks ⟨task.Storage, f + (task.Logs.length / M) * step, 1⟩).rows ++
              task.Logs.drop (task.Logs.length / M * M)) ∧
        (∀ p, (∀ i, j ≤ i → i < task.Logs.length / M → p ≠ ⟨task.Storage, f + i * step, 2⟩) →
          (task.Logs.length % M ≠ 0 →
            p ≠ ⟨task.Storage, f + (task.Logs.length / M) * step, 1⟩) →
          (st1.world.chunks p).rows = (st.world.chunks p).rows) := by
  have hdm : task.Logs.length / M * M + task.Logs.length % M = task.Logs.length := by
    rw [Nat.mul_comm]; exact Nat.div_add_mod _ _
  have hmod : task.Logs.length % M < M := Nat.mod_lt _ (by omega)
  intro d
  induction d with
  | zero =>
    intro j fuel st hd hj hfuel hid hw
    have hjq : j = task.Logs.length / M := by omega
    subst hjq
    by_cases h0 : task.Logs.length % M = 0
    · have hdone : ¬ st.writed < (task.Logs.length : Int) := by rw [hw]; omega
      refine ⟨st, [], writeLoop_done _ _ _ _ _ _ _ hdone, rfl, by simp, hid, rfl, ?_, by simp [h0],
        ?_, fun h => absurd h0 h, ?_, fun h => absurd h0 h, fun _ _ _ => rfl⟩
      · rintro (h | h)
        · omega
        · exact h
      · intro i hi; omega
      · intro i h1 h2; omega
    · obtain ⟨fuel1, rfl⟩ : ∃ n, fuel = n + 1 := ⟨fuel - 1, by omega⟩
      obtain ⟨mt1, b1, w1, heq, hmid, hmv, hml, hmo, hmd, hrows, hbn, hbc⟩ :=
        writeLoop_append lib sw step mm task fuel1 st M (task.Logs.length / M * M) hM hfind hw
          (by omega) (by omega)
      refine ⟨_, [mt1], heq, rfl, rfl, hid, hbn, fun _ => hbc, by simp [h0], ?_, ?_, ?_, ?_, ?_⟩
      · intro i hi; omega
      · intro _
        refine ⟨mt1, by simp, by rw [hmid, hid], hmv, ?_, hmo, hmd⟩
        rw [hml]; congr 1; omega
      · intro i h1 h2; omega
      · intro _
        simp only
        rw [hrows, hid]
        simp
      · intro p _ hp
        simp only
        rw [hrows, hid]
        simp [hp h0]
  | succ d ih =>
    intro j fuel st hd hj hfuel hid hw
    have hjlt : j < task.Logs.length / M := by omega
    have hjM : (j + 1) * M ≤ task.Logs.length / M * M := Nat.mul_le_mul_right _ hjlt
    have hjM2 : (j + 1) * M = j * M + M := by ring
    have e1 : ∀ c a : Nat, a = (task.Logs.length / M - (j + 1)) + c →
        a + 1 = (task.Logs.length / M - j) + c := by intro c a h; omega
    have e2 : ∀ i, i + 1 < task.Logs.length / M - j → i < task.Logs.length / M - (j + 1) := by
      intro i h; omega
    have e3 : ∀ i, j + 1 + i = j + (i + 1) := by intro i; omega
    have e4 : task.Logs.length / M - j = (task.Logs.length / M - (j + 1)) + 1 := by omega
    have e5 : ∀ i, j + 1 ≤ i → j ≤ i := by intro i h; omega
    obtain ⟨fuel1, rfl⟩ : ∃ n, fuel = n + 1 := ⟨fuel - 1, by omega⟩
    obtain ⟨mt1, b1, w1, heq, hmid, hmv, hml, hmo, hmd, hrows, hbn, hbc⟩ :=
      writeLoop_rotate lib sw step mm task fuel1 st M (j * M) hM hM1 hfind hw (by omega)
    obtain ⟨st1, added, hrun, hfu, hfa, hid1, hbn1, hbc1, hlen, hsealed, hraw, hrs, hrr, hfr⟩ :=
      ih (j + 1) fuel1
        { id := st.id + step, writed := ((j * M + M : Nat) : Int), forUpdate := st.forUpdate,
          forAdd := st.forAdd ++ [mt1], backuper := b1, world := w1 }
        (by omega) (by omega) (by omega) (by simp only; rw [hid]; ring)
        (by simp only; rw [hjM2])
    have hne_id : ∀ i, j + 1 ≤ i → f + i * step ≠ f + j * step := by
      intro i hi h
      have : j * step < i * step := Nat.mul_lt_mul_of_lt_of_le hi (le_refl _) (by omega)
      omega
    have hlast_id : f + task.Logs.length / M * step ≠ f + j * step ∨ True := Or.inr trivial
    refine ⟨st1, mt1 :: added, heq.trans hrun, hfu, ?_, hid1, hbn1.trans hbn,
      fun _ => hbc1 (Or.inr hbc), ?_, ?_, ?_, ?_, ?_, ?_⟩
    · rw [hfa]; simp
    · simp only [List.length_cons]; exact e1 _ _ hlen
    · intro i hi
      cases i with
      | zero =>
        exact ⟨mt1, by simp, by rw [hmid, hid]; simp, hmv, hml, hmo, hmd⟩
      | succ i =>
        obtain ⟨mt, h1, h2, h3⟩ := hsealed i (e2 i hi)
        refine ⟨mt, by simpa using h1, ?_, h3⟩
        rw [h2, e3]
    · intro hm
      obtain ⟨mt, h1, h2⟩ := hraw hm
      refine ⟨mt, ?_, h2⟩
      rw [e4]
      simpa using h1
    · intro i hji hi
      rcases Nat.eq_or_lt_of_le hji with h | h
      · subst h
        have hfr1 := hfr ⟨task.Storage, f + j * step, 2⟩
          (fun i hi _ hp => hne_id i hi (by
            have := congrArg ChunkPath.id hp; simpa using this.symm))
          (fun _ hp => by have := congrArg ChunkPath.version hp; simp at this)
        rw [hfr1, hrows, hid]
        simp
      · rw [hrs i h hi, hrows]
        have : (⟨task.Storage, f + i * step, 2⟩ : ChunkPath) ≠ ⟨task.Storage, st.id, 2⟩ := by
          intro hp
          have := congrArg ChunkPath.id hp
          simp only at this
          rw [hid] at this
          exact hne_id i h this
        simp [this]
    · intro hm
      rw [hrr hm, hrows]
      have : (⟨task.Storage, f + task.Logs.length / M * step, 1⟩ : ChunkPath) ≠
          ⟨task.Storage, st.id, 2⟩ := by
        intro hp
        have := congrArg ChunkPath.version hp
        simp at this
      simp [this]
    · intro p hp1 hp2
      rw [hfr p (fun i hi hi2 => hp1 i (e5 i hi) hi2) hp2, hrows]
      have : p ≠ ⟨task.Storage, st.id, 2⟩ := by
        rw [hid]; exact hp1 j (le_refl _) hjlt
      simp [this]

theorem mapGet_mapSet {κ ν : Type} [DecidableEq κ] (m : List (κ × ν)) (k : κ) (v : ν) :
    mapGet (mapSet m k v) k = some v := by
  unfold mapGet mapSet
  have h : (m.filter (fun e => decide (e.1 ≠ k))).find? (fun e => decide (e.1 = k)) = none := by
    rw [List.find?_eq_none]
    intro x hx
    have := (List.mem_filter.mp hx).2
    simpa using this
  rw [List.find?_append, h]
  simp

/-- A write task on an existing storage without chunks, whose chunk directories are all
empty: the task succeeds, hands `metasMap.Update` one new meta per chunk and leaves the
records of each chunk in the directory of its meta. -/
theorem writeTask_empty (lib : Lib) (sw : Writer) (instanceNum step user : Nat)
    (chunksForWrite : List (String × Nat)) (mm : MetasMap) (task : WriteLogsTask) (w : World)
    (M : Nat) (hM : sw.maxLogsInChunk = M) (hM1 : 1 ≤ M) (hW : 1 ≤ step)
    (hN : task.Logs ≠ [])
    (hst : mapGet mm.state.metasMap task.Storage = some [])
    (hfresh : ∀ id v, (w.chunks ⟨task.Storage, id, v⟩).rows = []) :
    ∃ r upd, sw.writeTask lib instanceNum step user chunksForWrite mm task w = some r ∧
      r.notFound = false ∧ r.update = some upd ∧ upd.Storage = task.Storage ∧
      upd.ForUpdate = [] ∧
      mapGet r.chunksForWrite task.Storage =
        some ((mapGet chunksForWrite task.Storage).getD (1 + instanceNum) +
          task.Logs.length / M * step) ∧
      upd.ForAdd.length =
        task.Logs.length / M + (if task.Logs.length % M = 0 then 0 else 1) ∧
      (∀ i, i < task.Logs.length / M → ∃ mt, upd.ForAdd[i]? = some mt ∧
        mt.ID = (mapGet chunksForWrite task.Storage).getD (1 + instanceNum) + i * step ∧
        mt.LogsLen = M ∧ mt.Offsets = none ∧ mt.IsDeleted = false ∧
        (r.world.chunks (chunkPath task.Storage mt)).rows =
          lib.sortLogs.run ((task.Logs.drop (i * M)).take M)) ∧
      (task.Logs.length % M ≠ 0 → ∃ mt, upd.ForAdd[task.Logs.length / M]? = some mt ∧
        mt.ID = (mapGet chunksForWrite task.Storage).getD (1 + instanceNum) +
          task.Logs.length / M * step ∧
        mt.LogsLen = ((task.Logs.length % M : Nat) : Int) ∧ mt.Offsets ≠ none ∧
        mt.IsDeleted = false ∧
        (r.world.chunks (chunkPath task.Storage mt)).rows =
          task.Logs.drop (task.Logs.length / M * M)) := by
  have hNpos : 0 < task.Logs.length := List.length_pos.mpr hN
  have hget : ((mm.ReserveVersion user).state.Get task.Storage).1 = [] := by
    simp [MetasMap.ReserveVersion, StateManager.Get, hst]
  have hfind : ∀ id, (mm.ReserveVersion user).Find task.Storage id = some none :=
    fun id => Find_of_no_blocks _ _ id hget
  have hex : (mm.ReserveVersion user).Exists task.Storage = true := by
    simp [MetasMap.Exists, StateManager.Exists, MetasMap.ReserveVersion, hst]
  obtain ⟨st1, added, hrun, hfu, hfa, hid1, _, hbc, hlen, hsealed, hraw, hrs, hrr, _⟩ :=
    writeLoop_empty lib sw step (mm.ReserveVersion user) task M
      ((mapGet chunksForWrite task.Storage).getD (1 + instanceNum)) hM hM1 hW hfind
      (task.Logs.length / M) 0 task.Logs.length
      ⟨(mapGet chunksForWrite task.Storage).getD (1 + instanceNum), 0, [], [],
        NewBackuper (journalName task.Storage
          ((mapGet chunksForWrite task.Storage).getD (1 + instanceNum))), w⟩
      (Nat.sub_zero _).symm (Nat.zero_le _) (by simp) (by simp) (by simp)
  obtain ⟨acts, hacts, hactsne⟩ := hbc (Or.inl (by omega))
  obtain ⟨b2, w2, hcancel, hcrows⟩ := Cancel_of_staged st1.backuper st1.world acts hacts hactsne
  simp only [List.nil_append] at hfa
  refine ⟨{ notFound := false,
            chunksForWrite := mapSet
              (if (mapGet chunksForWrite task.Storage).isSome then chunksForWrite
               else mapSet chunksForWrite task.Storage
                 ((mapGet chunksForWrite task.Storage).getD (1 + instanceNum)))
              task.Storage st1.id,
            metasMap := (mm.ReserveVersion user).unreserve user, world := w2,
            update := some ⟨task.Storage, st1.forUpdate, st1.forAdd⟩ },
    ⟨task.Storage, st1.forUpdate, st1.forAdd⟩, ?_, rfl, rfl, rfl, hfu, ?_, ?_, ?_, ?_⟩
  · unfold Writer.writeTask
    simp only [hex, Bool.not_true, Bool.false_eq_true, if_false, hrun, hcancel]
  · simp only [mapGet_mapSet, hid1]
  · simp only [hfa, hlen, Nat.sub_zero]
  · intro i hi
    obtain ⟨mt, h1, h2, h3, h4, h5, h6⟩ := hsealed i (by simpa using hi)
    refine ⟨mt, by simpa [hfa] using h1, by simpa using h2, h4, h5, h6, ?_⟩
    have hp : chunkPath task.Storage mt =
        ⟨task.Storage, (mapGet chunksForWrite task.Storage).getD (1 + instanceNum) + i * step, 2⟩ := by
      simp only [chunkPath, h2, h3, Nat.zero_add]
    simp only [hp, hcrows]
    rw [hrs i (Nat.zero_le _) hi]
    simp only [hfresh, List.nil_append]
  · intro hm
    obtain ⟨mt, h1, h2, h3, h4, h5, h6⟩ := hraw hm
    refine ⟨mt, by simpa [hfa] using h1, h2, h4, h5, h6, ?_⟩
    have hp : chunkPath task.Storage mt =
        ⟨task.Storage, (mapGet chunksForWrite task.Storage).getD (1 + instanceNum) +
          task.Logs.length / M * step, 1⟩ := by
      simp only [chunkPath, h2, h3]
    simp only [hp, hcrows]
    rw [hrr hm]
    simp only [hfresh, List.nil_append]

/-- C8. One task with `N ≥ 1` logs on an existing storage without chunks (all its chunk
directories empty), `maxLogsInChunk = M ≥ 1`, id step `W ≥ 1` and first id `f`: the task
succeeds and hands `metasMap.Update` no meta to update and `N / M` new sealed metas
followed, when `N % M > 0`, by one raw meta. The sealed meta number `i` has id `f + i*W`,
`LogsLen = M`, `Offsets == nil` and a directory with exactly `M` records, the logs
`[i*M, (i+1)*M)` of the task; the raw meta has id `f + (N/M)*W`, `LogsLen = N % M`,
`Offsets != nil` and a directory with the last `N % M` logs of the task. -/
theorem C8_chunks_of_one_task (lib : Lib) (sw : Writer) (instanceNum step user : Nat)
    (chunksForWrite : List (String × Nat)) (mm : MetasMap) (task : WriteLogsTask) (w : World)
    (M : Nat) (hM : sw.maxLogsInChunk = M) (hM1 : 1 ≤ M) (hW : 1 ≤ step)
    (hN : task.Logs ≠ [])
    (hst : mapGet mm.state.metasMap task.Storage = some [])
    (hfresh : ∀ id v, (w.chunks ⟨task.Storage, id, v⟩).rows = []) :
    ∃ r upd, sw.writeTask lib instanceNum step user chunksForWrite mm task w = some r ∧
      r.notFound = false ∧ r.update = some upd ∧ upd.Storage = task.Storage ∧
      upd.ForUpdate = [] ∧
      upd.ForAdd.length =
        task.Logs.length / M + (if task.Logs.length % M = 0 then 0 else 1) ∧
      (∀ i, i < task.Logs.length / M → ∃ mt, upd.ForAdd[i]? = some mt ∧
        mt.ID = (mapGet chunksForWrite task.Storage).getD (1 + instanceNum) + i * step ∧
        mt.LogsLen = M ∧ mt.Offsets = none ∧ mt.IsDeleted = false ∧
        (r.world.chunks (chunkPath task.Storage mt)).rows.length = M ∧
        (r.world.chunks (chunkPath task.Storage mt)).rows.Perm
          ((task.Logs.drop (i * M)).take M)) ∧
      (task.Logs.length % M ≠ 0 → ∃ mt, upd.ForAdd[task.Logs.length / M]? = some mt ∧
        mt.ID = (mapGet chunksForWrite task.Storage).getD (1 + instanceNum) +
          task.Logs.length / M * step ∧
        mt.LogsLen = ((task.Logs.length % M : Nat) : Int) ∧ mt.Offsets ≠ none ∧
        mt.IsDeleted = false ∧
        (r.world.chunks (chunkPath task.Storage mt)).rows.length = task.Logs.length % M ∧
        (r.world.chunks (chunkPath task.Storage mt)).rows =
          task.Logs.drop (task.Logs.length / M * M)) := by
  obtain ⟨r, upd, h1, h2, h3, h4, h5, _, h7, h8, h9⟩ :=
    writeTask_empty lib sw instanceNum step user chunksForWrite mm task w M hM hM1 hW hN hst hfresh
  have hdm : task.Logs.length / M * M + task.Logs.length % M = task.Logs.length := by
    rw [Nat.mul_comm]; exact Nat.div_add_mod _ _
  refine ⟨r, upd, h1, h2, h3, h4, h5, h7, ?_, ?_⟩
  · intro i hi
    obtain ⟨mt, a1, a2, a3, a4, a5, a6⟩ := h8 i hi
    have hle : (i + 1) * M ≤ task.Logs.length / M * M := Nat.mul_le_mul_right _ hi
    have hexp : (i + 1) * M = i * M + M := by ring
    refine ⟨mt, a1, a2, a3, a4, a5, ?_, ?_⟩
    · rw [a6, (lib.sortLogs.perm _).length_eq, List.length_take, List.length_drop]
      omega
    · rw [a6]; exact lib.sortLogs.perm _
  · intro hm
    obtain ⟨mt, a1, a2, a3, a4, a5, a6⟩ := h9 hm
    refine ⟨mt, a1, a2, a3, a4, a5, ?_, a6⟩
    rw [a6, List.length_drop]
    omega

/-- Witness for C8, `TestWriterAndReader`: `M = 3`, `N = 8`, `W = 1`, first id 1 give
three new metas, the last one raw with 2 records. -/
theorem C8_chunks_of_one_task_witness :
    ∃ r upd, (⟨3⟩ : Writer).writeTask testLib 0 1 7 [("storage", 1)] testWriterMetasMap
        ⟨"storage", testWriterLogs⟩ World.empty = some r ∧
      r.update = some upd ∧ upd.ForAdd.length = 3 ∧
      ∃ mt, upd.ForAdd[2]? = some mt ∧ mt.ID = 3 ∧ mt.LogsLen = 2 ∧ mt.Offsets ≠ none :=
  let ⟨r, upd, h1, _, h3, _, _, h6, _, h8⟩ :=
    C8_chunks_of_one_task testLib ⟨3⟩ 0 1 7 [("storage", 1)] testWriterMetasMap
      ⟨"storage", testWriterLogs⟩ World.empty 3 rfl (by decide) (by decide) (by decide)
      (by decide) (fun _ _ => rfl)
  let ⟨mt, a1, a2, a3, a4, _⟩ := h8 (by decide)
  ⟨r, upd, h1, h3, h6, mt, a1, a2, a3, a4⟩

/-- C9 (as amended). After a write task on an existing storage without chunks, every
sealed chunk written by the task holds its records in non-decreasing timestamp order; the
raw chunk, when there is one, holds the last `N % M` logs of the task in the order of
submission, unsorted. -/
theorem C9_sealed_chunks_sorted (lib : Lib) (sw : Writer) (instanceNum step user : Nat)
    (chunksForWrite : List (String × Nat)) (mm : MetasMap) (task : WriteLogsTask) (w : World)
    (M : Nat) (hM : sw.maxLogsInChunk = M) (hM1 : 1 ≤ M) (hW : 1 ≤ step)
    (hN : task.Logs ≠ [])
    (hst : mapGet mm.state.metasMap task.Storage = some [])
    (hfresh : ∀ id v, (w.chunks ⟨task.Storage, id, v⟩).rows = []) :
    ∃ r upd, sw.writeTask lib instanceNum step user chunksForWrite mm task w = some r ∧
      r.update = some upd ∧
      (∀ mt ∈ upd.ForAdd, mt.Offsets = none →
        (r.world.chunks (chunkPath task.Storage mt)).rows.Sorted
          (fun a b => a.Timestamp ≤ b.Timestamp)) ∧
      (∀ mt ∈ upd.ForAdd, mt.Offsets ≠ none →
        (r.world.chunks (chunkPath task.Storage mt)).rows =
          task.Logs.drop (task.Logs.length / M * M)) := by
  obtain ⟨r, upd, h1, _, h3, _, _, _, h7, h8, h9⟩ :=
    writeTask_empty lib sw instanceNum step user chunksForWrite mm task w M hM hM1 hW hN hst hfresh
  have hcase : ∀ mt ∈ upd.ForAdd,
      (mt.Offsets = none ∧ ∃ i, (r.world.chunks (chunkPath task.Storage mt)).rows =
        lib.sortLogs.run ((task.Logs.drop (i * M)).take M)) ∨
      (mt.Offsets ≠ none ∧ (r.world.chunks (chunkPath task.Storage mt)).rows =
        task.Logs.drop (task.Logs.length / M * M)) := by
    intro mt hmt
    obtain ⟨i, hi, hget⟩ := List.getElem_of_mem hmt
    have hget2 : upd.ForAdd[i]? = some mt := by rw [List.getElem?_eq_getElem hi, hget]
    by_cases hlt : i < task.Logs.length / M
    · obtain ⟨mt2, a1, _, _, a4, _, a6⟩ := h8 i hlt
      rw [hget2] at a1
      cases a1
      exact Or.inl ⟨a4, i, a6⟩
    · have hi2 : i = task.Logs.length / M ∧ task.Logs.length % M ≠ 0 := by
        rw [h7] at hi
        by_cases h0 : task.Logs.length % M = 0
        · simp only [h0, if_true] at hi; omega
        · simp only [h0, if_false] at hi; exact ⟨by omega, h0⟩
      obtain ⟨mt2, a1, _, _, a4, _, a6⟩ := h9 hi2.2
      rw [← hi2.1, hget2] at a1
      cases a1
      exact Or.inr ⟨a4, a6⟩
  refine ⟨r, upd, h1, h3, ?_, ?_⟩
  · intro mt hmt hoff
    rcases hcase mt hmt with ⟨_, i, hrows⟩ | ⟨hne, _⟩
    · rw [hrows]; exact lib.sortLogs.sorted _
    · exact absurd hoff hne
  · intro mt hmt hoff
    rcases hcase mt hmt with ⟨hnone, _⟩ | ⟨_, hrows⟩
    · exact absurd hnone hoff
    · exact hrows

/-- Witness for C9: the seed `TestWriterAndReader`. -/
theorem C9_sealed_chunks_sorted_witness :
    ∃ r upd, (⟨3⟩ : Writer).writeTask testLib 0 1 7 [("storage", 1)] testWriterMetasMap
        ⟨"storage", testWriterLogs⟩ World.empty = some r ∧
      r.update = some upd ∧
      ∀ mt ∈ upd.ForAdd, mt.Offsets = none →
        (r.world.chunks (chunkPath "storage" mt)).rows.Sorted
          (fun a b => a.Timestamp ≤ b.Timestamp) :=
  let ⟨r, upd, h1, h2, h3, _⟩ :=
    C9_sealed_chunks_sorted testLib ⟨3⟩ 0 1 7 [("storage", 1)] testWriterMetasMap
      ⟨"storage", testWriterLogs⟩ World.empty 3 rfl (by decide) (by decide) (by decide)
      (by decide) (fun _ _ => rfl)
  ⟨r, upd, h1, h2, h3⟩

/-! ## `GetExpired` -/

theorem expired_inner (deadline : Int) (blk acc : List Meta) :
    blk.foldl (fun expired mt =>
        if mt.TimeRange.End < deadline ∧ mt.IsDeleted = false ∧ mt.Offsets.isNone = true then
          expired ++ [mt]
        else expired) acc
      = acc ++ blk.filter (fun mt =>
          decide (mt.TimeRange.End < deadline) && !mt.IsDeleted && mt.Offsets.isNone) := by
  induction blk generalizing acc with
  | nil => simp
  | cons m rest ih =>
    rw [List.foldl_cons, ih]
    by_cases h : m.TimeRange.End < deadline ∧ m.IsDeleted = false ∧ m.Offsets.isNone = true
    · have hf : (decide (m.TimeRange.End < deadline) && !m.IsDeleted && m.Offsets.isNone) = true := by
        simp [h.1, h.2.1, h.2.2]
      rw [if_pos h, List.filter_cons, if_pos hf]
      simp
    · have hf : ¬ (decide (m.TimeRange.End < deadline) && !m.IsDeleted && m.Offsets.isNone) = true := by
        intro hc
        simp only [Bool.and_eq_true, decide_eq_true_eq, Bool.not_eq_true'] at hc
        exact h ⟨hc.1.1, hc.1.2, hc.2⟩
      rw [if_neg h, List.filter_cons, if_neg hf]

theorem expired_outer (deadline : Int) (blocks : List (List Meta)) (acc : List Meta) :
    blocks.foldl (fun expired blk =>
      blk.foldl (fun expired mt =>
        if mt.TimeRange.End < deadline ∧ mt.IsDeleted = false ∧ mt.Offsets.isNone = true then
          expired ++ [mt]
        else expired) expired) acc
      = acc ++ blocks.flatten.filter (fun mt =>
          decide (mt.TimeRange.End < deadline) && !mt.IsDeleted && mt.Offsets.isNone) := by
  induction blocks generalizing acc with
  | nil => simp
  | cons b rest ih =>
    rw [List.foldl_cons, ih, expired_inner]
    simp

/-- C20: for a storage that exists, `GetExpired` returns, in the order of the blocks,
exactly the metas whose `TimeRange.End` is below the deadline, that are not marked deleted
and that are sealed (`Offsets == nil`); so a raw chunk is never returned, the result is in
id order when the blocks are, and a storage that does not exist yields nothing. -/
theorem C20_GetExpired_spec (mm : MetasMap) (storage : String) (deadline : Int)
    (hver : mm.state.version ≠ 0) :
    (∀ blocks, mapGet mm.state.metasMap storage = some blocks →
      mm.GetExpired storage deadline
          = blocks.flatten.filter (fun mt =>
              decide (mt.TimeRange.End < deadline) && !mt.IsDeleted && mt.Offsets.isNone)
        ∧ (∀ mt, mt ∈ mm.GetExpired storage deadline ↔
            mt ∈ blocks.flatten ∧ mt.TimeRange.End < deadline ∧ mt.IsDeleted = false
              ∧ mt.Offsets = none)
        ∧ (blocks.flatten.Pairwise (fun a b => a.ID < b.ID) →
            (mm.GetExpired storage deadline).Pairwise (fun a b => a.ID < b.ID)))
    ∧ (mapGet mm.state.metasMap storage = none → mm.GetExpired storage deadline = []) := by
  constructor
  · intro blocks hget
    have hE : mm.GetExpired storage deadline
          = blocks.flatten.filter (fun mt =>
              decide (mt.TimeRange.End < deadline) && !mt.IsDeleted && mt.Offsets.isNone) := by
      simp only [MetasMap.GetExpired, StateManager.Get, hget, if_neg hver]
      rw [expired_outer]
      simp
    refine ⟨hE, ?_, ?_⟩
    · intro mt
      rw [hE, List.mem_filter]
      simp only [Bool.and_eq_true, decide_eq_true_eq, Bool.not_eq_true', Option.isNone_iff_eq_none]
      tauto
    · intro hp
      rw [hE]
      exact hp.sublist (List.filter_sublist _)
  · intro hget
    simp [MetasMap.GetExpired, StateManager.Get, hget]

theorem C20_GetExpired_spec_witness :
    testExpiredMetasMap.GetExpired "with raw chunk" 8
        = [⟨1, 0, ⟨1, 2⟩, 0, none, false⟩, ⟨3, 0, ⟨5, 6⟩, 0, none, false⟩]
      ∧ testExpiredMetasMap.GetExpired "simple" 8 = [] :=
  ⟨((C20_GetExpired_spec testExpiredMetasMap "with raw chunk" 8 (by decide)).1 _ rfl).1.trans
      (by decide),
   (C20_GetExpired_spec testExpiredMetasMap "simple" 8 (by decide)).2 (by decide)⟩

/-! ## `GetIndicesOfRange` on sorted logs -/

theorem mem_take_getElem {α : Type} (l : List α) (s i : Nat) (hi : i < l.length) (his : i < s) :
    l[i] ∈ l.take s := by
  rw [List.mem_iff_getElem]
  exact ⟨i, by simp; omega, by simp⟩

theorem mem_drop_getElem {α : Type} (l : List α) (s i : Nat) (hi : i < l.length) (his : s ≤ i) :
    l[i] ∈ l.drop s := by
  rw [List.mem_iff_getElem]
  refine ⟨i - s, by simp; omega, ?_⟩
  simp only [List.getElem_drop]
  congr 1
  omega

theorem tsAt_eq (l : List Log) (i : Nat) (hi : i < l.length) : tsAt l i = l[i].Timestamp := by
  unfold tsAt; rw [List.getD_eq_getElem _ _ hi]

/-- The indices computed by `GetIndicesOfRange` on logs in timestamp order, for a range
with a bound and a non-empty list. -/
theorem indices_of_sorted (lib : Lib) (logs : List Log) (tr : TimeRange)
    (hs : logs.Sorted (fun a b => a.Timestamp ≤ b.Timestamp))
    (hnz : ∀ l ∈ logs, l.Timestamp ≠ 0)
    (htr : tr.Start = 0 ∨ tr.End = 0 ∨ tr.Start ≤ tr.End)
    (h00 : ¬ (tr.Start = 0 ∧ tr.End = 0)) (hne : logs.length ≠ 0) :
    (GetIndicesOfRange lib logs tr true).1 = logs ∧
    (¬ ((tr.End = 0 ∨ tsAt logs 0 ≤ tr.End) ∧ (tr.Start = 0 ∨ tr.Start ≤ tsAt logs (logs.length - 1))) →
      (GetIndicesOfRange lib logs tr true).2 = (-1, -1)) ∧
    (((tr.End = 0 ∨ tsAt logs 0 ≤ tr.End) ∧ (tr.Start = 0 ∨ tr.Start ≤ tsAt logs (logs.length - 1))) →
      ∃ s e : Nat, (GetIndicesOfRange lib logs tr true).2 = ((s : Int), (e : Int)) ∧ s ≤ e ∧
        e ≤ logs.length ∧
        ∀ i, i < logs.length → ((s ≤ i ∧ i < e) ↔ tr.Contains (tsAt logs i))) := by
  have hfirst : tsAt logs 0 ≠ 0 := by
    rw [tsAt_eq logs 0 (by omega)]
    exact hnz _ (List.getElem_mem _)
  have hlast : tsAt logs (logs.length - 1) ≠ 0 := by
    rw [tsAt_eq logs (logs.length - 1) (by omega)]
    exact hnz _ (List.getElem_mem _)
  unfold GetIndicesOfRange
  simp only [if_neg h00, if_neg hne, Bool.not_true, Bool.false_eq_true, if_false]
  cases hcr : IsCrossed tr ⟨tsAt logs 0, tsAt logs (logs.length - 1)⟩ with
  | false =>
    simp only [Bool.not_false, if_true, true_and]
    refine ⟨fun _ => trivial, ?_⟩
    intro hc
    exfalso
    rcases of_not_IsCrossed _ _ hcr with ⟨h1, _, h3⟩ | ⟨_, h2, h3⟩
    · simp only at h3
      rcases hc.1 with h | h
      · exact h1 h
      · omega
    · simp only at h3
      rcases hc.2 with h | h
      · exact h2 h
      · omega
  | true =>
    simp only [Bool.not_true, Bool.false_eq_true, if_false, true_and]
    have hcross : (tr.End = 0 ∨ tsAt logs 0 ≤ tr.End) ∧
        (tr.Start = 0 ∨ tr.Start ≤ tsAt logs (logs.length - 1)) := by
      unfold IsCrossed at hcr
      simp only at hcr
      by_cases h1 : tr.End = 0 <;> by_cases h3 : tr.End < tsAt logs 0 <;>
        by_cases h5 : tr.Start = 0 <;> by_cases h6 : tsAt logs (logs.length - 1) < tr.Start <;>
        simp_all
    refine ⟨fun h => absurd hcross h, fun _ => ?_⟩
    obtain ⟨hsl, hs1, hs2⟩ := startInx_spec logs tr hs
    obtain ⟨hel, he1, he2⟩ := endInx_spec logs tr hs
    generalize (if tr.Start ≠ 0 ∧ tsAt logs 0 < tr.Start then
      sortSearch logs.length (fun i => decide (tr.Start ≤ tsAt logs i)) else 0) = s at *
    generalize (if tr.End ≠ 0 ∧ tr.End < tsAt logs (logs.length - 1) then
      sortSearch logs.length (fun i => decide (tr.End < tsAt logs i)) else logs.length) = e at *
    have hlt_s : ∀ i (hi : i < logs.length), i < s →
        ¬ (tr.Start = 0 ∨ tr.Start ≤ logs[i].Timestamp) := by
      intro i hi his
      have hm := mem_take_getElem logs s i hi his
      rw [← hs1] at hm
      simpa using (List.mem_filter.mp hm).2
    have hge_s : ∀ i (hi : i < logs.length), s ≤ i →
        (tr.Start = 0 ∨ tr.Start ≤ logs[i].Timestamp) := by
      intro i hi his
      have hm := mem_drop_getElem logs s i hi his
      rw [← hs2] at hm
      simpa using (List.mem_filter.mp hm).2
    have hlt_e : ∀ i (hi : i < logs.length), i < e →
        ¬ (tr.End ≠ 0 ∧ tr.End < logs[i].Timestamp) := by
      intro i hi hie
      have hm := mem_take_getElem logs e i hi hie
      rw [← he1] at hm
      have h2 := (List.mem_filter.mp hm).2
      simp only [Bool.not_eq_true', decide_eq_false_iff_not] at h2
      exact h2
    have hge_e : ∀ i (hi : i < logs.length), e ≤ i →
        (tr.End ≠ 0 ∧ tr.End < logs[i].Timestamp) := by
      intro i hi hie
      have hm := mem_drop_getElem logs e i hi hie
      rw [← he2] at hm
      simpa using (List.mem_filter.mp hm).2
    refine ⟨s, e, rfl, ?_, hel, ?_⟩
    · by_contra hcon
      have hes : e < s := by omega
      have hi : e < logs.length := by omega
      have h1 := hlt_s e hi hes
      have h2 := hge_e e hi (le_refl _)
      have h3 : tr.Start ≠ 0 := fun h => h1 (Or.inl h)
      have h4 : logs[e].Timestamp < tr.Start := by
        by_contra h; exact h1 (Or.inr (by omega))
      rcases htr with h | h | h
      · exact h3 h
      · exact h2.1 h
      · omega
    · intro i hi
      rw [tsAt_eq logs i hi]
      unfold TimeRange.Contains
      constructor
      · rintro ⟨h1, h2⟩
        refine ⟨hge_s i hi h1, ?_⟩
        have := hlt_e i hi h2
        by_cases h0 : tr.End = 0
        · exact Or.inl h0
        · right
          by_contra hc
          exact this ⟨h0, by omega⟩
      · rintro ⟨h1, h2⟩
        constructor
        · by_contra hc
          exact hlt_s i hi (by omega) h1
        · by_contra hc
          have := hge_e i hi (by omega)
          rcases h2 with h | h
          · exact this.1 h
          · omega


theorem indices_unsorted (lib : Lib) (logs : List Log) (tr : TimeRange)
    (h00 : ¬ (tr.Start = 0 ∧ tr.End = 0)) (hne : logs.length ≠ 0) :
    GetIndicesOfRange lib logs tr false = GetIndicesOfRange lib (lib.sortLogs.run logs) tr true := by
  have hlen : (lib.sortLogs.run logs).length = logs.length := (lib.sortLogs.perm logs).length_eq
  have hne2 : (lib.sortLogs.run logs).length ≠ 0 := by rw [hlen]; exact hne
  unfold GetIndicesOfRange
  simp only [if_neg h00, if_neg hne, if_neg hne2, Bool.not_false, Bool.not_true, if_true,
    Bool.false_eq_true, if_false]

/-- C19: on logs in timestamp order with non-zero timestamps and a range that is not
inverted, `GetIndicesOfRange` leaves a sorted rearrangement of the logs and returns
`(0, len)` for the unbounded range; otherwise `(-1, -1)` when there are no logs or the
range does not cross the interval from the first to the last timestamp; otherwise `(s, e)`
with `0 ≤ s ≤ e ≤ len` where index `i` lies in `[s, e)` exactly when the timestamp at `i`
is inside the range. -/
theorem C19_GetIndicesOfRange_spec (lib : Lib) (logs : List Log) (tr : TimeRange)
    (isSorted : Bool)
    (hs : logs.Sorted (fun a b => a.Timestamp ≤ b.Timestamp))
    (hnz : ∀ l ∈ logs, l.Timestamp ≠ 0)
    (htr : tr.Start = 0 ∨ tr.End = 0 ∨ tr.Start ≤ tr.End) :
    (GetIndicesOfRange lib logs tr isSorted).1.Perm logs ∧
    (GetIndicesOfRange lib logs tr isSorted).1.Sorted (fun a b => a.Timestamp ≤ b.Timestamp) ∧
    (tr.Start = 0 ∧ tr.End = 0 →
      (GetIndicesOfRange lib logs tr isSorted).2 = (0, (logs.length : Int))) ∧
    (¬ (tr.Start = 0 ∧ tr.End = 0) →
      (logs = [] ∨
        ¬ ((tr.End = 0 ∨ tsAt (GetIndicesOfRange lib logs tr isSorted).1 0 ≤ tr.End) ∧
           (tr.Start = 0 ∨
             tr.Start ≤ tsAt (GetIndicesOfRange lib logs tr isSorted).1 (logs.length - 1)))) →
      (GetIndicesOfRange lib logs tr isSorted).2 = (-1, -1)) ∧
    (¬ (tr.Start = 0 ∧ tr.End = 0) → logs ≠ [] →
      ((tr.End = 0 ∨ tsAt (GetIndicesOfRange lib logs tr isSorted).1 0 ≤ tr.End) ∧
       (tr.Start = 0 ∨
         tr.Start ≤ tsAt (GetIndicesOfRange lib logs tr isSorted).1 (logs.length - 1))) →
      ∃ s e : Nat, (GetIndicesOfRange lib logs tr isSorted).2 = ((s : Int), (e : Int)) ∧ s ≤ e ∧
        e ≤ logs.length ∧
        ∀ i, i < logs.length →
          ((s ≤ i ∧ i < e) ↔
            tr.Contains (tsAt (GetIndicesOfRange lib logs tr isSorted).1 i))) := by
  by_cases h00 : tr.Start = 0 ∧ tr.End = 0
  · have hr : GetIndicesOfRange lib logs tr isSorted = (logs, 0, (logs.length : Int)) := by
      unfold GetIndicesOfRange; rw [if_pos h00]
    rw [hr]
    exact ⟨List.Perm.refl _, hs, fun _ => rfl, fun h => absurd h00 h, fun h => absurd h00 h⟩
  · by_cases hne : logs.length = 0
    · have hr : GetIndicesOfRange lib logs tr isSorted = (logs, -1, -1) := by
        unfold GetIndicesOfRange; rw [if_neg h00, if_pos hne]
      rw [hr]
      exact ⟨List.Perm.refl _, hs, fun h => absurd h h00, fun _ _ => rfl,
        fun _ h => absurd (List.length_eq_zero.mp hne) h⟩
    · have key : ∀ L : List Log, L.Perm logs → L.Sorted (fun a b => a.Timestamp ≤ b.Timestamp) →
          GetIndicesOfRange lib logs tr isSorted = GetIndicesOfRange lib L tr true →
          ((GetIndicesOfRange lib logs tr isSorted).1 = L ∧
           (¬ ((tr.End = 0 ∨ tsAt L 0 ≤ tr.End) ∧ (tr.Start = 0 ∨ tr.Start ≤ tsAt L (logs.length - 1))) →
              (GetIndicesOfRange lib logs tr isSorted).2 = (-1, -1)) ∧
           (((tr.End = 0 ∨ tsAt L 0 ≤ tr.End) ∧ (tr.Start = 0 ∨ tr.Start ≤ tsAt L (logs.length - 1))) →
              ∃ s e : Nat, (GetIndicesOfRange lib logs tr isSorted).2 = ((s : Int), (e : Int)) ∧
                s ≤ e ∧ e ≤ logs.length ∧
                ∀ i, i < logs.length → ((s ≤ i ∧ i < e) ↔ tr.Contains (tsAt L i)))) := by
        intro L hp hsL heq
        have hlen : L.length = logs.length := hp.length_eq
        have hnzL : ∀ l ∈ L, l.Timestamp ≠ 0 := fun l hl => hnz l (hp.subset hl)
        have := indices_of_sorted lib L tr hsL hnzL htr h00 (by omega)
        rw [heq]
        rw [hlen] at this
        exact this
      have hkey : ∃ L : List Log, L.Perm logs ∧ L.Sorted (fun a b => a.Timestamp ≤ b.Timestamp) ∧
          GetIndicesOfRange lib logs tr isSorted = GetIndicesOfRange lib L tr true := by
        cases isSorted with
        | true => exact ⟨logs, List.Perm.refl _, hs, rfl⟩
        | false =>
          exact ⟨_, lib.sortLogs.perm logs, lib.sortLogs.sorted logs, indices_unsorted lib logs tr h00 hne⟩
      obtain ⟨L, hp, hsL, heq⟩ := hkey
      obtain ⟨h1, h2, h3⟩ := key L hp hsL heq
      rw [h1]
      refine ⟨hp, hsL, fun h => absurd h h00, ?_, ?_⟩
      · intro _ h
        rcases h with h | h
        · exact absurd (by rw [h]; rfl) hne
        · exact h2 h
      · intro _ _ h
        exact h3 h

theorem C19_GetIndicesOfRange_spec_witness :
    (GetIndicesOfRange testLib testSelectorLogs ⟨2, 4⟩ true).2 = (1, 4)
      ∧ (GetIndicesOfRange testLib testSelectorLogs ⟨0, 4⟩ true).2 = (0, 4)
      ∧ (GetIndicesOfRange testLib testSelectorLogs ⟨8, 0⟩ true).2 = (-1, -1)
      ∧ (GetIndicesOfRange testLib testSelectorLogs ⟨0, 0⟩ true).2 = (0, 6) :=
  ⟨by decide, by decide,
   (C19_GetIndicesOfRange_spec testLib testSelectorLogs ⟨8, 0⟩ true (by decide) (by decide)
      (by decide)).2.2.2.1 (by decide) (Or.inr (by decide)),
   (C19_GetIndicesOfRange_spec testLib testSelectorLogs ⟨0, 0⟩ true (by decide) (by decide)
      (by decide)).2.2.1 (by decide)⟩

/-! ## The binary searches of `MetasMap` -/

theorem block_bounds (blk : List Meta) (hs : blk.Pairwise (fun a b => a.ID < b.ID))
    (first last : Meta) (hf : blk.head? = some first) (hl : blk.getLast? = some last)
    (m : Meta) (hm : m ∈ blk) : first.ID ≤ m.ID ∧ m.ID ≤ last.ID := by
  have hne : blk ≠ [] := List.ne_nil_of_mem hm
  have hlen : 0 < blk.length := List.length_pos.mpr hne
  rw [List.head?_eq_head hne, List.head_eq_getElem] at hf
  rw [List.getLast?_eq_getLast _ hne, List.getLast_eq_getElem] at hl
  injection hf with hf
  injection hl with hl
  obtain ⟨k, hk, rfl⟩ := List.getElem_of_mem hm
  have hp := List.pairwise_iff_getElem.mp hs
  constructor
  · rw [← hf]
    rcases Nat.eq_zero_or_pos k with h | h
    · subst h; exact le_refl _
    · exact le_of_lt (hp 0 k hlen hk h)
  · rw [← hl]
    rcases Nat.lt_or_ge k (blk.length - 1) with h | h
    · exact le_of_lt (hp k (blk.length - 1) hk (by omega) h)
    · have : k = blk.length - 1 := by omega
      subst this; exact le_refl _

theorem binSearchMetaLoop_spec (metas : List Meta) (id : Nat)
    (hs : metas.Pairwise (fun a b => a.ID < b.ID)) :
    ∀ fuel l r, r ≤ metas.length → r - l ≤ fuel →
      (∀ t (ht : t < metas.length), metas[t].ID = id → l ≤ t ∧ t < r) →
      (binSearchMetaLoop metas id fuel l r = -1 ∧ ∀ m ∈ metas, m.ID ≠ id) ∨
      (∃ t, ∃ ht : t < metas.length,
        binSearchMetaLoop metas id fuel l r = (t : Int) ∧ metas[t].ID = id) := by
  have hp := List.pairwise_iff_getElem.mp hs
  have hnone : ∀ l r, ¬ l < r →
      (∀ t (ht : t < metas.length), metas[t].ID = id → l ≤ t ∧ t < r) →
      ∀ m ∈ metas, m.ID ≠ id := by
    intro l r hlr hinv m hm heq
    obtain ⟨t, ht, rfl⟩ := List.getElem_of_mem hm
    have := hinv t ht heq
    omega
  intro fuel
  induction fuel with
  | zero =>
    intro l r _ hf hinv
    exact Or.inl ⟨rfl, hnone l r (by omega) hinv⟩
  | succ n ih =>
    intro l r hr hf hinv
    unfold binSearchMetaLoop
    by_cases hlr : l < r
    · rw [if_pos hlr]
      have hmid : (l + r) / 2 < metas.length := by omega
      rw [List.getElem?_eq_getElem hmid]
      simp only
      by_cases h1 : metas[(l + r) / 2].ID = id
      · rw [if_pos h1]
        exact Or.inr ⟨_, hmid, rfl, h1⟩
      · rw [if_neg h1]
        by_cases h2 : metas[(l + r) / 2].ID < id
        · rw [if_pos h2]
          apply ih _ _ hr (by omega)
          intro t ht heq
          have hb := hinv t ht heq
          refine ⟨?_, hb.2⟩
          by_contra hc
          rcases Nat.lt_or_ge t ((l + r) / 2) with h | h
          · have := hp t _ ht hmid h
            omega
          · have : t = (l + r) / 2 := by omega
            subst this
            exact h1 heq
        · rw [if_neg h2]
          apply ih _ _ (by omega) (by omega)
          intro t ht heq
          have hb := hinv t ht heq
          refine ⟨hb.1, ?_⟩
          by_contra hc
          rcases Nat.lt_or_ge ((l + r) / 2) t with h | h
          · have := hp _ t hmid ht h
            omega
          · have : t = (l + r) / 2 := by omega
            subst this
            exact h1 heq
    · rw [if_neg hlr]
      exact Or.inl ⟨rfl, hnone l r hlr hinv⟩

/-- On a block in strict id order `binSearchMeta` returns the position of the meta with
the id, or `-1` when the block has no such meta. -/
theorem binSearchMeta_spec (metas : List Meta) (id : Nat)
    (hs : metas.Pairwise (fun a b => a.ID < b.ID)) :
    (binSearchMeta metas id = -1 ∧ ∀ m ∈ metas, m.ID ≠ id) ∨
    (∃ t, ∃ ht : t < metas.length, binSearchMeta metas id = (t : Int) ∧ metas[t].ID = id) := by
  unfold binSearchMeta
  cases hh : metas.head? with
  | none =>
    have : metas = [] := List.head?_eq_none_iff.mp hh
    subst this
    exact Or.inl ⟨rfl, by simp⟩
  | some first =>
    have hne : metas ≠ [] := by rintro rfl; simp at hh
    rw [List.getLast?_eq_getLast _ hne]
    simp only
    by_cases hc : id < first.ID ∨ (metas.getLast hne).ID < id
    · rw [if_pos hc]
      refine Or.inl ⟨rfl, ?_⟩
      intro m hm heq
      have := block_bounds metas hs first _ hh (List.getLast?_eq_getLast _ hne) m hm
      omega
    · rw [if_neg hc]
      exact binSearchMetaLoop_spec metas id hs metas.length 0 metas.length (le_refl _) (by omega)
        (fun t ht _ => ⟨Nat.zero_le _, ht⟩)

theorem binSearchBlockLoop_spec (blocks : List (List Meta)) (id : Nat)
    (hne : ∀ b ∈ blocks, b ≠ [])
    (hs : blocks.flatten.Pairwise (fun a b => a.ID < b.ID)) :
    ∀ fuel l r, r ≤ blocks.length → r - l ≤ fuel →
      (∀ t (ht : t < blocks.length) m, m ∈ blocks[t] → m.ID = id → l ≤ t ∧ t < r) →
      (binSearchBlockLoop blocks id fuel l r = some (-1) ∧ ∀ m ∈ blocks.flatten, m.ID ≠ id) ∨
      (∃ t, ∃ ht : t < blocks.length,
        binSearchBlockLoop blocks id fuel l r = some (t : Int) ∧
          ∀ m ∈ blocks.flatten, m.ID = id → m ∈ blocks[t]) := by
  obtain ⟨hin, hcr⟩ := List.pairwise_flatten.mp hs
  have hcross := List.pairwise_iff_getElem.mp hcr
  have hnone : ∀ l r, ¬ l < r →
      (∀ t (ht : t < blocks.length) m, m ∈ blocks[t] → m.ID = id → l ≤ t ∧ t < r) →
      ∀ m ∈ blocks.flatten, m.ID ≠ id := by
    intro l r hlr hinv m hm heq
    obtain ⟨b, hb, hmb⟩ := List.mem_flatten.mp hm
    obtain ⟨t, ht, rfl⟩ := List.getElem_of_mem hb
    have := hinv t ht m hmb heq
    omega
  intro fuel
  induction fuel with
  | zero =>
    intro l r _ hf hinv
    exact Or.inl ⟨rfl, hnone l r (by omega) hinv⟩
  | succ n ih =>
    intro l r hr hf hinv
    unfold binSearchBlockLoop
    by_cases hlr : l < r
    · rw [if_pos hlr]
      have hmid : (l + r) / 2 < blocks.length := by omega
      rw [List.getElem?_eq_getElem hmid]
      have hbne : blocks[(l + r) / 2] ≠ [] := hne _ (List.getElem_mem _)
      have hbs := hin _ (List.getElem_mem hmid)
      have hhead := List.head?_eq_head hbne
      have hlast := List.getLast?_eq_getLast _ hbne
      have hfm : blocks[(l + r) / 2].head hbne ∈ blocks[(l + r) / 2] := List.head_mem hbne
      have hlm : blocks[(l + r) / 2].getLast hbne ∈ blocks[(l + r) / 2] := List.getLast_mem hbne
      simp only [hhead, hlast]
      by_cases h1 : (blocks[(l + r) / 2].head hbne).ID ≤ id ∧ id ≤ (blocks[(l + r) / 2].getLast hbne).ID
      · rw [if_pos h1]
        refine Or.inr ⟨_, hmid, rfl, ?_⟩
        intro m hm heq
        obtain ⟨b, hb, hmb⟩ := List.mem_flatten.mp hm
        obtain ⟨t, ht, rfl⟩ := List.getElem_of_mem hb
        rcases Nat.lt_trichotomy t ((l + r) / 2) with h | h | h
        · have := hcross t _ ht hmid h m hmb _ hfm
          omega
        · subst h; exact hmb
        · have := hcross _ t hmid ht h _ hlm m hmb
          omega
      · rw [if_neg h1]
        by_cases h2 : id < (blocks[(l + r) / 2].head hbne).ID
        · rw [if_pos h2]
          apply ih _ _ (by omega) (by omega)
          intro t ht m hmb heq
          have hb := hinv t ht m hmb heq
          refine ⟨hb.1, ?_⟩
          by_contra hc
          rcases Nat.lt_or_ge ((l + r) / 2) t with h | h
          · have := hcross _ t hmid ht h _ hfm m hmb
            omega
          · have : t = (l + r) / 2 := by omega
            subst this
            have := (block_bounds _ hbs _ _ hhead hlast m hmb).1
            omega
        · rw [if_neg h2]
          apply ih _ _ hr (by omega)
          intro t ht m hmb heq
          have hb := hinv t ht m hmb heq
          refine ⟨?_, hb.2⟩
          by_contra hc
          rcases Nat.lt_or_ge t ((l + r) / 2) with h | h
          · have := hcross t _ ht hmid h m hmb _ hlm
            omega
          · have : t = (l + r) / 2 := by omega
            subst this
            have := (block_bounds _ hbs _ _ hhead hlast m hmb).2
            omega
    · rw [if_neg hlr]
      exact Or.inl ⟨rfl, hnone l r hlr hinv⟩

/-- On non-empty blocks in strict id order across the blocks `binSearchBlock` returns the
position of the only block that can hold the id, or `-1` when no block holds it. -/
theorem binSearchBlock_spec (blocks : List (List Meta)) (id : Nat)
    (hne : ∀ b ∈ blocks, b ≠ [])
    (hs : blocks.flatten.Pairwise (fun a b => a.ID < b.ID)) :
    (binSearchBlock blocks id = some (-1) ∧ ∀ m ∈ blocks.flatten, m.ID ≠ id) ∨
    (∃ t, ∃ ht : t < blocks.length,
      binSearchBlock blocks id = some (t : Int) ∧
        ∀ m ∈ blocks.flatten, m.ID = id → m ∈ blocks[t]) := by
  obtain ⟨hin, hcr⟩ := List.pairwise_flatten.mp hs
  have hcross := List.pairwise_iff_getElem.mp hcr
  unfold binSearchBlock
  by_cases hnil : blocks = []
  · subst hnil
    exact Or.inl ⟨rfl, by simp⟩
  · have hlen : 0 < blocks.length := List.length_pos.mpr hnil
    rw [List.head?_eq_head hnil, List.getLast?_eq_getLast _ hnil]
    simp only
    have h0ne : blocks.head hnil ≠ [] := hne _ (List.head_mem hnil)
    have hLne : blocks.getLast hnil ≠ [] := hne _ (List.getLast_mem hnil)
    rw [List.head?_eq_head h0ne, List.getLast?_eq_getLast _ hLne]
    simp only
    have hloc : ∀ m ∈ blocks.flatten, ∃ t, ∃ ht : t < blocks.length, m ∈ blocks[t] := by
      intro m hm
      obtain ⟨b, hb, hmb⟩ := List.mem_flatten.mp hm
      obtain ⟨t, ht, rfl⟩ := List.getElem_of_mem hb
      exact ⟨t, ht, hmb⟩
    by_cases h1 : id < ((blocks.head hnil).head h0ne).ID
    · rw [if_pos h1]
      refine Or.inl ⟨rfl, ?_⟩
      intro m hm heq
      obtain ⟨t, ht, hmb⟩ := hloc m hm
      have hf0 : (blocks.head hnil).head h0ne ∈ blocks[0] := by
        rw [← List.head_eq_getElem blocks hnil]; exact List.head_mem h0ne
      rcases Nat.eq_zero_or_pos t with h | h
      · subst h
        have hb0 : blocks[0] = blocks.head hnil := (List.head_eq_getElem blocks hnil).symm
        have := (block_bounds _ (hin _ (List.getElem_mem ht)) _ _
          (by rw [hb0]; exact List.head?_eq_head h0ne)
          (by rw [hb0]; exact List.getLast?_eq_getLast _ h0ne) m hmb).1
        omega
      · have := hcross 0 t hlen ht h _ hf0 m hmb
        omega
    · rw [if_neg h1]
      by_cases h2 : ((blocks.getLast hnil).getLast hLne).ID < id
      · rw [if_pos h2]
        refine Or.inl ⟨rfl, ?_⟩
        intro m hm heq
        obtain ⟨t, ht, hmb⟩ := hloc m hm
        have hbL : blocks[blocks.length - 1] = blocks.getLast hnil :=
          (List.getLast_eq_getElem blocks hnil).symm
        have hfL : (blocks.getLast hnil).getLast hLne ∈ blocks[blocks.length - 1] := by
          rw [hbL]; exact List.getLast_mem hLne
        rcases Nat.lt_or_ge t (blocks.length - 1) with h | h
        · have := hcross t _ ht (by omega) h m hmb _ hfL
          omega
        · have ht2 : t = blocks.length - 1 := by omega
          subst ht2
          have := (block_bounds _ (hin _ (List.getElem_mem ht)) _ _
            (by rw [hbL]; exact List.head?_eq_head hLne)
            (by rw [hbL]; exact List.getLast?_eq_getLast _ hLne) m hmb).2
          omega
      · rw [if_neg h2]
        exact binSearchBlockLoop_spec blocks id hne hs blocks.length 0 blocks.length (le_refl _)
          (by omega) (fun t ht _ _ _ => ⟨Nat.zero_le _, ht⟩)

theorem find?_of_pairwise (l : List Meta) (hs : l.Pairwise (fun a b => a.ID < b.ID))
    (m : Meta) (hm : m ∈ l) : l.find? (fun x => decide (x.ID = m.ID)) = some m := by
  induction l with
  | nil => simp at hm
  | cons a t ih =>
    rw [List.pairwise_cons] at hs
    rw [List.find?_cons]
    rcases List.mem_cons.mp hm with h | h
    · subst h; simp
    · have hlt := hs.1 m h
      have hne : ¬ a.ID = m.ID := by omega
      simp only [hne, decide_False]
      exact ih hs.2 h

theorem linearFind_spec (blocks : List (List Meta)) (id : Nat)
    (hs : blocks.flatten.Pairwise (fun a b => a.ID < b.ID)) (m : Meta) :
    linearFind blocks id = some m ↔ m ∈ blocks.flatten ∧ m.ID = id ∧ m.IsDeleted = false := by
  unfold linearFind
  constructor
  · intro h
    cases hf : blocks.flatten.find? (fun m => decide (m.ID = id)) with
    | none => rw [hf] at h; simp at h
    | some x =>
      rw [hf] at h
      simp only at h
      by_cases hd : x.IsDeleted = true
      · rw [if_pos hd] at h; simp at h
      · rw [if_neg hd] at h
        injection h with h
        subst h
        have h1 := List.mem_of_find?_eq_some hf
        have h2 := List.find?_some hf
        simp only [decide_eq_true_eq] at h2
        exact ⟨h1, h2, by simpa using hd⟩
  · rintro ⟨h1, h2, h3⟩
    have := find?_of_pairwise _ hs m h1
    rw [h2] at this
    rw [this]
    simp [h3]

/-- C11: on a storage whose blocks are all non-empty and whose metas are in strict id
order across the blocks, `Find` returns what a linear scan returns: the meta with the id
when there is one and it is not marked deleted, and `nil` otherwise; it returns `nil` for
a storage that does not exist. -/
theorem C11_Find_spec (mm : MetasMap) (storage : String) (id : Nat)
    (hver : mm.state.version ≠ 0) :
    (∀ blocks, mapGet mm.state.metasMap storage = some blocks →
      (∀ b ∈ blocks, b ≠ []) → blocks.flatten.Pairwise (fun a b => a.ID < b.ID) →
      mm.Find storage id = some (linearFind blocks id) ∧
      (∀ m, mm.Find storage id = some (some m) ↔
        m ∈ blocks.flatten ∧ m.ID = id ∧ m.IsDeleted = false) ∧
      (mm.Find storage id = some none ↔
        ¬ ∃ m, m ∈ blocks.flatten ∧ m.ID = id ∧ m.IsDeleted = false)) ∧
    (mapGet mm.state.metasMap storage = none → mm.Find storage id = some none) := by
  constructor
  · intro blocks hget hne hs
    have hF : mm.Find storage id = some (linearFind blocks id) := by
      have hnone : (∀ m ∈ blocks.flatten, m.ID ≠ id) → linearFind blocks id = none := by
        intro h
        unfold linearFind
        have : blocks.flatten.find? (fun m => decide (m.ID = id)) = none := by
          rw [List.find?_eq_none]
          intro x hx
          simpa using h x hx
        rw [this]
      obtain ⟨hin, _⟩ := List.pairwise_flatten.mp hs
      simp only [MetasMap.Find, StateManager.Get, hget, if_neg hver]
      rcases binSearchBlock_spec blocks id hne hs with ⟨hb, hno⟩ | ⟨t, ht, hb, hall⟩
      · rw [hb, hnone hno]; simp
      · rw [hb]
        have hneg : ¬ ((t : Int) = -1) := by omega
        simp only [if_neg hneg, Int.toNat_ofNat, List.getElem?_eq_getElem ht]
        rcases binSearchMeta_spec blocks[t] id (hin _ (List.getElem_mem ht)) with
          ⟨hm, hno⟩ | ⟨j, hj, hm, hid⟩
        · rw [hm, hnone (fun m hmem heq => hno m (hall m hmem heq) heq)]; simp
        · rw [hm]
          have hneg2 : ¬ ((j : Int) = -1) := by omega
          simp only [if_neg hneg2, Int.toNat_ofNat, List.getElem?_eq_getElem hj]
          have hmem : blocks[t][j] ∈ blocks.flatten :=
            List.mem_flatten.mpr ⟨_, List.getElem_mem ht, List.getElem_mem hj⟩
          have hfind := find?_of_pairwise _ hs _ hmem
          rw [hid] at hfind
          unfold linearFind
          rw [hfind]
          by_cases hd : blocks[t][j].IsDeleted = true
          · simp only [if_pos hd]
          · simp only [if_neg hd]
    refine ⟨hF, ?_, ?_⟩
    · intro m
      rw [hF, ← linearFind_spec blocks id hs m]
      constructor
      · intro h; injection h
      · intro h; rw [h]
    · rw [hF]
      constructor
      · intro h
        rintro ⟨m, hm⟩
        have := (linearFind_spec blocks id hs m).mpr hm
        injection h with h
        rw [h] at this
        simp at this
      · intro h
        cases hl : linearFind blocks id with
        | none => rfl
        | some m => exact absurd ⟨m, (linearFind_spec blocks id hs m).mp hl⟩ h
  · intro hget
    simp [MetasMap.Find, StateManager.Get, hget]

theorem C11_Find_spec_witness :
    testFindMetasMap.Find "storage" 4 = some (some (metaOf 4 false))
      ∧ testFindMetasMap.Find "storage" 7 = some none
      ∧ testFindMetasMap.Find "storage" 5 = some none
      ∧ testFindMetasMap.Find "other" 4 = some none :=
  ⟨((C11_Find_spec testFindMetasMap "storage" 4 (by decide)).1 _ rfl (by decide)
      (by decide)).1.trans (by decide),
   ((C11_Find_spec testFindMetasMap "storage" 7 (by decide)).1 _ rfl (by decide)
      (by decide)).1.trans (by decide),
   ((C11_Find_spec testFindMetasMap "storage" 5 (by decide)).1 _ rfl (by decide)
      (by decide)).1.trans (by decide),
   (C11_Find_spec testFindMetasMap "other" 4 (by decide)).2 (by decide)⟩

/-! ## Replaying a journal -/

theorem ext_getD (l1 l2 : List Nat) (hl : l1.length = l2.length)
    (h : ∀ i, l1.getD i 0 = l2.getD i 0) : l1 = l2 := by
  apply List.ext_getElem hl
  intro n h1 h2
  have := h n
  rwa [List.getD_eq_getElem _ _ h1, List.getD_eq_getElem _ _ h2] at this

theorem keepThenZeros_length (k m : Nat) (c : List Nat) (hkm : k ≤ m) :
    (keepThenZeros k m c).length = m := by
  simp only [keepThenZeros, List.length_append, List.length_take, List.length_replicate]
  omega

theorem keepThenZeros_getD (k m : Nat) (c : List Nat) (i : Nat) :
    (keepThenZeros k m c).getD i 0 = if i < k then c.getD i 0 else 0 := by
  unfold keepThenZeros
  rw [List.getD_eq_getElem?_getD, List.getD_eq_getElem?_getD]
  by_cases h1 : i < min k c.length
  · rw [List.getElem?_append_left (by simp; omega)]
    have hik : i < k := by omega
    rw [if_pos hik, List.getElem?_take_of_lt hik]
  · rw [List.getElem?_append_right (by simp; omega)]
    have hz : ((List.replicate (m - min k c.length) 0)[i - (List.take k c).length]?).getD 0 = 0 := by
      rw [List.getElem?_replicate]
      split <;> rfl
    rw [hz]
    by_cases hik : i < k
    · rw [if_pos hik, List.getElem?_eq_none (by omega)]
      rfl
    · rw [if_neg hik]

theorem truncateBytes_eq (n : Nat) (c : List Nat) : truncateBytes n c = keepThenZeros n n c := by
  unfold truncateBytes keepThenZeros
  congr 2
  omega

theorem truncate_keepThenZeros (n k m : Nat) (c : List Nat) :
    truncateBytes n (keepThenZeros k m c) = keepThenZeros (min k n) n c := by
  rw [truncateBytes_eq]
  apply ext_getD
  · rw [keepThenZeros_length _ _ _ (le_refl _), keepThenZeros_length _ _ _ (by omega)]
  · intro i
    rw [keepThenZeros_getD, keepThenZeros_getD, keepThenZeros_getD]
    by_cases h1 : i < n <;> by_cases h2 : i < k <;> simp [h1, h2]

theorem keepThenZeros_idem (k m : Nat) (c : List Nat) (hkm : k ≤ m) :
    keepThenZeros k m (keepThenZeros k m c) = keepThenZeros k m c := by
  apply ext_getD
  · rw [keepThenZeros_length _ _ _ hkm, keepThenZeros_length _ _ _ hkm]
  · intro i
    rw [keepThenZeros_getD, keepThenZeros_getD]
    by_cases h2 : i < k <;> simp [h2]

theorem stepBytes_shaped (a : FileAction) (p : Path) (f : List Nat → Option (List Nat))
    (hf : (∀ c, f c = some c) ∨ (∀ c, f c = none) ∨
      ∃ k m, k ≤ m ∧ ∀ c, f c = some (keepThenZeros k m c)) :
    (∀ c, (f c).bind (stepBytes a p) = some c) ∨ (∀ c, (f c).bind (stepBytes a p) = none) ∨
      ∃ k m, k ≤ m ∧ ∀ c, (f c).bind (stepBytes a p) = some (keepThenZeros k m c) := by
  have hkeep : (∀ c, stepBytes a p c = some c) →
      ((∀ c, (f c).bind (stepBytes a p) = some c) ∨ (∀ c, (f c).bind (stepBytes a p) = none) ∨
        ∃ k m, k ≤ m ∧ ∀ c, (f c).bind (stepBytes a p) = some (keepThenZeros k m c)) := by
    intro hid
    rcases hf with h | h | ⟨k, m, hkm, h⟩
    · exact Or.inl (fun c => by rw [h c, Option.some_bind, hid])
    · exact Or.inr (Or.inl (fun c => by rw [h c]; rfl))
    · exact Or.inr (Or.inr ⟨k, m, hkm, fun c => by rw [h c, Option.some_bind, hid]⟩)
  have hdrop : (∀ c, stepBytes a p c = none) →
      ((∀ c, (f c).bind (stepBytes a p) = some c) ∨ (∀ c, (f c).bind (stepBytes a p) = none) ∨
        ∃ k m, k ≤ m ∧ ∀ c, (f c).bind (stepBytes a p) = some (keepThenZeros k m c)) := by
    intro hno
    refine Or.inr (Or.inl (fun c => ?_))
    cases hc : f c with
    | none => rfl
    | some x => rw [Option.some_bind, hno]
  cases a with
  | cut name size =>
    by_cases hp : p = name
    · have hst : ∀ c, stepBytes (.cut name size) p c = some (truncateBytes size.toNat c) := by
        intro c; simp [stepBytes, hp]
      rcases hf with h | h | ⟨k, m, hkm, h⟩
      · exact Or.inr (Or.inr ⟨size.toNat, size.toNat, le_refl _, fun c => by
          rw [h c, Option.some_bind, hst, truncateBytes_eq]⟩)
      · exact Or.inr (Or.inl (fun c => by rw [h c]; rfl))
      · exact Or.inr (Or.inr ⟨min k size.toNat, size.toNat, by omega, fun c => by
          rw [h c, Option.some_bind, hst, truncate_keepThenZeros]⟩)
    · exact hkeep (fun c => by simp [stepBytes, hp])
  | remove name =>
    by_cases hp : name.isPrefixOf p = true
    · exact hdrop (fun c => by simp [stepBytes, hp])
    · exact hkeep (fun c => by simp [stepBytes, hp])
  | rename name newName =>
    by_cases hp : name.isPrefixOf p = true
    · exact hdrop (fun c => by simp [stepBytes, hp])
    · exact hkeep (fun c => by simp [stepBytes, hp])

theorem runBytes_shaped (l : List FileAction) (p : Path) :
    ∀ f : List Nat → Option (List Nat),
      ((∀ c, f c = some c) ∨ (∀ c, f c = none) ∨
        ∃ k m, k ≤ m ∧ ∀ c, f c = some (keepThenZeros k m c)) →
      ((∀ c, (f c).bind (runBytes l p) = some c) ∨ (∀ c, (f c).bind (runBytes l p) = none) ∨
        ∃ k m, k ≤ m ∧ ∀ c, (f c).bind (runBytes l p) = some (keepThenZeros k m c)) := by
  induction l with
  | nil =>
    intro f hf
    have : ∀ c, (f c).bind (runBytes [] p) = f c := by
      intro c
      cases f c <;> rfl
    simp only [this]
    exact hf
  | cons a rest ih =>
    intro f hf
    have := ih (fun c => (f c).bind (stepBytes a p)) (stepBytes_shaped a p f hf)
    have heq : ∀ c, (f c).bind (runBytes (a :: rest) p)
        = ((f c).bind (stepBytes a p)).bind (runBytes rest p) := by
      intro c
      cases f c <;> rfl
    simp only [heq]
    exact this

/-- The actions of a journal leave the bytes they produce as they are. -/
theorem runBytes_idem (l : List FileAction) (p : Path) (c c' : List Nat)
    (h : runBytes l p c = some c') : runBytes l p c' = some c' := by
  rcases runBytes_shaped l p some (Or.inl (fun _ => rfl)) with h1 | h1 | ⟨k, m, hkm, h1⟩
  · have := h1 c
    simp only [Option.some_bind] at this
    rw [this] at h
    injection h with h
    subst h
    exact this
  · have := h1 c
    simp only [Option.some_bind] at this
    rw [this] at h
    exact absurd h (by simp)
  · have e1 := h1 c
    have e2 := h1 c'
    simp only [Option.some_bind] at e1 e2
    rw [e1] at h
    injection h with h
    rw [e2, ← h, keepThenZeros_idem _ _ _ hkm]

theorem runBytes_fixed (l : List FileAction) (p : Path) (c : List Nat)
    (h : ∀ a ∈ l, stepBytes a p c = some c) : runBytes l p c = some c := by
  induction l with
  | nil => rfl
  | cons a rest ih =>
    simp only [runBytes]
    rw [h a (List.mem_cons_self _ _), Option.some_bind]
    exact ih (fun b hb => h b (List.mem_cons_of_mem _ hb))

theorem related_false (t n : Path) (h : related t n = false) : ¬ t <+: n ∧ ¬ n <+: t := by
  unfold related at h
  simp only [Bool.or_eq_false_iff] at h
  constructor
  · intro hc
    have := List.isPrefixOf_iff_prefix.mpr hc
    rw [h.1] at this
    exact absurd this (by simp)
  · intro hc
    have := List.isPrefixOf_iff_prefix.mpr hc
    rw [h.2] at this
    exact absurd this (by simp)

/-- A path that is apart from `t` has nothing to do with the files at or beneath `t`. -/
theorem not_prefix_of_apart (t n p : Path) (h : related t n = false) (ht : t <+: p) :
    ¬ n <+: p := by
  intro hn
  rcases List.prefix_or_prefix_of_prefix ht hn with h1 | h1
  · exact (related_false t n h).1 h1
  · exact (related_false t n h).2 h1

theorem has_false (d : Disk) (n : Path) : d.has n = false ↔ ∀ e ∈ d, ¬ n <+: e.1 := by
  unfold Disk.has
  rw [List.any_eq_false]
  constructor
  · intro h e he hc
    exact h e he (List.isPrefixOf_iff_prefix.mpr hc)
  · intro h e he hc
    exact h e he (List.isPrefixOf_iff_prefix.mp hc)

theorem get_none (d : Disk) (n : Path) (h : d.get n = none) : ∀ e ∈ d, e.1 ≠ n := by
  intro e he hc
  unfold Disk.get mapGet at h
  simp only [Option.map_eq_none', List.find?_eq_none, decide_eq_true_eq] at h
  exact h e he hc

theorem filterMap_self {α : Type} (f : α → Option α) (l : List α) (h : ∀ e ∈ l, f e = some e) :
    l.filterMap f = l := by
  induction l with
  | nil => rfl
  | cons a t ih =>
    rw [List.filterMap_cons, h a (List.mem_cons_self _ _)]
    simp only
    rw [ih (fun e he => h e (List.mem_cons_of_mem _ he))]

/-- What one action of a journal does to a tree in which the files a rename would move
are missing: every file goes through `stepBytes`. -/
theorem step_filterMap (a : FileAction) (d : Disk)
    (hsize : ∀ n s, a = .cut n s → 0 ≤ s)
    (hren : ∀ n m, a = .rename n m → d.has n = false) :
    skipNotExist d (runAction d a) = some (d.filterMap (entryOf (stepBytes a))) := by
  cases a with
  | cut name size =>
    have hs : ¬ size < 0 := by have := hsize name size rfl; omega
    simp only [runAction]
    have hmap : d.filterMap (entryOf (stepBytes (.cut name size)))
        = d.map (fun e => if e.1 = name then (e.1, truncateBytes size.toNat e.2) else e) := by
      rw [← List.filterMap_eq_map]
      congr 1
      funext e
      simp only [entryOf, stepBytes, Option.map_some', Function.comp]
      by_cases he : e.1 = name
      · simp [he]
      · simp [he]
    simp only [osTruncate, if_neg hs]
    cases hg : d.get name with
    | none =>
      simp only [skipNotExist]
      rw [hmap]
      congr 1
      symm
      have hne := get_none d name hg
      calc d.map (fun e => if e.1 = name then (e.1, truncateBytes size.toNat e.2) else e)
          = d.map id := List.map_congr_left (fun e he => by simp [hne e he])
        _ = d := List.map_id _
    | some _ =>
      simp only [skipNotExist]
      rw [hmap]
  | remove name =>
    simp only [runAction, osRemoveAll, skipNotExist]
    congr 1
    rw [← List.filterMap_eq_filter]
    congr 1
    funext e
    simp only [entryOf, stepBytes, Option.guard]
    by_cases he : name.isPrefixOf e.1 = true
    · simp [he]
    · simp [he]
  | rename name newName =>
    have hh := hren name newName rfl
    simp only [runAction, osRename, hh, Bool.not_false, if_true, skipNotExist]
    congr 1
    symm
    apply filterMap_self
    intro e he
    have hn := (has_false d name).mp hh e he
    have hb : name.isPrefixOf e.1 = false := by
      cases hc : name.isPrefixOf e.1 with
      | false => rfl
      | true => exact absurd (List.isPrefixOf_iff_prefix.mp hc) hn
    simp [entryOf, stepBytes, hb]

theorem mem_filterMap_entryOf (f : Path → List Nat → Option (List Nat)) (d : Disk)
    (e : Path × List Nat) (he : e ∈ d.filterMap (entryOf f)) :
    ∃ c0, (e.1, c0) ∈ d ∧ f e.1 c0 = some e.2 := by
  rw [List.mem_filterMap] at he
  obtain ⟨e0, he0, hf⟩ := he
  unfold entryOf at hf
  cases hc : f e0.1 e0.2 with
  | none => rw [hc] at hf; simp at hf
  | some c =>
    rw [hc] at hf
    simp only [Option.map_some', Option.some.injEq] at hf
    subst hf
    exact ⟨e0.2, he0, hc⟩

theorem entryOf_comp (f g : Path → List Nat → Option (List Nat)) (d : Disk) :
    (d.filterMap (entryOf f)).filterMap (entryOf g)
      = d.filterMap (entryOf (fun p c => (f p c).bind (g p))) := by
  rw [List.filterMap_filterMap]
  congr 1
  funext e
  unfold entryOf
  cases h : f e.1 e.2 <;> simp [h]

/-- A journal on a tree in which the files its renames would move are missing. -/
theorem applyActions_filterMap (l : List FileAction) :
    ∀ d : Disk, (∀ n s, .cut n s ∈ l → 0 ≤ s) → (∀ n m, .rename n m ∈ l → d.has n = false) →
      applyActions l d = some (d.filterMap (entryOf (runBytes l))) := by
  induction l with
  | nil =>
    intro d _ _
    simp only [applyActions]
    congr 1
    symm
    exact filterMap_self _ _ (fun e _ => rfl)
  | cons a rest ih =>
    intro d hsize hren
    simp only [applyActions]
    rw [step_filterMap a d (fun n s h => hsize n s (h ▸ List.mem_cons_self _ _))
      (fun n m h => hren n m (h ▸ List.mem_cons_self _ _))]
    simp only
    rw [ih _ (fun n s h => hsize n s (List.mem_cons_of_mem _ h)), entryOf_comp]
    · rfl
    · intro n m h
      rw [has_false]
      intro e he
      obtain ⟨c0, hc0, _⟩ := mem_filterMap_entryOf _ _ _ he
      exact (has_false d n).mp (hren n m (List.mem_cons_of_mem _ h)) (e.1, c0) hc0

theorem has_filterMap (f : Path → List Nat → Option (List Nat)) (d : Disk) (n : Path)
    (h : d.has n = false) : Disk.has (d.filterMap (entryOf f)) n = false := by
  rw [has_false] at h ⊢
  intro e he
  obtain ⟨c0, hc0, _⟩ := mem_filterMap_entryOf _ _ _ he
  exact h (e.1, c0) hc0

/-- One action of a journal whose rename targets are among `tg`, all apart from the name
of the action: a file of the new tree lies beneath a target or went through `stepBytes`;
the files a rename moves are gone; a place apart from the targets that was empty stays
empty; the size of a cut is not negative. -/
theorem step_first (tg : List Path) (a : FileAction) (d d1 : Disk)
    (htg : ∀ n m, a = .rename n m → m ∈ tg)
    (hap : ∀ t ∈ tg, related t a.name = false)
    (h : skipNotExist d (runAction d a) = some d1) :
    (∀ e ∈ d1, (∃ t ∈ tg, t <+: e.1) ∨ ∃ c0, (e.1, c0) ∈ d ∧ stepBytes a e.1 c0 = some e.2) ∧
    (∀ n m, a = .rename n m → d1.has n = false) ∧
    (∀ n, (∀ t ∈ tg, related t n = false) → d.has n = false → d1.has n = false) ∧
    (∀ n s, a = .cut n s → 0 ≤ s) := by
  have hplain : (∀ n s, a = .cut n s → 0 ≤ s) → (∀ n m, a = .rename n m → d.has n = false) →
      ((∀ e ∈ d1, (∃ t ∈ tg, t <+: e.1) ∨
          ∃ c0, (e.1, c0) ∈ d ∧ stepBytes a e.1 c0 = some e.2) ∧
        (∀ n m, a = .rename n m → d1.has n = false) ∧
        (∀ n, (∀ t ∈ tg, related t n = false) → d.has n = false → d1.has n = false) ∧
        (∀ n s, a = .cut n s → 0 ≤ s)) := by
    intro hsize hren
    rw [step_filterMap a d hsize hren] at h
    injection h with h
    subst h
    exact ⟨fun e he => Or.inr (mem_filterMap_entryOf _ _ _ he),
      fun n m hnm => has_filterMap _ d n (hren n m hnm),
      fun n _ hn => has_filterMap _ d n hn, hsize⟩
  cases a with
  | cut name size =>
    by_cases hs : size < 0
    · simp [runAction, osTruncate, hs, skipNotExist] at h
    · exact hplain (fun n s hns => by injection hns with h1 h2; omega) (fun n m hnm => by cases hnm)
  | remove name =>
    exact hplain (fun n s hns => by cases hns) (fun n m hnm => by cases hnm)
  | rename name newName =>
    cases hh : d.has name with
    | false =>
      exact hplain (fun n s hns => by cases hns)
        (fun n m hnm => by injection hnm with h1 h2; rw [← h1]; exact hh)
    | true =>
      have hmt : newName ∈ tg := htg name newName rfl
      have hrel : related newName name = false := hap newName hmt
      simp only [runAction, osRename, hh, Bool.not_true, Bool.false_eq_true, if_false,
        skipNotExist] at h
      injection h with h
      subst h
      have hmoved : ∀ e ∈ (d.filter (fun e => name.isPrefixOf e.1)).map
          (fun e => (newName ++ e.1.drop name.length, e.2)), newName <+: e.1 := by
        intro e he
        rw [List.mem_map] at he
        obtain ⟨e0, _, rfl⟩ := he
        exact List.prefix_append _ _
      have hrest : ∀ e ∈ d.filter (fun e => !name.isPrefixOf e.1 && !newName.isPrefixOf e.1),
          e ∈ d ∧ ¬ name <+: e.1 := by
        intro e he
        rw [List.mem_filter] at he
        refine ⟨he.1, fun hc => ?_⟩
        have := List.isPrefixOf_iff_prefix.mpr hc
        simp [this] at he
      refine ⟨?_, ?_, ?_, fun n s hns => by cases hns⟩
      · intro e he
        rcases List.mem_append.mp he with h1 | h1
        · exact Or.inl ⟨newName, hmt, hmoved e h1⟩
        · obtain ⟨hed, hnp⟩ := hrest e h1
          refine Or.inr ⟨e.2, hed, ?_⟩
          have hb : name.isPrefixOf e.1 = false := by
            cases hc : name.isPrefixOf e.1 with
            | false => rfl
            | true => exact absurd (List.isPrefixOf_iff_prefix.mp hc) hnp
          simp [stepBytes, hb]
      · intro n m hnm
        injection hnm with h1 h2
        subst h1
        rw [has_false]
        intro e he
        rcases List.mem_append.mp he with h1 | h1
        · exact not_prefix_of_apart newName name e.1 hrel (hmoved e h1)
        · exact (hrest e h1).2
      · intro n hn hdn
        rw [has_false] at hdn ⊢
        intro e he
        rcases List.mem_append.mp he with h1 | h1
        · exact not_prefix_of_apart newName n e.1 (hn newName hmt) (hmoved e h1)
        · exact hdn e (hrest e h1).1

theorem mem_renameTargets (l : List FileAction) (n m : Path) (h : .rename n m ∈ l) :
    m ∈ renameTargets l := by
  induction l with
  | nil => simp at h
  | cons a rest ih =>
    rcases List.mem_cons.mp h with h1 | h1
    · subst h1; simp [renameTargets]
    · cases a <;> simp [renameTargets, ih h1]

/-- The first run of a journal whose rename targets are among `tg` and apart from the
names of its actions. -/
theorem applyActions_first (tg : List Path) (l : List FileAction) :
    ∀ d d1 : Disk, (∀ n m, .rename n m ∈ l → m ∈ tg) →
      (∀ a ∈ l, ∀ t ∈ tg, related t a.name = false) →
      applyActions l d = some d1 →
      (∀ e ∈ d1, (∃ t ∈ tg, t <+: e.1) ∨ ∃ c0, (e.1, c0) ∈ d ∧ runBytes l e.1 c0 = some e.2) ∧
      (∀ n m, .rename n m ∈ l → d1.has n = false) ∧
      (∀ n, (∀ t ∈ tg, related t n = false) → d.has n = false → d1.has n = false) ∧
      (∀ n s, .cut n s ∈ l → 0 ≤ s) := by
  induction l with
  | nil =>
    intro d d1 _ _ h
    simp only [applyActions] at h
    injection h with h
    subst h
    exact ⟨fun e he => Or.inr ⟨e.2, he, rfl⟩, fun n m hnm => by simp at hnm,
      fun n _ hn => hn, fun n s hns => by simp at hns⟩
  | cons a rest ih =>
    intro d d1 htg hap h
    simp only [applyActions] at h
    cases hstep : skipNotExist d (runAction d a) with
    | none => rw [hstep] at h; simp at h
    | some d0 =>
      rw [hstep] at h
      simp only at h
      obtain ⟨s1, s2, s3, s4⟩ := step_first tg a d d0
        (fun n m hnm => htg n m (hnm ▸ List.mem_cons_self _ _))
        (hap a (List.mem_cons_self _ _)) hstep
      obtain ⟨r1, r2, r3, r4⟩ := ih d0 d1
        (fun n m hnm => htg n m (List.mem_cons_of_mem _ hnm))
        (fun b hb => hap b (List.mem_cons_of_mem _ hb)) h
      refine ⟨?_, ?_, ?_, ?_⟩
      · intro e he
        rcases r1 e he with hl | ⟨c1, hc1, hrun⟩
        · exact Or.inl hl
        · rcases s1 (e.1, c1) hc1 with hl | ⟨c0, hc0, hst⟩
          · exact Or.inl hl
          · refine Or.inr ⟨c0, hc0, ?_⟩
            simp only [runBytes]
            simp only at hst
            rw [hst, Option.some_bind]
            exact hrun
      · intro n m hnm
        rcases List.mem_cons.mp hnm with h1 | h1
        · have hn : ∀ t ∈ tg, related t n = false := by
            intro t ht
            have := hap a (List.mem_cons_self _ _) t ht
            rw [← h1] at this
            exact this
          exact r3 n hn (s2 n m h1.symm)
        · exact r2 n m h1
      · intro n hn hdn
        exact r3 n hn (s3 n hn hdn)
      · intro n s hns
        rcases List.mem_cons.mp hns with h1 | h1
        · exact s4 n s h1.symm
        · exact r4 n s h1

/-- C15, as amended: a journal in which no rename puts a file at, above or beneath the
name of an action of the journal replays to the same tree. Once its actions have been
executed in order with the semantics of `Apply` (a missing file is skipped), executing them
again succeeds and leaves every file as it is. -/
theorem C15_replay_idempotent (l : List FileAction) (d d1 : Disk)
    (hap : targetsApart l = true) (h1 : applyActions l d = some d1) :
    applyActions l d1 = some d1 := by
  have hap2 : ∀ a ∈ l, ∀ t ∈ renameTargets l, related t a.name = false := by
    intro a ha t ht
    unfold targetsApart at hap
    rw [List.all_eq_true] at hap
    have := hap t ht
    rw [List.all_eq_true] at this
    simpa using this a ha
  obtain ⟨r1, r2, _, r4⟩ := applyActions_first (renameTargets l) l d d1
    (fun n m hnm => mem_renameTargets l n m hnm) hap2 h1
  rw [applyActions_filterMap l d1 r4 r2]
  congr 1
  apply filterMap_self
  intro e he
  have hfix : runBytes l e.1 e.2 = some e.2 := by
    rcases r1 e he with ⟨t, ht, hpre⟩ | ⟨c0, _, hrun⟩
    · apply runBytes_fixed
      intro a ha
      have hrel := hap2 a ha t ht
      have hnp : ¬ a.name <+: e.1 := not_prefix_of_apart t a.name e.1 hrel hpre
      have hb : a.name.isPrefixOf e.1 = false := by
        cases hc : a.name.isPrefixOf e.1 with
        | false => rfl
        | true => exact absurd (List.isPrefixOf_iff_prefix.mp hc) hnp
      cases a with
      | cut name size =>
        have hne : ¬ e.1 = name := by
          intro hc
          apply hnp
          rw [hc]
          exact List.prefix_refl _
        simp [stepBytes, hne]
      | remove name =>
        simp only [FileAction.name] at hb
        simp [stepBytes, hb]
      | rename name newName =>
        simp only [FileAction.name] at hb
        simp [stepBytes, hb]
    · exact runBytes_idem l e.1 c0 e.2 hrun
  simp [entryOf, hfix]

theorem C15_replay_idempotent_witness :
    applyActions testJournal
        [(["forCut.txt"], [1, 2, 3, 4, 5, 6, 7, 8, 9, 0]), (["forRemove.txt"], []),
         (["forRename.txt"], [])]
      = some [(["renamed.txt"], []), (["forCut.txt"], [1, 2, 3, 4, 5])]
    ∧ applyActions testJournal [(["renamed.txt"], []), (["forCut.txt"], [1, 2, 3, 4, 5])]
      = some [(["renamed.txt"], []), (["forCut.txt"], [1, 2, 3, 4, 5])] :=
  ⟨by decide,
   C15_replay_idempotent testJournal
     [(["forCut.txt"], [1, 2, 3, 4, 5, 6, 7, 8, 9, 0]), (["forRemove.txt"], []),
      (["forRename.txt"], [])]
     [(["renamed.txt"], []), (["forCut.txt"], [1, 2, 3, 4, 5])] (by decide) (by decide)⟩

/-- C15, counterexample: the journal `remove(a), rename(b, a)` on a tree with the files `a`
and `b`. Executed once it leaves `a` with the bytes of `b`; executed again it removes that
file and skips the rename, so no file is left. The journal puts a file at a name it
removes. -/
theorem C15_counterexample :
    targetsApart replayJournal = false
      ∧ applyActions replayJournal replayDisk = some [(["a"], [2])]
      ∧ applyActions replayJournal [(["a"], [2])] = some [] := by
  decide

/-- C16: `RunTransactions` on a tree whose directory `transactions` holds the committed
journal `test` and a stray file `tx.new`. The stray file is removed by its bare name, a
path relative to the working directory, so the run ends in a fatal error when the working
directory has no file `tx.new`; when it has one, that file is removed and
`transactions/tx.new` stays. -/
theorem C16_stray_new_not_removed :
    RunTransactions testUnmarshal (testTransactionDisk ++ [(["transactions", "tx.new"], [7])])
        = none
      ∧ RunTransactions testUnmarshal
          (testTransactionDisk ++ [(["transactions", "tx.new"], [7]), (["tx.new"], [1])])
        = some [(["renamed.txt"], []), (["forCut.txt"], [1, 2, 3, 4, 5]),
                (["transactions", "tx.new"], [7])]
      ∧ RunTransactions testUnmarshal testTransactionDisk
        = some [(["renamed.txt"], []), (["forCut.txt"], [1, 2, 3, 4, 5])] := by
  decide

/-! ## Discovery of the chunks on boot -/

/-- C17: `filterAndReadMetas` on a storage with the directories `1_1` and `1_2`. When the
meta of version 2 is marked deleted, or its meta file is empty, only `1_2` is removed and
the meta of the lower version 1 is returned as live: `currID` is set only for a meta that
is kept, so the next directory of the same id is not seen as an older version. With both
metas live the meta of version 2 is returned. -/
theorem C17_lower_version_returned :
    (filterAndReadMetas testUnmarshalMeta (insertionSliceSort _) bootDiskDeleted "s").map
          (fun r => r.1) = some [⟨1, 1, ⟨1, 3⟩, 3, none, false⟩]
      ∧ (filterAndReadMetas testUnmarshalMeta (insertionSliceSort _) bootDiskDeleted "s").map
          (fun r => r.2.2) = some [(["storages", "s", "1_1", "meta"], [1])]
      ∧ (filterAndReadMetas testUnmarshalMeta (insertionSliceSort _) bootDiskEmptyMeta "s").map
          (fun r => r.1) = some [⟨1, 1, ⟨1, 3⟩, 3, none, false⟩]
      ∧ (filterAndReadMetas testUnmarshalMeta (insertionSliceSort _) bootDiskEmptyMeta "s").map
          (fun r => r.2.2) = some [(["storages", "s", "1_1", "meta"], [1])]
      ∧ (filterAndReadMetas testUnmarshalMeta (insertionSliceSort _)
            [(["storages", "s", "1_1", "meta"], [1]), (["storages", "s", "1_2", "meta"], [1])]
            "s").map (fun r => r.1) = some [⟨1, 2, ⟨1, 3⟩, 3, none, false⟩] := by
  decide

/-! ## The chunk ids of a writer instance -/

theorem binSearchMetaLoop_sound (metas : List Meta) (id : Nat) :
    ∀ fuel l r, binSearchMetaLoop metas id fuel l r = -1 ∨
      ∃ (t : Nat) (m : Meta), binSearchMetaLoop metas id fuel l r = (t : Int) ∧ metas[t]? = some m ∧ m.ID = id := by
  intro fuel
  induction fuel with
  | zero => intro l r; exact Or.inl rfl
  | succ n ih =>
    intro l r
    unfold binSearchMetaLoop
    by_cases hlr : l < r
    · rw [if_pos hlr]
      cases hm : metas[(l + r) / 2]? with
      | none => exact Or.inl rfl
      | some m =>
        simp only
        by_cases h1 : m.ID = id
        · rw [if_pos h1]
          exact Or.inr ⟨_, m, rfl, hm, h1⟩
        · rw [if_neg h1]
          by_cases h2 : m.ID < id
          · rw [if_pos h2]; exact ih _ _
          · rw [if_neg h2]; exact ih _ _
    · rw [if_neg hlr]
      exact Or.inl rfl

theorem binSearchMeta_sound (metas : List Meta) (id : Nat) :
    binSearchMeta metas id = -1 ∨
      ∃ (t : Nat) (m : Meta), binSearchMeta metas id = (t : Int) ∧ metas[t]? = some m ∧ m.ID = id := by
  unfold binSearchMeta
  cases metas.head? with
  | none => exact Or.inl rfl
  | some first =>
    cases metas.getLast? with
    | none => exact Or.inl rfl
    | some last =>
      simp only
      by_cases hc : id < first.ID ∨ last.ID < id
      · rw [if_pos hc]; exact Or.inl rfl
      · rw [if_neg hc]; exact binSearchMetaLoop_sound metas id _ _ _

/-- A meta returned by `Find` carries the id that was asked for. -/
theorem Find_ID (mm : MetasMap) (storage : String) (id : Nat) (m : Meta)
    (h : mm.Find storage id = some (some m)) : m.ID = id := by
  unfold MetasMap.Find at h
  simp only at h
  split at h
  · cases h
  · split at h
    · cases h
    · rename_i i _
      split at h
      · cases h
      · split at h
        · cases h
        · rename_i blk _
          rcases binSearchMeta_sound blk id with hs | ⟨t, m0, hs, hget, hid⟩
          · rw [hs] at h; simp at h
          · rw [hs] at h
            have hneg : ¬ ((t : Int) = -1) := by omega
            simp only [if_neg hneg, Int.toNat_ofNat, hget] at h
            split at h
            · cases h
            · injection h with h
              injection h with h
              rw [← h]; exact hid

theorem Commit_events (b : Backuper) (w : World) :
    ∀ e ∈ (b.Commit w).events, e ∈ w.events ∨ e.chunk = none := by
  intro e he
  unfold Backuper.Commit at he
  split at he
  · exact Or.inl he
  · simp only [World.emit, List.mem_append, List.mem_singleton] at he
    rcases he with h | h
    · exact Or.inl h
    · subst h; exact Or.inr rfl

theorem AddChunk_cancelTx (b : Backuper) (p : ChunkPath) (o : Option Offsets) :
    (b.AddChunk p o).cancelTx = some (b.cancelTx.getD [] ++ [p]) := by
  unfold Backuper.AddChunk Backuper.AddForReplace
  cases o with
  | none => rfl
  | some x =>
    simp only
    split <;> rfl

/-- The file-system calls of `WriteToChunk` work on versions of the chunk of the meta, and
so do the renames it stages. -/
theorem WriteToChunk_events (lib : Lib) (sw : Writer) (storage : String) (mt : Meta)
    (logs : List Log) (b : Backuper) (w : World) (r : Int × Meta × Backuper × World)
    (h : sw.WriteToChunk lib storage mt logs b w = some r) :
    (∀ e ∈ r.2.2.2.events, e ∈ w.events ∨
      ∀ p, e.chunk = some p → p.storage = storage ∧ p.id = mt.ID) ∧
    (∀ p ∈ r.2.2.1.cancelTx.getD [], p ∈ b.cancelTx.getD [] ∨
      (p.storage = storage ∧ p.id = mt.ID)) ∧
    r.2.1.ID = mt.ID := by
  unfold Writer.WriteToChunk at h
  by_cases hl : logs.length = 0
  · rw [if_pos hl] at h
    cases h
    exact ⟨fun e he => Or.inl he, fun p hp => Or.inl hp, rfl⟩
  · rw [if_neg hl] at h
    by_cases hw : Min (sw.maxLogsInChunk - mt.LogsLen) logs.length = 0
    · simp only [hw, if_true] at h
      cases h
      exact ⟨fun e he => Or.inl he, fun p hp => Or.inl hp, rfl⟩
    · simp only [hw, if_false] at h
      cases hsl : slice logs 0 (Min (sw.maxLogsInChunk - mt.LogsLen) logs.length) with
      | none => rw [hsl] at h; cases h
      | some part =>
        rw [hsl] at h
        simp only [Option.some.injEq] at h
        subst h
        have hid : ∀ m2 : Meta, m2.ID = mt.ID →
            (chunkPath storage m2).storage = storage ∧ (chunkPath storage m2).id = mt.ID :=
          fun m2 h2 => ⟨rfl, h2⟩
        have hmt2 : (if mt.LogsLen + Min (sw.maxLogsInChunk - mt.LogsLen) logs.length
              = sw.maxLogsInChunk then
            ({ mt with LogsLen := mt.LogsLen + Min (sw.maxLogsInChunk - mt.LogsLen) logs.length,
                       Offsets := none } : Meta)
            else { mt with LogsLen := mt.LogsLen + Min (sw.maxLogsInChunk - mt.LogsLen) logs.length }).ID
            = mt.ID := by
          split <;> rfl
        refine ⟨?_, ?_, ?_⟩
        · intro e he
          simp only [World.emit, World.setChunk, List.mem_append, List.mem_singleton] at he
          rcases he with (h1 | h1) | h1
          · rcases Commit_events _ w e h1 with h2 | h2
            · exact Or.inl h2
            · exact Or.inr (fun p hp => by rw [h2] at hp; cases hp)
          · subst h1
            refine Or.inr (fun p hp => ?_)
            simp only [FsEvent.chunk, Option.some.injEq] at hp
            subst hp
            exact hid _ hmt2
          · subst h1
            refine Or.inr (fun p hp => ?_)
            simp only [FsEvent.chunk, Option.some.injEq] at hp
            subst hp
            exact hid _ hmt2
        · intro p hp
          simp only [AddChunk_cancelTx, Option.getD_some, List.mem_append, List.mem_singleton] at hp
          rcases hp with h1 | h1
          · exact Or.inl h1
          · subst h1
            exact Or.inr (hid _ hmt2)
        · simp only [columnWriters]
          exact hmt2

theorem ReadChunk_events (storage : String) (mt : Meta) (w : World)
    (r : List Log × World) (h : ReadChunk storage mt w = some r) :
    ∀ e ∈ r.2.events, e ∈ w.events ∨
      ∀ p, e.chunk = some p → p.storage = storage ∧ p.id = mt.ID := by
  unfold ReadChunk at h
  simp only at h
  split at h
  · injection h with h
    subst h
    intro e he
    simp only [World.emit, List.mem_append, List.mem_singleton] at he
    rcases he with h1 | h1
    · exact Or.inl h1
    · subst h1
      refine Or.inr (fun p hp => ?_)
      simp only [FsEvent.chunk, Option.some.injEq] at hp
      subst hp
      exact ⟨rfl, rfl⟩
  · cases h

theorem applyRename_events (acts : List ChunkPath) :
    ∀ w : World, ∀ e ∈ (acts.foldl applyRename w).events,
      e ∈ w.events ∨ ∀ p, e.chunk = some p → p ∈ acts := by
  induction acts with
  | nil => intro w e he; exact Or.inl he
  | cons a rest ih =>
    intro w e he
    rw [List.foldl_cons] at he
    rcases ih _ e he with h1 | h1
    · unfold applyRename at h1
      split at h1
      · exact Or.inl h1
      · simp only [World.emit, World.setChunk, List.mem_append, List.mem_singleton] at h1
        rcases h1 with h2 | h2
        · exact Or.inl h2
        · subst h2
          refine Or.inr (fun p hp => ?_)
          simp only [FsEvent.chunk, Option.some.injEq] at hp
          subst hp
          exact List.mem_cons_self _ _
    · exact Or.inr (fun p hp => List.mem_cons_of_mem _ (h1 p hp))

/-- The file-system calls of `Backuper.Cancel` work on the chunks of the staged renames. -/
theorem Cancel_events (b : Backuper) (w : World) (r : Backuper × World)
    (h : b.Cancel w = some r) :
    ∀ e ∈ r.2.events, e ∈ w.events ∨ ∀ p, e.chunk = some p → p ∈ b.cancelTx.getD [] := by
  unfold Backuper.Cancel at h
  cases hc : b.cancelTx with
  | none =>
    rw [hc] at h
    simp only at h
    split at h
    · injection h with h
      subst h
      exact fun e he => Or.inl he
    · split at h
      · cases h
      · injection h with h
        subst h
        intro e he
        simp only [World.emit, List.mem_append, List.mem_singleton] at he
        rcases he with h1 | h1
        · exact Or.inl h1
        · subst h1
          exact Or.inr (fun p hp => by cases hp)
  | some acts =>
    rw [hc] at h
    simp only at h
    split at h
    · cases h
    · injection h with h
      subst h
      intro e he
      simp only [World.emit, List.mem_append, List.mem_singleton] at he
      rcases he with h1 | h1
      · rcases applyRename_events acts _ e h1 with h2 | h2
        · split at h2
          · exact Or.inl h2
          · simp only [List.mem_append, List.mem_singleton] at h2
            rcases h2 with h3 | h3
            · exact Or.inl h3
            · subst h3
              exact Or.inr (fun p hp => by cases hp)
        · exact Or.inr (fun p hp => by simpa using h2 p hp)
      · subst h1
        exact Or.inr (fun p hp => by cases hp)

/-- The loop of the writer keeps to the ids of its instance: the id it works on, the
chunks of its file-system calls and the chunks of its staged renames. -/
theorem writeLoop_ids (lib : Lib) (sw : Writer) (step : Nat) (mm : MetasMap)
    (task : WriteLogsTask) (first instanceNum : Nat) (ev0 : List FsEvent) :
    ∀ fuel (st st' : WriteLoop),
      onShard first instanceNum step st.id →
      (∀ e ∈ st.world.events, e ∈ ev0 ∨
        ∀ p, e.chunk = some p → p.storage = task.Storage ∧ onShard first instanceNum step p.id) →
      (∀ p ∈ st.backuper.cancelTx.getD [],
        p.storage = task.Storage ∧ onShard first instanceNum step p.id) →
      writeLoop lib sw step mm task fuel st = some st' →
      onShard first instanceNum step st'.id ∧
      (∀ e ∈ st'.world.events, e ∈ ev0 ∨
        ∀ p, e.chunk = some p → p.storage = task.Storage ∧ onShard first instanceNum step p.id) ∧
      (∀ p ∈ st'.backuper.cancelTx.getD [],
        p.storage = task.Storage ∧ onShard first instanceNum step p.id) := by
  intro fuel
  induction fuel with
  | zero =>
    intro st st' hid hev hcx h
    unfold writeLoop at h
    split at h
    · cases h
    · injection h with h
      subst h
      exact ⟨hid, hev, hcx⟩
  | succ n ih =>
    intro st st' hid hev hcx h
    unfold writeLoop at h
    by_cases hc : st.writed < task.Logs.length
    · rw [if_pos hc] at h
      cases hF : mm.Find task.Storage st.id with
      | none => rw [hF] at h; simp at h
      | some found =>
        cases hH : task.Logs.head? with
        | none => rw [hF, hH] at h; simp at h
        | some frst =>
          rw [hF, hH] at h
          simp only at h
          have hmid : (found.getD (NewMeta st.id frst.Timestamp)).ID = st.id := by
            cases found with
            | none => rfl
            | some m => exact Find_ID mm task.Storage st.id m hF
          have hq : ∀ p : ChunkPath,
              p.storage = task.Storage ∧ p.id = (found.getD (NewMeta st.id frst.Timestamp)).ID →
              p.storage = task.Storage ∧ onShard first instanceNum step p.id := by
            rintro p ⟨h1, h2⟩
            refine ⟨h1, ?_⟩
            rw [h2, hmid]
            exact hid
          split at h
          · cases hsl : slice task.Logs st.writed task.Logs.length with
            | none => rw [hsl] at h; simp at h
            | some logs =>
              rw [hsl] at h
              simp only at h
              cases hW : sw.WriteToChunk lib task.Storage
                  (found.getD (NewMeta st.id frst.Timestamp)) logs st.backuper st.world with
              | none => rw [hW] at h; simp at h
              | some r =>
                obtain ⟨n1, mt1, b1, w1⟩ := r
                rw [hW] at h
                simp only at h
                obtain ⟨e1, e2, _⟩ := WriteToChunk_events lib sw task.Storage _ logs st.backuper
                  st.world _ hW
                refine ih _ st' ?_ ?_ ?_ h
                · exact hid
                · intro e he
                  rcases e1 e he with h1 | h1
                  · exact hev e h1
                  · exact Or.inr (fun p hp => hq p (h1 p hp))
                · intro p hp
                  rcases e2 p hp with h1 | h1
                  · exact hcx p h1
                  · exact hq p h1
          · cases hR : ReadChunk task.Storage (found.getD (NewMeta st.id frst.Timestamp))
                st.world with
            | none => rw [hR] at h; simp at h
            | some rr =>
              obtain ⟨stored, w0⟩ := rr
              rw [hR] at h
              simp only at h
              cases hsl : slice task.Logs st.writed
                  (st.writed + (sw.maxLogsInChunk -
                    (found.getD (NewMeta st.id frst.Timestamp)).LogsLen)) with
              | none => rw [hsl] at h; simp at h
              | some fresh =>
                rw [hsl] at h
                simp only at h
                cases hW : sw.WriteToChunk lib task.Storage
                    { (found.getD (NewMeta st.id frst.Timestamp)) with
                      Version := (found.getD (NewMeta st.id frst.Timestamp)).Version + 1,
                      LogsLen := 0 }
                    (lib.sortLogs.run (JoinSlices [stored, fresh])) st.backuper w0 with
                | none => rw [hW] at h; simp at h
                | some r =>
                  obtain ⟨n1, mt1, b1, w1⟩ := r
                  rw [hW] at h
                  simp only at h
                  have r1 := ReadChunk_events task.Storage _ st.world _ hR
                  obtain ⟨e1, e2, _⟩ := WriteToChunk_events lib sw task.Storage _ _ st.backuper
                    w0 _ hW
                  refine ih _ st' ?_ ?_ ?_ h
                  · obtain ⟨j, hj⟩ := hid
                    exact ⟨j + 1, by simp only [hj]; ring⟩
                  · intro e he
                    rcases e1 e he with h1 | h1
                    · rcases r1 e h1 with h2 | h2
                      · exact hev e h2
                      · exact Or.inr (fun p hp => hq p (h2 p hp))
                    · exact Or.inr (fun p hp => hq p (h1 p hp))
                  · intro p hp
                    rcases e2 p hp with h1 | h1
                    · exact hcx p h1
                    · exact hq p h1
    · rw [if_neg hc] at h
      injection h with h
      subst h
      exact ⟨hid, hev, hcx⟩

theorem find?_filter_ne {κ ν : Type} [DecidableEq κ] (m : List (κ × ν)) (k k' : κ)
    (h : k' ≠ k) :
    (m.filter (fun e => decide (e.1 ≠ k))).find? (fun e => decide (e.1 = k'))
      = m.find? (fun e => decide (e.1 = k')) := by
  induction m with
  | nil => rfl
  | cons a t ih =>
    by_cases ha : a.1 = k
    · have hk : decide (a.1 = k') = false := by
        rw [decide_eq_false_iff_not]
        exact fun hc => h (hc.symm.trans ha)
      have hf : decide (a.1 ≠ k) = false := by simp [ha]
      rw [List.filter_cons, hf, List.find?_cons, hk]
      exact ih
    · simp only [List.filter_cons, ha, ne_eq, not_false_eq_true, decide_True, if_true,
        List.find?_cons]
      rw [ih]

theorem mapGet_mapSet_ne {κ ν : Type} [DecidableEq κ] (m : List (κ × ν)) (k k' : κ) (v : ν)
    (h : k' ≠ k) : mapGet (mapSet m k v) k' = mapGet m k' := by
  unfold mapGet mapSet
  have h2 : [(k, v)].find? (fun e => decide (e.1 = k')) = none := by
    simp [List.find?_cons, Ne.symm h]
  rw [List.find?_append, find?_filter_ne m k k' h, h2]
  simp

theorem mapGet_mapDelete {κ ν : Type} [DecidableEq κ] (m : List (κ × ν)) (k k' : κ) :
    mapGet (mapDelete m k) k' = if k' = k then none else mapGet m k' := by
  unfold mapGet mapDelete
  by_cases h : k' = k
  · rw [if_pos h]
    have : (m.filter (fun e => decide (e.1 ≠ k))).find? (fun e => decide (e.1 = k')) = none := by
      rw [List.find?_eq_none]
      intro x hx
      have := (List.mem_filter.mp hx).2
      subst h
      simpa using this
    rw [this]; rfl
  · rw [if_neg h, find?_filter_ne m k k' h]

theorem Set_Exists (sm : StateManager) (storage s : String) (blocks : List (List Meta)) :
    (sm.Set storage blocks).1.Exists s = sm.Exists s := by
  unfold StateManager.Set StateManager.Exists
  cases hg : mapGet sm.metasMap storage with
  | none => rfl
  | some old =>
    simp only
    by_cases hs : s = storage
    · subst hs
      rw [mapGet_mapSet, hg]
      rfl
    · rw [mapGet_mapSet_ne _ _ _ _ hs]

/-- The handler of updates neither adds nor removes a storage. -/
theorem updateHandler_Exists (lib : Lib) (mm mm' : MetasMap) (task : UpdateStateTask)
    (h : mm.updateHandler lib task = some mm') (s : String) : mm'.Exists s = mm.Exists s := by
  unfold MetasMap.updateHandler at h
  simp only at h
  repeat' (split at h)
  all_goals first
    | (injection h with h; subst h; rfl)
    | (injection h with h; subst h; exact Set_Exists _ _ _ _)
    | cases h

theorem mapGet_map_add (m : List (String × Nat)) (k : Nat) (s : String) :
    mapGet (m.map (fun e => (e.1, e.2 + k))) s = (mapGet m s).map (fun f => f + k) := by
  unfold mapGet
  induction m with
  | nil => rfl
  | cons a t ih =>
    simp only [List.map_cons, List.find?_cons]
    by_cases ha : a.1 = s
    · simp [ha]
    · simp only [ha, decide_False]
      exact ih

/-- One task of the queue: the chunks of the file-system calls it makes have ids of the
instance, and so has the id it leaves in `chunksForWrite`. -/
theorem writeTask_ids (lib : Lib) (sw : Writer) (instanceNum step user : Nat)
    (frc cfw : List (String × Nat)) (mm : MetasMap) (task : WriteLogsTask) (w : World)
    (r : WriteResult)
    (hcfw : ∀ s, mm.Exists s = true →
      (∀ id, mapGet cfw s = some id → onShard (firstID frc s) instanceNum step id) ∧
      (mapGet cfw s = none → mapGet frc s = none))
    (h : sw.writeTask lib instanceNum step user cfw mm task w = some r) :
    (∀ e ∈ r.world.events, e ∈ w.events ∨
      ∀ p, e.chunk = some p → onShard (firstID frc p.storage) instanceNum step p.id) ∧
    (∀ s, mm.Exists s = true →
      (∀ id, mapGet r.chunksForWrite s = some id → onShard (firstID frc s) instanceNum step id) ∧
      (mapGet r.chunksForWrite s = none → mapGet frc s = none)) ∧
    (∀ s, r.metasMap.Exists s = mm.Exists s) := by
  unfold Writer.writeTask at h
  simp only at h
  have hres : (mm.ReserveVersion user).Exists task.Storage = mm.Exists task.Storage := rfl
  cases hex : mm.Exists task.Storage with
  | false =>
    rw [hres, hex] at h
    simp only [Bool.not_false, if_true] at h
    injection h with h
    subst h
    refine ⟨fun e he => Or.inl he, ?_, fun s => rfl⟩
    intro s hs
    have hne : s ≠ task.Storage := by
      intro hc
      rw [hc, hex] at hs
      cases hs
    simp only [mapGet_mapDelete, if_neg hne]
    exact hcfw s hs
  | true =>
    rw [hres, hex] at h
    simp only [Bool.not_true, Bool.false_eq_true, if_false] at h
    have hid0 : onShard (firstID frc task.Storage) instanceNum step
        ((mapGet cfw task.Storage).getD (1 + instanceNum)) := by
      cases hg : mapGet cfw task.Storage with
      | some id => exact (hcfw _ hex).1 id hg
      | none =>
        have := (hcfw _ hex).2 hg
        refine ⟨0, ?_⟩
        simp [firstID, this]
    cases hL : writeLoop lib sw step (mm.ReserveVersion user) task task.Logs.length
        ⟨(mapGet cfw task.Storage).getD (1 + instanceNum), 0, [], [],
          NewBackuper (journalName task.Storage
            ((mapGet cfw task.Storage).getD (1 + instanceNum))), w⟩ with
    | none => rw [hL] at h; simp at h
    | some st =>
      rw [hL] at h
      simp only at h
      cases hC : st.backuper.Cancel st.world with
      | none => rw [hC] at h; simp at h
      | some bw =>
        obtain ⟨b1, w1⟩ := bw
        rw [hC] at h
        simp only at h
        injection h with h
        subst h
        obtain ⟨l1, l2, l3⟩ := writeLoop_ids lib sw step (mm.ReserveVersion user) task
          (firstID frc task.Storage) instanceNum w.events _ _ st hid0
          (fun e he => Or.inl he) (fun p hp => by simp [NewBackuper] at hp) hL
        have c1 := Cancel_events st.backuper st.world _ hC
        refine ⟨?_, ?_, fun s => rfl⟩
        · intro e he
          rcases c1 e he with h1 | h1
          · rcases l2 e h1 with h2 | h2
            · exact Or.inl h2
            · refine Or.inr (fun p hp => ?_)
              obtain ⟨q1, q2⟩ := h2 p hp
              rw [q1]; exact q2
          · refine Or.inr (fun p hp => ?_)
            obtain ⟨q1, q2⟩ := l3 p (h1 p hp)
            rw [q1]; exact q2
        · intro s hs
          simp only
          by_cases hne : s = task.Storage
          · subst hne
            rw [mapGet_mapSet]
            exact ⟨fun id hid => by injection hid with hid; rw [← hid]; exact l1,
              fun hc => by cases hc⟩
          · rw [mapGet_mapSet_ne _ _ _ _ hne]
            have hsame : mapGet (if (mapGet cfw task.Storage).isSome = true then cfw
                else mapSet cfw task.Storage
                  ((mapGet cfw task.Storage).getD (1 + instanceNum))) s = mapGet cfw s := by
              split
              · rfl
              · exact mapGet_mapSet_ne _ _ _ _ hne
            rw [hsame]
            exact hcfw s hs

theorem processTask_ids (lib : Lib) (sw : Writer) (instanceNum step user : Nat)
    (frc cfw : List (String × Nat)) (mm : MetasMap) (task : WriteLogsTask) (w : World)
    (r : WriteResult)
    (hcfw : ∀ s, mm.Exists s = true →
      (∀ id, mapGet cfw s = some id → onShard (firstID frc s) instanceNum step id) ∧
      (mapGet cfw s = none → mapGet frc s = none))
    (h : sw.processTask lib instanceNum step user cfw mm task w = some r) :
    (∀ e ∈ r.world.events, e ∈ w.events ∨
      ∀ p, e.chunk = some p → onShard (firstID frc p.storage) instanceNum step p.id) ∧
    (∀ s, r.metasMap.Exists s = true →
      (∀ id, mapGet r.chunksForWrite s = some id → onShard (firstID frc s) instanceNum step id) ∧
      (mapGet r.chunksForWrite s = none → mapGet frc s = none)) := by
  unfold Writer.processTask at h
  cases hT : sw.writeTask lib instanceNum step user cfw mm task w with
  | none => rw [hT] at h; simp at h
  | some r0 =>
    rw [hT] at h
    simp only at h
    obtain ⟨t1, t2, t3⟩ := writeTask_ids lib sw instanceNum step user frc cfw mm task w r0 hcfw hT
    cases hU : r0.update with
    | none =>
      rw [hU] at h
      simp only at h
      injection h with h
      subst h
      exact ⟨t1, fun s hs => t2 s (by rw [← t3 s]; exact hs)⟩
    | some upd =>
      rw [hU] at h
      simp only at h
      cases hH : r0.metasMap.updateHandler lib upd with
      | none => rw [hH] at h; simp at h
      | some mm1 =>
        rw [hH] at h
        simp only at h
        injection h with h
        subst h
        refine ⟨t1, fun s hs => t2 s ?_⟩
        rw [← t3 s, ← updateHandler_Exists lib _ _ _ hH s]
        exact hs

theorem writer_ids (lib : Lib) (sw : Writer) (instanceNum step user : Nat)
    (frc : List (String × Nat)) :
    ∀ (queue : List WriteLogsTask) (cfw : List (String × Nat)) (mm : MetasMap) (w : World)
      (r : WriteResult),
      (∀ s, mm.Exists s = true →
        (∀ id, mapGet cfw s = some id → onShard (firstID frc s) instanceNum step id) ∧
        (mapGet cfw s = none → mapGet frc s = none)) →
      sw.writer lib instanceNum step user queue cfw mm w = some r →
      ∀ e ∈ r.world.events, e ∈ w.events ∨
        ∀ p, e.chunk = some p → onShard (firstID frc p.storage) instanceNum step p.id := by
  intro queue
  induction queue with
  | nil =>
    intro cfw mm w r _ h
    simp only [Writer.writer] at h
    injection h with h
    subst h
    exact fun e he => Or.inl he
  | cons task rest ih =>
    intro cfw mm w r hcfw h
    simp only [Writer.writer] at h
    cases hP : sw.processTask lib instanceNum step user cfw mm task w with
    | none => rw [hP] at h; simp at h
    | some r0 =>
      rw [hP] at h
      simp only at h
      obtain ⟨p1, p2⟩ := processTask_ids lib sw instanceNum step user frc cfw mm task w r0 hcfw hP
      intro e he
      rcases ih _ _ _ r p2 h e he with h1 | h1
      · exact p1 e h1
      · exact Or.inr h1

/-- Ids of two instances of the writers are never the same. -/
theorem onShard_disjoint (first k1 k2 step id : Nat) (hk1 : k1 < step) (hk2 : k2 < step)
    (hne : k1 ≠ k2) (h1 : onShard first k1 step id) (h2 : onShard first k2 step id) : False := by
  obtain ⟨j1, e1⟩ := h1
  obtain ⟨j2, e2⟩ := h2
  have e : k1 + j1 * step = k2 + j2 * step := by omega
  have m1 : (k1 + j1 * step) % step = k1 := by
    rw [Nat.add_mul_mod_self_right]; exact Nat.mod_eq_of_lt hk1
  have m2 : (k2 + j2 * step) % step = k2 := by
    rw [Nat.add_mul_mod_self_right]; exact Nat.mod_eq_of_lt hk2
  rw [e, m2] at m1
  exact hne m1.symm

/-- C18: two instances `k1 ≠ k2` of the writers, both below the step `W`, started by
`RunWriter` with the same `firstRawChunks`. Whatever their queues and the states they start
from, every chunk a run reads, appends to or renames a meta of has an id of the form
`f + k + j * W`, where `f` is the first id of the storage (`1` when `firstRawChunks` has
none), and no chunk id of a storage is used by both runs. -/
theorem C18_writer_ids (lib : Lib) (sw : Writer) (frc : List (String × Nat)) (step : Nat)
    (k1 k2 : Nat) (hk1 : k1 < step) (hk2 : k2 < step) (hne : k1 ≠ k2)
    (queue1 queue2 : List WriteLogsTask) (user1 user2 : Nat) (mm1 mm2 : MetasMap)
    (w1 w2 : World) (r1 r2 : WriteResult)
    (h1 : sw.RunWriter lib queue1 k1 frc step user1 mm1 w1 = some r1)
    (h2 : sw.RunWriter lib queue2 k2 frc step user2 mm2 w2 = some r2) :
    (∀ e ∈ r1.world.events, e ∈ w1.events ∨
      ∀ p, e.chunk = some p → onShard (firstID frc p.storage) k1 step p.id) ∧
    (∀ e ∈ r2.world.events, e ∈ w2.events ∨
      ∀ p, e.chunk = some p → onShard (firstID frc p.storage) k2 step p.id) ∧
    (∀ e1 ∈ r1.world.events, e1 ∉ w1.events → ∀ e2 ∈ r2.world.events, e2 ∉ w2.events →
      ∀ p1 p2, e1.chunk = some p1 → e2.chunk = some p2 → p1.storage = p2.storage →
        p1.id ≠ p2.id) := by
  have hinit : ∀ (k : Nat) (mm : MetasMap) (s : String), mm.Exists s = true →
      (∀ id, mapGet (frc.map (fun e => (e.1, e.2 + k))) s = some id →
        onShard (firstID frc s) k step id) ∧
      (mapGet (frc.map (fun e => (e.1, e.2 + k))) s = none → mapGet frc s = none) := by
    intro k mm s _
    rw [mapGet_map_add]
    cases hg : mapGet frc s with
    | none => exact ⟨fun id hid => (by cases hid), fun _ => rfl⟩
    | some f =>
      refine ⟨fun id hid => ?_, fun hc => by cases hc⟩
      simp only [Option.map_some', Option.some.injEq] at hid
      exact ⟨0, by simp [firstID, hg, ← hid]⟩
  have a1 := writer_ids lib sw k1 step user1 frc queue1 _ mm1 w1 r1 (hinit k1 mm1) h1
  have a2 := writer_ids lib sw k2 step user2 frc queue2 _ mm2 w2 r2 (hinit k2 mm2) h2
  refine ⟨a1, a2, ?_⟩
  intro e1 he1 hn1 e2 he2 hn2 p1 p2 hp1 hp2 hst hid
  rcases a1 e1 he1 with h | h
  · exact hn1 h
  · rcases a2 e2 he2 with h' | h'
    · exact hn2 h'
    · have s1 := h p1 hp1
      have s2 := h' p2 hp2
      rw [← hst, ← hid] at s2
      exact onShard_disjoint _ k1 k2 step _ hk1 hk2 hne s1 s2

set_option maxRecDepth 8000 in
theorem C18_writer_ids_witness :
    ∃ r1 r2,
      (⟨3⟩ : Writer).RunWriter testLib [⟨"storage", testWriterLogs⟩] 0 [("storage", 1)] 2 7
          testWriterMetasMap World.empty = some r1 ∧
      (⟨3⟩ : Writer).RunWriter testLib [⟨"storage", testWriterLogs⟩] 1 [("storage", 1)] 2 8
          testWriterMetasMap World.empty = some r2 ∧
      ∀ e1 ∈ r1.world.events, e1 ∉ World.empty.events →
        ∀ e2 ∈ r2.world.events, e2 ∉ World.empty.events →
        ∀ p1 p2, e1.chunk = some p1 → e2.chunk = some p2 → p1.storage = p2.storage →
          p1.id ≠ p2.id :=
  have s1 : ((⟨3⟩ : Writer).RunWriter testLib [⟨"storage", testWriterLogs⟩] 0 [("storage", 1)] 2 7
      testWriterMetasMap World.empty).isSome = true := by decide
  have s2 : ((⟨3⟩ : Writer).RunWriter testLib [⟨"storage", testWriterLogs⟩] 1 [("storage", 1)] 2 8
      testWriterMetasMap World.empty).isSome = true := by decide
  ⟨Option.get _ s1, Option.get _ s2, (Option.some_get s1).symm, (Option.some_get s2).symm,
    (C18_writer_ids testLib ⟨3⟩ [("storage", 1)] 2 0 1 (by decide) (by decide) (by decide)
      [⟨"storage", testWriterLogs⟩] [⟨"storage", testWriterLogs⟩] 7 8 testWriterMetasMap
      testWriterMetasMap World.empty World.empty _ _ (Option.some_get s1).symm
      (Option.some_get s2).symm).2.2⟩

/-! ## What an update does to a published block list -/

/-- C13: a storage with the metas 1 and 3 in one block of size 2 and the task that adds a
meta with id 2. The handler takes the path of `update`, where the new block list shares
the array of the old block; the new meta is appended to a new block and moved left by a
swap that writes into the shared array. The block list published before the update, which
showed the metas 1 and 3, shows the metas 1 and 2 afterwards. A task that only replaces
the meta 3 copies the block first and leaves the old list as it was. -/
theorem C13_old_snapshot_changes :
    sharedHeap.views sharedBlocks = some [[metaOf 1 false, metaOf 3 false]]
    ∧ (sliceUpdateHandler testLib sharedMetasMap sharedHeap sharedBlocks
          ⟨"storage", [], [metaOf 2 false]⟩).bind (fun r => r.1.views r.2)
        = some [[metaOf 1 false, metaOf 2 false], [metaOf 3 false]]
    ∧ (sharedMetasMap.updateHandler testLib ⟨"storage", [], [metaOf 2 false]⟩).map
          (fun mm => (mm.state.Get "storage").1)
        = some [[metaOf 1 false, metaOf 2 false], [metaOf 3 false]]
    ∧ (sliceUpdateHandler testLib sharedMetasMap sharedHeap sharedBlocks
          ⟨"storage", [], [metaOf 2 false]⟩).bind (fun r => r.1.views sharedBlocks)
        = some [[metaOf 1 false, metaOf 2 false]]
    ∧ (sliceUpdateHandler testLib sharedMetasMap sharedHeap sharedBlocks
          ⟨"storage", [⟨3, 1, ⟨0, 0⟩, 0, none, false⟩], []⟩).bind (fun r => r.1.views r.2)
        = some [[metaOf 1 false, ⟨3, 1, ⟨0, 0⟩, 0, none, false⟩]]
    ∧ (sliceUpdateHandler testLib sharedMetasMap sharedHeap sharedBlocks
          ⟨"storage", [⟨3, 1, ⟨0, 0⟩, 0, none, false⟩], []⟩).bind
          (fun r => r.1.views sharedBlocks)
        = some [[metaOf 1 false, metaOf 3 false]] := by
  decide

/-! ## The blocks of a storage under updateHandler -/
/-! ## Blocks as a packed list of metas -/

theorem pack_length (b n : Nat) (L : List Meta) : (pack b n L).length = n := by
  induction n generalizing L with
  | zero => rfl
  | succ n ih => simp [pack, ih]

theorem pack_getElem? (b n : Nat) (L : List Meta) (t : Nat) (ht : t < n) :
    (pack b n L)[t]? = some ((L.drop (t * b)).take b) := by
  induction n generalizing L t with
  | zero => omega
  | succ n ih =>
    cases t with
    | zero => simp [pack]
    | succ t =>
      simp only [pack, List.getElem?_cons_succ]
      rw [ih _ t (by omega), List.drop_drop]
      congr 3
      ring

theorem pack_flatten (b n : Nat) (L : List Meta) (h : L.length ≤ n * b) :
    (pack b n L).flatten = L := by
  induction n generalizing L with
  | zero =>
    have : L = [] := List.length_eq_zero.mp (by omega)
    subst this; rfl
  | succ n ih =>
    have e : (n + 1) * b = n * b + b := by ring
    have hd : (L.drop b).length ≤ n * b := by
      rw [List.length_drop]; omega
    simp only [pack, List.flatten_cons]
    rw [ih (L.drop b) hd]
    exact List.take_append_drop b L

theorem pack_get (b n : Nat) (L : List Meta) (i j : Nat) (hj : j < b) (hi : i < n) :
    ((pack b n L)[i]?).bind (fun blk => blk[j]?) = L[i * b + j]? := by
  rw [pack_getElem? b n L i hi]
  simp only [Option.some_bind, List.getElem?_take, if_pos hj, List.getElem?_drop]

theorem pack_set (b n : Nat) (L : List Meta) (i j : Nat) (x : Meta) (hj : j < b) (hi : i < n)
    (hk : i * b + j < L.length) :
    ∃ blk, (pack b n L)[i]? = some blk ∧ j < blk.length ∧
      (pack b n L).set i (blk.set j x) = pack b n (L.set (i * b + j) x) := by
  induction n generalizing L i with
  | zero => omega
  | succ n ih =>
    cases i with
    | zero =>
      refine ⟨L.take b, by simp [pack], ?_, ?_⟩
      · rw [List.length_take]; omega
      · simp only [pack, List.set_cons_zero, Nat.zero_mul, Nat.zero_add]
        rw [List.set_take, List.drop_set_of_lt _ _ hj]
    | succ i =>
      have hb : (i + 1) * b + j = b + (i * b + j) := by ring
      have hd : i * b + j < (L.drop b).length := by
        rw [List.length_drop]; omega
      obtain ⟨blk, h1, h2, h3⟩ := ih (L.drop b) i (by omega) hd
      refine ⟨blk, by simpa [pack] using h1, h2, ?_⟩
      simp only [pack, List.set_cons_succ]
      have htk : (L.set (b + (i * b + j)) x).take b = L.take b := by
        rw [List.set_take]
        exact List.set_eq_of_length_le (by rw [List.length_take]; omega)
      rw [h3, hb, htk, List.set_drop]

theorem pack_append (b n : Nat) (L : List Meta) (i : Nat) (x : Meta) (hi : i < n)
    (hlo : i * b ≤ L.length) (hhi : L.length < (i + 1) * b) :
    ∃ blk, (pack b n L)[i]? = some blk ∧
      (pack b n L).set i (blk ++ [x]) = pack b n (L ++ [x]) := by
  induction n generalizing L i with
  | zero => omega
  | succ n ih =>
    cases i with
    | zero =>
      have hlt : L.length < b := by omega
      refine ⟨L.take b, by simp [pack], ?_⟩
      simp only [pack, List.set_cons_zero]
      have h1 : L.take b = L := List.take_of_length_le (by omega)
      have h2 : (L ++ [x]).take b = L ++ [x] := List.take_of_length_le (by simp; omega)
      have h3 : L.drop b = [] := List.drop_eq_nil_of_le (by omega)
      have h4 : (L ++ [x]).drop b = [] := List.drop_eq_nil_of_le (by simp; omega)
      rw [h1, h2, h3, h4]
    | succ i =>
      have hb : (i + 1) * b = i * b + b := by ring
      have hb2 : (i + 1 + 1) * b = i * b + b + b := by ring
      have hd1 : i * b ≤ (L.drop b).length := by
        rw [List.length_drop]; omega
      have hd2 : (L.drop b).length < (i + 1) * b := by
        rw [List.length_drop]; omega
      have hbl : b ≤ L.length := by
        have : 0 ≤ i * b := Nat.zero_le _
        omega
      obtain ⟨blk, h1, h3⟩ := ih (L.drop b) i (by omega) hd1 hd2
      refine ⟨blk, by simpa [pack] using h1, ?_⟩
      simp only [pack, List.set_cons_succ]
      rw [h3, List.take_append_of_le_length hbl, List.drop_append_of_le_length hbl]

theorem pack_set_nil (b n : Nat) (L : List Meta) (i : Nat) (hi : i < n)
    (hlo : L.length ≤ i * b) : (pack b n L).set i [] = pack b n L := by
  apply List.ext_getElem?
  intro t
  rw [List.getElem?_set]
  by_cases hit : i = t
  · subst hit
    simp only [if_true, pack_length, if_pos hi]
    rw [pack_getElem? b n L i hi, List.drop_eq_nil_of_le hlo, List.take_nil]
  · simp only [if_neg hit]

theorem pack_take (b n : Nat) (L : List Meta) (t : Nat) (ht : t ≤ n) :
    (pack b n L).take t = pack b t L := by
  induction n generalizing L t with
  | zero =>
    have : t = 0 := by omega
    subst this; rfl
  | succ n ih =>
    cases t with
    | zero => rfl
    | succ t =>
      simp only [pack, List.take_succ_cons]
      rw [ih _ t (by omega)]


theorem pack_nil (b n : Nat) : pack b n [] = List.replicate n [] := by
  induction n with
  | zero => rfl
  | succ n ih => simp [pack, ih, List.replicate_succ]

/-- Blocks that are full but for the last are the packed list of their metas. -/
theorem pack_of_blocks (b : Nat) (blocks : List (List Meta)) :
    ∀ n, blocks.length ≤ n →
      (∀ i, i + 1 < blocks.length → ∀ blk, blocks[i]? = some blk → blk.length = b) →
      (∀ blk ∈ blocks, blk.length ≤ b) →
      blocks ++ List.replicate (n - blocks.length) [] = pack b n blocks.flatten := by
  induction blocks with
  | nil =>
    intro n _ _ _
    simp [pack_nil]
  | cons blk rest ih =>
    intro n hn hfull hle
    cases n with
    | zero => simp at hn
    | succ n =>
      have hlen : (blk :: rest).length = rest.length + 1 := rfl
      have hrest := ih n (by simp at hn; omega)
        (fun i hi blk' hb => hfull (i + 1) (by rw [hlen]; omega) blk' (by simpa using hb))
        (fun blk' hb => hle blk' (List.mem_cons_of_mem _ hb))
      have hsub : n + 1 - (blk :: rest).length = n - rest.length := by rw [hlen]; omega
      simp only [List.cons_append, hsub, List.flatten_cons, pack]
      cases rest with
      | nil =>
        have hb := hle blk (List.mem_cons_self _ _)
        simp only [List.flatten_nil, List.append_nil, List.nil_append, List.length_nil,
          Nat.sub_zero] at hrest ⊢
        rw [List.take_of_length_le hb, List.drop_eq_nil_of_le hb, pack_nil]
      | cons r rs =>
        have hb : blk.length = b := hfull 0 (by simp) blk rfl
        rw [hrest]
        congr 1
        · rw [List.take_append_of_le_length (by omega), List.take_of_length_le (by omega)]
        · rw [List.drop_append_of_le_length (by omega), List.drop_eq_nil_of_le (by omega)]
          rfl

theorem metasLen_flatten (mm : MetasMap) (b : Nat) (hb : mm.blockMaxSize = (b : Int))
    (blocks : List (List Meta))
    (hfull : ∀ i, i + 1 < blocks.length → ∀ blk, blocks[i]? = some blk → blk.length = b) :
    mm.metasLen blocks = (blocks.flatten.length : Int) := by
  induction blocks with
  | nil => rfl
  | cons blk rest ih =>
    have hlen : (blk :: rest).length = rest.length + 1 := rfl
    have hrest := ih
      (fun i hi blk' hb => hfull (i + 1) (by rw [hlen]; omega) blk' (by simpa using hb))
    cases rest with
    | nil => simp [MetasMap.metasLen]
    | cons r rs =>
      have hbl : blk.length = b := hfull 0 (by simp) blk rfl
      have hl : (blk :: r :: rs).getLast? = (r :: rs).getLast? := by
        simp [List.getLast?_cons_cons]
      unfold MetasMap.metasLen at hrest ⊢
      rw [hl]
      cases hg : (r :: rs).getLast? with
      | none => simp at hg
      | some last =>
        rw [hg] at hrest
        simp only at hrest ⊢
        simp only [List.flatten_cons, List.length_append, List.length_cons, Nat.cast_add,
          Nat.cast_one] at hrest ⊢
        rw [hb] at hrest
        rw [hb, hbl]
        have e : ((rs.length : Int) + 1 + 1 - 1) * (b : Int)
            = (b : Int) + ((rs.length : Int) + 1 - 1) * (b : Int) := by ring
        rw [e]
        linarith

theorem calcIndices_nat (mm : MetasMap) (b : Nat) (hb : mm.blockMaxSize = (b : Int))
    (hpos : 0 < b) (k : Nat) :
    mm.calcIndices (k : Int) = some (((k / b : Nat) : Int), ((k % b : Nat) : Int)) := by
  unfold MetasMap.calcIndices
  have hne : ¬ mm.blockMaxSize = 0 := by rw [hb]; omega
  rw [if_neg hne, hb, Int.tdiv_eq_ediv (by omega) (by omega), ← Int.ofNat_ediv]
  have h : ((b * (k / b) + k % b : Nat) : Int) = (k : Int) := by
    rw [Nat.div_add_mod]
  simp only [Nat.cast_add, Nat.cast_mul] at h
  congr 2
  linarith

theorem blockGet_nat (bs : List (List Meta)) (i j : Nat) :
    blockGet bs (i : Int) (j : Int) = (bs[i]?).bind (fun blk => blk[j]?) := by
  simp [blockGet]

theorem blockSet_nat (bs : List (List Meta)) (i j : Nat) (m : Meta) (blk : List Meta)
    (h1 : bs[i]? = some blk) (h2 : j < blk.length) :
    blockSet bs (i : Int) (j : Int) m = some (bs.set i (blk.set j m)) := by
  simp [blockSet, h1, h2]

/-- Reading the packed blocks at the indices of the flat position `k`. -/
theorem blockGet_pack (b n : Nat) (hpos : 0 < b) (L : List Meta) (k : Nat) (hk : k / b < n) :
    blockGet (pack b n L) ((k / b : Nat) : Int) ((k % b : Nat) : Int) = L[k]? := by
  rw [blockGet_nat, pack_get b n L _ _ (Nat.mod_lt _ hpos) hk]
  congr 1
  rw [Nat.mul_comm]
  exact Nat.div_add_mod k b

/-- Writing the packed blocks at the indices of the flat position `k`. -/
theorem blockSet_pack (b n : Nat) (hpos : 0 < b) (L : List Meta) (k : Nat) (x : Meta)
    (hk : k / b < n) (hkl : k < L.length) :
    blockSet (pack b n L) ((k / b : Nat) : Int) ((k % b : Nat) : Int) x
      = some (pack b n (L.set k x)) := by
  have hdm : k / b * b + k % b = k := by
    rw [Nat.mul_comm]; exact Nat.div_add_mod k b
  obtain ⟨blk, h1, h2, h3⟩ := pack_set b n L (k / b) (k % b) x (Nat.mod_lt _ hpos) hk
    (by rw [hdm]; exact hkl)
  rw [blockSet_nat _ _ _ _ blk h1 h2, h3, hdm]


/-- The inner loop of `updateHandler` on packed blocks: the meta `x` behind the sorted
metas `A` and before the sorted metas `C` is moved left to its place. -/
theorem bubbleLoop_pack (mm : MetasMap) (b n : Nat) (hb : mm.blockMaxSize = (b : Int))
    (hpos : 0 < b) (x : Meta) :
    ∀ (fuel : Nat) (A C : List Meta), A.length ≤ fuel →
      A.length + 1 + C.length ≤ n * b →
      A.Pairwise (fun a c => a.ID < c.ID) → C.Pairwise (fun a c => a.ID < c.ID) →
      (∀ c ∈ C, x.ID < c.ID) → (∀ a ∈ A, ∀ c ∈ C, a.ID < c.ID) → (∀ a ∈ A, a.ID ≠ x.ID) →
      ∃ M, bubbleLoop mm fuel ((A.length : Int) - 1) (pack b n (A ++ x :: C)) = some (pack b n M) ∧
        M.Pairwise (fun a c => a.ID < c.ID) ∧ M.Perm (A ++ x :: C) := by
  intro fuel
  induction fuel with
  | zero =>
    intro A C hf _ _ hC hx _ _
    have : A = [] := List.length_eq_zero.mp (by omega)
    subst this
    refine ⟨x :: C, rfl, ?_, List.Perm.refl _⟩
    exact List.pairwise_cons.mpr ⟨hx, hC⟩
  | succ fuel ih =>
    intro A C hf hn hA hC hx hAC hAx
    rcases List.eq_nil_or_concat A with hnil | ⟨A', a, hA'⟩
    · subst hnil
      refine ⟨x :: C, ?_, List.pairwise_cons.mpr ⟨hx, hC⟩, List.Perm.refl _⟩
      simp [bubbleLoop]
    · rw [List.concat_eq_append] at hA'
      subst hA'
      have hlen : (A' ++ [a]).length = A'.length + 1 := by simp
      have hk : ((A' ++ [a]).length : Int) - 1 = (A'.length : Int) := by
        rw [hlen]; push_cast; ring
      have hk1 : (A'.length : Int) + 1 = ((A'.length + 1 : Nat) : Int) := by push_cast; ring
      have hnb : A'.length + 1 < n * b := by simp at hn; omega
      have hd1 : A'.length / b < n := (Nat.div_lt_iff_lt_mul hpos).mpr (by omega)
      have hd2 : (A'.length + 1) / b < n := (Nat.div_lt_iff_lt_mul hpos).mpr hnb
      have hAp := List.pairwise_append.mp hA
      have ha_lt : ∀ a' ∈ A', a'.ID < a.ID := fun a' ha' => hAp.2.2 a' ha' a (by simp)
      have hL : A' ++ [a] ++ x :: C = A' ++ a :: x :: C := by simp
      have hg1 : (A' ++ a :: x :: C)[A'.length]? = some a := by
        rw [List.getElem?_append_right (le_refl _)]; simp
      have hg2 : (A' ++ a :: x :: C)[A'.length + 1]? = some x := by
        rw [List.getElem?_append_right (by omega)]; simp
      unfold bubbleLoop
      rw [hk]
      have hneg : ¬ ((A'.length : Int) < 0) := by omega
      rw [if_neg hneg, calcIndices_nat mm b hb hpos, hk1, calcIndices_nat mm b hb hpos]
      simp only
      rw [hL, blockGet_pack b n hpos _ _ hd1, blockGet_pack b n hpos _ _ hd2, hg1, hg2]
      simp only
      by_cases hlt : a.ID < x.ID
      · rw [if_pos hlt]
        refine ⟨A' ++ a :: x :: C, rfl, ?_, List.Perm.refl _⟩
        rw [← hL]
        refine List.pairwise_append.mpr ⟨hA, List.pairwise_cons.mpr ⟨hx, hC⟩, ?_⟩
        intro a' ha' y hy
        rcases List.mem_cons.mp hy with h | h
        · subst h
          rcases List.mem_append.mp ha' with h1 | h1
          · exact lt_trans (ha_lt a' h1) hlt
          · simp at h1; subst h1; exact hlt
        · exact hAC a' ha' y h
      · rw [if_neg hlt]
        have hxa : x.ID < a.ID := by
          have := hAx a (by simp)
          omega
        rw [blockSet_pack b n hpos _ _ _ hd1 (by simp)]
        simp only
        rw [blockSet_pack b n hpos _ _ _ hd2 (by simp)]
        simp only
        have hset : ((A' ++ a :: x :: C).set A'.length x).set (A'.length + 1) a
            = A' ++ x :: a :: C := by
          rw [List.set_append_right _ _ (le_refl _), Nat.sub_self, List.set_cons_zero,
            List.set_append_right _ _ (by omega)]
          simp
        rw [hset]
        obtain ⟨M, hM, hs, hp⟩ := ih A' (a :: C) (by rw [hlen] at hf; omega)
          (by simp at hn ⊢; omega) hAp.1
          (List.pairwise_cons.mpr ⟨fun c hc => hAC a (by simp) c hc, hC⟩)
          (fun c hc => by
            rcases List.mem_cons.mp hc with h | h
            · subst h; exact hxa
            · exact hx c h)
          (fun a' ha' c hc => by
            rcases List.mem_cons.mp hc with h | h
            · subst h; exact ha_lt a' ha'
            · exact hAC a' (by simp [ha']) c h)
          (fun a' ha' => hAx a' (by simp [ha']))
        refine ⟨M, hM, hs, hp.trans ?_⟩
        exact List.Perm.append_left _ (List.Perm.swap _ _ _)


/-- The block index of the last meta, `(len - 1) / b` with Go's division, next to the block
index `len / b` of the next meta. -/
theorem tdiv_pred (b len : Nat) (hpos : 0 < b) :
    ((len : Int) - 1).tdiv (b : Int) ≤ ((len / b : Nat) : Int) ∧
    (((len / b : Nat) : Int) > ((len : Int) - 1).tdiv (b : Int) → len ≤ len / b * b) ∧
    (((len + 1 : Nat) : Int) - 1).tdiv (b : Int) = ((len / b : Nat) : Int) := by
  have h3 : (((len + 1 : Nat) : Int) - 1).tdiv (b : Int) = ((len / b : Nat) : Int) := by
    have : ((len + 1 : Nat) : Int) - 1 = (len : Int) := by push_cast; ring
    rw [this, Int.tdiv_eq_ediv (by omega) (by omega), ← Int.ofNat_ediv]
  refine ⟨?_, ?_, h3⟩
  · cases len with
    | zero =>
      have : ((0 : Nat) : Int) - 1 = -1 := by norm_num
      rw [this, Int.neg_tdiv, Int.tdiv_eq_ediv (by omega) (by omega)]
      have h0 : (0 : Int) ≤ 1 / (b : Int) := Int.ediv_nonneg (by omega) (by omega)
      simp only [Nat.zero_div, Nat.cast_zero]
      omega
    | succ l =>
      have : ((l + 1 : Nat) : Int) - 1 = (l : Int) := by push_cast; ring
      rw [this, Int.tdiv_eq_ediv (by omega) (by omega), ← Int.ofNat_ediv]
      exact_mod_cast Nat.div_le_div_right (Nat.le_succ l)
  · cases len with
    | zero => intro _; simp
    | succ l =>
      have : ((l + 1 : Nat) : Int) - 1 = (l : Int) := by push_cast; ring
      rw [this, Int.tdiv_eq_ediv (by omega) (by omega), ← Int.ofNat_ediv]
      intro hgt
      have hgt2 : l / b < (l + 1) / b := by exact_mod_cast hgt
      by_contra hcon
      have h1 : (l + 1) / b * b ≤ l := by
        have := Nat.div_mul_le_self (l + 1) b
        omega
      have h2 : (l + 1) / b ≤ l / b := (Nat.le_div_iff_mul_le hpos).mpr h1
      omega

/-- The loop over `ForAdd` on packed blocks: the new metas, whose ids are distinct and not
among those of the sorted metas `L`, are inserted in id order. -/
theorem addLoop_pack (mm : MetasMap) (b n : Nat) (hb : mm.blockMaxSize = (b : Int))
    (hpos : 0 < b) :
    ∀ (adds L : List Meta) (last : Int),
      last = ((L.length : Int) - 1).tdiv (b : Int) →
      L.length + adds.length ≤ n * b →
      L.Pairwise (fun a c => a.ID < c.ID) →
      (adds.map (fun m => m.ID)).Nodup → (∀ a ∈ adds, ∀ m ∈ L, m.ID ≠ a.ID) →
      ∃ M, addLoop mm adds (L.length : Int) last (pack b n L)
            = some (pack b n M, (M.length : Int), ((M.length : Int) - 1).tdiv (b : Int)) ∧
        M.Pairwise (fun a c => a.ID < c.ID) ∧ M.Perm (L ++ adds) := by
  intro adds
  induction adds with
  | nil =>
    intro L last hlast _ hL _ _
    exact ⟨L, by simp [addLoop, hlast], hL, by simp⟩
  | cons m rest ih =>
    intro L last hlast hn hL hnd hdis
    obtain ⟨t1, t2, t3⟩ := tdiv_pred b L.length hpos
    have hlt : L.length < n * b := by simp at hn; omega
    have hi : L.length / b < n := (Nat.div_lt_iff_lt_mul hpos).mpr hlt
    have hlo : L.length / b * b ≤ L.length := Nat.div_mul_le_self _ _
    have hhi : L.length < (L.length / b + 1) * b := by
      rw [Nat.mul_comm]; exact Nat.lt_mul_div_succ _ hpos
    obtain ⟨blk, hblk, happ⟩ := pack_append b n L (L.length / b) m hi hlo hhi
    have hstep : (if ((L.length / b : Nat) : Int) > last then
          (blocksSet (pack b n L) ((L.length / b : Nat) : Int) []).map
            (fun nb1 => (nb1, ((L.length / b : Nat) : Int)))
        else some (pack b n L, last)) = some (pack b n L, ((L.length / b : Nat) : Int)) := by
      by_cases hgt : ((L.length / b : Nat) : Int) > last
      · rw [if_pos hgt]
        have hle := t2 (by rw [← hlast]; exact hgt)
        have hbs : blocksSet (pack b n L) ((L.length / b : Nat) : Int) []
            = some ((pack b n L).set (L.length / b) []) := by
          unfold blocksSet
          rw [if_pos ⟨Int.natCast_nonneg _, by rw [Int.toNat_ofNat, pack_length]; exact hi⟩,
            Int.toNat_ofNat]
        rw [hbs, pack_set_nil b n L _ hi hle]
        rfl
      · rw [if_neg hgt]
        have : last = ((L.length / b : Nat) : Int) := by
          rw [← hlast] at t1; omega
        rw [this]
    obtain ⟨M1, hM1, hs1, hp1⟩ := bubbleLoop_pack mm b n hb hpos m L.length L []
      (le_refl _) (by simp; omega) hL List.Pairwise.nil (fun c hc => by simp at hc)
      (fun a _ c hc => by simp at hc) (fun a ha => hdis m (List.mem_cons_self _ _) a ha)
    have hlen1 : M1.length = L.length + 1 := by
      rw [hp1.length_eq]; simp
    have hnd2 : m.ID ∉ rest.map (fun m => m.ID) ∧ (rest.map (fun m => m.ID)).Nodup := by
      rw [List.map_cons] at hnd
      exact List.nodup_cons.mp hnd
    obtain ⟨M, hM, hs, hp⟩ := ih M1 ((L.length / b : Nat) : Int)
      (by rw [hlen1]; exact t3.symm) (by rw [hlen1]; simp at hn; omega) hs1 hnd2.2
      (fun a ha m' hm' => by
        rcases List.mem_append.mp (hp1.subset hm') with h | h
        · exact hdis a (List.mem_cons_of_mem _ ha) m' h
        · simp at h
          subst h
          intro hc
          exact hnd2.1 (List.mem_map.mpr ⟨a, ha, hc.symm⟩))
    refine ⟨M, ?_, hs, ?_⟩
    · unfold addLoop
      rw [calcIndices_nat mm b hb hpos]
      simp only
      rw [hstep]
      simp only [Int.natCast_nonneg, if_true, Int.toNat_ofNat, hblk]
      rw [happ, hM1]
      simp only
      have hidx : (L.length : Int) + 1 = (M1.length : Int) := by rw [hlen1]; push_cast; ring
      rw [hidx]
      exact hM
    · refine hp.trans ?_
      have : L ++ m :: rest = (L ++ [m]) ++ rest := by simp
      rw [this]
      exact List.Perm.append_right _ hp1


theorem pairwise_index_le (F : List Meta) (hF : F.Pairwise (fun a c => a.ID < c.ID))
    (k k' : Nat) (x y : Meta) (hx : F[k]? = some x) (hy : F[k']? = some y)
    (h : x.ID ≤ y.ID) : k ≤ k' := by
  by_contra hc
  have hk : k < F.length := (List.getElem?_eq_some_iff.mp hx).1
  have hk' : k' < F.length := (List.getElem?_eq_some_iff.mp hy).1
  have := List.pairwise_iff_getElem.mp hF k' k hk' hk (by omega)
  rw [List.getElem?_eq_getElem hk] at hx
  rw [List.getElem?_eq_getElem hk'] at hy
  injection hx with hx
  injection hy with hy
  rw [hx, hy] at this
  omega

theorem map_ID_set (F1 : List Meta) (k : Nat) (u old : Meta) (h : F1[k]? = some old)
    (hid : old.ID = u.ID) : (F1.set k u).map (fun m => m.ID) = F1.map (fun m => m.ID) := by
  apply List.ext_getElem?
  intro i
  simp only [List.getElem?_map, List.getElem?_set]
  by_cases hi : k = i
  · subst hi
    have hk : k < F1.length := (List.getElem?_eq_some_iff.mp h).1
    simp [hk, h, hid]
  · simp [hi]

theorem getElem?_of_map_ID (F F1 : List Meta) (h : F1.map (fun m => m.ID) = F.map (fun m => m.ID))
    (k : Nat) (x : Meta) (hx : F[k]? = some x) : ∃ y, F1[k]? = some y ∧ y.ID = x.ID := by
  have h1 : (F1.map (fun m => m.ID))[k]? = (F.map (fun m => m.ID))[k]? := by rw [h]
  simp only [List.getElem?_map, hx, Option.map_some'] at h1
  cases hy : F1[k]? with
  | none => rw [hy] at h1; simp at h1
  | some y =>
    rw [hy] at h1
    simp only [Option.map_some', Option.some.injEq] at h1
    exact ⟨y, rfl, h1⟩


/-- The loop of `update` on packed blocks in strict id order with no empty block: it does
not panic, keeps the id at every place, and, for updates with distinct ids whose places
have not been written yet, appends to `deleted` exactly the metas that an update replaces
with a higher version or marks as deleted. -/
theorem updateLoop_pack (b m n : Nat) (hpos : 0 < b) (F : List Meta)
    (hF : F.Pairwise (fun a c => a.ID < c.ID)) (hne : ∀ blk ∈ pack b m F, blk ≠ [])
    (hfl : F.length ≤ m * b) (hmn : m ≤ n) :
    ∀ (forUpd : List Meta), forUpd.Pairwise (fun a c => a.ID ≤ c.ID) →
    ∀ (F1 : List Meta) (prev : Int) (bound : Nat) (deleted : List Meta) (dc : Int),
      F1.map (fun x => x.ID) = F.map (fun x => x.ID) →
      (∀ k, (prev + 1).toNat * b ≤ k → F1[k]? = F[k]?) →
      -1 ≤ prev →
      (∀ u ∈ forUpd, ∀ k x, F[k]? = some x → x.ID = u.ID → prev ≤ ((k / b : Nat) : Int)) →
      ∃ F2 deleted' dc',
        updateLoop (pack b m F) forUpd (pack b n F1) prev deleted dc
          = some (pack b n F2, deleted', dc') ∧
        F2.map (fun x => x.ID) = F.map (fun x => x.ID) ∧
        (forUpd.Pairwise (fun a c => a.ID < c.ID) → (∀ k, bound ≤ k → F1[k]? = F[k]?) →
          (∀ u ∈ forUpd, ∀ k x, F[k]? = some x → x.ID = u.ID → bound ≤ k) →
          ∀ x, x ∈ deleted' ↔ x ∈ deleted ∨
            ∃ u ∈ forUpd, x ∈ F ∧ x.ID = u.ID ∧ (u.Version > x.Version ∨ u.IsDeleted = true)) := by
  have hflat : (pack b m F).flatten = F := pack_flatten b m F hfl
  have hFs : (pack b m F).flatten.Pairwise (fun a c => a.ID < c.ID) := by rw [hflat]; exact hF
  intro forUpd
  induction forUpd with
  | nil =>
    intro _ F1 prev bound deleted dc hid _ _ _
    exact ⟨F1, deleted, dc, rfl, hid, fun _ _ _ x => by simp⟩
  | cons u rest ih =>
    intro hsort F1 prev bound deleted dc hid habove hprev hP
    have hsort' := List.pairwise_cons.mp hsort
    -- the case of an update without a meta of its id
    have hskip : (∀ x ∈ F, x.ID ≠ u.ID) →
        updateLoop (pack b m F) rest (pack b n F1) prev deleted dc
          = updateLoop (pack b m F) (u :: rest) (pack b n F1) prev deleted dc →
        ∃ F2 deleted' dc',
          updateLoop (pack b m F) (u :: rest) (pack b n F1) prev deleted dc
            = some (pack b n F2, deleted', dc') ∧
          F2.map (fun x => x.ID) = F.map (fun x => x.ID) ∧
          ((u :: rest).Pairwise (fun a c => a.ID < c.ID) → (∀ k, bound ≤ k → F1[k]? = F[k]?) →
            (∀ u' ∈ u :: rest, ∀ k x, F[k]? = some x → x.ID = u'.ID → bound ≤ k) →
            ∀ x, x ∈ deleted' ↔ x ∈ deleted ∨
              ∃ u' ∈ u :: rest, x ∈ F ∧ x.ID = u'.ID ∧
                (u'.Version > x.Version ∨ u'.IsDeleted = true)) := by
      intro hno heq
      obtain ⟨F2, d2, c2, h1, h2, h3⟩ := ih hsort'.2 F1 prev bound deleted dc hid habove hprev
        (fun u' hu' => hP u' (List.mem_cons_of_mem _ hu'))
      refine ⟨F2, d2, c2, by rw [← heq]; exact h1, h2, ?_⟩
      intro hs hb hB x
      rw [h3 (List.pairwise_cons.mp hs).2 hb (fun u' hu' => hB u' (List.mem_cons_of_mem _ hu')) x]
      constructor
      · rintro (h | ⟨u', hu', hx⟩)
        · exact Or.inl h
        · exact Or.inr ⟨u', List.mem_cons_of_mem _ hu', hx⟩
      · rintro (h | ⟨u', hu', hx⟩)
        · exact Or.inl h
        · rcases List.mem_cons.mp hu' with h | h
          · subst h; exact absurd hx.2.1 (hno x hx.1)
          · exact Or.inr ⟨u', h, hx⟩
    rcases binSearchBlock_spec (pack b m F) u.ID hne hFs with ⟨hb, hno⟩ | ⟨t, ht, hb, hall⟩
    · apply hskip (fun x hx => hno x (by rw [hflat]; exact hx))
      conv_rhs => unfold updateLoop
      rw [hb]
      simp
    · rw [pack_length] at ht
      have hblk : (pack b m F)[t]? = some ((F.drop (t * b)).take b) := pack_getElem? b m F t ht
      have hblks : ((F.drop (t * b)).take b).Pairwise (fun a c => a.ID < c.ID) :=
        (hF.sublist (List.drop_sublist _ _)).sublist (List.take_sublist _ _)
      have hget : (pack b m F)[t] = (F.drop (t * b)).take b := by
        have := List.getElem?_eq_getElem (l := pack b m F) (by rw [pack_length]; exact ht)
        rw [hblk] at this
        injection this with this
        exact this.symm
      rw [hflat] at hall
      rcases binSearchMeta_spec ((F.drop (t * b)).take b) u.ID hblks with
        ⟨hm, hno⟩ | ⟨j, hj, hm, hjid⟩
      · apply hskip (fun x hx hxid => hno x (by rw [← hget]; exact hall x hx hxid) hxid)
        conv_rhs => unfold updateLoop
        rw [hb]
        have hneg : ¬ ((t : Int) = -1) := by omega
        simp only [if_neg hneg, Int.toNat_ofNat, hblk, hm, if_true]
      · have hjb : j < b := by
          rw [List.length_take] at hj; omega
        have hjF : t * b + j < F.length := by
          rw [List.length_take, List.length_drop] at hj; omega
        have hFk : F[t * b + j]? = some (((F.drop (t * b)).take b)[j]) := by
          have h1 : ((F.drop (t * b)).take b)[j]? = F[t * b + j]? := by
            rw [List.getElem?_take, if_pos hjb, List.getElem?_drop]
          rw [← h1, List.getElem?_eq_getElem hj]
        have hdm : (t * b + j) / b = t ∧ (t * b + j) % b = j :=
          (Nat.div_mod_unique hpos).mpr ⟨by rw [Nat.mul_comm]; omega, hjb⟩
        have hpt : prev ≤ (t : Int) := by
          have := hP u (List.mem_cons_self _ _) (t * b + j) _ hFk hjid
          rw [hdm.1] at this
          exact this
        obtain ⟨old, hold, holdid⟩ := getElem?_of_map_ID F F1 hid _ _ hFk
        have hclone : (if (t : Int) > prev then
              (blocksSet (pack b n F1) (t : Int) ((F.drop (t * b)).take b)).map
                (fun nb => (nb, (t : Int)))
            else some (pack b n F1, prev)) = some (pack b n F1, (t : Int)) := by
          by_cases hgt : (t : Int) > prev
          · rw [if_pos hgt]
            have hsame : (F1.drop (t * b)).take b = (F.drop (t * b)).take b := by
              apply List.ext_getElem?
              intro i
              simp only [List.getElem?_take, List.getElem?_drop]
              by_cases hi : i < b
              · simp only [if_pos hi]
                apply habove
                have h1 : (prev + 1).toNat ≤ t := by omega
                have := Nat.mul_le_mul_right b h1
                omega
              · simp only [if_neg hi]
            have hbs : blocksSet (pack b n F1) (t : Int) ((F.drop (t * b)).take b)
                = some ((pack b n F1).set t ((F.drop (t * b)).take b)) := by
              unfold blocksSet
              rw [if_pos ⟨Int.natCast_nonneg _, by
                rw [Int.toNat_ofNat, pack_length]; omega⟩, Int.toNat_ofNat]
            have hnoop : (pack b n F1).set t ((F.drop (t * b)).take b) = pack b n F1 := by
              apply List.ext_getElem?
              intro i
              rw [List.getElem?_set]
              by_cases hit : t = i
              · subst hit
                simp only [if_true, pack_length]
                rw [if_pos (by omega), pack_getElem? b n F1 t (by omega), hsame]
              · simp only [if_neg hit]
            rw [hbs, hnoop]
            rfl
          · rw [if_neg hgt]
            have : prev = (t : Int) := by omega
            rw [this]
        have htn : (t * b + j) / b < n := by rw [hdm.1]; omega
        have hk1 : t * b + j < F1.length := (List.getElem?_eq_some_iff.mp hold).1
        have hbg : blockGet (pack b n F1) (t : Int) (j : Int) = some old := by
          have := blockGet_pack b n hpos F1 (t * b + j) htn
          rw [hdm.1, hdm.2] at this
          rw [this, hold]
        have hbset : blockSet (pack b n F1) (t : Int) (j : Int) u
            = some (pack b n (F1.set (t * b + j) u)) := by
          have := blockSet_pack b n hpos F1 (t * b + j) u htn hk1
          rw [hdm.1, hdm.2] at this
          exact this
        -- the state after the update
        have hid' : (F1.set (t * b + j) u).map (fun x => x.ID) = F.map (fun x => x.ID) := by
          rw [map_ID_set F1 _ u old hold (by rw [holdid, hjid]), hid]
        have habove' : ∀ k, ((t : Int) + 1).toNat * b ≤ k →
            (F1.set (t * b + j) u)[k]? = F[k]? := by
          intro k hk
          have e1 : ((t : Int) + 1).toNat = t + 1 := by omega
          rw [e1] at hk
          have e2 : (t + 1) * b = t * b + b := by ring
          rw [List.getElem?_set, if_neg (by omega)]
          apply habove
          have h1 : (prev + 1).toNat ≤ t + 1 := by omega
          have := Nat.mul_le_mul_right b h1
          omega
        have hP' : ∀ u' ∈ rest, ∀ k x, F[k]? = some x → x.ID = u'.ID →
            (t : Int) ≤ ((k / b : Nat) : Int) := by
          intro u' hu' k x hx hxid
          have hle : (((F.drop (t * b)).take b)[j]).ID ≤ x.ID := by
            rw [hjid, hxid]; exact hsort'.1 u' hu'
          have := pairwise_index_le F hF _ _ _ _ hFk hx hle
          have h2 := Nat.div_le_div_right (c := b) this
          rw [hdm.1] at h2
          exact_mod_cast h2
        have hrec : ∀ (del : List Meta) (c : Int), ∃ F2 deleted' dc',
            updateLoop (pack b m F) rest (pack b n (F1.set (t * b + j) u)) (t : Int) del c
              = some (pack b n F2, deleted', dc') ∧
            F2.map (fun x => x.ID) = F.map (fun x => x.ID) ∧
            (rest.Pairwise (fun a c => a.ID < c.ID) →
              (∀ k, t * b + j + 1 ≤ k → (F1.set (t * b + j) u)[k]? = F[k]?) →
              (∀ u' ∈ rest, ∀ k x, F[k]? = some x → x.ID = u'.ID → t * b + j + 1 ≤ k) →
              ∀ x, x ∈ deleted' ↔ x ∈ del ∨
                ∃ u' ∈ rest, x ∈ F ∧ x.ID = u'.ID ∧
                  (u'.Version > x.Version ∨ u'.IsDeleted = true)) :=
          fun del c => ih hsort'.2 _ (t : Int) (t * b + j + 1) del c hid' habove' (by omega) hP'
        have hunf : updateLoop (pack b m F) (u :: rest) (pack b n F1) prev deleted dc
            = (if u.Version > old.Version ∨ u.IsDeleted = true then
                updateLoop (pack b m F) rest (pack b n (F1.set (t * b + j) u)) (t : Int)
                  (deleted ++ [old]) (if u.IsDeleted = true then dc + 1 else dc)
              else
                updateLoop (pack b m F) rest (pack b n (F1.set (t * b + j) u)) (t : Int)
                  deleted dc) := by
          conv_lhs => unfold updateLoop
          rw [hb]
          have hneg : ¬ ((t : Int) = -1) := by omega
          have hneg2 : ¬ ((j : Int) = -1) := by omega
          simp only [if_neg hneg, Int.toNat_ofNat, hblk, hm, if_neg hneg2, hclone, hbg, hbset]
        -- what the conditional part needs
        have hcond : (u :: rest).Pairwise (fun a c => a.ID < c.ID) →
            (∀ k, bound ≤ k → F1[k]? = F[k]?) →
            (∀ u' ∈ u :: rest, ∀ k x, F[k]? = some x → x.ID = u'.ID → bound ≤ k) →
            old = ((F.drop (t * b)).take b)[j] ∧
            (rest.Pairwise (fun a c => a.ID < c.ID)) ∧
            (∀ k, t * b + j + 1 ≤ k → (F1.set (t * b + j) u)[k]? = F[k]?) ∧
            (∀ u' ∈ rest, ∀ k x, F[k]? = some x → x.ID = u'.ID → t * b + j + 1 ≤ k) := by
          intro hs hbd hB
          have hs' := List.pairwise_cons.mp hs
          have hbk : bound ≤ t * b + j := hB u (List.mem_cons_self _ _) _ _ hFk hjid
          refine ⟨?_, hs'.2, ?_, ?_⟩
          · have := hbd _ hbk
            rw [hold, hFk] at this
            injection this
          · intro k hk
            rw [List.getElem?_set, if_neg (by omega)]
            exact hbd k (by omega)
          · intro u' hu' k x hx hxid
            have hlt : (((F.drop (t * b)).take b)[j]).ID < x.ID := by
              rw [hjid, hxid]; exact hs'.1 u' hu'
            have h1 := pairwise_index_le F hF _ _ _ _ hFk hx (le_of_lt hlt)
            rcases Nat.lt_or_ge (t * b + j) k with h | h
            · omega
            · have : k = t * b + j := by omega
              subst this
              rw [hFk] at hx
              injection hx with hx
              rw [hx] at hlt
              omega
        have hmemF : ((F.drop (t * b)).take b)[j] ∈ F := by
          obtain ⟨h1, h2⟩ := List.getElem?_eq_some_iff.mp hFk
          rw [← h2]
          exact List.getElem_mem _
        have huniq : ∀ x ∈ F, x.ID = u.ID → x = ((F.drop (t * b)).take b)[j] := by
          intro x hx hxid
          obtain ⟨k, hk, rfl⟩ := List.getElem_of_mem hx
          have hxk : F[k]? = some F[k] := List.getElem?_eq_getElem hk
          have h1 := pairwise_index_le F hF _ _ _ _ hFk hxk (by rw [hjid, hxid])
          have h2 := pairwise_index_le F hF _ _ _ _ hxk hFk (by rw [hjid, hxid])
          have : k = t * b + j := by omega
          subst this
          rw [hFk] at hxk
          injection hxk with hxk
          exact hxk.symm
        by_cases hc : u.Version > old.Version ∨ u.IsDeleted = true
        · rw [hunf, if_pos hc]
          obtain ⟨F2, d2, c2, h1, h2, h3⟩ := hrec (deleted ++ [old])
            (if u.IsDeleted = true then dc + 1 else dc)
          refine ⟨F2, d2, c2, h1, h2, ?_⟩
          intro hs hbd hB x
          obtain ⟨e1, e2, e3, e4⟩ := hcond hs hbd hB
          rw [h3 e2 e3 e4 x]
          simp only [List.mem_append, List.mem_singleton]
          constructor
          · rintro ((h | h) | ⟨u', hu', hx⟩)
            · exact Or.inl h
            · refine Or.inr ⟨u, List.mem_cons_self _ _, ?_, ?_, ?_⟩
              · rw [h, e1]; exact hmemF
              · rw [h, holdid, hjid]
              · rw [h]; exact hc
            · exact Or.inr ⟨u', List.mem_cons_of_mem _ hu', hx⟩
          · rintro (h | ⟨u', hu', hx⟩)
            · exact Or.inl (Or.inl h)
            · rcases List.mem_cons.mp hu' with h | h
              · subst h
                left; right
                rw [e1]
                exact huniq x hx.1 hx.2.1
              · exact Or.inr ⟨u', h, hx⟩
        · rw [hunf, if_neg hc]
          obtain ⟨F2, d2, c2, h1, h2, h3⟩ := hrec deleted dc
          refine ⟨F2, d2, c2, h1, h2, ?_⟩
          intro hs hbd hB x
          obtain ⟨e1, e2, e3, e4⟩ := hcond hs hbd hB
          rw [h3 e2 e3 e4 x]
          constructor
          · rintro (h | ⟨u', hu', hx⟩)
            · exact Or.inl h
            · exact Or.inr ⟨u', List.mem_cons_of_mem _ hu', hx⟩
          · rintro (h | ⟨u', hu', hx⟩)
            · exact Or.inl h
            · rcases List.mem_cons.mp hu' with h | h
              · subst h
                have := huniq x hx.1 hx.2.1
                rw [← e1] at this
                rw [this] at hx
                exact absurd hx.2.2 hc
              · exact Or.inr ⟨u', h, hx⟩


theorem pairwise_unique (F : List Meta) (hF : F.Pairwise (fun a c => a.ID < c.ID))
    (x y : Meta) (hx : x ∈ F) (hy : y ∈ F) (h : x.ID = y.ID) : x = y := by
  obtain ⟨k, hk, rfl⟩ := List.getElem_of_mem hx
  obtain ⟨k', hk', rfl⟩ := List.getElem_of_mem hy
  have h1 := pairwise_index_le F hF k k' _ _ (List.getElem?_eq_getElem hk)
    (List.getElem?_eq_getElem hk') (le_of_eq h)
  have h2 := pairwise_index_le F hF k' k _ _ (List.getElem?_eq_getElem hk')
    (List.getElem?_eq_getElem hk) (le_of_eq h.symm)
  have : k = k' := by omega
  subst this
  rfl

/-- The loop of `updateAndReconstruct` on packed blocks: it does not panic, the metas it
keeps stay packed and their ids are a sublist of the ids it reads; when every update has
the id of a live meta still to be read and ids are strictly ascending, `deleted` receives
exactly the metas that an update replaces with a higher version or marks as deleted. -/
theorem reconstructLoop_pack (b n : Nat) (hpos : 0 < b) :
    ∀ (metas K : List Meta) (i j : Nat) (forUpd deleted : List Meta),
      K.length = i * b + j → j ≤ b → K.length + metas.length ≤ n * b → i < n →
      ∃ (K' : List Meta) (i' j' : Nat) (deleted' : List Meta),
        reconstructLoop (b : Int) metas (pack b n K) i (j : Int) forUpd deleted
          = some (pack b n K', i', (j' : Int), deleted') ∧
        K'.length = i' * b + j' ∧ j' ≤ b ∧ i' < n ∧
        (∃ S, S.Sublist (metas.map (fun x => x.ID)) ∧
          K'.map (fun x => x.ID) = K.map (fun x => x.ID) ++ S) ∧
        (metas.Pairwise (fun a c => a.ID < c.ID) → forUpd.Pairwise (fun a c => a.ID < c.ID) →
          (∀ u ∈ forUpd, ∃ y ∈ metas, y.ID = u.ID ∧ y.IsDeleted = false) →
          ∀ x, x ∈ deleted' ↔ x ∈ deleted ∨
            ∃ u ∈ forUpd, x ∈ metas ∧ x.ID = u.ID ∧
              (u.Version > x.Version ∨ u.IsDeleted = true)) := by
  intro metas
  induction metas with
  | nil =>
    intro K i j forUpd deleted hK hj _ hi
    exact ⟨K, i, j, deleted, rfl, hK, hj, hi, ⟨[], List.Sublist.refl _, by simp⟩,
      fun _ _ _ x => by simp⟩
  | cons m rest ih =>
    intro K i j forUpd deleted hK hj hn hi
    have hlen : (m :: rest).length = rest.length + 1 := rfl
    rw [hlen] at hn
    -- the allocation of the next block
    have halloc : ∃ (i1 j1 : Nat), (if (j : Int) = (b : Int) then
          (blocksSet (pack b n K) ((i : Int) + 1) []).map (fun nb => (nb, i + 1, (0 : Int)))
        else some (pack b n K, i, (j : Int))) = some (pack b n K, i1, (j1 : Int)) ∧
        K.length = i1 * b + j1 ∧ j1 < b ∧ i1 < n := by
      by_cases hjb : (j : Int) = (b : Int)
      · have hjb' : j = b := by exact_mod_cast hjb
        have e : (i + 1) * b = i * b + b := by ring
        have hi1 : i + 1 < n := by
          have h1 : (i + 1) * b < n * b := by omega
          exact lt_of_mul_lt_mul_right h1 (Nat.zero_le _)
        refine ⟨i + 1, 0, ?_, by omega, hpos, hi1⟩
        rw [if_pos hjb]
        have hbs : blocksSet (pack b n K) ((i : Int) + 1) []
            = some ((pack b n K).set (i + 1) []) := by
          unfold blocksSet
          have e1 : ((i : Int) + 1).toNat = i + 1 := by omega
          rw [if_pos ⟨by omega, by rw [e1, pack_length]; exact hi1⟩, e1]
        rw [hbs, pack_set_nil b n K _ hi1 (by omega)]
        rfl
      · have hjb' : j ≠ b := fun h => hjb (by exact_mod_cast congrArg Nat.cast h)
        exact ⟨i, j, by rw [if_neg hjb], hK, by omega, hi⟩
    obtain ⟨i1, j1, hal, hK1, hj1, hi1⟩ := halloc
    have hlo : i1 * b ≤ K.length := by omega
    have hhi : K.length < (i1 + 1) * b := by
      have e : (i1 + 1) * b = i1 * b + b := by ring
      omega
    obtain ⟨blk, hblk, _⟩ := pack_append b n K i1 m hi1 hlo hhi
    -- keeping a meta `x` with the id of `m`
    have hkeep : ∀ (x : Meta) (fu del : List Meta), x.ID = m.ID →
        ∃ (K' : List Meta) (i' j' : Nat) (deleted' : List Meta),
          reconstructLoop (b : Int) rest ((pack b n K).set i1 (blk ++ [x])) i1 ((j1 : Int) + 1)
            fu del = some (pack b n K', i', (j' : Int), deleted') ∧
          K'.length = i' * b + j' ∧ j' ≤ b ∧ i' < n ∧
          (∃ S, S.Sublist ((m :: rest).map (fun x => x.ID)) ∧
            K'.map (fun x => x.ID) = K.map (fun x => x.ID) ++ S) ∧
          (rest.Pairwise (fun a c => a.ID < c.ID) → fu.Pairwise (fun a c => a.ID < c.ID) →
            (∀ u ∈ fu, ∃ y ∈ rest, y.ID = u.ID ∧ y.IsDeleted = false) →
            ∀ z, z ∈ deleted' ↔ z ∈ del ∨
              ∃ u ∈ fu, z ∈ rest ∧ z.ID = u.ID ∧
                (u.Version > z.Version ∨ u.IsDeleted = true)) := by
      intro x fu del hx
      obtain ⟨blk', hblk', happ⟩ := pack_append b n K i1 x hi1 hlo hhi
      rw [hblk] at hblk'
      injection hblk' with hblk'
      subst hblk'
      rw [happ]
      have e : ((j1 : Int) + 1) = ((j1 + 1 : Nat) : Int) := by push_cast; ring
      rw [e]
      obtain ⟨K', i', j', d', h1, h2, h3, h4, ⟨S, hS, hS2⟩, h5⟩ := ih (K ++ [x]) i1 (j1 + 1) fu del
        (by simp; omega) (by omega) (by simp; omega) hi1
      refine ⟨K', i', j', d', h1, h2, h3, h4, ⟨m.ID :: S, ?_, ?_⟩, h5⟩
      · simp only [List.map_cons]
        exact List.Sublist.cons₂ _ hS
      · rw [hS2]; simp [hx]
    -- dropping the meta `m`
    have hdrop : ∀ (fu del : List Meta),
        ∃ (K' : List Meta) (i' j' : Nat) (deleted' : List Meta),
          reconstructLoop (b : Int) rest (pack b n K) i1 (j1 : Int) fu del
            = some (pack b n K', i', (j' : Int), deleted') ∧
          K'.length = i' * b + j' ∧ j' ≤ b ∧ i' < n ∧
          (∃ S, S.Sublist ((m :: rest).map (fun x => x.ID)) ∧
            K'.map (fun x => x.ID) = K.map (fun x => x.ID) ++ S) ∧
          (rest.Pairwise (fun a c => a.ID < c.ID) → fu.Pairwise (fun a c => a.ID < c.ID) →
            (∀ u ∈ fu, ∃ y ∈ rest, y.ID = u.ID ∧ y.IsDeleted = false) →
            ∀ z, z ∈ deleted' ↔ z ∈ del ∨
              ∃ u ∈ fu, z ∈ rest ∧ z.ID = u.ID ∧
                (u.Version > z.Version ∨ u.IsDeleted = true)) := by
      intro fu del
      obtain ⟨K', i', j', d', h1, h2, h3, h4, ⟨S, hS, hS2⟩, h5⟩ := ih K i1 j1 fu del
        hK1 (by omega) (by omega) hi1
      refine ⟨K', i', j', d', h1, h2, h3, h4, ⟨S, ?_, hS2⟩, h5⟩
      simp only [List.map_cons]
      exact List.Sublist.cons _ hS
    -- the matches of the updates other than for `m` are among the rest
    have hmatch : (m :: rest).Pairwise (fun a c => a.ID < c.ID) →
        ∀ (u : Meta), (∃ y ∈ m :: rest, y.ID = u.ID ∧ y.IsDeleted = false) →
          (m.IsDeleted = true ∨ m.ID ≠ u.ID) →
          ∃ y ∈ rest, y.ID = u.ID ∧ y.IsDeleted = false := by
      intro _ u ⟨y, hy, hyid, hyl⟩ hm
      rcases List.mem_cons.mp hy with h | h
      · subst h
        rcases hm with h1 | h1
        · rw [h1] at hyl; cases hyl
        · exact absurd hyid h1
      · exact ⟨y, h, hyid, hyl⟩
    unfold reconstructLoop
    rw [hal]
    simp only
    by_cases hdel : m.IsDeleted = true
    · rw [if_pos hdel]
      obtain ⟨K', i', j', d', h1, h2, h3, h4, h5, h6⟩ := hdrop forUpd deleted
      refine ⟨K', i', j', d', h1, h2, h3, h4, h5, ?_⟩
      intro hms hfs hH z
      have hms' := List.pairwise_cons.mp hms
      rw [h6 hms'.2 hfs (fun u hu => hmatch hms u (hH u hu) (Or.inl hdel)) z]
      constructor
      · rintro (h | ⟨u, hu, hz, hx⟩)
        · exact Or.inl h
        · exact Or.inr ⟨u, hu, List.mem_cons_of_mem _ hz, hx⟩
      · rintro (h | ⟨u, hu, hz, hzid, hx⟩)
        · exact Or.inl h
        · rcases List.mem_cons.mp hz with h | h
          · obtain ⟨y, hy, hyid, hyl⟩ := hH u hu
            have := pairwise_unique _ hms z y hz hy (by rw [hzid, hyid])
            rw [h] at this
            rw [← this, hdel] at hyl
            cases hyl
          · exact Or.inr ⟨u, hu, h, hzid, hx⟩
    · rw [if_neg hdel]
      cases forUpd with
      | nil =>
        simp only [hblk]
        obtain ⟨K', i', j', d', h1, h2, h3, h4, h5, h6⟩ := hkeep m [] deleted rfl
        refine ⟨K', i', j', d', h1, h2, h3, h4, h5, ?_⟩
        intro hms _ _ z
        rw [h6 (List.pairwise_cons.mp hms).2 List.Pairwise.nil (fun u hu => by simp at hu) z]
        simp
      | cons u us =>
        simp only
        by_cases hid : m.ID = u.ID
        · rw [if_pos hid]
          -- the conditional part after the update `u` has met its meta `m`
          have hafter : ∀ (d' del : List Meta),
              (∀ z, z ∈ del ↔ z ∈ deleted ∨
                (z = m ∧ (u.Version > m.Version ∨ u.IsDeleted = true))) →
              ((rest.Pairwise (fun a c => a.ID < c.ID) → us.Pairwise (fun a c => a.ID < c.ID) →
                (∀ u' ∈ us, ∃ y ∈ rest, y.ID = u'.ID ∧ y.IsDeleted = false) →
                ∀ z, z ∈ d' ↔ z ∈ del ∨
                  ∃ u' ∈ us, z ∈ rest ∧ z.ID = u'.ID ∧
                    (u'.Version > z.Version ∨ u'.IsDeleted = true))) →
              ((m :: rest).Pairwise (fun a c => a.ID < c.ID) →
                (u :: us).Pairwise (fun a c => a.ID < c.ID) →
                (∀ u' ∈ u :: us, ∃ y ∈ m :: rest, y.ID = u'.ID ∧ y.IsDeleted = false) →
                ∀ z, z ∈ d' ↔ z ∈ deleted ∨
                  ∃ u' ∈ u :: us, z ∈ m :: rest ∧ z.ID = u'.ID ∧
                    (u'.Version > z.Version ∨ u'.IsDeleted = true)) := by
            intro d' del hdl h6 hms hfs hH z
            have hms' := List.pairwise_cons.mp hms
            have hfs' := List.pairwise_cons.mp hfs
            have hne : ∀ u' ∈ us, m.ID ≠ u'.ID := by
              intro u' hu'
              have := hfs'.1 u' hu'
              omega
            rw [h6 hms'.2 hfs'.2 (fun u' hu' =>
              hmatch hms u' (hH u' (List.mem_cons_of_mem _ hu')) (Or.inr (hne u' hu'))) z, hdl z]
            constructor
            · rintro ((h | ⟨h, hc⟩) | ⟨u', hu', hz, hx⟩)
              · exact Or.inl h
              · exact Or.inr ⟨u, List.mem_cons_self _ _, by rw [h]; exact List.mem_cons_self _ _,
                  by rw [h]; exact hid, by rw [h]; exact hc⟩
              · exact Or.inr ⟨u', List.mem_cons_of_mem _ hu', List.mem_cons_of_mem _ hz, hx⟩
            · rintro (h | ⟨u', hu', hz, hzid, hx⟩)
              · exact Or.inl (Or.inl h)
              · rcases List.mem_cons.mp hu' with h | h
                · subst h
                  have hzm : z = m := pairwise_unique _ hms z m hz (List.mem_cons_self _ _)
                    (by rw [hzid, hid])
                  left; right
                  exact ⟨hzm, by rw [← hzm]; exact hx⟩
                · rcases List.mem_cons.mp hz with h2 | h2
                  · rw [h2] at hzid
                    exact absurd hzid (hne u' h)
                  · exact Or.inr ⟨u', h, h2, hzid, hx⟩
          by_cases hc : u.Version > m.Version ∨ u.IsDeleted = true
          · rw [if_pos hc]
            by_cases hud : u.IsDeleted = true
            · rw [if_pos hud]
              obtain ⟨K', i', j', d', h1, h2, h3, h4, h5, h6⟩ := hdrop us (deleted ++ [m])
              exact ⟨K', i', j', d', h1, h2, h3, h4, h5,
                hafter d' (deleted ++ [m]) (fun z => by simp [hc]) h6⟩
            · rw [if_neg hud]
              simp only [hblk]
              obtain ⟨K', i', j', d', h1, h2, h3, h4, h5, h6⟩ :=
                hkeep u us (deleted ++ [m]) hid.symm
              exact ⟨K', i', j', d', h1, h2, h3, h4, h5,
                hafter d' (deleted ++ [m]) (fun z => by simp [hc]) h6⟩
          · rw [if_neg hc]
            simp only [hblk]
            obtain ⟨K', i', j', d', h1, h2, h3, h4, h5, h6⟩ := hkeep u us deleted hid.symm
            exact ⟨K', i', j', d', h1, h2, h3, h4, h5,
              hafter d' deleted (fun z => by simp [hc]) h6⟩
        · rw [if_neg hid]
          simp only [hblk]
          obtain ⟨K', i', j', d', h1, h2, h3, h4, h5, h6⟩ := hkeep m (u :: us) deleted rfl
          refine ⟨K', i', j', d', h1, h2, h3, h4, h5, ?_⟩
          intro hms hfs hH z
          have hms' := List.pairwise_cons.mp hms
          have hfs' := List.pairwise_cons.mp hfs
          -- no update has the id of `m`
          have hne : ∀ u' ∈ u :: us, m.ID ≠ u'.ID := by
            intro u' hu' hc
            rcases List.mem_cons.mp hu' with h | h
            · subst h; exact hid hc
            · have hlt := hfs'.1 u' h
              obtain ⟨y, hy, hyid, _⟩ := hH u (List.mem_cons_self _ _)
              rcases List.mem_cons.mp hy with h2 | h2
              · subst h2; exact hid hyid
              · have := hms'.1 y h2
                omega
          rw [h6 hms'.2 hfs (fun u' hu' => hmatch hms u' (hH u' hu') (Or.inr (hne u' hu'))) z]
          constructor
          · rintro (h | ⟨u', hu', hz, hx⟩)
            · exact Or.inl h
            · exact Or.inr ⟨u', hu', List.mem_cons_of_mem _ hz, hx⟩
          · rintro (h | ⟨u', hu', hz, hzid, hx⟩)
            · exact Or.inl h
            · rcases List.mem_cons.mp hz with h2 | h2
              · rw [h2] at hzid
                exact absurd hzid (hne u' hu')
              · exact Or.inr ⟨u', hu', h2, hzid, hx⟩


theorem lastBlocks (b len : Nat) (hpos : 0 < b) :
    ∃ t : Nat, ((len : Int) - 1).tdiv (b : Int) + 1 = (t : Int) ∧ len ≤ t * b ∧
      (t - 1) * b ≤ len ∧ (∀ n, len ≤ n * b → 1 ≤ n → t ≤ n) := by
  cases len with
  | zero =>
    have h0 : ((0 : Nat) : Int) - 1 = -1 := by norm_num
    have h1 : (0 : Int) ≤ 1 / (b : Int) := Int.ediv_nonneg (by omega) (by omega)
    have h2 : (1 : Int) / (b : Int) ≤ 1 := by
      have : ((1 / b : Nat) : Int) = 1 / (b : Int) := by rw [Int.ofNat_ediv]; rfl
      rw [← this]
      exact_mod_cast Nat.div_le_self 1 b
    refine ⟨(1 - 1 / (b : Int)).toNat, ?_, Nat.zero_le _, ?_, ?_⟩
    · rw [h0, Int.neg_tdiv, Int.tdiv_eq_ediv (by omega) (by omega)]
      omega
    · have : (1 - 1 / (b : Int)).toNat - 1 = 0 := by omega
      rw [this]; simp
    · intro n _ hn
      omega
  | succ l =>
    have h0 : ((l + 1 : Nat) : Int) - 1 = (l : Int) := by push_cast; ring
    have hlo : l / b * b ≤ l := Nat.div_mul_le_self _ _
    have hhi : l < (l / b + 1) * b := by
      rw [Nat.mul_comm]; exact Nat.lt_mul_div_succ _ hpos
    refine ⟨l / b + 1, ?_, by omega, ?_, ?_⟩
    · rw [h0, Int.tdiv_eq_ediv (by omega) (by omega), ← Int.ofNat_ediv]
      push_cast; ring
    · simp only [Nat.add_sub_cancel]
      omega
    · intro n hn _
      have : l / b < n := (Nat.div_lt_iff_lt_mul hpos).mpr (by omega)
      omega

/-- Packed metas in strict id order, in as many blocks as the last meta needs, meet the
invariant of the blocks. -/
theorem BlocksInv_pack (b t : Nat) (L : List Meta) (hL : L.Pairwise (fun a c => a.ID < c.ID))
    (hhi : L.length ≤ t * b) (hlo : (t - 1) * b ≤ L.length) :
    BlocksInv (b : Int) (pack b t L) := by
  refine ⟨by rw [pack_flatten b t L hhi]; exact hL, ?_, ?_⟩
  · intro i hi blk hblk
    rw [pack_length] at hi
    rw [pack_getElem? b t L i (by omega)] at hblk
    injection hblk with hblk
    rw [← hblk, List.length_take, List.length_drop]
    have h1 : (i + 1) * b ≤ (t - 1) * b := Nat.mul_le_mul_right b (by omega)
    have e : (i + 1) * b = i * b + b := by ring
    have : min b (L.length - i * b) = b := by omega
    rw [this]
  · intro blk hblk
    obtain ⟨i, hi, rfl⟩ := List.getElem_of_mem hblk
    rw [pack_length] at hi
    have := pack_getElem? b t L i hi
    rw [List.getElem?_eq_getElem (by rw [pack_length]; exact hi)] at this
    injection this with this
    rw [this, List.length_take]
    exact_mod_cast Nat.min_le_left _ _

theorem strict_of_sorted_nodup (l : List Meta)
    (hs : l.Pairwise (fun a c => (a.ID : Int) ≤ (c.ID : Int)))
    (hn : (l.map (fun x => x.ID)).Nodup) : l.Pairwise (fun a c => a.ID < c.ID) := by
  induction l with
  | nil => exact List.Pairwise.nil
  | cons a t ih =>
    rw [List.map_cons] at hn
    have hn' := List.nodup_cons.mp hn
    have hs' := List.pairwise_cons.mp hs
    refine List.pairwise_cons.mpr ⟨?_, ih hs'.2 hn'.2⟩
    intro c hc
    have h1 := hs'.1 c hc
    have h2 : a.ID ≠ c.ID := fun h => hn'.1 (List.mem_map.mpr ⟨c, hc, h.symm⟩)
    omega

theorem pairwise_of_map_ID (F F2 : List Meta)
    (h : F2.map (fun x => x.ID) = F.map (fun x => x.ID))
    (hF : F.Pairwise (fun a c => a.ID < c.ID)) : F2.Pairwise (fun a c => a.ID < c.ID) := by
  have h1 : (F.map (fun x => x.ID)).Pairwise (· < ·) := (List.pairwise_map).mpr hF
  rw [← h] at h1
  exact (List.pairwise_map).mp h1

theorem pairwise_of_sublist_ID (F K : List Meta) (S : List Nat)
    (hS : S.Sublist (F.map (fun x => x.ID))) (h : K.map (fun x => x.ID) = S)
    (hF : F.Pairwise (fun a c => a.ID < c.ID)) : K.Pairwise (fun a c => a.ID < c.ID) := by
  have h1 : (F.map (fun x => x.ID)).Pairwise (· < ·) := (List.pairwise_map).mpr hF
  have h2 := h1.sublist hS
  rw [← h] at h2
  exact (List.pairwise_map).mp h2


theorem flatten_length_le (b : Nat) (blocks : List (List Meta))
    (hle : ∀ blk ∈ blocks, blk.length ≤ b) : blocks.flatten.length ≤ blocks.length * b := by
  induction blocks with
  | nil => simp
  | cons blk rest ih =>
    have h1 := hle blk (List.mem_cons_self _ _)
    have h2 := ih (fun x hx => hle x (List.mem_cons_of_mem _ hx))
    have e : (rest.length + 1) * b = rest.length * b + b := by ring
    simp only [List.flatten_cons, List.length_append, List.length_cons]
    omega

theorem blocksSet_replicate (b n : Nat) (hn : 1 ≤ n) :
    blocksSet (List.replicate n ([] : List Meta)) 0 [] = some (pack b n []) := by
  unfold blocksSet
  have h : (0 : Int) ≤ 0 ∧ (0 : Int).toNat < (List.replicate n ([] : List Meta)).length := by
    simp; omega
  rw [if_pos h, pack_nil]
  congr 1
  apply List.ext_getElem?
  intro i
  rw [List.getElem?_set]
  by_cases hi : (0 : Int).toNat = i
  · rw [if_pos hi]
    simp only [List.length_replicate]
    have : i < n := by simp at hi; omega
    simp [this, List.getElem?_replicate]
    intro h0; omega
  · rw [if_neg hi]

/-- The three ways in which `updateHandler` prepares the new blocks, on blocks that meet
the invariant and have no empty block: the result is packed, in strict id order, with ids
among those of the old metas. -/
theorem update_paths_pack (lib : Lib) (mm : MetasMap) (task : UpdateStateTask) (b n : Nat)
    (hb : mm.blockMaxSize = (b : Int)) (hpos : 0 < b) (blocks : List (List Meta))
    (hF : blocks.flatten.Pairwise (fun a c => a.ID < c.ID))
    (hfull : ∀ i, i + 1 < blocks.length → ∀ blk, blocks[i]? = some blk → blk.length = b)
    (hle : ∀ blk ∈ blocks, blk.length ≤ b) (hne : ∀ blk ∈ blocks, blk ≠ [])
    (hlen : blocks.length ≤ n) (hcap : blocks.flatten.length + task.ForAdd.length ≤ n * b)
    (hn : 1 ≤ n) :
    ∃ (L deleted : List Meta) (dc : Int),
      (if blocks.length > 0 then
          if mm.deletedCount > 0 ∧
              ratioAboveTenth (mm.metasLen blocks + task.ForAdd.length) mm.deletedCount = true then
            mm.updateAndReconstruct (List.replicate n []) blocks
              (lib.sortMetas.run task.ForUpdate)
          else mm.update (List.replicate n []) blocks (lib.sortMetas.run task.ForUpdate)
        else (blocksSet (List.replicate n []) 0 []).map
          (fun nb => (nb, 0, [], mm.deletedCount)))
        = some (pack b n L, (L.length : Int), deleted, dc) ∧
      L.Pairwise (fun a c => a.ID < c.ID) ∧
      (∀ x ∈ L, ∃ y ∈ blocks.flatten, y.ID = x.ID) ∧
      L.length ≤ blocks.flatten.length ∧
      ((task.ForUpdate.map (fun x => x.ID)).Nodup →
        (∀ u ∈ task.ForUpdate, ∃ y ∈ blocks.flatten, y.ID = u.ID ∧ y.IsDeleted = false) →
        ∀ x, x ∈ deleted ↔
          ∃ u ∈ task.ForUpdate, x ∈ blocks.flatten ∧ x.ID = u.ID ∧
            (u.Version > x.Version ∨ u.IsDeleted = true)) := by
  have hperm := lib.sortMetas.perm task.ForUpdate
  have hsorted : (lib.sortMetas.run task.ForUpdate).Pairwise
      (fun a c => (a.ID : Int) ≤ (c.ID : Int)) := lib.sortMetas.sorted task.ForUpdate
  have hsorted' : (lib.sortMetas.run task.ForUpdate).Pairwise (fun a c => a.ID ≤ c.ID) :=
    hsorted.imp (fun h => by exact_mod_cast h)
  have hstrict : (task.ForUpdate.map (fun x => x.ID)).Nodup →
      (lib.sortMetas.run task.ForUpdate).Pairwise (fun a c => a.ID < c.ID) := by
    intro hnd
    apply strict_of_sorted_nodup _ hsorted
    exact ((hperm.map (fun x => x.ID)).nodup_iff).mpr hnd
  have hmem : ∀ u, u ∈ lib.sortMetas.run task.ForUpdate ↔ u ∈ task.ForUpdate :=
    fun u => hperm.mem_iff
  by_cases hpos_len : blocks.length > 0
  · rw [if_pos hpos_len]
    by_cases hrec : mm.deletedCount > 0 ∧
        ratioAboveTenth (mm.metasLen blocks + task.ForAdd.length) mm.deletedCount = true
    · rw [if_pos hrec]
      unfold MetasMap.updateAndReconstruct
      have hnn : ¬ mm.blockMaxSize < 0 := by rw [hb]; omega
      rw [if_neg hnn, blocksSet_replicate b n hn, hb]
      simp only
      obtain ⟨K', i', j', d', h1, h2, h3, h4, ⟨S, hS, hS2⟩, h6⟩ := reconstructLoop_pack b n hpos
        blocks.flatten [] 0 0 (lib.sortMetas.run task.ForUpdate) [] (by simp) (Nat.zero_le _)
        (by simp only [List.length_nil, Nat.zero_add]; omega) (by omega)
      simp only [Nat.cast_zero] at h1
      rw [h1]
      simp only [List.map_nil, List.nil_append] at hS2
      have hidx : (i' : Int) * (b : Int) + (j' : Int) = (K'.length : Int) := by
        rw [h2]; push_cast; ring
      refine ⟨K', d', 0, by simp only [hidx], pairwise_of_sublist_ID _ _ S hS hS2 hF, ?_, ?_, ?_⟩
      · intro x hx
        have : x.ID ∈ K'.map (fun x => x.ID) := List.mem_map.mpr ⟨x, hx, rfl⟩
        rw [hS2] at this
        obtain ⟨y, hy, hyid⟩ := List.mem_map.mp (hS.subset this)
        exact ⟨y, hy, hyid⟩
      · have h7 := hS.length_le
        rw [← hS2] at h7
        simpa only [List.length_map] using h7
      · intro hnd hH x
        rw [h6 hF (hstrict hnd) (fun u hu => hH u ((hmem u).mp hu)) x]
        simp only [List.not_mem_nil, false_or]
        constructor
        · rintro ⟨u, hu, hx⟩; exact ⟨u, (hmem u).mp hu, hx⟩
        · rintro ⟨u, hu, hx⟩; exact ⟨u, (hmem u).mpr hu, hx⟩
    · rw [if_neg hrec]
      unfold MetasMap.update
      have htake : blocks.take (List.replicate n ([] : List Meta)).length = blocks := by
        rw [List.length_replicate]; exact List.take_of_length_le hlen
      have hdrop : (List.replicate n ([] : List Meta)).drop blocks.length
          = List.replicate (n - blocks.length) [] := by simp
      have hp1 := pack_of_blocks b blocks n hlen hfull hle
      have hp0 := pack_of_blocks b blocks blocks.length (le_refl _) hfull hle
      simp only [Nat.sub_self, List.replicate_zero, List.append_nil] at hp0
      rw [htake, hdrop, hp1]
      have hne' : ∀ blk ∈ pack b blocks.length blocks.flatten, blk ≠ [] := by
        rw [← hp0]; exact hne
      obtain ⟨F2, d2, c2, h1, h2, h3⟩ := updateLoop_pack b blocks.length n hpos blocks.flatten
        hF hne' (flatten_length_le b blocks hle) hlen (lib.sortMetas.run task.ForUpdate)
        hsorted' blocks.flatten (-1) 0 [] mm.deletedCount rfl (fun _ _ => rfl) (le_refl _)
        (fun _ _ _ _ _ _ => le_trans (by decide) (Int.natCast_nonneg _))
      rw [← hp0] at h1
      have hl2 : F2.length = blocks.flatten.length := by
        have := congrArg List.length h2
        simpa only [List.length_map] using this
      have hml : mm.metasLen blocks = (F2.length : Int) := by
        rw [metasLen_flatten mm b hb blocks hfull, hl2]
      rw [h1]
      simp only
      refine ⟨F2, d2, c2, by rw [hml], pairwise_of_map_ID _ _ h2 hF, ?_, by omega, ?_⟩
      · intro x hx
        have : x.ID ∈ F2.map (fun x => x.ID) := List.mem_map.mpr ⟨x, hx, rfl⟩
        rw [h2] at this
        obtain ⟨y, hy, hyid⟩ := List.mem_map.mp this
        exact ⟨y, hy, hyid⟩
      · intro hnd _ x
        rw [h3 (hstrict hnd) (fun _ _ => rfl) (fun _ _ _ _ _ _ => Nat.zero_le _) x]
        simp only [List.not_mem_nil, false_or]
        constructor
        · rintro ⟨u, hu, hx⟩; exact ⟨u, (hmem u).mp hu, hx⟩
        · rintro ⟨u, hu, hx⟩; exact ⟨u, (hmem u).mpr hu, hx⟩
  · rw [if_neg hpos_len]
    have hnil : blocks = [] := List.length_eq_zero.mp (by omega)
    subst hnil
    rw [blocksSet_replicate b n hn]
    refine ⟨[], [], mm.deletedCount, rfl, List.Pairwise.nil, by simp, by simp, ?_⟩
    intro _ _ x
    simp


theorem calcIndices_some (mm : MetasMap) (b : Nat) (hb : mm.blockMaxSize = (b : Int))
    (hpos : 0 < b) (x : Int) :
    mm.calcIndices x = some (x.tdiv (b : Int), x - x.tdiv (b : Int) * (b : Int)) := by
  unfold MetasMap.calcIndices
  have hne : ¬ mm.blockMaxSize = 0 := by rw [hb]; omega
  rw [if_neg hne, hb]

theorem slice_pack (b n t : Nat) (M : List Meta) (ht : t ≤ n) :
    slice (pack b n M) 0 (t : Int) = some (pack b t M) := by
  unfold slice
  have h : (0 : Int) ≤ 0 ∧ (0 : Int) ≤ (t : Int) ∧ (t : Int) ≤ ((pack b n M).length : Int) := by
    rw [pack_length]
    exact ⟨le_refl _, Int.natCast_nonneg _, by exact_mod_cast ht⟩
  rw [if_pos h]
  simp only [Int.toNat_zero, List.drop_zero, Int.toNat_ofNat, Nat.sub_zero]
  rw [pack_take b n M t ht]

theorem blocks_length_le (mm : MetasMap) (b n : Nat) (hb : mm.blockMaxSize = (b : Int))
    (hpos : 0 < b) (blocks : List (List Meta))
    (hfull : ∀ i, i + 1 < blocks.length → ∀ blk, blocks[i]? = some blk → blk.length = b)
    (hne : ∀ blk ∈ blocks, blk ≠ []) (hcap : blocks.flatten.length ≤ n * b) :
    blocks.length ≤ n ∧ (0 < blocks.length → 0 < blocks.flatten.length) := by
  have hml := metasLen_flatten mm b hb blocks hfull
  unfold MetasMap.metasLen at hml
  cases hlast : blocks.getLast? with
  | none =>
    have : blocks = [] := by simpa using hlast
    subst this
    exact ⟨Nat.zero_le _, fun h => absurd h (by simp)⟩
  | some last =>
    rw [hlast] at hml
    simp only at hml
    rw [hb] at hml
    have hmem : last ∈ blocks := List.mem_of_mem_getLast? hlast
    have hl1 : 1 ≤ last.length := by
      have := hne last hmem
      cases last with
      | nil => exact absurd rfl this
      | cons _ _ => simp
    have hlen1 : 1 ≤ blocks.length := by
      cases blocks with
      | nil => simp at hlast
      | cons _ _ => simp
    have hprod : (0 : Int) ≤ ((blocks.length : Int) - 1) * (b : Int) :=
      mul_nonneg (by omega) (by omega)
    have hcapi : (blocks.flatten.length : Int) ≤ (n : Int) * (b : Int) := by exact_mod_cast hcap
    have hlt : ((blocks.length : Int) - 1) * (b : Int) < (n : Int) * (b : Int) := by omega
    have hbpos : (0 : Int) ≤ (b : Int) := by omega
    have := lt_of_mul_lt_mul_right hlt hbpos
    constructor
    · omega
    · intro _; omega

/-- The effect of `updateHandler` on a storage whose blocks meet the invariant and have
no empty block: the new blocks are the packing of a list in strict id order. -/
theorem updateHandler_pack (lib : Lib) (mm : MetasMap) (task : UpdateStateTask) (b : Nat)
    (hb : mm.blockMaxSize = (b : Int)) (hpos : 0 < b) (blocks : List (List Meta))
    (hget : mapGet mm.state.metasMap task.Storage = some blocks)
    (hver : mm.state.version ≠ 0)
    (hguard : ¬ (blocks.length = 0 ∧ task.ForAdd.length = 0))
    (hF : blocks.flatten.Pairwise (fun a c => a.ID < c.ID))
    (hfull : ∀ i, i + 1 < blocks.length → ∀ blk, blocks[i]? = some blk → blk.length = b)
    (hle : ∀ blk ∈ blocks, blk.length ≤ b) (hne : ∀ blk ∈ blocks, blk ≠ [])
    (hnd : (task.ForAdd.map (fun x => x.ID)).Nodup)
    (hfresh : ∀ a ∈ task.ForAdd, ∀ y ∈ blocks.flatten, y.ID ≠ a.ID) :
    ∃ (M deleted : List Meta) (t : Nat) (dc : Int),
      mm.updateHandler lib task = some { mm with
        state := ⟨mapSet mm.state.metasMap task.Storage (pack b t M), mm.state.version + 1⟩,
        deletedCount := dc,
        deleteList := registerDeleted task.Storage (mm.state.version + 1) mm.deleteList
          deleted } ∧
      M.Pairwise (fun a c => a.ID < c.ID) ∧ M.length ≤ t * b ∧ (t - 1) * b ≤ M.length ∧
      (0 < M.length → (t - 1) * b < M.length) ∧
      (∀ a ∈ task.ForAdd, a ∈ M) ∧
      (∀ x ∈ M, x ∈ task.ForAdd ∨ ∃ y ∈ blocks.flatten, y.ID = x.ID) ∧
      ((task.ForUpdate.map (fun x => x.ID)).Nodup →
        (∀ u ∈ task.ForUpdate, ∃ y ∈ blocks.flatten, y.ID = u.ID ∧ y.IsDeleted = false) →
        ∀ x, x ∈ deleted ↔
          ∃ u ∈ task.ForUpdate, x ∈ blocks.flatten ∧ x.ID = u.ID ∧
            (u.Version > x.Version ∨ u.IsDeleted = true)) := by
  have hml := metasLen_flatten mm b hb blocks hfull
  obtain ⟨n, hn1, hn2, _, _⟩ := lastBlocks b (blocks.flatten.length + task.ForAdd.length) hpos
  obtain ⟨hlen, hposF⟩ := blocks_length_le mm b n hb hpos blocks hfull hne (by omega)
  have htot : 1 ≤ blocks.flatten.length + task.ForAdd.length := by
    by_cases h0 : blocks.length = 0
    · have : task.ForAdd.length ≠ 0 := fun h => hguard ⟨h0, h⟩
      omega
    · have := hposF (by omega)
      omega
  have hn : 1 ≤ n := by
    rcases Nat.eq_zero_or_pos n with h0 | h0
    · subst h0; omega
    · exact h0
  have hci : mm.calcIndices (mm.metasLen blocks + (task.ForAdd.length : Int) - 1)
      = some ((n : Int) - 1,
          (mm.metasLen blocks + (task.ForAdd.length : Int) - 1)
            - ((n : Int) - 1) * (b : Int)) := by
    rw [calcIndices_some mm b hb hpos, hml]
    have e : (blocks.flatten.length : Int) + (task.ForAdd.length : Int) - 1
        = ((blocks.flatten.length + task.ForAdd.length : Nat) : Int) - 1 := by push_cast; ring
    rw [e]
    have e2 : (((blocks.flatten.length + task.ForAdd.length : Nat) : Int) - 1).tdiv (b : Int)
        = (n : Int) - 1 := by omega
    rw [e2]
  obtain ⟨L, deleted, dc, hp, hLs, hLmem, hLlen, hdel⟩ := update_paths_pack lib mm task b n hb
    hpos blocks hF hfull hle hne hlen hn2 hn
  obtain ⟨M, hadd, hMs, hMperm⟩ := addLoop_pack mm b n hb hpos task.ForAdd L
    (((L.length : Int) - 1).tdiv (b : Int)) rfl (by omega) hLs hnd
    (fun a ha m hm => by
      obtain ⟨y, hy, hyid⟩ := hLmem m hm
      rw [← hyid]
      exact hfresh a ha y hy)
  have hMlen : M.length = L.length + task.ForAdd.length := by
    rw [hMperm.length_eq, List.length_append]
  obtain ⟨t, ht1, ht2, ht3, ht4⟩ := lastBlocks b M.length hpos
  have htn : t ≤ n := ht4 n (by omega) hn
  have e1 : (n : Int) - 1 + 1 = (n : Int) := by ring
  have hnneg : ¬ ((n : Int) < 0) := by omega
  have hstrict : 0 < M.length → (t - 1) * b < M.length := by
    intro h0
    have e : ((M.length : Int) - 1) = ((M.length - 1 : Nat) : Int) := by omega
    rw [e, Int.tdiv_eq_ediv (by omega) (by omega), ← Int.ofNat_ediv] at ht1
    have ht1n : (M.length - 1) / b + 1 = t := by exact_mod_cast ht1
    have := Nat.div_mul_le_self (M.length - 1) b
    rw [← ht1n, Nat.add_sub_cancel]
    omega
  have hMmem : ∀ x ∈ M, x ∈ task.ForAdd ∨ ∃ y ∈ blocks.flatten, y.ID = x.ID := by
    intro x hx
    rcases List.mem_append.mp (hMperm.mem_iff.mp hx) with h | h
    · exact Or.inr (hLmem x h)
    · exact Or.inl h
  refine ⟨M, deleted, t, dc, ?_, hMs, ht2, ht3, hstrict,
    fun a ha => hMperm.mem_iff.mpr (List.mem_append_right _ ha), hMmem, hdel⟩
  unfold MetasMap.updateHandler
  simp only [StateManager.Get, hget]
  rw [if_neg hver, if_neg hguard, hci]
  simp only [e1, Int.toNat_ofNat]
  rw [if_neg hnneg, hp]
  simp only
  rw [calcIndices_some mm b hb hpos]
  simp only
  rw [hadd]
  simp only
  rw [ht1, slice_pack b n t M htn]
  simp only [StateManager.Set, hget]
  rw [if_neg (Nat.succ_ne_zero _)]


theorem pack_nonempty (b t : Nat) (L : List Meta) (hpos : 0 < b)
    (h : (t - 1) * b < L.length) : ∀ blk ∈ pack b t L, blk ≠ [] := by
  intro blk hblk
  obtain ⟨i, hi, hget⟩ := List.getElem_of_mem hblk
  rw [pack_length] at hi
  have h1 : (pack b t L)[i]? = some blk := by
    rw [List.getElem?_eq_getElem (by rw [pack_length]; exact hi), hget]
  rw [pack_getElem? b t L i hi] at h1
  injection h1 with h1
  have h2 : i * b ≤ (t - 1) * b := Nat.mul_le_mul_right b (by omega)
  intro hnil
  have h3 := congrArg List.length h1
  rw [hnil, List.length_take, List.length_drop] at h3
  simp only [List.length_nil] at h3
  omega

theorem mapGet_mapSet_ite {κ ν : Type} [DecidableEq κ] (m : List (κ × ν)) (k p : κ) (v : ν) :
    mapGet (mapSet m k v) p = if p = k then some v else mapGet m p := by
  by_cases h : p = k
  · rw [if_pos h, h, mapGet_mapSet]
  · rw [if_neg h, mapGet_mapSet_ne m k p v h]

theorem registerDeleted_lookup (storage : String) (v : Nat) :
    ∀ (deleted : List Meta) (dl : List (FilePath × Nat)) (p : FilePath),
      ((∃ x ∈ deleted, p = FilePath.chunk (chunkPath storage x)) →
        mapGet (registerDeleted storage v dl deleted) p = some v) ∧
      ((¬ ∃ x ∈ deleted, p = FilePath.chunk (chunkPath storage x)) →
        mapGet (registerDeleted storage v dl deleted) p = mapGet dl p) := by
  intro deleted
  induction deleted with
  | nil =>
    intro dl p
    exact ⟨fun ⟨x, hx, _⟩ => absurd hx (List.not_mem_nil x), fun _ => rfl⟩
  | cons d rest ih =>
    intro dl p
    have hstep : registerDeleted storage v dl (d :: rest)
        = registerDeleted storage v (mapSet dl (FilePath.chunk (chunkPath storage d)) v) rest := rfl
    rw [hstep]
    obtain ⟨ih1, ih2⟩ := ih (mapSet dl (FilePath.chunk (chunkPath storage d)) v) p
    constructor
    · rintro ⟨x, hx, hp⟩
      by_cases hr : ∃ x ∈ rest, p = FilePath.chunk (chunkPath storage x)
      · exact ih1 hr
      · rw [ih2 hr, mapGet_mapSet_ite]
        rcases List.mem_cons.mp hx with h | h
        · rw [if_pos (by rw [hp, h])]
        · exact absurd ⟨x, h, hp⟩ hr
    · intro hno
      have hr : ¬ ∃ x ∈ rest, p = FilePath.chunk (chunkPath storage x) :=
        fun ⟨x, hx, hp⟩ => hno ⟨x, List.mem_cons_of_mem _ hx, hp⟩
      have hd : ¬ p = FilePath.chunk (chunkPath storage d) :=
        fun hp => hno ⟨d, List.mem_cons_self _ _, hp⟩
      rw [ih2 hr, mapGet_mapSet_ite, if_neg hd]

theorem BlocksInv_nat (bms : Int) (b : Nat) (hb : bms = (b : Int)) (blocks : List (List Meta))
    (hinv : BlocksInv bms blocks) :
    (∀ i, i + 1 < blocks.length → ∀ blk, blocks[i]? = some blk → blk.length = b) ∧
    (∀ blk ∈ blocks, blk.length ≤ b) := by
  obtain ⟨_, h2, h3⟩ := hinv
  constructor
  · intro i hi blk hblk
    have := h2 i hi blk hblk
    rw [hb] at this
    exact_mod_cast this
  · intro blk hblk
    have := h3 blk hblk
    rw [hb] at this
    exact_mod_cast this

/-- The block invariant where `updateHandler` keeps it: on a storage whose metas are in
strict id order across its blocks, whose blocks but the last hold exactly `blockMaxSize` metas, and where no block is empty or holds more
than `blockMaxSize ≥ 1` metas, `updateHandler` with a task whose `ForAdd` ids are distinct
and not present (in any order, `ForUpdate` arbitrary) returns, and the blocks of the
storage are again in strict id order, full but for the last, none larger; they hold the
added metas, no id that is neither old nor added, and no empty block unless no meta at
all is left. -/
theorem C12_blocks_invariant (lib : Lib) (mm : MetasMap) (task : UpdateStateTask)
    (blocks : List (List Meta)) (hbms : 1 ≤ mm.blockMaxSize)
    (hget : mapGet mm.state.metasMap task.Storage = some blocks)
    (hver : mm.state.version ≠ 0)
    (hinv : BlocksInv mm.blockMaxSize blocks) (hne : ∀ blk ∈ blocks, blk ≠ [])
    (hnd : (task.ForAdd.map (fun x => x.ID)).Nodup)
    (hfresh : ∀ a ∈ task.ForAdd, ∀ y ∈ blocks.flatten, y.ID ≠ a.ID) :
    ∃ (mm' : MetasMap) (blocks' : List (List Meta)),
      mm.updateHandler lib task = some mm' ∧
      mm'.blockMaxSize = mm.blockMaxSize ∧
      mapGet mm'.state.metasMap task.Storage = some blocks' ∧
      BlocksInv mm.blockMaxSize blocks' ∧
      (∀ a ∈ task.ForAdd, a ∈ blocks'.flatten) ∧
      (∀ x ∈ blocks'.flatten, x ∈ task.ForAdd ∨ ∃ y ∈ blocks.flatten, y.ID = x.ID) ∧
      (blocks'.flatten ≠ [] → ∀ blk ∈ blocks', blk ≠ []) := by
  have hb : mm.blockMaxSize = ((mm.blockMaxSize.toNat : Nat) : Int) := by omega
  have hpos : 0 < mm.blockMaxSize.toNat := by omega
  obtain ⟨hfull, hle⟩ := BlocksInv_nat _ _ hb blocks hinv
  by_cases hguard : blocks.length = 0 ∧ task.ForAdd.length = 0
  · refine ⟨mm, blocks, ?_, rfl, hget, hinv, ?_, ?_, fun _ => hne⟩
    · unfold MetasMap.updateHandler
      simp only [StateManager.Get, hget]
      rw [if_neg hver, if_pos hguard]
    · intro a ha
      have : task.ForAdd = [] := List.length_eq_zero.mp hguard.2
      rw [this] at ha
      exact absurd ha (List.not_mem_nil a)
    · intro x hx
      exact Or.inr ⟨x, hx, rfl⟩
  · obtain ⟨M, deleted, t, dc, heq, hMs, ht2, ht3, hstrict, hadd, hmem, _⟩ :=
      updateHandler_pack lib mm task _ hb hpos blocks hget hver hguard hinv.1 hfull hle hne
        hnd hfresh
    have hflat := pack_flatten mm.blockMaxSize.toNat t M ht2
    refine ⟨_, pack mm.blockMaxSize.toNat t M, heq, rfl, mapGet_mapSet _ _ _, ?_, ?_, ?_, ?_⟩
    · have := BlocksInv_pack mm.blockMaxSize.toNat t M hMs ht2 ht3
      rwa [← hb] at this
    · rw [hflat]; exact hadd
    · rw [hflat]; exact hmem
    · rw [hflat]
      intro hM
      have : 0 < M.length := List.length_pos.mpr hM
      exact pack_nonempty _ t M hpos (hstrict this)

set_option maxRecDepth 8000 in
theorem C12_blocks_invariant_witness :
    (∃ (mm' : MetasMap) (blocks' : List (List Meta)),
      removingMetasMap.updateHandler testLib removingAddTask = some mm' ∧
      mapGet mm'.state.metasMap "storage" = some blocks' ∧ BlocksInv 2 blocks') ∧
    (removingMetasMap.updateHandler testLib removingAddTask).map (fun m => m.state.metasMap)
      = some [("storage", [[metaVer 1 2 true, metaVer 2 1 false],
                           [metaVer 3 1 false, metaVer 4 1 false], [metaVer 5 1 false]])] :=
  ⟨by
    obtain ⟨mm', blocks', h1, _, h3, h4, _⟩ := C12_blocks_invariant testLib removingMetasMap
      removingAddTask [[metaVer 1 1 false, metaVer 2 1 false], [metaVer 3 1 false]]
      (by decide) (by decide) (by decide)
      (BlocksInv_pack 2 2 [metaVer 1 1 false, metaVer 2 1 false, metaVer 3 1 false]
        (by decide) (by decide) (by decide))
      (by decide) (by decide) (by decide)
    exact ⟨mm', blocks', h1, h3, h4⟩,
   by decide⟩

/-- C12: the block invariant is not kept by `updateHandler`. The storage with the single
meta of id 1 meets it, with no empty block; a task that marks the meta deleted and a next
task without metas, both without `ForAdd`, leave the storage with the block list of one
empty block. That list is still in strict id order with every block but the last full,
and on it `updateHandler` does not return for any task with a `ForUpdate` entry, whatever
`sort.Slice` does: the binary search reads the first meta of the empty block. -/
theorem C12_empty_block_breaks_invariant :
    (mapGet loneMetasMap.state.metasMap "storage" = some [[metaVer 1 1 false]] ∧
      BlocksInv loneMetasMap.blockMaxSize [[metaVer 1 1 false]] ∧
      (∀ blk ∈ [[metaVer 1 1 false]], blk ≠ []) ∧
      removingTask.ForAdd = [] ∧ idleTask.ForAdd = []) ∧
    (loneMetasMap.updateHandler testLib removingTask).bind
        (fun m => m.updateHandler testLib idleTask) = some emptiedMetasMap ∧
    mapGet emptiedMetasMap.state.metasMap probeTask.Storage = some [[]] ∧
    BlocksInv emptiedMetasMap.blockMaxSize [[]] ∧
    emptiedMetasMap.updateHandler testLib probeTask = none ∧
    (∀ (lib : Lib) (task : UpdateStateTask), task.Storage = "storage" →
      task.ForUpdate ≠ [] → emptiedMetasMap.updateHandler lib task = none) := by
  refine ⟨⟨by decide, BlocksInv_pack 2 1 [metaVer 1 1 false] (by decide) (by decide)
      (by decide), by decide, rfl, rfl⟩, by decide, by decide,
    BlocksInv_pack 2 1 [] (by decide) (by decide) (by decide), by decide, ?_⟩
  intro lib task hs hne
  have hrun : ∃ u rest, lib.sortMetas.run task.ForUpdate = u :: rest := by
    cases h : lib.sortMetas.run task.ForUpdate with
    | nil =>
      have hp := lib.sortMetas.perm task.ForUpdate
      rw [h] at hp
      exact absurd hp.symm.eq_nil hne
    | cons u rest => exact ⟨u, rest, rfl⟩
  obtain ⟨u, rest, hrun⟩ := hrun
  have hg : emptiedMetasMap.state.Get task.Storage = ([[]], 4) := by rw [hs]; rfl
  have hml : emptiedMetasMap.metasLen [[]] = 0 := by decide
  have hupd : ∀ nb, emptiedMetasMap.update nb [[]] (u :: rest) = none := by
    intro nb
    simp [MetasMap.update, updateLoop, binSearchBlock]
  unfold MetasMap.updateHandler
  rw [hg]
  simp only [hml, hrun, hupd]
  rw [if_neg (by decide), if_neg (by simp),
    calcIndices_some emptiedMetasMap 2 rfl (by decide)]
  simp only
  split_ifs <;> first | rfl | skip
  all_goals simp_all [emptiedMetasMap]

/-- C14: on an existing storage that has a block or gets a meta added, with blocks that
meet the invariant and have no empty block and `ForAdd` ids that are distinct and not
present, `updateHandler` returns with the state version increased by exactly one; when
the `ForUpdate` ids are distinct and each is the id of a meta not marked deleted, the
delete list maps the path of every meta that a `ForUpdate` entry of its id with a higher
version or marked deleted replaces to the new state version, and is unchanged at every
other path. -/
theorem C14_version_and_deleteList (lib : Lib) (mm : MetasMap) (task : UpdateStateTask)
    (blocks : List (List Meta)) (hbms : 1 ≤ mm.blockMaxSize)
    (hget : mapGet mm.state.metasMap task.Storage = some blocks)
    (hver : mm.state.version ≠ 0)
    (hsome : blocks ≠ [] ∨ task.ForAdd ≠ [])
    (hinv : BlocksInv mm.blockMaxSize blocks) (hne : ∀ blk ∈ blocks, blk ≠ [])
    (hnd : (task.ForAdd.map (fun x => x.ID)).Nodup)
    (hfresh : ∀ a ∈ task.ForAdd, ∀ y ∈ blocks.flatten, y.ID ≠ a.ID) :
    ∃ mm' : MetasMap,
      mm.updateHandler lib task = some mm' ∧
      mm'.state.version = mm.state.version + 1 ∧
      ((task.ForUpdate.map (fun x => x.ID)).Nodup →
        (∀ u ∈ task.ForUpdate, ∃ y ∈ blocks.flatten, y.ID = u.ID ∧ y.IsDeleted = false) →
        ∀ p : FilePath,
          ((∃ u ∈ task.ForUpdate, ∃ x ∈ blocks.flatten, x.ID = u.ID ∧
              (u.Version > x.Version ∨ u.IsDeleted = true) ∧
              p = FilePath.chunk ⟨task.Storage, x.ID, x.Version⟩) →
            mapGet mm'.deleteList p = some (mm.state.version + 1)) ∧
          ((¬ ∃ u ∈ task.ForUpdate, ∃ x ∈ blocks.flatten, x.ID = u.ID ∧
              (u.Version > x.Version ∨ u.IsDeleted = true) ∧
              p = FilePath.chunk ⟨task.Storage, x.ID, x.Version⟩) →
            mapGet mm'.deleteList p = mapGet mm.deleteList p)) := by
  have hb : mm.blockMaxSize = ((mm.blockMaxSize.toNat : Nat) : Int) := by omega
  have hpos : 0 < mm.blockMaxSize.toNat := by omega
  obtain ⟨hfull, hle⟩ := BlocksInv_nat _ _ hb blocks hinv
  have hguard : ¬ (blocks.length = 0 ∧ task.ForAdd.length = 0) := by
    rintro ⟨h1, h2⟩
    rcases hsome with h | h
    · exact h (List.length_eq_zero.mp h1)
    · exact h (List.length_eq_zero.mp h2)
  obtain ⟨M, deleted, t, dc, heq, _, _, _, _, _, _, hdel⟩ :=
    updateHandler_pack lib mm task _ hb hpos blocks hget hver hguard hinv.1 hfull hle hne
      hnd hfresh
  refine ⟨_, heq, rfl, ?_⟩
  intro hund hlive p
  have hchar := hdel hund hlive
  obtain ⟨r1, r2⟩ := registerDeleted_lookup task.Storage (mm.state.version + 1) deleted
    mm.deleteList p
  have hiff : (∃ x ∈ deleted, p = FilePath.chunk (chunkPath task.Storage x)) ↔
      (∃ u ∈ task.ForUpdate, ∃ x ∈ blocks.flatten, x.ID = u.ID ∧
        (u.Version > x.Version ∨ u.IsDeleted = true) ∧
        p = FilePath.chunk ⟨task.Storage, x.ID, x.Version⟩) := by
    constructor
    · rintro ⟨x, hx, hp⟩
      obtain ⟨u, hu, hxF, hid, hcond⟩ := (hchar x).mp hx
      exact ⟨u, hu, x, hxF, hid, hcond, hp⟩
    · rintro ⟨u, hu, x, hxF, hid, hcond, hp⟩
      exact ⟨x, (hchar x).mpr ⟨u, hu, hxF, hid, hcond⟩, hp⟩
  exact ⟨fun h => r1 (hiff.mpr h), fun h => r2 (fun h2 => h (hiff.mp h2))⟩

set_option maxRecDepth 8000 in
theorem C14_version_and_deleteList_witness :
    ∃ mm' : MetasMap,
      removingMetasMap.updateHandler testLib removingTask = some mm' ∧
      mm'.state.version = 3 ∧
      mapGet mm'.deleteList (FilePath.chunk ⟨"storage", 1, 1⟩) = some 3 ∧
      mapGet mm'.deleteList (FilePath.chunk ⟨"storage", 2, 1⟩) = none := by
  obtain ⟨mm', h1, h2, h3⟩ := C14_version_and_deleteList testLib removingMetasMap
    removingTask [[metaVer 1 1 false, metaVer 2 1 false], [metaVer 3 1 false]]
    (by decide) (by decide) (by decide) (Or.inl (by decide))
    (BlocksInv_pack 2 2 [metaVer 1 1 false, metaVer 2 1 false, metaVer 3 1 false]
      (by decide) (by decide) (by decide))
    (by decide) (by decide) (by decide)
  have hc := h3 (by decide) (by decide)
  exact ⟨mm', h1, h2,
    (hc _).1 ⟨metaVer 1 2 true, by decide, metaVer 1 1 false, by decide, rfl, Or.inr rfl, rfl⟩,
    (hc _).2 (by decide)⟩

/-- C14, counterexample: on an existing storage without metas, a task without `ForAdd`
leaves the metas map as it is, the state version is not increased; and when the metas
map has a meta marked deleted, so that the blocks are rebuilt, a `ForUpdate` entry of an
id that the storage does not hold keeps the entry after it from being applied: the meta
of id 2 stays, and its path is not in the delete list. -/
theorem C14_counterexample :
    (blankMetasMap.Exists probeTask.Storage = true ∧
      blankMetasMap.updateHandler testLib probeTask = some blankMetasMap) ∧
    (metaVer 2 1 false ∈ ((removedMetasMap.state.Get strayTask.Storage).1).flatten ∧
      metaVer 2 2 true ∈ strayTask.ForUpdate ∧
      (removedMetasMap.updateHandler testLib strayTask).map
        (fun m => (m.state.version,
          mapGet m.deleteList (FilePath.chunk ⟨"storage", 2, 1⟩))) = some (4, none)) := by
  decide

/-! ## `GetFulledCrossedMetas` -/

theorem collectLive_spec (len : Int) : ∀ (l metas : List Meta),
    ((metas.length + (l.filter (fun mt => !mt.IsDeleted)).length : Nat) : Int) ≤ len →
    collectLive len l metas = some (metas ++ l.filter (fun mt => !mt.IsDeleted)) := by
  intro l
  induction l with
  | nil => intro metas _; simp [collectLive]
  | cons mt rest ih =>
    intro metas h
    unfold collectLive
    by_cases hd : mt.IsDeleted = true
    · rw [if_pos hd]
      have : (mt :: rest).filter (fun mt => !mt.IsDeleted) = rest.filter (fun mt => !mt.IsDeleted) := by
        rw [List.filter_cons]; simp [hd]
      rw [this] at h ⊢
      exact ih metas h
    · rw [if_neg hd]
      have hf : (mt :: rest).filter (fun mt => !mt.IsDeleted)
          = mt :: rest.filter (fun mt => !mt.IsDeleted) := by
        rw [List.filter_cons]; simp [hd]
      rw [hf] at h ⊢
      simp only [List.length_cons] at h
      have hlt : (metas.length : Int) < len := by omega
      rw [if_pos hlt, ih (metas ++ [mt]) (by simp only [List.length_append, List.length_cons, List.length_nil]; omega)]
      simp

/-- The result of the loop of `GetFulledCrossedMetas`: when nothing has been collected it
is a run of consecutive metas of `prev :: rest`, otherwise it extends the collected metas
by the metas that follow `prev`. -/
theorem crossedLoop_spec : ∀ (rest : List Meta) (prev : Meta) (crossed : List Meta),
    (crossed = [] ∨ (∃ init, crossed = init ++ [prev] ∧ init ≠ [] ∧ crossed.length ≤ 4 ∧
      (∀ x ∈ crossed, x.Offsets = none) ∧
      crossed.Chain' (fun a c => a.TimeRange.End > c.TimeRange.Start))) →
    (crossedLoop prev rest crossed = [] ∨
        (2 ≤ (crossedLoop prev rest crossed).length ∧
          (crossedLoop prev rest crossed).length ≤ 5)) ∧
      (∀ x ∈ crossedLoop prev rest crossed, x.Offsets = none) ∧
      (crossedLoop prev rest crossed).Chain' (fun a c => a.TimeRange.End > c.TimeRange.Start) ∧
      (crossed = [] → crossedLoop prev rest crossed <:+: prev :: rest) ∧
      (crossed ≠ [] → crossedLoop prev rest crossed <+: crossed ++ rest) := by
  intro rest
  induction rest with
  | nil =>
    intro prev crossed h
    unfold crossedLoop
    rcases h with h | ⟨init, h1, h2, h3, h4, h5⟩
    · subst h
      exact ⟨Or.inl rfl, by simp, List.chain'_nil, fun _ => List.nil_infix, fun h => absurd rfl h⟩
    · refine ⟨Or.inr ⟨?_, by omega⟩, h4, h5, fun h => ?_, fun _ => by simp⟩
      · rw [h1, List.length_append]
        have := List.length_pos.mpr h2
        simp only [List.length_cons, List.length_nil]; omega
      · rw [h] at h1
        exact absurd h1.symm (by simp)
  | cons cur rest ih =>
    intro prev crossed h
    have hlen0 : crossed = [] ↔ crossed.length = 0 := List.length_eq_zero.symm
    -- the case where the loop goes on without collecting
    have hskip : crossedLoop prev (cur :: rest) crossed
          = (if crossed.length > 0 then crossed else crossedLoop cur rest crossed) →
        (crossedLoop prev (cur :: rest) crossed = [] ∨
          (2 ≤ (crossedLoop prev (cur :: rest) crossed).length ∧
            (crossedLoop prev (cur :: rest) crossed).length ≤ 5)) ∧
        (∀ x ∈ crossedLoop prev (cur :: rest) crossed, x.Offsets = none) ∧
        (crossedLoop prev (cur :: rest) crossed).Chain'
          (fun a c => a.TimeRange.End > c.TimeRange.Start) ∧
        (crossed = [] → crossedLoop prev (cur :: rest) crossed <:+: prev :: cur :: rest) ∧
        (crossed ≠ [] → crossedLoop prev (cur :: rest) crossed <+: crossed ++ cur :: rest) := by
      intro heq
      rw [heq]
      rcases h with h | ⟨init, h1, h2, h3, h4, h5⟩
      · subst h
        simp only [List.length_nil, gt_iff_lt, lt_self_iff_false, if_false]
        obtain ⟨r1, r2, r3, r4, _⟩ := ih cur [] (Or.inl rfl)
        refine ⟨r1, r2, r3, fun _ => ?_, fun h => absurd rfl h⟩
        obtain ⟨s, t, hst⟩ := r4 rfl
        exact ⟨prev :: s, t, by simp [← hst]⟩
      · have hpos : crossed.length > 0 := by
          rw [h1, List.length_append]; simp
        rw [if_pos hpos]
        refine ⟨Or.inr ⟨?_, by omega⟩, h4, h5, fun h => ?_, fun _ => List.prefix_append _ _⟩
        · rw [h1, List.length_append]
          have := List.length_pos.mpr h2
          simp only [List.length_cons, List.length_nil]; omega
        · rw [h] at hpos; simp at hpos
    by_cases hraw : prev.Offsets ≠ none ∨ cur.Offsets ≠ none
    · apply hskip
      rw [crossedLoop, if_pos hraw]
    · have hs1 : prev.Offsets = none := by
        by_contra hc; exact hraw (Or.inl hc)
      have hs2 : cur.Offsets = none := by
        by_contra hc; exact hraw (Or.inr hc)
      by_cases hcross : prev.TimeRange.End > cur.TimeRange.Start
      · -- the pair overlaps: `cur` is collected
        have hacc : ∃ init, (if crossed.length = 0 then crossed ++ [prev] else crossed) ++ [cur]
              = init ++ [cur] ∧ init ≠ [] ∧
            ((if crossed.length = 0 then crossed ++ [prev] else crossed) ++ [cur]).length ≤ 5 ∧
            2 ≤ ((if crossed.length = 0 then crossed ++ [prev] else crossed) ++ [cur]).length ∧
            (∀ x ∈ (if crossed.length = 0 then crossed ++ [prev] else crossed) ++ [cur],
              x.Offsets = none) ∧
            ((if crossed.length = 0 then crossed ++ [prev] else crossed) ++ [cur]).Chain'
              (fun a c => a.TimeRange.End > c.TimeRange.Start) ∧
            (crossed = [] →
              (if crossed.length = 0 then crossed ++ [prev] else crossed) ++ [cur] = [prev, cur]) ∧
            (crossed ≠ [] →
              (if crossed.length = 0 then crossed ++ [prev] else crossed) ++ [cur]
                = crossed ++ [cur]) := by
          rcases h with h | ⟨init, h1, h2, h3, h4, h5⟩
          · subst h
            simp only [List.length_nil, if_true, List.nil_append]
            refine ⟨[prev], rfl, by simp, by simp, by simp, ?_, ?_, fun _ => rfl,
              fun h => absurd rfl h⟩
            · intro x hx
              simp only [List.cons_append, List.nil_append, List.mem_cons, List.mem_singleton,
                List.not_mem_nil, or_false] at hx
              rcases hx with rfl | rfl
              · exact hs1
              · exact hs2
            · simp only [List.cons_append, List.nil_append, List.chain'_cons, List.chain'_singleton,
                and_true]
              exact hcross
          · have hne : ¬ crossed.length = 0 := by
              rw [h1, List.length_append]; simp
            rw [if_neg hne]
            refine ⟨crossed, rfl, by rw [h1]; simp, ?_, ?_, ?_, ?_, fun h => ?_, fun _ => rfl⟩
            · rw [List.length_append]; simp only [List.length_cons, List.length_nil]; omega
            · rw [List.length_append]; simp only [List.length_cons, List.length_nil]; omega
            · intro x hx
              rcases List.mem_append.mp hx with hx | hx
              · exact h4 x hx
              · simp only [List.mem_singleton] at hx; rw [hx]; exact hs2
            · rw [h1]
              rw [h1] at h5
              exact List.Chain'.append_overlap h5 (List.chain'_pair.mpr hcross) (by simp)
            · rw [h] at hne; simp at hne
        obtain ⟨init, e1, e2, e3, e4, e5, e6, e7, e8⟩ := hacc
        have hunf : crossedLoop prev (cur :: rest) crossed
            = (if ((if crossed.length = 0 then crossed ++ [prev] else crossed) ++ [cur]).length = 5
                then (if crossed.length = 0 then crossed ++ [prev] else crossed) ++ [cur]
                else crossedLoop cur rest
                  ((if crossed.length = 0 then crossed ++ [prev] else crossed) ++ [cur])) := by
          rw [crossedLoop, if_neg hraw, if_pos hcross]
        rw [hunf]
        by_cases h5 : ((if crossed.length = 0 then crossed ++ [prev] else crossed) ++ [cur]).length = 5
        · rw [if_pos h5]
          refine ⟨Or.inr ⟨e4, e3⟩, e5, e6, fun h => ?_, fun h => ?_⟩
          · rw [e7 h]
            exact ⟨[], rest, by simp⟩
          · rw [e8 h]
            exact ⟨rest, by simp⟩
        · rw [if_neg h5]
          obtain ⟨r1, r2, r3, _, r5⟩ := ih cur _
            (Or.inr ⟨init, e1, e2, by omega, e5, e6⟩)
          have hne : (if crossed.length = 0 then crossed ++ [prev] else crossed) ++ [cur] ≠ [] := by
            simp
          refine ⟨r1, r2, r3, fun h => ?_, fun h => ?_⟩
          · have := r5 hne
            rw [e7 h] at this ⊢
            exact List.IsPrefix.isInfix (by simpa using this)
          · have := r5 hne
            rw [e8 h] at this ⊢
            simpa using this
      · apply hskip
        rw [crossedLoop, if_neg hraw, if_neg hcross]

theorem pairwise_lt_of_le_nodup {α : Type} (key : α → Int) (l : List α)
    (hs : l.Pairwise (fun a c => key a ≤ key c)) (hn : (l.map key).Nodup) :
    l.Pairwise (fun a c => key a < key c) := by
  induction l with
  | nil => exact List.Pairwise.nil
  | cons a t ih =>
    rw [List.map_cons, List.nodup_cons] at hn
    obtain ⟨h1, h2⟩ := List.pairwise_cons.mp hs
    refine List.pairwise_cons.mpr ⟨fun c hc => ?_, ih h2 hn.2⟩
    have hle := h1 c hc
    have hne : key a ≠ key c := fun h => hn.1 (h ▸ List.mem_map_of_mem key hc)
    omega

/-- C21: on a storage whose blocks meet the block invariant, `GetFulledCrossedMetas`
returns; it returns no meta or between 2 and 5 metas; the returned metas are metas of the
storage that are not marked deleted and are sealed, every returned meta ends after the
start of the next one, and when the live metas have pairwise distinct `TimeRange.Start`
the returned metas are consecutive in the list of the live metas in strict order of
`TimeRange.Start`. -/
theorem C21_GetFulledCrossedMetas_spec
    (sortByStart : SliceSort Meta (fun mt => mt.TimeRange.Start)) (mm : MetasMap)
    (storage : String) (hinv : BlocksInv mm.blockMaxSize (mm.state.Get storage).1) :
    ∃ crossed : List Meta,
      mm.GetFulledCrossedMetas sortByStart storage = some crossed ∧
      (crossed = [] ∨ (2 ≤ crossed.length ∧ crossed.length ≤ 5)) ∧
      (∀ x ∈ crossed, x ∈ (mm.state.Get storage).1.flatten ∧ x.IsDeleted = false ∧
        x.Offsets = none) ∧
      crossed.Chain' (fun a c => a.TimeRange.End > c.TimeRange.Start) ∧
      ((((mm.state.Get storage).1.flatten.filter (fun mt => !mt.IsDeleted)).map
          (fun mt => mt.TimeRange.Start)).Nodup →
        ∃ sorted : List Meta,
          sorted.Perm ((mm.state.Get storage).1.flatten.filter (fun mt => !mt.IsDeleted)) ∧
          sorted.Pairwise (fun a c => a.TimeRange.Start < c.TimeRange.Start) ∧
          crossed <:+: sorted) := by
  cases hg : mm.state.Get storage with
  | mk blocks version =>
  rw [hg] at hinv
  simp only at hinv ⊢
  unfold MetasMap.GetFulledCrossedMetas
  rw [hg]
  simp only
  by_cases hv : version = 0
  · rw [if_pos hv]
    refine ⟨[], rfl, Or.inl rfl, by simp, List.chain'_nil, fun _ => ?_⟩
    exact ⟨sortByStart.run _, sortByStart.perm _,
      pairwise_lt_of_le_nodup _ _ (sortByStart.sorted _)
        (((sortByStart.perm _).map _).nodup_iff.mpr (by assumption)), List.nil_infix⟩
  · rw [if_neg hv]
    have hlen : mm.metasLen blocks = (blocks.flatten.length : Int) := by
      cases hb : blocks with
      | nil => rfl
      | cons blk rest =>
        have hnn : 0 ≤ mm.blockMaxSize := by
          have := hinv.2.2 blk (by rw [hb]; exact List.mem_cons_self _ _)
          omega
        have hbn : mm.blockMaxSize = ((mm.blockMaxSize.toNat : Nat) : Int) := by omega
        rw [← hb]
        exact metasLen_flatten mm _ hbn blocks (BlocksInv_nat _ _ hbn blocks hinv).1
    have hnneg : ¬ mm.metasLen blocks < 0 := by rw [hlen]; omega
    rw [if_neg hnneg]
    have hfl := List.length_filter_le (fun mt : Meta => !mt.IsDeleted) blocks.flatten
    rw [collectLive_spec _ blocks.flatten [] (by rw [hlen]; simp only [List.length_nil]; omega)]
    simp only [List.nil_append]
    have hperm := sortByStart.perm (blocks.flatten.filter (fun mt => !mt.IsDeleted))
    have hsorted := sortByStart.sorted (blocks.flatten.filter (fun mt => !mt.IsDeleted))
    have hmem : ∀ x ∈ sortByStart.run (blocks.flatten.filter (fun mt => !mt.IsDeleted)),
        x ∈ blocks.flatten ∧ x.IsDeleted = false := by
      intro x hx
      have := List.mem_filter.mp (hperm.mem_iff.mp hx)
      exact ⟨this.1, by simpa using this.2⟩
    have hstrict : ((blocks.flatten.filter (fun mt => !mt.IsDeleted)).map
          (fun mt => mt.TimeRange.Start)).Nodup →
        (sortByStart.run (blocks.flatten.filter (fun mt => !mt.IsDeleted))).Pairwise
          (fun a c => a.TimeRange.Start < c.TimeRange.Start) := fun hn =>
      pairwise_lt_of_le_nodup _ _ hsorted ((hperm.map _).nodup_iff.mpr hn)
    cases hrun : sortByStart.run (blocks.flatten.filter (fun mt => !mt.IsDeleted)) with
    | nil =>
      rw [hrun] at hperm hstrict
      exact ⟨[], rfl, Or.inl rfl, by simp, List.chain'_nil,
        fun hn => ⟨[], hperm, hstrict hn, List.nil_infix⟩⟩
    | cons first rest =>
      rw [hrun] at hperm hstrict hmem
      obtain ⟨r1, r2, r3, r4, _⟩ := crossedLoop_spec rest first [] (Or.inl rfl)
      have hin := r4 rfl
      refine ⟨_, rfl, r1, fun x hx => ?_, r3, fun hn => ⟨_, hperm, hstrict hn, hin⟩⟩
      have := hmem x (hin.subset hx)
      exact ⟨this.1, this.2, r2 x hx⟩

set_option maxRecDepth 8000 in
theorem C21_GetFulledCrossedMetas_spec_witness :
    (∃ crossed : List Meta,
      testCrossedMetasMap.GetFulledCrossedMetas (insertionSliceSort _) "simple" = some crossed ∧
      (crossed = [] ∨ (2 ≤ crossed.length ∧ crossed.length ≤ 5)) ∧
      crossed.Chain' (fun a c => a.TimeRange.End > c.TimeRange.Start)) ∧
    testCrossedMetasMap.GetFulledCrossedMetas (insertionSliceSort _) "simple"
      = some [rangeMeta 4 3 5, rangeMeta 1 4 7, rangeMeta 3 6 8] :=
  ⟨by
    obtain ⟨crossed, h1, h2, _, h4, _⟩ := C21_GetFulledCrossedMetas_spec
      (insertionSliceSort _) testCrossedMetasMap "simple"
      (BlocksInv_pack 3 2 [rangeMeta 1 4 7, rangeMeta 2 1 2, rangeMeta 3 6 8,
        rangeMeta 4 3 5, rangeMeta 5 10 12, rangeMeta 6 9 11]
        (by decide) (by decide) (by decide))
    exact ⟨crossed, h1, h2, h4⟩,
   by decide⟩

/-! ## Decimal numbers -/

theorem digitChar_toNat (d : Nat) (h : d < 10) : (digitChar d).toNat = 48 + d := by
  have : d = 0 ∨ d = 1 ∨ d = 2 ∨ d = 3 ∨ d = 4 ∨ d = 5 ∨ d = 6 ∨ d = 7 ∨ d = 8 ∨ d = 9 := by
    omega
  rcases this with rfl | rfl | rfl | rfl | rfl | rfl | rfl | rfl | rfl | rfl <;> rfl

theorem parseUintLoop_digits : ∀ (ds : List Nat) (acc : Nat), (∀ d ∈ ds, d < 10) →
    parseUintLoop (ds.map digitChar) acc = some (ds.foldl (fun a d => a * 10 + d) acc) := by
  intro ds
  induction ds with
  | nil => intro acc _; rfl
  | cons d rest ih =>
    intro acc h
    have hd := h d (List.mem_cons_self _ _)
    have ht := digitChar_toNat d hd
    have h0 : '0'.toNat = 48 := rfl
    have h9 : '9'.toNat = 57 := rfl
    simp only [List.map_cons, parseUintLoop, List.foldl_cons]
    rw [if_pos (by rw [ht, h0, h9]; omega), ht, h0, Nat.add_sub_cancel_left]
    exact ih _ (fun x hx => h x (List.mem_cons_of_mem _ hx))

theorem foldl_digits_reverse (ds : List Nat) :
    ds.reverse.foldl (fun a d => a * 10 + d) 0 = Nat.ofDigits 10 ds := by
  induction ds with
  | nil => rfl
  | cons d rest ih =>
    rw [List.reverse_cons, List.foldl_append, ih, Nat.ofDigits_cons]
    simp only [List.foldl_cons, List.foldl_nil, Nat.cast_id]
    ring

theorem parseUintLoop_decimalNat (n : Nat) : parseUintLoop (decimalNat n) 0 = some n := by
  unfold decimalNat
  by_cases h : n = 0
  · rw [if_pos h, h]; rfl
  · rw [if_neg h, parseUintLoop_digits _ _ (fun d hd =>
      Nat.digits_lt_base (by decide) (List.mem_reverse.mp hd)), foldl_digits_reverse,
      Nat.ofDigits_digits]

theorem decimalNat_ne_nil (n : Nat) : decimalNat n ≠ [] := by
  unfold decimalNat
  by_cases h : n = 0
  · rw [if_pos h]; simp
  · rw [if_neg h]
    intro hnil
    rw [List.map_eq_nil_iff, List.reverse_eq_nil_iff] at hnil
    exact h (Nat.digits_eq_nil_iff_eq_zero.mp hnil)

theorem decimalNat_digit (n : Nat) : ∀ c ∈ decimalNat n, 48 ≤ c.toNat ∧ c.toNat ≤ 57 := by
  intro c hc
  unfold decimalNat at hc
  by_cases h : n = 0
  · rw [if_pos h] at hc
    simp only [List.mem_singleton] at hc
    rw [hc, digitChar_toNat 0 (by omega)]; omega
  · rw [if_neg h] at hc
    obtain ⟨d, hd, rfl⟩ := List.mem_map.mp hc
    have := Nat.digits_lt_base (b := 10) (by decide) (List.mem_reverse.mp hd)
    rw [digitChar_toNat d this]; omega

theorem decimal_ne_nil (n : Int) : decimal n ≠ [] := by
  unfold decimal
  by_cases h : n < 0
  · rw [if_pos h]; simp
  · rw [if_neg h]; exact decimalNat_ne_nil _

theorem decimal_chars (n : Int) : ∀ c ∈ decimal n, c = '-' ∨ (48 ≤ c.toNat ∧ c.toNat ≤ 57) := by
  intro c hc
  unfold decimal at hc
  by_cases h : n < 0
  · rw [if_pos h] at hc
    rcases List.mem_cons.mp hc with h1 | h1
    · exact Or.inl h1
    · exact Or.inr (decimalNat_digit _ c h1)
  · rw [if_neg h] at hc
    exact Or.inr (decimalNat_digit _ c hc)

theorem ParseInt_decimal (n : Int) (bitSize : Nat)
    (hlo : -(2 ^ (bitSize - 1) : Int) ≤ n) (hhi : n < (2 ^ (bitSize - 1) : Int)) :
    ParseInt (decimal n) bitSize = some n := by
  have hpow : ((2 ^ (bitSize - 1) : Nat) : Int) = (2 ^ (bitSize - 1) : Int) := by push_cast; rfl
  unfold decimal
  by_cases h : n < 0
  · rw [if_pos h]
    unfold ParseInt
    simp only [or_true, if_true]
    rw [if_neg (decimalNat_ne_nil _), parseUintLoop_decimalNat]
    simp only
    have hle : n.natAbs ≤ 2 ^ (bitSize - 1) := by
      have : ((n.natAbs : Nat) : Int) ≤ ((2 ^ (bitSize - 1) : Nat) : Int) := by
        rw [hpow]; omega
      exact_mod_cast this
    rw [if_pos hle]
    congr 1
    omega
  · rw [if_neg h]
    cases hd : decimalNat n.natAbs with
    | nil => exact absurd hd (decimalNat_ne_nil _)
    | cons c rest =>
      have hc := decimalNat_digit n.natAbs c (by rw [hd]; exact List.mem_cons_self _ _)
      have hplus : ¬ (c = '+' ∨ c = '-') := by
        rintro (rfl | rfl)
        · have : '+'.toNat = 43 := rfl
          omega
        · have : '-'.toNat = 45 := rfl
          omega
      have hminus : ¬ c = '-' := fun e => hplus (Or.inr e)
      unfold ParseInt
      simp only [if_neg hplus]
      rw [if_neg (by simp), ← hd, parseUintLoop_decimalNat]
      simp only
      have hlt : n.natAbs < 2 ^ (bitSize - 1) := by
        have : ((n.natAbs : Nat) : Int) < ((2 ^ (bitSize - 1) : Nat) : Int) := by
          rw [hpow]; omega
        exact_mod_cast this
      rw [if_neg hminus, if_pos hlt]
      congr 1
      omega


/-! ## Splitting and trimming -/

theorem splitLoop_skip (sep : List Char) : ∀ (x rest cur : List Char),
    splitLoop sep x.length (x ++ rest) cur = splitLoop sep 0 rest cur := by
  intro x
  induction x with
  | nil => intro rest cur; rfl
  | cons c t ih =>
    intro rest cur
    simp only [List.length_cons, List.cons_append, splitLoop]
    exact ih rest cur

theorem splitLoop_sep (h : Char) (t rest cur : List Char) :
    splitLoop (h :: t) 0 ((h :: t) ++ rest) cur = cur :: splitLoop (h :: t) 0 rest [] := by
  rw [List.cons_append, splitLoop]
  have hp : (h :: t).isPrefixOf (h :: (t ++ rest)) = true := by
    have : (h :: t).isPrefixOf ((h :: t) ++ rest) = true :=
      List.isPrefixOf_iff_prefix.mpr (List.prefix_append _ _)
    exact this
  rw [if_pos hp]
  simp only [List.length_cons, Nat.add_sub_cancel]
  rw [splitLoop_skip]

theorem splitLoop_plain (h : Char) (t : List Char) : ∀ (p rest cur : List Char),
    (∀ c ∈ p, c ≠ h) →
    splitLoop (h :: t) 0 (p ++ rest) cur = splitLoop (h :: t) 0 rest (cur ++ p) := by
  intro p
  induction p with
  | nil => intro rest cur _; simp
  | cons c q ih =>
    intro rest cur hp
    have hc : c ≠ h := hp c (List.mem_cons_self _ _)
    rw [List.cons_append, splitLoop]
    have hnp : ¬ ((h :: t).isPrefixOf (c :: (q ++ rest)) = true) := by
      simp only [List.isPrefixOf, Bool.and_eq_true, beq_iff_eq, not_and]
      intro e
      exact absurd e.symm hc
    rw [if_neg hnp, ih rest (cur ++ [c]) (fun x hx => hp x (List.mem_cons_of_mem _ hx))]
    simp

theorem Split_two (h : Char) (t p q : List Char) (hp : ∀ c ∈ p, c ≠ h) (hq : ∀ c ∈ q, c ≠ h) :
    Split (p ++ (h :: t) ++ q) (h :: t) = [p, q] := by
  unfold Split
  rw [List.append_assoc, splitLoop_plain h t p _ [] hp, splitLoop_sep]
  have := splitLoop_plain h t q [] [] hq
  rw [List.append_nil] at this
  rw [this]
  simp [splitLoop]

theorem Split_none (h : Char) (t p : List Char) (hp : ∀ c ∈ p, c ≠ h) :
    Split p (h :: t) = [p] := by
  unfold Split
  have := splitLoop_plain h t p [] [] hp
  rw [List.append_nil] at this
  rw [this]
  simp [splitLoop]

/-- The text of parts that are separated by single spaces. -/
theorem Split_intercalate : ∀ (ps : List (List Char)) (p cur : List Char),
    (∀ q ∈ p :: ps, ∀ c ∈ q, c ≠ ' ') →
    splitLoop [' '] 0 ([' '].intercalate (p :: ps)) cur = (cur ++ p) :: ps := by
  intro ps
  induction ps with
  | nil =>
    intro p cur h
    have := splitLoop_plain ' ' [] p [] cur (h p (List.mem_cons_self _ _))
    simp only [List.append_nil] at this
    simp only [List.intercalate, List.intersperse, List.flatten_cons, List.flatten_nil,
      List.append_nil]
    rw [this]
    rfl
  | cons q rest ih =>
    intro p cur h
    have e : [' '].intercalate (p :: q :: rest) = p ++ ([' '] ++ [' '].intercalate (q :: rest)) := by
      simp [List.intercalate, List.intersperse]
    rw [e, splitLoop_plain ' ' [] p _ cur (h p (List.mem_cons_self _ _)), splitLoop_sep,
      ih q [] (fun x hx => h x (List.mem_cons_of_mem _ hx))]
    simp

theorem dropWhile_of_all_false {α : Type} (p : α → Bool) (s : List α)
    (h : ∀ c ∈ s, p c = false) : s.dropWhile p = s := by
  cases s with
  | nil => rfl
  | cons c rest =>
    rw [List.dropWhile_cons_of_neg]
    rw [h c (List.mem_cons_self _ _)]
    simp

theorem TrimSpace_of_no_space (s : List Char) (h : ∀ c ∈ s, isSpace c = false) :
    TrimSpace s = s := by
  unfold TrimSpace
  rw [dropWhile_of_all_false _ s h,
    dropWhile_of_all_false _ s.reverse (fun c hc => h c (List.mem_reverse.mp hc)),
    List.reverse_reverse]

theorem isSpace_of_ge (c : Char) (h1 : 45 ≤ c.toNat) (h2 : c.toNat ≤ 57) : isSpace c = false := by
  by_contra hc
  simp only [isSpace, Bool.not_eq_false, Bool.or_eq_true, Bool.and_eq_true, decide_eq_true_eq] at hc
  omega

theorem decimal_no_space (n : Int) : ∀ c ∈ decimal n, isSpace c = false ∧ c ≠ ' ' := by
  intro c hc
  have hr : 45 ≤ c.toNat ∧ c.toNat ≤ 57 := by
    rcases decimal_chars n c hc with h | h
    · rw [h]
      have : '-'.toNat = 45 := rfl
      omega
    · omega
  refine ⟨isSpace_of_ge c hr.1 hr.2, ?_⟩
  rintro rfl
  have : ' '.toNat = 32 := rfl
  omega


/-- C28: `ParseDuration` panics on the empty string, and so does the time-range parser
on `last` followed by an empty duration; a duration with two spaces in a row or with a
space at its end has an empty part and panics as well, since the loop reads the last
byte of every part. -/
theorem C28_empty_part_panics :
    ParseDuration [] = .error .panic ∧
    (∀ clock : Int → Int, Parse clock "last ".data = .error .panic) ∧
    ParseDuration "1h  2m".data = .error .panic ∧
    ParseDuration "1h ".data = .error .panic ∧
    (∀ clock : Int → Int, Parse clock "last 1h ".data = .error .panic) :=
  ⟨by decide, fun _ => rfl, by decide, by decide, fun _ => rfl⟩


/-! ## The time-range parser on the absolute forms -/

theorem indexOf_append_cons (p x : List Char) (c : Char) (hp : c ∉ p) :
    (p ++ c :: x).indexOf c = p.length := by
  induction p with
  | nil => simp
  | cons d q ih =>
    have hd : ¬ d = c := fun e => hp (e ▸ List.mem_cons_self _ _)
    have hq : c ∉ q := fun h => hp (List.mem_cons_of_mem _ h)
    rw [List.cons_append, List.indexOf_cons_ne _ hd, ih hq]
    rfl

theorem IndexByte_append_cons (p x : List Char) (c : Char) (hp : c ∉ p) :
    IndexByte (p ++ c :: x) c = (p.length : Int) := by
  unfold IndexByte
  rw [if_pos (by simp), indexOf_append_cons p x c hp]

theorem Parse_option (clock : Int → Int) (p x : List Char) (hp : ' ' ∉ p) :
    Parse clock (p ++ ' ' :: x) =
      if p = "last".data then parseLastRange clock x
      else if p = "before".data ∨ p = "after".data then parseRelativeRange p x
      else parseSimpleRange (p ++ ' ' :: x) := by
  unfold Parse
  have h1 : ¬ (p ++ ' ' :: x = []) := by simp
  have h2 : ¬ (IndexByte (p ++ ' ' :: x) ' ' = -1) := by
    rw [IndexByte_append_cons p x ' ' hp]; omega
  have hd : (p ++ ' ' :: x).drop (p.length + 1) = x := by
    rw [← List.drop_drop, List.drop_left' rfl]
    rfl
  have ht : (p ++ ' ' :: x).take p.length = p := List.take_left' rfl
  rw [if_neg h1, if_neg h2, IndexByte_append_cons p x ' ' hp]
  simp only [Int.toNat_ofNat, hd, ht]

theorem decimal_head (n : Int) : ∃ c rest, decimal n = c :: rest ∧ 45 ≤ c.toNat ∧ c.toNat ≤ 57 := by
  cases h : decimal n with
  | nil => exact absurd h (decimal_ne_nil n)
  | cons c rest =>
    refine ⟨c, rest, rfl, ?_⟩
    rcases decimal_chars n c (by rw [h]; exact List.mem_cons_self _ _) with h1 | h1
    · rw [h1]
      have : '-'.toNat = 45 := rfl
      omega
    · omega

/-- C29: the time-range parser on the absolute forms. The empty string gives the
unbounded range; `before n` and `after n` give the range with the end or the start `n`
for every `n` of `int64` in decimal form; `a - b` gives the range from `a` to `b`, or a
`BadRequest` error when `b < a`; a string without a space that is not empty gives a
`BadRequest` error. -/
theorem C29_Parse_absolute (clock : Int → Int) :
    Parse clock [] = .ok ⟨0, 0⟩ ∧
    (∀ n : Int, -(2 ^ 63 : Int) ≤ n → n < (2 ^ 63 : Int) →
      Parse clock ("before ".data ++ decimal n) = .ok ⟨0, n⟩ ∧
      Parse clock ("after ".data ++ decimal n) = .ok ⟨n, 0⟩) ∧
    (∀ a b : Int, -(2 ^ 63 : Int) ≤ a → a < (2 ^ 63 : Int) → -(2 ^ 63 : Int) ≤ b →
      b < (2 ^ 63 : Int) →
      Parse clock (decimal a ++ " - ".data ++ decimal b)
        = if b < a then .error (.app .BadReq) else .ok ⟨a, b⟩) ∧
    (∀ s : List Char, s ≠ [] → ' ' ∉ s → Parse clock s = .error (.app .BadReq)) := by
  refine ⟨rfl, ?_, ?_, ?_⟩
  · intro n hlo hhi
    have hp := ParseInt_decimal n 64 hlo hhi
    constructor
    · have e : "before ".data ++ decimal n = "before".data ++ ' ' :: decimal n := rfl
      rw [e, Parse_option clock _ _ (by decide), if_neg (by decide),
        if_pos (Or.inl rfl)]
      unfold parseRelativeRange
      rw [hp]
      rfl
    · have e : "after ".data ++ decimal n = "after".data ++ ' ' :: decimal n := rfl
      rw [e, Parse_option clock _ _ (by decide), if_neg (by decide),
        if_pos (Or.inr rfl)]
      unfold parseRelativeRange
      rw [hp]
      rfl
  · intro a b ha1 ha2 hb1 hb2
    have hpa := ParseInt_decimal a 64 ha1 ha2
    have hpb := ParseInt_decimal b 64 hb1 hb2
    have e : decimal a ++ " - ".data ++ decimal b = decimal a ++ ' ' :: ('-' :: ' ' :: decimal b) := by
      rw [List.append_assoc]; rfl
    have hsa : ' ' ∉ decimal a := fun h => (decimal_no_space a _ h).2 rfl
    obtain ⟨c, rest, hc, hc1, hc2⟩ := decimal_head a
    have hnot : ∀ (w : List Char) (d : Char) (t : List Char), w = d :: t → 97 ≤ d.toNat →
        decimal a ≠ w := by
      intro w d t hw hd heq
      rw [hc, hw] at heq
      injection heq with h1 _
      rw [h1] at hc2
      omega
    rw [e, Parse_option clock _ _ hsa,
      if_neg (hnot _ 'l' "ast".data rfl (by decide)),
      if_neg (fun h => h.elim (hnot _ 'b' "efore".data rfl (by decide))
        (hnot _ 'a' "fter".data rfl (by decide)))]
    unfold parseSimpleRange
    have e2 : decimal a ++ ' ' :: ('-' :: ' ' :: decimal b)
        = decimal a ++ (' ' :: ['-', ' ']) ++ decimal b := by simp
    have hsplit : Split (decimal a ++ ' ' :: ('-' :: ' ' :: decimal b)) " - ".data
        = [decimal a, decimal b] := by
      rw [e2]
      exact Split_two ' ' ['-', ' '] (decimal a) (decimal b)
        (fun c hc => (decimal_no_space a c hc).2) (fun c hc => (decimal_no_space b c hc).2)
    rw [hsplit]
    simp only
    rw [TrimSpace_of_no_space _ (fun c hc => (decimal_no_space a c hc).1),
      TrimSpace_of_no_space _ (fun c hc => (decimal_no_space b c hc).1), hpa, hpb]
  · intro s hne hs
    unfold Parse
    rw [if_neg hne]
    have : IndexByte s ' ' = -1 := by
      unfold IndexByte
      rw [if_neg hs]
    rw [if_pos this]

theorem C29_Parse_absolute_witness :
    (Parse testClock ("before ".data ++ decimal 5) = .ok ⟨0, 5⟩ ∧
      Parse testClock ("after ".data ++ decimal 5) = .ok ⟨5, 0⟩) ∧
    Parse testClock (decimal 5 ++ " - ".data ++ decimal 10) = .ok ⟨5, 10⟩ ∧
    Parse testClock (decimal 10 ++ " - ".data ++ decimal (-5)) = .error (.app .BadReq) ∧
    Parse testClock "5".data = .error (.app .BadReq) ∧
    Parse testClock "5 - 10".data = .ok ⟨5, 10⟩ ∧
    Parse testClock "after 5".data = .ok ⟨5, 0⟩ ∧
    Parse testClock "before -7".data = .ok ⟨0, -7⟩ :=
  ⟨(C29_Parse_absolute testClock).2.1 5 (by decide) (by decide),
   ((C29_Parse_absolute testClock).2.2.1 5 10 (by decide) (by decide) (by decide)
      (by decide)).trans (by decide),
   ((C29_Parse_absolute testClock).2.2.1 10 (-5) (by decide) (by decide) (by decide)
      (by decide)).trans (by decide),
   (C29_Parse_absolute testClock).2.2.2 "5".data (by decide) (by decide),
   by decide, by decide, by decide⟩


/-! ## `ParseDuration` -/

theorem wrapInt64_of_range (x : Int) (h1 : -(2 ^ 63 : Int) ≤ x) (h2 : x < (2 ^ 63 : Int)) :
    wrapInt64 x = x := by
  unfold wrapInt64
  rw [Int.emod_eq_of_lt (by omega) (by omega)]
  omega

theorem timeSuff_pos (u : Char) (dur : Int) (h : timeSuff u = some dur) :
    0 < dur ∧ u ≠ ' ' ∧ isSpace u = false := by
  unfold timeSuff at h
  by_cases h1 : u = 'w'
  · rw [if_pos h1] at h; injection h with h; subst h; subst h1; decide
  · rw [if_neg h1] at h
    by_cases h2 : u = 'd'
    · rw [if_pos h2] at h; injection h with h; subst h; subst h2; decide
    · rw [if_neg h2] at h
      by_cases h3 : u = 'h'
      · rw [if_pos h3] at h; injection h with h; subst h; subst h3; decide
      · rw [if_neg h3] at h
        by_cases h4 : u = 'm'
        · rw [if_pos h4] at h; injection h with h; subst h; subst h4; decide
        · rw [if_neg h4] at h
          by_cases h5 : u = 's'
          · rw [if_pos h5] at h; injection h with h; subst h; subst h5; decide
          · rw [if_neg h5] at h; cases h

theorem ParseInt_decimalNat (n : Nat) (h : n < 2 ^ 31) : ParseInt (decimalNat n) 32 = some (n : Int) := by
  have := ParseInt_decimal (n : Int) 32 (by norm_num; omega)
    (by have : ((n : Nat) : Int) < ((2 ^ 31 : Nat) : Int) := by exact_mod_cast h
        simpa using this)
  unfold decimal at this
  rw [if_neg (by omega), Int.natAbs_ofNat] at this
  exact this

theorem durationStep_good (duration : Int) (n : Nat) (u : Char) (dur : Int)
    (hu : timeSuff u = some dur) (h1 : 1 ≤ n) (h2 : n < 2 ^ 31) :
    durationStep duration (decimalNat n ++ [u])
      = .ok (wrapInt64 (duration + wrapInt64 ((n : Int) * dur))) := by
  unfold durationStep
  have hl : (decimalNat n ++ [u]).getLast? = some u := by simp
  rw [hl]
  simp only
  rw [hu]
  simp only [List.dropLast_concat]
  rw [ParseInt_decimalNat n h2]
  simp only
  rw [if_neg (by omega)]

theorem durationLoop_good : ∀ (parts : List (Nat × Char)) (acc : Int),
    (∀ p ∈ parts, 1 ≤ p.1 ∧ p.1 < 2 ^ 31 ∧ (timeSuff p.2).isSome = true) →
    0 ≤ acc → acc + durationSum parts < (2 ^ 63 : Int) →
    durationLoop (parts.map (fun p => decimalNat p.1 ++ [p.2])) acc
      = .ok (acc + durationSum parts) := by
  intro parts
  induction parts with
  | nil => intro acc _ _ _; simp [durationLoop, durationSum]
  | cons p rest ih =>
    intro acc h h0 hsum
    obtain ⟨h1, h2, h3⟩ := h p (List.mem_cons_self _ _)
    obtain ⟨dur, hdur⟩ := Option.isSome_iff_exists.mp h3
    have hpos := (timeSuff_pos p.2 dur hdur).1
    have hrest : ∀ q ∈ rest, 1 ≤ q.1 ∧ q.1 < 2 ^ 31 ∧ (timeSuff q.2).isSome = true :=
      fun q hq => h q (List.mem_cons_of_mem _ hq)
    have hnn : ∀ (l : List (Nat × Char)), 0 ≤ durationSum l := by
      intro l
      unfold durationSum
      apply List.sum_nonneg
      intro x hx
      obtain ⟨q, _, rfl⟩ := List.mem_map.mp hx
      apply mul_nonneg (Int.natCast_nonneg _)
      cases hq : timeSuff q.2 with
      | none => simp
      | some d => simp only [Option.getD_some]; exact le_of_lt (timeSuff_pos q.2 d hq).1
    have hs : durationSum (p :: rest) = (p.1 : Int) * dur + durationSum rest := by
      simp [durationSum, hdur]
    have hprod : 0 ≤ (p.1 : Int) * dur := mul_nonneg (Int.natCast_nonneg _) (le_of_lt hpos)
    have hr := hnn rest
    rw [hs] at hsum
    simp only [List.map_cons, durationLoop]
    rw [durationStep_good acc p.1 p.2 dur hdur h1 h2,
      wrapInt64_of_range ((p.1 : Int) * dur) (by omega) (by omega),
      wrapInt64_of_range (acc + (p.1 : Int) * dur) (by omega) (by omega)]
    simp only
    rw [ih (acc + (p.1 : Int) * dur) hrest (by omega) (by omega), hs]
    congr 1
    ring

theorem durationStep_nonempty (duration : Int) (part : List Char) (hne : part ≠ []) :
    (∃ d, durationStep duration part = .ok d ∧ ∃ c, part.getLast? = some c ∧
        (timeSuff c).isSome = true ∧ ∃ num, ParseInt part.dropLast 32 = some num ∧ 1 ≤ num) ∨
      durationStep duration part = .error (.app .BadReq) := by
  unfold durationStep
  cases hl : part.getLast? with
  | none => exact absurd (List.getLast?_eq_none_iff.mp hl) hne
  | some c =>
    simp only
    cases ht : timeSuff c with
    | none => exact Or.inr rfl
    | some dur =>
      simp only
      cases hp : ParseInt part.dropLast 32 with
      | none => exact Or.inr rfl
      | some num =>
        simp only
        by_cases hn : num < 1
        · rw [if_pos hn]; exact Or.inr rfl
        · rw [if_neg hn]
          exact Or.inl ⟨_, rfl, c, rfl, by rw [ht]; rfl, num, rfl, by omega⟩

theorem durationLoop_bad : ∀ (parts : List (List Char)) (acc : Int),
    (∀ part ∈ parts, part ≠ []) →
    (∃ part ∈ parts, ∀ c, part.getLast? = some c →
      timeSuff c = none ∨ ParseInt part.dropLast 32 = none ∨
        ∃ num, ParseInt part.dropLast 32 = some num ∧ num < 1) →
    durationLoop parts acc = .error (.app .BadReq) := by
  intro parts
  induction parts with
  | nil => intro _ _ ⟨_, h, _⟩; cases h
  | cons part rest ih =>
    intro acc hne ⟨bad, hbad, hb⟩
    unfold durationLoop
    rcases durationStep_nonempty acc part (hne part (List.mem_cons_self _ _)) with
      ⟨d, hd, c, hc, hs, num, hnum, h1⟩ | herr
    · rw [hd]
      simp only
      apply ih d (fun q hq => hne q (List.mem_cons_of_mem _ hq))
      rcases List.mem_cons.mp hbad with h | h
      · subst h
        rcases hb c hc with h2 | h2 | ⟨num2, h2, h3⟩
        · rw [h2] at hs; cases hs
        · rw [h2] at hnum; cases hnum
        · rw [h2] at hnum; injection hnum with hnum; omega
      · exact ⟨bad, h, hb⟩
    · rw [herr]

/-- C30: for parts of a count between 1 and 2^31 - 1 in decimal form and a suffix of
`w`, `d`, `h`, `m`, `s`, separated by single spaces, with a sum below 2^63 nanoseconds,
`ParseDuration` returns the sum of the counts times the units, where a week is 7 days, a
day 24 hours, an hour 60 minutes and a minute 60 seconds; for parts without a space that
are not empty, one of which has no such suffix, no number as its count or a count below
1, it returns a `BadRequest` error. -/
theorem C30_ParseDuration_spec :
    (∀ parts : List (Nat × Char), parts ≠ [] →
      (∀ p ∈ parts, 1 ≤ p.1 ∧ p.1 ≤ 2 ^ 31 - 1 ∧ (timeSuff p.2).isSome = true) →
      durationSum parts < (2 ^ 63 : Int) →
      ParseDuration (durationText parts) = .ok (durationSum parts)) ∧
    (timeSuff 's' = some Second ∧ timeSuff 'm' = some (60 * Second) ∧
      timeSuff 'h' = some (60 * (60 * Second)) ∧
      timeSuff 'd' = some (24 * (60 * (60 * Second))) ∧
      timeSuff 'w' = some (7 * (24 * (60 * (60 * Second)))) ∧
      ∀ c, (timeSuff c).isSome = true → c = 'w' ∨ c = 'd' ∨ c = 'h' ∨ c = 'm' ∨ c = 's') ∧
    (∀ parts : List (List Char), parts ≠ [] →
      (∀ part ∈ parts, part ≠ [] ∧ ' ' ∉ part) →
      (∃ part ∈ parts, ∀ c, part.getLast? = some c →
        timeSuff c = none ∨ ParseInt part.dropLast 32 = none ∨
          ∃ num, ParseInt part.dropLast 32 = some num ∧ num < 1) →
      ParseDuration ([' '].intercalate parts) = .error (.app .BadReq)) := by
  refine ⟨?_, ⟨by decide, by decide, by decide, by decide, by decide, ?_⟩, ?_⟩
  · intro parts hne h hsum
    cases hp : parts with
    | nil => exact absurd hp hne
    | cons p rest =>
      rw [← hp]
      have hchars : ∀ q ∈ parts.map (fun p => decimalNat p.1 ++ [p.2]), ∀ c ∈ q, c ≠ ' ' := by
        intro q hq c hc
        obtain ⟨x, hx, rfl⟩ := List.mem_map.mp hq
        rcases List.mem_append.mp hc with h1 | h1
        · have := decimalNat_digit x.1 c h1
          rintro rfl
          have : ' '.toNat = 32 := rfl
          omega
        · simp only [List.mem_singleton] at h1
          obtain ⟨dur, hdur⟩ := Option.isSome_iff_exists.mp (h x hx).2.2
          rw [h1]
          exact (timeSuff_pos x.2 dur hdur).2.1
      have hsplit : Split (durationText parts) [' ']
          = parts.map (fun p => decimalNat p.1 ++ [p.2]) := by
        unfold Split durationText
        rw [hp] at hchars ⊢
        rw [List.map_cons] at hchars ⊢
        rw [Split_intercalate _ _ [] hchars]
        rfl
      unfold ParseDuration
      rw [hsplit, durationLoop_good parts 0
        (fun q hq => ⟨(h q hq).1, by have := (h q hq).2.1; omega, (h q hq).2.2⟩)
        (le_refl _) (by omega)]
      simp
  · intro c hc
    unfold timeSuff at hc
    by_cases h1 : c = 'w'
    · exact Or.inl h1
    · by_cases h2 : c = 'd'
      · exact Or.inr (Or.inl h2)
      · by_cases h3 : c = 'h'
        · exact Or.inr (Or.inr (Or.inl h3))
        · by_cases h4 : c = 'm'
          · exact Or.inr (Or.inr (Or.inr (Or.inl h4)))
          · by_cases h5 : c = 's'
            · exact Or.inr (Or.inr (Or.inr (Or.inr h5)))
            · rw [if_neg h1, if_neg h2, if_neg h3, if_neg h4, if_neg h5] at hc
              cases hc
  · intro parts hne h hbad
    cases hp : parts with
    | nil => exact absurd hp hne
    | cons p rest =>
      rw [← hp]
      have hsplit : Split ([' '].intercalate parts) [' '] = parts := by
        unfold Split
        rw [hp, Split_intercalate _ _ []]
        · rfl
        · intro q hq c hc
          rw [← hp] at hq
          rintro rfl
          exact (h q hq).2 hc
      unfold ParseDuration
      rw [hsplit]
      exact durationLoop_bad parts 0 (fun q hq => (h q hq).1) hbad

set_option maxRecDepth 8000 in
theorem C30_ParseDuration_spec_witness :
    ParseDuration (durationText [(1, 'w'), (2, 'd'), (5, 'h'), (3, 'm'), (18, 's')])
        = .ok (durationSum [(1, 'w'), (2, 'd'), (5, 'h'), (3, 'm'), (18, 's')]) ∧
      ParseDuration ([' '].intercalate ["1h".data, "2x".data]) = .error (.app .BadReq) ∧
      ParseDuration "1w 2d 5h 3m 18s".data
        = .ok (Second * 60 * 60 * 24 * 7 + Second * 60 * 60 * 24 * 2 + Second * 60 * 60 * 5
            + Second * 60 * 3 + Second * 18) ∧
      ParseDuration "1h 0m".data = .error (.app .BadReq) ∧
      ParseDuration "h".data = .error (.app .BadReq) ∧
      ParseDuration "-3s".data = .error (.app .BadReq) ∧
      ParseDuration "2147483648s".data = .error (.app .BadReq) :=
  ⟨C30_ParseDuration_spec.1 _ (by decide) (by decide) (by decide),
   C30_ParseDuration_spec.2.2 _ (by decide) (by decide)
     ⟨"2x".data, by decide, fun c hc => Or.inl (by
       have : c = 'x' := by
         have h2 : "2x".data.getLast? = some 'x' := by decide
         rw [h2] at hc
         injection hc with hc
         exact hc.symm
       rw [this]
       decide)⟩,
   by decide, by decide, by decide, by decide, by decide⟩

/-! ## The aggregators -/

theorem wrapInt64_add (a b : Int) : wrapInt64 (wrapInt64 a + b) = wrapInt64 (a + b) := by
  unfold wrapInt64
  have e : (a + 2 ^ 63) % 2 ^ 64 - 2 ^ 63 + b + 2 ^ 63 = (a + 2 ^ 63) % 2 ^ 64 + b := by ring
  rw [e, Int.emod_add_emod]
  have e2 : a + 2 ^ 63 + b = a + b + 2 ^ 63 := by ring
  rw [e2]

theorem columnInt_of_INT (column : List Char) (l : Log) (h : GetColumnType column = some .INT) :
    columnInt l column = .ok (columnValue column l) := by
  unfold GetColumnType at h
  unfold columnInt columnValue Log.GetValue
  by_cases h1 : column = "timestamp".data
  · simp only [if_pos h1]; rfl
  · by_cases h2 : column = "level".data
    · simp only [if_neg h1, if_pos h2]; rfl
    · rw [if_neg h1, if_neg h2] at h
      split_ifs at h <;> cases h

theorem updateDropErr_cases (a : IAggregator) (l : Log) (condition : Option ICondition)
    (upd : IAggregator)
    (hupd : ∀ r, passes condition l = r →
      a.Update l = match r with
        | .error e => .error e
        | .ok false => .ok a
        | .ok true => .ok upd)
    (hnp : passes condition l ≠ .error .panic) :
    a.updateDropErr l = .ok (if passes condition l = .ok true then upd else a) := by
  unfold IAggregator.updateDropErr
  rw [hupd _ rfl]
  cases hp : passes condition l with
  | error e =>
    simp only
    cases e with
    | panic => exact absurd hp hnp
    | app t => simp
    | other => simp
  | ok b =>
    cases b <;> simp

theorem updateAll_Sum (column : List Char) (condition : Option ICondition)
    (hcol : GetColumnType column = some .INT) : ∀ (logs : List Log) (sum : Int),
    (∀ l ∈ logs, passes condition l ≠ .error .panic) →
    updateAll logs (.Sum sum column condition)
      = .ok (.Sum (((satisfying condition logs).map (columnValue column)).foldl
          (fun acc v => wrapInt64 (acc + v)) sum) column condition) := by
  intro logs
  induction logs with
  | nil => intro sum _; rfl
  | cons l rest ih =>
    intro sum hnp
    unfold updateAll
    rw [updateDropErr_cases (.Sum sum column condition) l condition
      (.Sum (wrapInt64 (sum + columnValue column l)) column condition) ?_
      (hnp l (List.mem_cons_self _ _))]
    · simp only
      by_cases hp : passes condition l = .ok true
      · rw [if_pos hp, ih _ (fun x hx => hnp x (List.mem_cons_of_mem _ hx))]
        simp [satisfying, List.filter_cons, hp]
      · rw [if_neg hp, ih _ (fun x hx => hnp x (List.mem_cons_of_mem _ hx))]
        simp [satisfying, List.filter_cons, hp]
    · intro r hr
      simp only [IAggregator.Update, hr, columnInt_of_INT column l hcol]

theorem updateAll_Count (condition : Option ICondition) : ∀ (logs : List Log) (count : Int),
    (∀ l ∈ logs, passes condition l ≠ .error .panic) →
    updateAll logs (.Count count condition)
      = .ok (.Count ((satisfying condition logs).foldl
          (fun acc _ => wrapInt64 (acc + 1)) count) condition) := by
  intro logs
  induction logs with
  | nil => intro count _; rfl
  | cons l rest ih =>
    intro count hnp
    unfold updateAll
    rw [updateDropErr_cases (.Count count condition) l condition
      (.Count (wrapInt64 (count + 1)) condition) ?_ (hnp l (List.mem_cons_self _ _))]
    · simp only
      by_cases hp : passes condition l = .ok true
      · rw [if_pos hp, ih _ (fun x hx => hnp x (List.mem_cons_of_mem _ hx))]
        simp [satisfying, List.filter_cons, hp]
      · rw [if_neg hp, ih _ (fun x hx => hnp x (List.mem_cons_of_mem _ hx))]
        simp [satisfying, List.filter_cons, hp]
    · intro r hr
      simp only [IAggregator.Update, hr]

theorem updateAll_Max (column : List Char) (condition : Option ICondition)
    (hcol : GetColumnType column = some .INT) : ∀ (logs : List Log) (max : Int),
    (∀ l ∈ logs, passes condition l ≠ .error .panic) →
    updateAll logs (.Max max column condition)
      = .ok (.Max (((satisfying condition logs).map (columnValue column)).foldl
          (fun acc v => if v > acc then v else acc) max) column condition) := by
  intro logs
  induction logs with
  | nil => intro max _; rfl
  | cons l rest ih =>
    intro max hnp
    unfold updateAll
    rw [updateDropErr_cases (.Max max column condition) l condition
      (.Max (if columnValue column l > max then columnValue column l else max) column condition)
      ?_ (hnp l (List.mem_cons_self _ _))]
    · simp only
      by_cases hp : passes condition l = .ok true
      · rw [if_pos hp, ih _ (fun x hx => hnp x (List.mem_cons_of_mem _ hx))]
        simp [satisfying, List.filter_cons, hp]
      · rw [if_neg hp, ih _ (fun x hx => hnp x (List.mem_cons_of_mem _ hx))]
        simp [satisfying, List.filter_cons, hp]
    · intro r hr
      simp only [IAggregator.Update, hr, columnInt_of_INT column l hcol]

theorem updateAll_Min (column : List Char) (condition : Option ICondition)
    (hcol : GetColumnType column = some .INT) : ∀ (logs : List Log) (min : Int),
    (∀ l ∈ logs, passes condition l ≠ .error .panic) →
    updateAll logs (.Min min column condition)
      = .ok (.Min (((satisfying condition logs).map (columnValue column)).foldl
          (fun acc v => if v < acc then v else acc) min) column condition) := by
  intro logs
  induction logs with
  | nil => intro min _; rfl
  | cons l rest ih =>
    intro min hnp
    unfold updateAll
    rw [updateDropErr_cases (.Min min column condition) l condition
      (.Min (if columnValue column l < min then columnValue column l else min) column condition)
      ?_ (hnp l (List.mem_cons_self _ _))]
    · simp only
      by_cases hp : passes condition l = .ok true
      · rw [if_pos hp, ih _ (fun x hx => hnp x (List.mem_cons_of_mem _ hx))]
        simp [satisfying, List.filter_cons, hp]
      · rw [if_neg hp, ih _ (fun x hx => hnp x (List.mem_cons_of_mem _ hx))]
        simp [satisfying, List.filter_cons, hp]
    · intro r hr
      simp only [IAggregator.Update, hr, columnInt_of_INT column l hcol]

theorem foldl_wrap_sum : ∀ (vals : List Int) (sum : Int),
    vals.foldl (fun acc v => wrapInt64 (acc + v)) (wrapInt64 sum) = wrapInt64 (sum + vals.sum) := by
  intro vals
  induction vals with
  | nil => intro sum; simp
  | cons v rest ih =>
    intro sum
    rw [List.foldl_cons, wrapInt64_add, ih, List.sum_cons, add_assoc]

theorem foldl_wrap_count {α : Type} : ∀ (l : List α) (count : Int),
    l.foldl (fun acc _ => wrapInt64 (acc + 1)) (wrapInt64 count)
      = wrapInt64 (count + (l.length : Int)) := by
  intro l
  induction l with
  | nil => intro count; simp
  | cons v rest ih =>
    intro count
    rw [List.foldl_cons, wrapInt64_add, ih, List.length_cons]
    congr 1
    push_cast
    ring

theorem foldl_max_spec : ∀ (vals : List Int) (m : Int),
    (∀ v ∈ vals, v ≤ vals.foldl (fun acc v => if v > acc then v else acc) m) ∧
    m ≤ vals.foldl (fun acc v => if v > acc then v else acc) m ∧
    (vals.foldl (fun acc v => if v > acc then v else acc) m = m ∨
      vals.foldl (fun acc v => if v > acc then v else acc) m ∈ vals) := by
  intro vals
  induction vals with
  | nil => intro m; simp
  | cons v rest ih =>
    intro m
    rw [List.foldl_cons]
    obtain ⟨h1, h2, h3⟩ := ih (if v > m then v else m)
    have hm : m ≤ (if v > m then v else m) ∧ v ≤ (if v > m then v else m) := by
      split_ifs <;> omega
    refine ⟨fun x hx => ?_, le_trans hm.1 h2, ?_⟩
    · rcases List.mem_cons.mp hx with h | h
      · rw [h]
        exact le_trans hm.2 h2
      · exact h1 x h
    · rcases h3 with h | h
      · rw [h]
        split_ifs with hv
        · exact Or.inr (List.mem_cons_self _ _)
        · exact Or.inl rfl
      · exact Or.inr (List.mem_cons_of_mem _ h)

theorem foldl_min_spec : ∀ (vals : List Int) (m : Int),
    (∀ v ∈ vals, vals.foldl (fun acc v => if v < acc then v else acc) m ≤ v) ∧
    vals.foldl (fun acc v => if v < acc then v else acc) m ≤ m ∧
    (vals.foldl (fun acc v => if v < acc then v else acc) m = m ∨
      vals.foldl (fun acc v => if v < acc then v else acc) m ∈ vals) := by
  intro vals
  induction vals with
  | nil => intro m; simp
  | cons v rest ih =>
    intro m
    rw [List.foldl_cons]
    obtain ⟨h1, h2, h3⟩ := ih (if v < m then v else m)
    have hm : (if v < m then v else m) ≤ m ∧ (if v < m then v else m) ≤ v := by
      split_ifs <;> omega
    refine ⟨fun x hx => ?_, le_trans h2 hm.1, ?_⟩
    · rcases List.mem_cons.mp hx with h | h
      · rw [h]
        exact le_trans h2 hm.2
      · exact h1 x h
    · rcases h3 with h | h
      · rw [h]
        split_ifs with hv
        · exact Or.inr (List.mem_cons_self _ _)
        · exact Or.inl rfl
      · exact Or.inr (List.mem_cons_of_mem _ h)


/-- C22: after `Update` has been called on each log of a list, none of the calls
panicking, the result of `Sum` is the sum of the column over the logs that satisfy the
condition of the aggregator (all logs when it has none), in the arithmetic of `int64`,
and the sum itself when it fits; the result of `Count` is the number of those logs; the
results of `Max` and `Min` bound the values of those logs and are one of them when there
is one. -/
theorem C22_aggregators_spec (logs : List Log) (column : List Char)
    (condition : Option ICondition) (hcol : GetColumnType column = some .INT)
    (hnp : ∀ l ∈ logs, passes condition l ≠ .error .panic) :
    resultAfter logs (.Sum 0 column condition)
      = .ok (.int (wrapInt64 ((satisfying condition logs).map (columnValue column)).sum)) ∧
    (MinInt64 ≤ ((satisfying condition logs).map (columnValue column)).sum ∧
        ((satisfying condition logs).map (columnValue column)).sum ≤ MaxInt64 →
      resultAfter logs (.Sum 0 column condition)
        = .ok (.int ((satisfying condition logs).map (columnValue column)).sum)) ∧
    resultAfter logs (.Count 0 condition)
      = .ok (.int (wrapInt64 ((satisfying condition logs).length : Int))) ∧
    (((satisfying condition logs).length : Int) ≤ MaxInt64 →
      resultAfter logs (.Count 0 condition)
        = .ok (.int ((satisfying condition logs).length : Int))) ∧
    (∃ m, resultAfter logs (.Max MinInt64 column condition) = .ok (.int m) ∧
      (∀ v ∈ (satisfying condition logs).map (columnValue column), v ≤ m) ∧
      ((∀ v ∈ (satisfying condition logs).map (columnValue column), MinInt64 ≤ v) →
        (satisfying condition logs) ≠ [] →
        m ∈ (satisfying condition logs).map (columnValue column))) ∧
    (∃ m, resultAfter logs (.Min MaxInt64 column condition) = .ok (.int m) ∧
      (∀ v ∈ (satisfying condition logs).map (columnValue column), m ≤ v) ∧
      ((∀ v ∈ (satisfying condition logs).map (columnValue column), v ≤ MaxInt64) →
        (satisfying condition logs) ≠ [] →
        m ∈ (satisfying condition logs).map (columnValue column))) := by
  have hw0 : wrapInt64 0 = 0 := by decide
  have hsum : resultAfter logs (.Sum 0 column condition)
      = .ok (.int (wrapInt64 ((satisfying condition logs).map (columnValue column)).sum)) := by
    unfold resultAfter
    rw [updateAll_Sum column condition hcol logs 0 hnp]
    simp only [IAggregator.GetResult]
    have := foldl_wrap_sum ((satisfying condition logs).map (columnValue column)) 0
    rw [hw0, zero_add] at this
    rw [this]
  have hcount : resultAfter logs (.Count 0 condition)
      = .ok (.int (wrapInt64 ((satisfying condition logs).length : Int))) := by
    unfold resultAfter
    rw [updateAll_Count condition logs 0 hnp]
    simp only [IAggregator.GetResult]
    have := foldl_wrap_count (satisfying condition logs) 0
    rw [hw0, zero_add] at this
    rw [this]
  refine ⟨hsum, ?_, hcount, ?_, ?_, ?_⟩
  · rintro ⟨h1, h2⟩
    rw [hsum, wrapInt64_of_range _ (by unfold MinInt64 at h1; omega)
      (by unfold MaxInt64 at h2; omega)]
  · intro h
    rw [hcount, wrapInt64_of_range _ (by omega) (by unfold MaxInt64 at h; omega)]
  · obtain ⟨h1, h2, h3⟩ := foldl_max_spec ((satisfying condition logs).map (columnValue column))
      MinInt64
    refine ⟨_, ?_, h1, ?_⟩
    · unfold resultAfter
      rw [updateAll_Max column condition hcol logs MinInt64 hnp]
      rfl
    · intro hge hne
      rcases h3 with h | h
      · obtain ⟨l, rest, hl⟩ := List.exists_cons_of_ne_nil hne
        have hv : columnValue column l ∈ (satisfying condition logs).map (columnValue column) := by
          rw [hl]; simp
        have ha := h1 _ hv
        have hb := hge _ hv
        rw [h] at ha ⊢
        have e : columnValue column l = MinInt64 := by omega
        rw [← e]
        exact hv
      · exact h
  · obtain ⟨h1, h2, h3⟩ := foldl_min_spec ((satisfying condition logs).map (columnValue column))
      MaxInt64
    refine ⟨_, ?_, h1, ?_⟩
    · unfold resultAfter
      rw [updateAll_Min column condition hcol logs MaxInt64 hnp]
      rfl
    · intro hle hne
      rcases h3 with h | h
      · obtain ⟨l, rest, hl⟩ := List.exists_cons_of_ne_nil hne
        have hv : columnValue column l ∈ (satisfying condition logs).map (columnValue column) := by
          rw [hl]; simp
        have ha := h1 _ hv
        have hb := hle _ hv
        rw [h] at ha ⊢
        have e : columnValue column l = MaxInt64 := by omega
        rw [← e]
        exact hv
      · exact h

set_option maxRecDepth 16000 in
theorem C22_aggregators_spec_witness :
    resultAfter testProcessorLogs (.Sum 0 "level".data (some levelAboveOne)) = .ok (.int 5) ∧
    resultAfter testProcessorLogs (.Count 0 (some levelAboveOne)) = .ok (.int 2) ∧
    resultAfter testProcessorLogs (.Max MinInt64 "level".data none) = .ok (.int 3) ∧
    resultAfter testProcessorLogs (.Min MaxInt64 "level".data none) = .ok (.int 0) ∧
    groupResults testClock testAggregationQuery testProcessorLogs
      = .ok [(.str "trace1".data, [("sum[level, level > ?0]".data, .ok (.int 0)),
                                   ("count[]".data, .ok (.int 2))]),
             (.str "trace2".data, [("sum[level, level > ?0]".data, .ok (.int 5)),
                                   ("count[]".data, .ok (.int 2))])] :=
  ⟨(C22_aggregators_spec testProcessorLogs "level".data (some levelAboveOne) (by decide)
      (by decide)).1.trans (by decide),
   (C22_aggregators_spec testProcessorLogs "level".data (some levelAboveOne) (by decide)
      (by decide)).2.2.1.trans (by decide),
   by decide, by decide, by decide⟩

/-- The constructors `NewSum`, `NewAvg`, `NewMax` and `NewMin` without a condition leave
the `LoadLogsData` as it is: the column of the aggregator is not added to `Columns`. -/
theorem columnAggr_keeps_state (column : List Char) (values : List JsonValue)
    (st : ParseState) (h : GetColumnType column = some .INT) :
    NewSum [column] values st = .ok (.Sum 0 column none, st) ∧
    NewAvg [column] values st = .ok (.Avg 0 0 column none, st) ∧
    NewMax [column] values st = .ok (.Max MinInt64 column none, st) ∧
    NewMin [column] values st = .ok (.Min MaxInt64 column none, st) := by
  have hc : columnAggrArgs [column] values st = .ok (column, none, st) := by
    unfold columnAggrArgs
    rw [if_neg (by simp)]
    simp only [List.getElem?_cons_zero, h, ne_eq, not_true_eq_false, if_false]
    rfl
  simp only [NewSum, NewAvg, NewMax, NewMin, hc, and_self]

set_option maxRecDepth 16000 in
/-- C23: for the query that selects `traces` and `sum[level]` grouped by `traces`,
`NewProcessor` returns the aggregator `Sum` on the column `level` and a `LoadLogsData`
whose `Columns` is `traces` alone; the reader then loads `traces` and `timestamp`, and
not the column `level` that the aggregator reads. -/
theorem C23_aggregator_column_not_loaded :
    (NewProcessor testClock sumLevelQuery).map (fun r => r.1.aggrs)
      = .ok [("sum[level]".data, .Sum 0 "level".data none)] ∧
    (NewProcessor testClock sumLevelQuery).map (fun r => r.2.Columns)
      = .ok ["traces".data] ∧
    loadedColumns ["traces".data] = ["traces".data, "timestamp".data] ∧
    "level".data ∉ loadedColumns ["traces".data] ∧
    (NewProcessor testClock testAggregationQuery).map (fun r => r.2.Columns)
      = .ok ["traces".data, "level".data] := by
  decide


/-! ## Atoms with spaces around them -/

theorem TrimSpace_cons_space (c : Char) (x : List Char) (hc : isSpace c = true) :
    TrimSpace (c :: x) = TrimSpace x := by
  unfold TrimSpace
  rw [List.dropWhile_cons_of_pos hc]

theorem TrimSpace_concat_space (c : Char) (hc : isSpace c = true) : ∀ x : List Char,
    TrimSpace (x ++ [c]) = TrimSpace x := by
  intro x
  induction x with
  | nil =>
    unfold TrimSpace
    simp [hc]
  | cons d rest ih =>
    by_cases hd : isSpace d = true
    · rw [List.cons_append, TrimSpace_cons_space d _ hd, TrimSpace_cons_space d _ hd, ih]
    · unfold TrimSpace
      rw [List.cons_append, List.dropWhile_cons_of_neg hd, List.dropWhile_cons_of_neg hd]
      have e : (d :: (rest ++ [c])).reverse = c :: (d :: rest).reverse := by simp
      rw [e, List.dropWhile_cons_of_pos hc]

theorem findOper_le (s : List Char) : findOper s ≤ s.length := by
  induction s with
  | nil => simp [findOper]
  | cons c rest ih =>
    unfold findOper
    split_ifs
    · omega
    · simp only [List.length_cons]; omega

theorem findOper_append_lt : ∀ (x z : List Char), findOper x < x.length →
    findOper (x ++ z) = findOper x := by
  intro x
  induction x with
  | nil => intro z h; simp [findOper] at h
  | cons c rest ih =>
    intro z h
    rw [List.cons_append]
    unfold findOper at h ⊢
    by_cases hc : operFirstChars c = true
    · simp only [if_pos hc]
    · simp only [if_neg hc] at h ⊢
      rw [ih z (by simp only [List.length_cons] at h; omega)]

theorem findOper_plain : ∀ (x z : List Char), (∀ c ∈ x, operFirstChars c = false) →
    findOper (x ++ z) = x.length + findOper z := by
  intro x
  induction x with
  | nil => intro z _; simp
  | cons c rest ih =>
    intro z h
    rw [List.cons_append]
    unfold findOper
    rw [if_neg (by rw [h c (List.mem_cons_self _ _)]; simp),
      ih z (fun d hd => h d (List.mem_cons_of_mem _ hd))]
    simp only [List.length_cons]
    rw [findOper.eq_def z]
    omega

theorem operators_length (op : List Char × Operator) (sub : List Char)
    (h : operators.find? (fun op => op.1.isPrefixOf sub) = some op) :
    op.1.length ≤ sub.length ∧ 1 ≤ op.1.length := by
  have hmem := List.mem_of_find?_eq_some h
  have hp := List.find?_some h
  have hpre := List.isPrefixOf_iff_prefix.mp hp
  refine ⟨hpre.length_le, ?_⟩
  simp only [operators, List.mem_cons, List.mem_singleton, List.not_mem_nil, or_false] at hmem
  rcases hmem with rfl | rfl | rfl | rfl | rfl | rfl | rfl <;> decide

theorem splitConditionStr_ok (s : List Char) (r : List Char × List Char × Operator)
    (h : splitConditionStr s = .ok r) :
    findOper s + 2 ≤ s.length ∧
    ∃ op, operators.find? (fun op => op.1.isPrefixOf ((s.drop (findOper s)).take 2)) = some op ∧
      r = (TrimSpace (s.take (findOper s)), TrimSpace (s.drop (findOper s + op.1.length)), op.2) ∧
      TrimSpace (s.take (findOper s)) ≠ [] ∧
      TrimSpace (s.drop (findOper s + op.1.length)) ≠ [] := by
  unfold splitConditionStr at h
  by_cases h1 : findOper s + 2 > s.length
  · rw [if_pos h1] at h; cases h
  · rw [if_neg h1] at h
    refine ⟨by omega, ?_⟩
    cases hf : operators.find? (fun op => op.1.isPrefixOf ((s.drop (findOper s)).take 2)) with
    | none => rw [hf] at h; cases h
    | some op =>
      rw [hf] at h
      simp only at h
      by_cases h2 : TrimSpace (s.take (findOper s)) = [] ∨
          TrimSpace (s.drop (findOper s + op.1.length)) = []
      · rw [if_pos h2] at h; cases h
      · rw [if_neg h2] at h
        injection h with h
        exact ⟨op, rfl, h.symm, fun e => h2 (Or.inl e), fun e => h2 (Or.inr e)⟩

theorem splitConditionStr_of (s : List Char) (op : List Char × Operator)
    (h1 : findOper s + 2 ≤ s.length)
    (h2 : operators.find? (fun op => op.1.isPrefixOf ((s.drop (findOper s)).take 2)) = some op)
    (h3 : TrimSpace (s.take (findOper s)) ≠ [])
    (h4 : TrimSpace (s.drop (findOper s + op.1.length)) ≠ []) :
    splitConditionStr s
      = .ok (TrimSpace (s.take (findOper s)), TrimSpace (s.drop (findOper s + op.1.length)),
          op.2) := by
  unfold splitConditionStr
  rw [if_neg (by omega), h2]
  simp only
  rw [if_neg (fun h => h.elim h3 h4)]

theorem splitConditionStr_concat_space (a : List Char) (c : Char) (hc : isSpace c = true)
    (r : List Char × List Char × Operator) (h : splitConditionStr a = .ok r) :
    splitConditionStr (a ++ [c]) = .ok r := by
  obtain ⟨h1, op, hf, hr, h3, h4⟩ := splitConditionStr_ok a r h
  have hlen := operators_length op _ hf
  have hsub : ((a.drop (findOper a)).take 2).length = 2 := by
    rw [List.length_take, List.length_drop]; omega
  have hi : findOper (a ++ [c]) = findOper a := findOper_append_lt a [c] (by omega)
  have e1 : ((a ++ [c]).drop (findOper a)).take 2 = (a.drop (findOper a)).take 2 := by
    rw [List.drop_append_of_le_length (by omega), List.take_append_of_le_length
      (by rw [List.length_drop]; omega)]
  have e2 : (a ++ [c]).take (findOper a) = a.take (findOper a) :=
    List.take_append_of_le_length (by omega)
  have e3 : (a ++ [c]).drop (findOper a + op.1.length) = a.drop (findOper a + op.1.length) ++ [c] :=
    List.drop_append_of_le_length (by omega)
  rw [hr]
  have := splitConditionStr_of (a ++ [c]) op (by rw [hi, List.length_append]; simp; omega)
    (by rw [hi, e1]; exact hf) (by rw [hi, e2]; exact h3)
    (by rw [hi, e3, TrimSpace_concat_space c hc]; exact h4)
  rw [this, hi, e2, e3, TrimSpace_concat_space c hc]

theorem splitConditionStr_cons_space (a : List Char) (c : Char) (hc : isSpace c = true)
    (hop : operFirstChars c = false)
    (r : List Char × List Char × Operator) (h : splitConditionStr a = .ok r) :
    splitConditionStr (c :: a) = .ok r := by
  obtain ⟨h1, op, hf, hr, h3, h4⟩ := splitConditionStr_ok a r h
  have hi : findOper (c :: a) = findOper a + 1 := by
    rw [findOper, if_neg (by rw [hop]; simp)]
  have e1 : ((c :: a).drop (findOper a + 1)).take 2 = (a.drop (findOper a)).take 2 := rfl
  have e2 : (c :: a).take (findOper a + 1) = c :: a.take (findOper a) := rfl
  have e3 : (c :: a).drop (findOper a + 1 + op.1.length) = a.drop (findOper a + op.1.length) := by
    have : findOper a + 1 + op.1.length = (findOper a + op.1.length) + 1 := by omega
    rw [this]
    rfl
  rw [hr]
  have := splitConditionStr_of (c :: a) op (by rw [hi]; simp only [List.length_cons]; omega)
    (by rw [hi, e1]; exact hf) (by rw [hi, e2, TrimSpace_cons_space c _ hc]; exact h3)
    (by rw [hi, e3]; exact h4)
  rw [this, hi, e2, e3, TrimSpace_cons_space c _ hc]

theorem Parse_of_split (s1 s2 : List Char) (values : List JsonValue) (ad : Option AggrData)
    (st : ParseState) (h : splitConditionStr s1 = splitConditionStr s2) :
    ConditionParser.Parse s1 values ad st = ConditionParser.Parse s2 values ad st := by
  unfold ConditionParser.Parse
  rw [h]

theorem Parse_ok_split (s : List Char) (values : List JsonValue) (ad : Option AggrData)
    (st : ParseState) (r : Condition × ParseState)
    (h : ConditionParser.Parse s values ad st = .ok r) :
    ∃ q, splitConditionStr s = .ok q := by
  unfold ConditionParser.Parse at h
  cases hs : splitConditionStr s with
  | error e => rw [hs] at h; cases h
  | ok q => exact ⟨q, rfl⟩

/-- An atom that is parsed keeps its parse when a space follows it. -/
theorem Parse_concat_space (a : List Char) (values : List JsonValue) (ad : Option AggrData)
    (st : ParseState) (r : Condition × ParseState)
    (h : ConditionParser.Parse a values ad st = .ok r) :
    ConditionParser.Parse (a ++ [' ']) values ad st = .ok r := by
  obtain ⟨q, hq⟩ := Parse_ok_split a values ad st r h
  rw [Parse_of_split (a ++ [' ']) a values ad st
    (by rw [hq]; exact splitConditionStr_concat_space a ' ' (by decide) q hq), h]

/-- An atom that is parsed keeps its parse when a space precedes it. -/
theorem Parse_cons_space (a : List Char) (values : List JsonValue) (ad : Option AggrData)
    (st : ParseState) (r : Condition × ParseState)
    (h : ConditionParser.Parse a values ad st = .ok r) :
    ConditionParser.Parse (' ' :: a) values ad st = .ok r := by
  obtain ⟨q, hq⟩ := Parse_ok_split a values ad st r h
  rw [Parse_of_split (' ' :: a) a values ad st
    (by rw [hq]; exact splitConditionStr_cons_space a ' ' (by decide) (by decide) q hq), h]

theorem typesAllowed_iff (operator : Operator) (t1 t2 : ValueType) :
    typesAllowed operator t1 t2 = true ↔ typeRule operator t1 t2 := by
  cases operator <;> cases t1 <;> cases t2 <;> decide

theorem operators_window (opStr : List Char) (op : Operator) (y : List Char)
    (hop : (opStr, op) ∈ operators) :
    operators.find? (fun o => o.1.isPrefixOf ((opStr ++ ' ' :: y).take 2)) = some (opStr, op) ∧
    findOper (opStr ++ ' ' :: y) = 0 ∧ 1 ≤ opStr.length ∧ opStr.length ≤ 2 := by
  simp only [operators, List.mem_cons, List.mem_singleton, List.not_mem_nil, or_false,
    Prod.mk.injEq] at hop
  rcases hop with ⟨rfl, rfl⟩ | ⟨rfl, rfl⟩ | ⟨rfl, rfl⟩ | ⟨rfl, rfl⟩ | ⟨rfl, rfl⟩ | ⟨rfl, rfl⟩ |
    ⟨rfl, rfl⟩ <;> exact ⟨rfl, rfl, by decide, by decide⟩

theorem getOperant_ne_nil (s : List Char) (values : List JsonValue) (ad : Option AggrData)
    (st : ParseState) (r : Operant × ParseState) (h : getOperant s values ad st = .ok r) :
    s ≠ [] := by
  rintro rfl
  unfold getOperant at h
  rw [if_pos (by decide)] at h
  cases h

/-- The split of an atom `x OP y` whose left operand holds no character that starts an
operator. -/
theorem splitConditionStr_atom (x y opStr : List Char) (op : Operator)
    (hop : (opStr, op) ∈ operators)
    (hx : ∀ ch ∈ x, operFirstChars ch = false)
    (hxn : TrimSpace x ≠ []) (hyn : TrimSpace y ≠ []) :
    splitConditionStr (x ++ " ".data ++ opStr ++ " ".data ++ y)
      = .ok (TrimSpace x, TrimSpace y, op) := by
  obtain ⟨hwin, hz, hl1, hl2⟩ := operators_window opStr op y hop
  generalize hs : x ++ " ".data ++ opStr ++ " ".data ++ y = s
  have hs0 : s = (x ++ [' ']) ++ (opStr ++ ' ' :: y) := by rw [← hs]; simp
  have hplain : ∀ ch ∈ x ++ [' '], operFirstChars ch = false := by
    intro ch hch
    rcases List.mem_append.mp hch with h | h
    · exact hx ch h
    · rw [List.mem_singleton] at h; rw [h]; decide
  have hfo : findOper s = x.length + 1 := by
    rw [hs0, findOper_plain _ _ hplain, hz]; simp
  have htake : s.take (findOper s) = x ++ [' '] := by
    rw [hfo, hs0]; exact List.take_left' (by simp)
  have hdrop : s.drop (findOper s) = opStr ++ ' ' :: y := by
    rw [hfo, hs0]; exact List.drop_left' (by simp)
  have hdrop2 : s.drop (findOper s + opStr.length) = ' ' :: y := by
    rw [← List.drop_drop, hdrop]; exact List.drop_left' rfl
  have hlen : s.length = x.length + 1 + opStr.length + 1 + y.length := by
    rw [hs0]; simp; omega
  have h := splitConditionStr_of s (opStr, op) (by omega) (by rw [hdrop]; exact hwin)
    (by rw [htake, TrimSpace_concat_space ' ' (by decide)]; exact hxn)
    (by rw [hdrop2, TrimSpace_cons_space ' ' _ (by decide)]; exact hyn)
  rw [h, htake, hdrop2, TrimSpace_concat_space ' ' (by decide),
    TrimSpace_cons_space ' ' _ (by decide)]

/-- C24: for an atom `x OP y` whose left operand holds none of the characters `>`, `<`,
`=`, `!` and whose operands are well formed for `getOperant`, `ConditionParser.Parse`
returns the condition of the two operands and the operator when the types of the
operands obey the type rules, and a `BadRequest` error when they do not; so it succeeds
iff they obey the rules. -/
theorem C24_Parse_type_rules (x y opStr : List Char) (op : Operator)
    (values : List JsonValue) (ad : Option AggrData) (st st1 st2 : ParseState)
    (o1 o2 : Operant)
    (hop : (opStr, op) ∈ operators)
    (hx : ∀ ch ∈ x, operFirstChars ch = false)
    (hx1 : getOperant (TrimSpace x) values ad st = .ok (o1, st1))
    (hy1 : getOperant (TrimSpace y) values ad st1 = .ok (o2, st2)) :
    (typeRule op o1.T o2.T →
      ConditionParser.Parse (x ++ " ".data ++ opStr ++ " ".data ++ y) values ad st
        = .ok (⟨o1, o2, op, false⟩, st2)) ∧
    (¬ typeRule op o1.T o2.T →
      ConditionParser.Parse (x ++ " ".data ++ opStr ++ " ".data ++ y) values ad st
        = .error (.app .BadReq)) ∧
    ((ConditionParser.Parse (x ++ " ".data ++ opStr ++ " ".data ++ y) values ad st).isOk = true
      ↔ typeRule op o1.T o2.T) := by
  have hsplit := splitConditionStr_atom x y opStr op hop hx
    (getOperant_ne_nil _ values ad st _ hx1) (getOperant_ne_nil _ values ad st1 _ hy1)
  have hparse : ConditionParser.Parse (x ++ " ".data ++ opStr ++ " ".data ++ y) values ad st
      = if typesAllowed op o1.T o2.T then .ok (⟨o1, o2, op, false⟩, st2)
        else .error (.app .BadReq) := by
    unfold ConditionParser.Parse
    rw [hsplit]
    simp only [hx1, hy1]
  have hiff := typesAllowed_iff op o1.T o2.T
  refine ⟨fun h => ?_, fun h => ?_, ?_⟩
  · rw [hparse, if_pos (hiff.mpr h)]
  · rw [hparse, if_neg (fun h1 => h (hiff.mp h1))]
  · rw [hparse, ← hiff]
    cases typesAllowed op o1.T o2.T <;> simp [Except.isOk, Except.toBool]

set_option maxRecDepth 16000 in
/-- The theorem `C24_Parse_type_rules` at the atom `level > ?0`, whose types obey the
rules, and at the atom `?1 => level`, whose types do not. -/
theorem C24_Parse_type_rules_witness :
    ConditionParser.Parse ("level".data ++ " ".data ++ ">".data ++ " ".data ++ "?0".data)
        testValues none freshState
      = .ok (⟨levelOperant, ⟨.INT, .int 1, []⟩, .GEATER_THAN, false⟩,
          stateWith ["level".data]) ∧
    ConditionParser.Parse ("?1".data ++ " ".data ++ "=>".data ++ " ".data ++ "level".data)
        testValues none freshState = .error (.app .BadReq) :=
  ⟨(C24_Parse_type_rules "level".data "?0".data ">".data .GEATER_THAN testValues none
      freshState (stateWith ["level".data]) (stateWith ["level".data]) levelOperant
      ⟨.INT, .int 1, []⟩ (by decide) (by decide) (by decide) (by decide)).1 (by decide),
   (C24_Parse_type_rules "?1".data "level".data "=>".data .IN testValues none
      freshState freshState (stateWith ["level".data]) ⟨.STR, .str "log2".data, []⟩
      levelOperant (by decide) (by decide) (by decide) (by decide)).2.1 (by decide)⟩

set_option maxRecDepth 16000 in
/-- C24, counterexample: with the `AggrData` of a query grouped by `traces`, the operands
`count[level > ?0]` and `?0` are well formed for `getOperant` and both of type `INT`,
which obeys the rule of `>`, and `ConditionParser.Parse` rejects the atom
`count[level > ?0] > ?0` with a `BadRequest` error: it splits the atom at the `>` inside
the brackets. `NewProcessor` rejects the query that has this atom as its `having`. -/
theorem C24_counterexample :
    (getOperant "count[level > ?0]".data [.num 0] (some countAboveAggrData)
        freshState).map (fun r => r.1.T) = .ok .INT ∧
    (getOperant "?0".data [.num 0] (some countAboveAggrData)
        freshState).map (fun r => r.1.T) = .ok .INT ∧
    typesAllowed .GEATER_THAN .INT .INT = true ∧
    splitConditionStr "count[level > ?0] > ?0".data
      = .ok ("count[level".data, "?0] > ?0".data, .GEATER_THAN) ∧
    ConditionParser.Parse "count[level > ?0] > ?0".data [.num 0] (some countAboveAggrData)
      freshState = .error (.app .BadReq) ∧
    NewProcessor testClock countAboveQuery = .error (.app .BadReq) := by
  decide


/-! ## The steps of `parseCondition` -/

theorem getElem?_mid (pre rest : List Char) (ch : Char) :
    (pre ++ ch :: rest)[pre.length]? = some ch := by
  rw [List.getElem?_append_right (le_refl _), Nat.sub_self]
  simp

theorem getElem?_mid_succ (pre rest : List Char) (ch d : Char) :
    (pre ++ ch :: d :: rest)[pre.length + 1]? = some d := by
  have : pre ++ ch :: d :: rest = (pre ++ [ch]) ++ d :: rest := by simp
  rw [this]
  have h := getElem?_mid (pre ++ [ch]) rest d
  simpa using h

theorem step_plain (s : List Char) (values : List JsonValue) (ad : Option AggrData)
    (fuel : Nat) (m : Bool) (i start : Nat) (c : Option ICondition)
    (k : Option (CmprOperator × ICondition)) (st : ParseState) (ch : Char)
    (h : s[i]? = some ch) (hk : keyChars ch = false) :
    parseCondition s values ad (fuel + 1) m i start c k st
      = parseCondition s values ad fuel m (i + 1) start c k st := by
  rw [parseCondition]
  simp only [h]
  rw [if_pos hk]

theorem step_bang_skip (s : List Char) (values : List JsonValue) (ad : Option AggrData)
    (fuel : Nat) (m : Bool) (i start : Nat) (c : Option ICondition)
    (k : Option (CmprOperator × ICondition)) (st : ParseState)
    (h : s[i]? = some '!') (h1 : i + 1 ≠ s.length) (h2 : s[i + 1]? ≠ some '(') :
    parseCondition s values ad (fuel + 1) m i start c k st
      = parseCondition s values ad fuel m (i + 1) start c k st := by
  rw [parseCondition]
  simp +decide only [h, if_true, if_false, if_neg h1, if_pos h2]

theorem step_bang_end (s : List Char) (values : List JsonValue) (ad : Option AggrData)
    (fuel : Nat) (m : Bool) (i start : Nat) (c : Option ICondition)
    (k : Option (CmprOperator × ICondition)) (st : ParseState)
    (h : s[i]? = some '!') (h1 : i + 1 = s.length) :
    parseCondition s values ad (fuel + 1) m i start c k st = .error (.app .BadReq) := by
  rw [parseCondition]
  simp +decide only [h, if_true, if_false, if_pos h1]

theorem step_bang_group (s : List Char) (values : List JsonValue) (ad : Option AggrData)
    (fuel : Nat) (m : Bool) (i start : Nat) (c : Option ICondition)
    (k : Option (CmprOperator × ICondition)) (st : ParseState)
    (h : s[i]? = some '!') (h1 : i + 1 ≠ s.length) (h2 : s[i + 1]? = some '(') :
    parseCondition s values ad (fuel + 1) m i start c k st
      = match parseCondition s values ad fuel false (i + 2) (i + 2) none none st with
        | .error e => .error e
        | .ok (c1, i2, st2) =>
          parseCondition s values ad fuel m (i2 + 1) start (some c1.Invert) k st2 := by
  have hd : decide (i + 2 = 0) = false := by simp
  have h3 : ¬ (s[i + 1]? ≠ some '(') := by rw [h2]; simp
  rw [parseCondition]
  simp +decide only [h, if_true, if_false, if_neg h1, if_neg h3, hd]

theorem step_open (s : List Char) (values : List JsonValue) (ad : Option AggrData)
    (fuel : Nat) (m : Bool) (i start : Nat) (c : Option ICondition)
    (k : Option (CmprOperator × ICondition)) (st : ParseState)
    (h : s[i]? = some '(') :
    parseCondition s values ad (fuel + 1) m i start c k st
      = match parseCondition s values ad fuel false (i + 1) (i + 1) none none st with
        | .error e => .error e
        | .ok (c1, i2, st2) => parseCondition s values ad fuel m (i2 + 1) start (some c1) k st2 := by
  have hd : decide (i + 1 = 0) = false := by simp
  rw [parseCondition]
  simp +decide only [h, if_true, if_false, hd]

theorem step_close_main (s : List Char) (values : List JsonValue) (ad : Option AggrData)
    (fuel : Nat) (i start : Nat) (c : Option ICondition)
    (k : Option (CmprOperator × ICondition)) (st : ParseState)
    (h : s[i]? = some ')') :
    parseCondition s values ad (fuel + 1) true i start c k st = .error (.app .BadReq) := by
  rw [parseCondition]
  simp +decide only [h, if_true, if_false]

theorem step_close_group (s : List Char) (values : List JsonValue) (ad : Option AggrData)
    (fuel : Nat) (i start : Nat) (c : Option ICondition)
    (k : Option (CmprOperator × ICondition)) (st : ParseState)
    (h : s[i]? = some ')') :
    parseCondition s values ad (fuel + 1) false i start c k st
      = finishCondition s values ad false i start c k st := by
  rw [parseCondition]
  simp +decide only [h, if_true, if_false]

theorem step_oper (s : List Char) (values : List JsonValue) (ad : Option AggrData)
    (fuel : Nat) (m : Bool) (i start : Nat) (c : Option ICondition)
    (k : Option (CmprOperator × ICondition)) (st : ParseState) (ch : Char)
    (h : s[i]? = some ch) (hch : ch = '&' ∨ ch = '|') :
    parseCondition s values ad (fuel + 1) m i start c k st
      = match currentCondition s values ad i start c st with
        | .error e => .error e
        | .ok (c1, st1) =>
          parseCondition s values ad fuel m (i + 1) (i + 1) none
            (some (if ch = '|' then .OR else .AND, closeComparator k c1)) st1 := by
  rw [parseCondition]
  rcases hch with rfl | rfl
  · simp +decide only [h, if_true, if_false]
  · simp +decide only [h, if_true, if_false]

theorem step_end (s : List Char) (values : List JsonValue) (ad : Option AggrData)
    (fuel : Nat) (m : Bool) (i start : Nat) (c : Option ICondition)
    (k : Option (CmprOperator × ICondition)) (st : ParseState)
    (h : s[i]? = none) :
    parseCondition s values ad (fuel + 1) m i start c k st
      = finishCondition s values ad m i start c k st := by
  rw [parseCondition]
  simp only [h]

/-- The characters of a text between the operators and brackets of a condition: none of
`&`, `|`, `(`, `)`. -/
theorem parseCondition_scan (values : List JsonValue) (ad : Option AggrData) (m : Bool)
    (start : Nat) (c : Option ICondition) (k : Option (CmprOperator × ICondition))
    (st : ParseState) (s post : List Char) (fuel : Nat) :
    ∀ (seg pre : List Char), s = pre ++ seg ++ post →
      (∀ ch ∈ seg, ch ≠ '&' ∧ ch ≠ '|' ∧ ch ≠ '(' ∧ ch ≠ ')') →
      (seg.getLast? = some '!' → ∃ d rest, post = d :: rest ∧ d ≠ '(') →
      parseCondition s values ad (fuel + seg.length) m pre.length start c k st
        = parseCondition s values ad fuel m (pre.length + seg.length) start c k st := by
  intro seg
  induction seg with
  | nil => intro pre _ _ _; rfl
  | cons ch seg ih =>
    intro pre hs hplain hlast
    have hs2 : s = (pre ++ [ch]) ++ seg ++ post := by rw [hs]; simp
    have hget : s[pre.length]? = some ch := by
      rw [hs, List.append_assoc, List.cons_append]; exact getElem?_mid _ _ _
    have hcont : parseCondition s values ad (fuel + seg.length) m (pre.length + 1) start c k st
        = parseCondition s values ad fuel m (pre.length + (ch :: seg).length) start c k st := by
      have := ih (pre ++ [ch]) hs2 (fun x hx => hplain x (List.mem_cons_of_mem _ hx))
        (fun h => hlast (by
          cases seg with
          | nil => simp at h
          | cons d t => simpa using h))
      simp only [List.length_append, List.length_cons, List.length_nil, zero_add] at this
      rw [this]
      simp only [List.length_cons]
      congr 1
      omega
    have hfuel : fuel + (ch :: seg).length = (fuel + seg.length) + 1 := by
      simp only [List.length_cons]; omega
    rw [hfuel]
    by_cases hk : keyChars ch = false
    · rw [step_plain s values ad _ m _ start c k st ch hget hk, hcont]
    · have hbang : ch = '!' := by
        obtain ⟨h1, h2, h3, h4⟩ := hplain ch (List.mem_cons_self _ _)
        by_contra hne
        apply hk
        simp [keyChars, h1, h2, h3, h4, hne]
      subst hbang
      have hnext : ∃ d rest, seg ++ post = d :: rest ∧ d ≠ '(' := by
        cases seg with
        | nil => simpa using hlast (by simp)
        | cons d t =>
          exact ⟨d, t ++ post, rfl, (hplain d (by simp)).2.2.1⟩
      obtain ⟨d, rest, hd, hdne⟩ := hnext
      have hs3 : s = pre ++ '!' :: d :: rest := by
        rw [hs, List.append_assoc, List.cons_append, hd]
      have hlen : pre.length + 1 ≠ s.length := by
        rw [hs3]; simp
      have hget2 : s[pre.length + 1]? ≠ some '(' := by
        rw [hs3, getElem?_mid_succ]
        intro h
        injection h with h
        exact hdne h
      rw [step_bang_skip s values ad _ m _ start c k st hget hlen hget2, hcont]


theorem plainText_chars (a : List Char) (h : plainText a = true) :
    (∀ ch ∈ a, ch ≠ '&' ∧ ch ≠ '|' ∧ ch ≠ '(' ∧ ch ≠ ')') ∧ a.getLast? ≠ some '!' := by
  unfold plainText at h
  simp only [Bool.and_eq_true, List.all_eq_true, bne_iff_ne, ne_eq] at h
  refine ⟨fun ch hch => ?_, h.2⟩
  have := h.1 ch hch
  exact ⟨this.1.1.1, this.1.1.2, this.1.2, this.2⟩

theorem getElem?_at (s pre rest : List Char) (ch : Char) (i : Nat)
    (hs : s = pre ++ ch :: rest) (hi : i = pre.length) : s[i]? = some ch := by
  rw [hs, hi]; exact getElem?_mid _ _ _

theorem scan_text (values : List JsonValue) (ad : Option AggrData) (m : Bool)
    (start : Nat) (c : Option ICondition) (k : Option (CmprOperator × ICondition))
    (st : ParseState) (s pre seg post : List Char) (fuel i : Nat)
    (hs : s = pre ++ seg ++ post) (hi : i = pre.length) (hf : seg.length ≤ fuel)
    (hplain : ∀ ch ∈ seg, ch ≠ '&' ∧ ch ≠ '|' ∧ ch ≠ '(' ∧ ch ≠ ')')
    (hlast : seg.getLast? = some '!' → ∃ d rest, post = d :: rest ∧ d ≠ '(') :
    parseCondition s values ad fuel m i start c k st
      = parseCondition s values ad (fuel - seg.length) m (i + seg.length) start c k st := by
  have := parseCondition_scan values ad m start c k st s post (fuel - seg.length) seg pre hs
    hplain hlast
  rw [Nat.sub_add_cancel hf] at this
  rw [hi, this]

theorem currentCondition_atom (s pre seg post : List Char) (values : List JsonValue)
    (ad : Option AggrData) (st : ParseState) (i start : Nat)
    (hs : s = pre ++ seg ++ post) (hstart : start = pre.length)
    (hi : i = pre.length + seg.length) :
    currentCondition s values ad i start none st
      = match ConditionParser.Parse seg values ad st with
        | .ok (c, st1) => .ok (.condition c, st1)
        | .error e => .error e := by
  unfold currentCondition
  have : (s.drop start).take (i - start) = seg := by
    rw [hs, hstart, hi, List.append_assoc, List.drop_left', Nat.add_sub_cancel_left,
      List.take_left']
    · rfl
    · rfl
  rw [this]

/-- An atom followed by a space and an operator: the loop parses the atom and goes on
behind the operator with a comparator that waits for its second condition. -/
theorem atom_then_oper (values : List JsonValue) (ad : Option AggrData) (m : Bool)
    (k : Option (CmprOperator × ICondition)) (st st1 : ParseState)
    (s pre a rest : List Char) (op : Char) (ca : Condition) (fuel i : Nat)
    (hs : s = pre ++ a ++ ' ' :: op :: rest) (hi : i = pre.length)
    (hop : op = '&' ∨ op = '|') (ha : plainText a = true)
    (hpa : ConditionParser.Parse a values ad st = .ok (ca, st1))
    (hf : a.length + 2 ≤ fuel) :
    parseCondition s values ad fuel m i i none k st
      = parseCondition s values ad (fuel - (a.length + 2)) m (i + (a.length + 2))
          (i + (a.length + 2)) none
          (some (if op = '|' then .OR else .AND, closeComparator k (.condition ca))) st1 := by
  obtain ⟨hchars, hlast⟩ := plainText_chars a ha
  have hseg : ∀ ch ∈ a ++ [' '], ch ≠ '&' ∧ ch ≠ '|' ∧ ch ≠ '(' ∧ ch ≠ ')' := by
    intro ch hch
    rcases List.mem_append.mp hch with h | h
    · exact hchars ch h
    · simp only [List.mem_singleton] at h
      rw [h]; decide
  have hs2 : s = pre ++ (a ++ [' ']) ++ op :: rest := by rw [hs]; simp
  rw [scan_text values ad m i none k st s pre (a ++ [' ']) (op :: rest) fuel i hs2 hi
    (by simp; omega) hseg (fun h => by simp at h)]
  have hs3 : s = (pre ++ (a ++ [' '])) ++ op :: rest := by rw [hs]; simp
  have hget : s[i + (a ++ [' ']).length]? = some op :=
    getElem?_at s _ rest op _ hs3 (by rw [hi]; simp)
  obtain ⟨f, hfe⟩ : ∃ f, fuel - (a ++ [' ']).length = f + 1 :=
    ⟨fuel - (a.length + 2), by simp; omega⟩
  rw [hfe, step_oper s values ad f m _ i none k st op hget hop]
  have hcc : currentCondition s values ad (i + (a ++ [' ']).length) i none st
      = .ok (.condition ca, st1) := by
    rw [currentCondition_atom s pre (a ++ [' ']) (op :: rest) values ad st _ i hs2 hi
      (by rw [hi]), Parse_concat_space a values ad st _ hpa]
  rw [hcc]
  simp only
  have e1 : f = fuel - (a.length + 2) := by
    simp at hfe; omega
  have e2 : i + (a ++ [' ']).length + 1 = i + (a.length + 2) := by simp; omega
  rw [e1, e2]

/-- An atom of a group up to the closing bracket: the call for the group returns the
atom, joined to a waiting comparator, and the index of the bracket. -/
theorem group_atom_close (values : List JsonValue) (ad : Option AggrData)
    (k : Option (CmprOperator × ICondition)) (st st1 : ParseState)
    (s pre a rest : List Char) (ca : Condition) (fuel i : Nat)
    (hs : s = pre ++ a ++ ')' :: rest) (hi : i = pre.length)
    (ha : plainText a = true)
    (hpa : ConditionParser.Parse a values ad st = .ok (ca, st1))
    (hf : a.length + 1 ≤ fuel) :
    parseCondition s values ad fuel false i i none k st
      = .ok (closeComparator k (.condition ca), i + a.length, st1) := by
  obtain ⟨hchars, hlast⟩ := plainText_chars a ha
  rw [scan_text values ad false i none k st s pre a (')' :: rest) fuel i hs hi
    (by omega) hchars (fun h => absurd h hlast)]
  have hs3 : s = (pre ++ a) ++ ')' :: rest := hs
  have hget : s[i + a.length]? = some ')' :=
    getElem?_at s _ rest ')' _ hs3 (by rw [hi]; simp)
  obtain ⟨f, hfe⟩ : ∃ f, fuel - a.length = f + 1 := ⟨fuel - a.length - 1, by omega⟩
  rw [hfe, step_close_group s values ad f _ i none k st hget]
  unfold finishCondition
  have hlen : s.length = pre.length + a.length + 1 + rest.length := by
    rw [hs]; simp; omega
  have hane : a ≠ [] := by
    intro h
    rw [h] at hpa
    cases hpa
  have hapos : 0 < a.length := List.length_pos.mpr hane
  rw [if_neg (by omega), if_neg (by omega),
    currentCondition_atom s pre a (')' :: rest) values ad st _ i hs hi (by rw [hi]), hpa]


theorem Check_inverted (c : Condition) (source : List Char → Option AnyValue) (v : Bool)
    (h : c.Check source = .ok v) :
    Condition.Check { c with invert := !c.invert } source = .ok (!v) := by
  unfold Condition.Check at h ⊢
  cases h1 : c.oper1.valueIn source with
  | error e => rw [h1] at h; cases h
  | ok val1 =>
    cases h2 : c.oper2.valueIn source with
    | error e => rw [h1, h2] at h; cases h
    | ok val2 =>
      have hcond : Condition.condition { c with invert := !c.invert } val1 val2
          = c.condition val1 val2 := rfl
      cases h3 : c.condition val1 val2 with
      | error e => rw [h1, h2] at h; simp only [bind, Except.bind] at h; rw [h3] at h; cases h
      | ok r =>
        rw [h1, h2] at h
        simp only [bind, Except.bind, pure, Except.pure] at h ⊢
        rw [h3] at h
        rw [hcond, h3]
        simp only at h ⊢
        injection h with h
        rw [← h]
        cases c.invert <;> simp

/-- C25: for atoms `a`, `b`, `c` that are parsed and hold none of `&`, `|`, `(`, `)`,
`ParseCondition` accepts `a & (b | !(c))`, with the negated atom in brackets; the
condition is the conjunction of `a` with the disjunction of `b` and the inverted `c`, and
on a source on which the atoms evaluate it evaluates to `a and (b or not c)`. -/
theorem C25_group_negation (values : List JsonValue) (ad : Option AggrData)
    (st st1 st2 st3 : ParseState) (a b c : List Char) (ca cb cc : Condition)
    (ha : plainText a = true) (hb : plainText b = true) (hc : plainText c = true)
    (hpa : ConditionParser.Parse a values ad st = .ok (ca, st1))
    (hpb : ConditionParser.Parse b values ad st1 = .ok (cb, st2))
    (hpc : ConditionParser.Parse c values ad st2 = .ok (cc, st3)) :
    ParseCondition (a ++ " & (".data ++ b ++ " | !(".data ++ c ++ "))".data) values ad st
      = .ok (.comparator .AND (.condition ca)
          (.comparator .OR (.condition cb) (.condition { cc with invert := !cc.invert }) false)
          false, st3) ∧
    ∀ (source : List Char → Option AnyValue) (va vb vc : Bool),
      ca.Check source = .ok va → cb.Check source = .ok vb → cc.Check source = .ok vc →
      (ICondition.comparator .AND (.condition ca)
          (.comparator .OR (.condition cb) (.condition { cc with invert := !cc.invert }) false)
          false).Check source = .ok (va && (vb || !vc)) := by
  constructor
  · generalize hs : a ++ " & (".data ++ b ++ " | !(".data ++ c ++ "))".data = s
    have hs0 : s = a ++ ' ' :: '&' :: ' ' :: '(' ::
        (b ++ ' ' :: '|' :: ' ' :: '!' :: '(' :: (c ++ [')', ')'])) := by
      rw [← hs]; simp
    have hlen : s.length = a.length + b.length + c.length + 11 := by
      rw [hs0]; simp; omega
    unfold ParseCondition
    -- the atom `a` and the operator
    rw [atom_then_oper values ad true none st st1 s [] a
      (' ' :: '(' :: (b ++ ' ' :: '|' :: ' ' :: '!' :: '(' :: (c ++ [')', ')']))) '&' ca
      (s.length + 1) 0 (by rw [hs0]; simp) rfl (Or.inl rfl) ha hpa (by omega)]
    -- the space before the group
    rw [scan_text values ad true _ none _ st1 s (a ++ [' ', '&']) [' ']
      ('(' :: (b ++ ' ' :: '|' :: ' ' :: '!' :: '(' :: (c ++ [')', ')']))) _ _
      (by rw [hs0]; simp) (by simp) (by simp; omega) (by decide) (by simp)]
    -- the group
    obtain ⟨f1, hf1⟩ : ∃ f, s.length + 1 - (a.length + 2) - [' '].length = f + 1 :=
      ⟨b.length + c.length + 8, by simp; omega⟩
    rw [hf1, step_open s values ad f1 true _ _ none _ st1
      (getElem?_at s (a ++ [' ', '&', ' '])
        (b ++ ' ' :: '|' :: ' ' :: '!' :: '(' :: (c ++ [')', ')'])) '(' _
        (by rw [hs0]; simp) (by simp))]
    have hf1v : f1 = b.length + c.length + 8 := by simp at hf1; omega
    rw [atom_then_oper values ad false none st1 st2 s (a ++ [' ', '&', ' ', '(']) b
      (' ' :: '!' :: '(' :: (c ++ [')', ')'])) '|' cb f1 _ (by rw [hs0]; simp) (by simp)
      (Or.inr rfl) hb hpb (by omega)]
    rw [scan_text values ad false _ none _ st2 s
      (a ++ [' ', '&', ' ', '('] ++ b ++ [' ', '|']) [' ']
      ('!' :: '(' :: (c ++ [')', ')'])) _ _
      (by rw [hs0]; simp) (by simp; omega) (by simp; omega) (by decide) (by simp)]
    obtain ⟨f2, hf2⟩ : ∃ f, f1 - (b.length + 2) - [' '].length = f + 1 :=
      ⟨c.length + 4, by simp; omega⟩
    have hf2v : f2 = c.length + 4 := by simp at hf2; omega
    rw [hf2, step_bang_group s values ad f2 false _ _ none _ st2
      (getElem?_at s (a ++ [' ', '&', ' ', '('] ++ b ++ [' ', '|', ' '])
        ('(' :: (c ++ [')', ')'])) '!' _ (by rw [hs0]; simp) (by simp; omega))
      (by rw [hlen]; simp; omega)
      (getElem?_at s (a ++ [' ', '&', ' ', '('] ++ b ++ [' ', '|', ' ', '!'])
        (c ++ [')', ')']) '(' _ (by rw [hs0]; simp) (by simp; omega))]
    rw [group_atom_close values ad none st2 st3 s
      (a ++ [' ', '&', ' ', '('] ++ b ++ [' ', '|', ' ', '!', '(']) c [')'] cc f2 _
      (by rw [hs0]; simp) (by simp; omega) hc hpc (by omega)]
    simp only
    -- the bracket that closes the group
    obtain ⟨f3, hf3⟩ : ∃ f, f2 = f + 1 := ⟨c.length + 3, by omega⟩
    rw [hf3, step_close_group s values ad f3 _ _ _ _ st3
      (getElem?_at s (a ++ [' ', '&', ' ', '('] ++ b ++ [' ', '|', ' ', '!', '('] ++ c ++ [')'])
        [] ')' _ (by rw [hs0]; simp) (by simp; omega))]
    unfold finishCondition
    rw [if_neg (by rw [hlen]; simp; omega), if_neg (by rw [hlen]; simp; omega)]
    simp only [currentCondition, closeComparator]
    -- the end of the text
    obtain ⟨f4, hf4⟩ : ∃ f, f1 = f + 1 := ⟨b.length + c.length + 7, by omega⟩
    rw [hf4, step_end s values ad f4 true _ _ _ _ st3
      (by rw [List.getElem?_eq_none_iff, hlen]; simp; omega)]
    unfold finishCondition
    rw [if_neg (by simp), if_neg (by rw [hlen]; simp; omega)]
    simp only [currentCondition, closeComparator, ICondition.Invert]
    rfl
  · intro source va vb vc hva hvb hvc
    have hinv := Check_inverted cc source vc hvc
    simp only [ICondition.Check, hva, hvb, hinv]
    cases va <;> cases vb <;> cases vc <;> rfl

set_option maxRecDepth 16000 in
/-- The theorem `C25_group_negation` at the atoms `level >= ?0`, `entity == ?1` and
`level != ?0`. -/
theorem C25_group_negation_witness :
    ParseCondition ("level >= ?0".data ++ " & (".data ++ "entity == ?1".data ++ " | !(".data
        ++ "level != ?0".data ++ "))".data) testValues none freshState
      = .ok (.comparator .AND (.condition levelAtLeastOne)
          (.comparator .OR (.condition entityIsLog2)
            (.condition { levelNotOne with invert := !levelNotOne.invert }) false)
          false, stateWith ["level".data, "entity".data]) ∧
    ∀ (source : List Char → Option AnyValue) (va vb vc : Bool),
      levelAtLeastOne.Check source = .ok va → entityIsLog2.Check source = .ok vb →
      levelNotOne.Check source = .ok vc →
      (ICondition.comparator .AND (.condition levelAtLeastOne)
          (.comparator .OR (.condition entityIsLog2)
            (.condition { levelNotOne with invert := !levelNotOne.invert }) false)
          false).Check source = .ok (va && (vb || !vc)) :=
  C25_group_negation testValues none freshState (stateWith ["level".data])
    (stateWith ["level".data, "entity".data]) (stateWith ["level".data, "entity".data])
    "level >= ?0".data "entity == ?1".data "level != ?0".data
    levelAtLeastOne entityIsLog2 levelNotOne (by decide) (by decide) (by decide)
    (by decide) (by decide) (by decide)

set_option maxRecDepth 16000 in
/-- C25, counterexample: the atoms `level >= ?0`, `entity == ?1` and `level != ?0` are
each parsed, and `ParseCondition` rejects `a & (b | !c)` built from them with a
`BadRequest` error: a `!` that no `(` follows stays in the text of the atom. -/
theorem C25_counterexample :
    (ConditionParser.Parse "level >= ?0".data testValues none freshState).isOk = true ∧
    (ConditionParser.Parse "entity == ?1".data testValues none freshState).isOk = true ∧
    (ConditionParser.Parse "level != ?0".data testValues none freshState).isOk = true ∧
    ParseCondition "level >= ?0 & (entity == ?1 | !level != ?0)".data testValues none
      freshState = .error (.app .BadReq) ∧
    ParseCondition "level >= ?0 & (entity == ?1 | !entity == ?1)".data testValues none
      freshState = .error (.app .BadReq) := by
  decide


/-! ## Conditions that `ParseCondition` rejects -/

/-- A text without operators of conditions and brackets is parsed as one atom. -/
theorem whole_atom (values : List JsonValue) (ad : Option AggrData) (st : ParseState)
    (s : List Char) (hs : plainText s = true) (hne : s ≠ []) :
    ParseCondition s values ad st
      = match ConditionParser.Parse s values ad st with
        | .ok (c, st1) => .ok (.condition c, st1)
        | .error e => .error e := by
  obtain ⟨hchars, hlast⟩ := plainText_chars s hs
  have hpos : 0 < s.length := List.length_pos.mpr hne
  unfold ParseCondition
  rw [scan_text values ad true 0 none none st s [] s [] (s.length + 1) 0 (by simp) rfl
    (by omega) hchars (fun h => absurd h hlast)]
  have e : s.length + 1 - s.length = 0 + 1 := by omega
  rw [e, step_end s values ad 0 true _ 0 none none st
    (by rw [List.getElem?_eq_none_iff]; omega)]
  unfold finishCondition
  rw [if_neg (by simp), if_neg (by omega),
    currentCondition_atom s [] s [] values ad st _ 0 (by simp) rfl (by simp)]
  cases ConditionParser.Parse s values ad st with
  | error e => rfl
  | ok r => rfl

theorem group_unclosed (values : List JsonValue) (ad : Option AggrData)
    (k : Option (CmprOperator × ICondition)) (st : ParseState)
    (s pre a : List Char) (fuel i : Nat) (hs : s = pre ++ a) (hi : i = pre.length)
    (ha : plainText a = true) (hf : a.length + 1 ≤ fuel) :
    parseCondition s values ad fuel false i i none k st = .error (.app .BadReq) := by
  obtain ⟨hchars, hlast⟩ := plainText_chars a ha
  rw [scan_text values ad false i none k st s pre a [] fuel i (by rw [hs]; simp) hi
    (by omega) hchars (fun h => absurd h hlast)]
  obtain ⟨f, hfe⟩ : ∃ f, fuel - a.length = f + 1 := ⟨fuel - a.length - 1, by omega⟩
  have hlen : s.length = pre.length + a.length := by rw [hs]; simp
  rw [hfe, step_end s values ad f false _ i none k st
    (by rw [List.getElem?_eq_none_iff]; omega)]
  unfold finishCondition
  rw [if_pos ⟨rfl, by omega⟩]

theorem TrimSpace_head (c : Char) (r : List Char) (hc : isSpace c = false) :
    ∃ t, TrimSpace (c :: r) = c :: t := by
  unfold TrimSpace
  rw [List.dropWhile_cons_of_neg (by rw [hc]; simp)]
  have key : ∀ l : List Char, ∃ t, (l ++ [c]).dropWhile isSpace = t ++ [c] := by
    intro l
    induction l with
    | nil => exact ⟨[], by simp [hc]⟩
    | cons d rest ih =>
      by_cases hd : isSpace d = true
      · rw [List.cons_append, List.dropWhile_cons_of_pos hd]
        exact ih
      · rw [List.cons_append, List.dropWhile_cons_of_neg hd]
        exact ⟨d :: rest, rfl⟩
  obtain ⟨t, ht⟩ := key r.reverse
  rw [List.reverse_cons, ht]
  exact ⟨t.reverse, by simp⟩

theorem getOperant_greater (t : List Char) (values : List JsonValue) (ad : Option AggrData)
    (st : ParseState) : getOperant ('>' :: t) values ad st = .error (.app .BadReq) := by
  have hcol : GetColumnType ('>' :: t) = none := by
    simp +decide [GetColumnType]
  unfold getOperant
  by_cases h1 : ('>' :: t).length < 2
  · rw [if_pos h1]
  · rw [if_neg h1, if_neg (by simp)]
    cases ad with
    | none => simp only [hcol]
    | some ad =>
      simp only
      by_cases h2 : '>' :: t = ad.GropingField
      · rw [if_pos h2, hcol]
      · rw [if_neg h2]
        by_cases h3 : IndexByte ('>' :: t) '[' > -1 ∧ ('>' :: t).getLast? = some ']'
        · rw [if_pos h3]
          have hidx : 1 ≤ (IndexByte ('>' :: t) '[').toNat := by
            have := h3.1
            unfold IndexByte at this ⊢
            by_cases hm : '[' ∈ '>' :: t
            · rw [if_pos hm]
              rw [List.indexOf_cons_ne _ (by decide)]
              simp
            · rw [if_neg hm] at this
              omega
          have hagg : GetAggrType (('>' :: t).take (IndexByte ('>' :: t) '[').toNat) = none := by
            obtain ⟨n, hn⟩ : ∃ n, (IndexByte ('>' :: t) '[').toNat = n + 1 :=
              ⟨(IndexByte ('>' :: t) '[').toNat - 1, by omega⟩
            rw [hn, List.take_succ_cons]
            simp +decide [GetAggrType]
          rw [hagg]
        · rw [if_neg h3]

theorem find_unknown_equal (r : List Char) :
    operators.find? (fun op => op.1.isPrefixOf (('=' :: ' ' :: r).take 2)) = none := by
  simp +decide [operators]

theorem find_less (r : List Char) :
    operators.find? (fun op => op.1.isPrefixOf (('<' :: '>' :: r).take 2))
      = some ("<".data, .LESS_THAN) := by
  simp +decide [operators]

theorem Parse_unknown_equal (x y : List Char) (values : List JsonValue) (ad : Option AggrData)
    (st : ParseState) (hx : ∀ ch ∈ x, operFirstChars ch = false) :
    ConditionParser.Parse (x ++ " = ".data ++ y) values ad st = .error (.app .BadReq) := by
  have hs : x ++ " = ".data ++ y = (x ++ [' ']) ++ ('=' :: ' ' :: y) := by simp
  have hfind : findOper ((x ++ [' ']) ++ ('=' :: ' ' :: y)) = x.length + 1 := by
    rw [findOper_plain (x ++ [' ']) _ (fun ch hch => by
      rcases List.mem_append.mp hch with h | h
      · exact hx ch h
      · simp only [List.mem_singleton] at h; rw [h]; decide)]
    simp [findOper, operFirstChars]
  unfold ConditionParser.Parse splitConditionStr
  rw [hs, hfind, if_neg (by simp; omega)]
  have hdrop : ((x ++ [' ']) ++ ('=' :: ' ' :: y)).drop (x.length + 1) = '=' :: ' ' :: y := by
    rw [List.drop_left' (by simp)]
  rw [hdrop, find_unknown_equal]

theorem Parse_unknown_less_greater (x y : List Char) (values : List JsonValue)
    (ad : Option AggrData) (st st1 : ParseState) (o1 : Operant)
    (hx : ∀ ch ∈ x, operFirstChars ch = false)
    (hox : getOperant (TrimSpace x) values ad st = .ok (o1, st1)) :
    ConditionParser.Parse (x ++ " <> ".data ++ y) values ad st = .error (.app .BadReq) := by
  have hs : x ++ " <> ".data ++ y = (x ++ [' ']) ++ ('<' :: '>' :: ' ' :: y) := by simp
  have hfind : findOper ((x ++ [' ']) ++ ('<' :: '>' :: ' ' :: y)) = x.length + 1 := by
    rw [findOper_plain (x ++ [' ']) _ (fun ch hch => by
      rcases List.mem_append.mp hch with h | h
      · exact hx ch h
      · simp only [List.mem_singleton] at h; rw [h]; decide)]
    simp [findOper, operFirstChars]
  obtain ⟨t, ht⟩ := TrimSpace_head '>' (' ' :: y) (by decide)
  unfold ConditionParser.Parse splitConditionStr
  rw [hs, hfind, if_neg (by simp; omega)]
  have hdrop : ((x ++ [' ']) ++ ('<' :: '>' :: ' ' :: y)).drop (x.length + 1)
      = '<' :: '>' :: ' ' :: y := by
    rw [List.drop_left' (by simp)]
  have hdrop2 : ((x ++ [' ']) ++ ('<' :: '>' :: ' ' :: y)).drop (x.length + 1 + "<".data.length)
      = '>' :: ' ' :: y := by
    rw [← List.drop_drop, hdrop]
    rfl
  have htake : ((x ++ [' ']) ++ ('<' :: '>' :: ' ' :: y)).take (x.length + 1) = x ++ [' '] := by
    rw [List.take_left' (by simp)]
  rw [hdrop, find_less]
  simp only
  rw [hdrop2, htake, TrimSpace_concat_space ' ' (by decide), ht]
  have hne : TrimSpace x ≠ [] := by
    intro h
    rw [h] at hox
    cases hox
  rw [if_neg (fun h => h.elim hne (by simp))]
  simp only
  rw [hox]
  simp only
  rw [getOperant_greater]


/-- C26: for atoms `a` and `b` that hold none of `&`, `|`, `(`, `)`, with `a` parsed,
`ParseCondition` returns a `BadRequest` error for a condition with an unmatched `(`
(`(a`, `a & (b`), with an extra `)` (`a)`, `(a))`), with a `!` at its end (`a & !`) and
for an atom with an unknown operator (`x = y`, and `x <> y` for an operand `x`). -/
theorem C26_rejected_conditions (values : List JsonValue) (ad : Option AggrData)
    (st st1 : ParseState) (a b : List Char) (ca : Condition)
    (ha : plainText a = true) (hb : plainText b = true)
    (hpa : ConditionParser.Parse a values ad st = .ok (ca, st1)) :
    ParseCondition ("(".data ++ a) values ad st = .error (.app .BadReq) ∧
    ParseCondition (a ++ " & (".data ++ b) values ad st = .error (.app .BadReq) ∧
    ParseCondition (a ++ ")".data) values ad st = .error (.app .BadReq) ∧
    ParseCondition ("(".data ++ a ++ "))".data) values ad st = .error (.app .BadReq) ∧
    ParseCondition (a ++ " & !".data) values ad st = .error (.app .BadReq) ∧
    (∀ x y : List Char, (∀ ch ∈ x, operFirstChars ch = false) →
      plainText (x ++ " = ".data ++ y) = true →
      ParseCondition (x ++ " = ".data ++ y) values ad st = .error (.app .BadReq)) ∧
    (∀ (x y : List Char) (o1 : Operant) (st2 : ParseState),
      (∀ ch ∈ x, operFirstChars ch = false) →
      plainText (x ++ " <> ".data ++ y) = true →
      getOperant (TrimSpace x) values ad st = .ok (o1, st2) →
      ParseCondition (x ++ " <> ".data ++ y) values ad st = .error (.app .BadReq)) := by
  obtain ⟨hchars, hlast⟩ := plainText_chars a ha
  refine ⟨?_, ?_, ?_, ?_, ?_, ?_, ?_⟩
  · -- `(a`
    generalize hs : "(".data ++ a = s
    have hs0 : s = '(' :: a := by rw [← hs]; rfl
    have hlen : s.length = a.length + 1 := by rw [hs0]; simp
    unfold ParseCondition
    have e : s.length + 1 = (a.length + 1) + 1 := by omega
    rw [e, step_open s values ad _ true 0 0 none none st
      (getElem?_at s [] a '(' 0 hs0 rfl),
      group_unclosed values ad none st s ['('] a _ _ hs0 (by simp) ha (by omega)]
  · -- `a & (b`
    generalize hs : a ++ " & (".data ++ b = s
    have hs0 : s = a ++ ' ' :: '&' :: ' ' :: '(' :: b := by rw [← hs]; simp
    have hlen : s.length = a.length + b.length + 4 := by rw [hs0]; simp; omega
    unfold ParseCondition
    rw [atom_then_oper values ad true none st st1 s [] a (' ' :: '(' :: b) '&' ca
      (s.length + 1) 0 (by rw [hs0]; simp) rfl (Or.inl rfl) ha hpa (by omega)]
    rw [scan_text values ad true _ none _ st1 s (a ++ [' ', '&']) [' '] ('(' :: b) _ _
      (by rw [hs0]; simp) (by simp) (by simp; omega) (by decide) (by simp)]
    obtain ⟨f1, hf1⟩ : ∃ f, s.length + 1 - (a.length + 2) - [' '].length = f + 1 :=
      ⟨b.length + 1, by simp; omega⟩
    have hf1v : f1 = b.length + 1 := by simp at hf1; omega
    rw [hf1, step_open s values ad f1 true _ _ none _ st1
      (getElem?_at s (a ++ [' ', '&', ' ']) b '(' _ (by rw [hs0]; simp) (by simp)),
      group_unclosed values ad none st1 s (a ++ [' ', '&', ' ', '(']) b _ _
        (by rw [hs0]; simp) (by simp) hb (by omega)]
  · -- `a)`
    generalize hs : a ++ ")".data = s
    have hs0 : s = a ++ [')'] := by rw [← hs]
    have hlen : s.length = a.length + 1 := by rw [hs0]; simp
    unfold ParseCondition
    rw [scan_text values ad true 0 none none st s [] a [')'] _ 0 (by rw [hs0]; simp) rfl
      (by omega) hchars (fun h => absurd h hlast)]
    have e : s.length + 1 - a.length = 1 + 1 := by omega
    rw [e, step_close_main s values ad 1 _ 0 none none st
      (getElem?_at s a [] ')' _ hs0 (by simp))]
  · -- `(a))`
    generalize hs : "(".data ++ a ++ "))".data = s
    have hs0 : s = '(' :: (a ++ [')', ')']) := by rw [← hs]; rfl
    have hlen : s.length = a.length + 3 := by rw [hs0]; simp
    unfold ParseCondition
    have e : s.length + 1 = (a.length + 3) + 1 := by omega
    rw [e, step_open s values ad _ true 0 0 none none st
      (getElem?_at s [] (a ++ [')', ')']) '(' 0 hs0 rfl),
      group_atom_close values ad none st st1 s ['('] a [')'] ca _ _ (by rw [hs0]; simp)
        (by simp) ha hpa (by omega)]
    simp only
    have e2 : a.length + 3 = (a.length + 2) + 1 := by omega
    rw [e2, step_close_main s values ad _ _ 0 _ none st1
      (getElem?_at s ('(' :: (a ++ [')'])) [] ')' _ (by rw [hs0]; simp) (by simp; omega))]
  · -- `a & !`
    generalize hs : a ++ " & !".data = s
    have hs0 : s = a ++ ' ' :: '&' :: ' ' :: ['!'] := by rw [← hs]
    have hlen : s.length = a.length + 4 := by rw [hs0]; simp
    unfold ParseCondition
    rw [atom_then_oper values ad true none st st1 s [] a (' ' :: ['!']) '&' ca
      (s.length + 1) 0 (by rw [hs0]; simp) rfl (Or.inl rfl) ha hpa (by omega)]
    rw [scan_text values ad true _ none _ st1 s (a ++ [' ', '&']) [' '] ['!'] _ _
      (by rw [hs0]; simp) (by simp) (by simp; omega) (by decide) (by simp)]
    obtain ⟨f1, hf1⟩ : ∃ f, s.length + 1 - (a.length + 2) - [' '].length = f + 1 :=
      ⟨1, by simp; omega⟩
    rw [hf1, step_bang_end s values ad f1 true _ _ none _ st1
      (getElem?_at s (a ++ [' ', '&', ' ']) [] '!' _ (by rw [hs0]; simp) (by simp))
      (by rw [hlen]; simp)]
  · intro x y hx hplain
    rw [whole_atom values ad st _ hplain (by simp), Parse_unknown_equal x y values ad st hx]
  · intro x y o1 st2 hx hplain hox
    rw [whole_atom values ad st _ hplain (by simp),
      Parse_unknown_less_greater x y values ad st st2 o1 hx hox]

set_option maxRecDepth 16000 in
/-- The theorem `C26_rejected_conditions` at the atoms `level >= ?0` and `entity == ?1`,
with its last two parts at `level = ?0` and `level <> ?0`. -/
theorem C26_rejected_conditions_witness :
    ParseCondition "(level >= ?0".data testValues none freshState = .error (.app .BadReq) ∧
    ParseCondition "level >= ?0 & (entity == ?1".data testValues none freshState
      = .error (.app .BadReq) ∧
    ParseCondition "level >= ?0)".data testValues none freshState = .error (.app .BadReq) ∧
    ParseCondition "(level >= ?0))".data testValues none freshState = .error (.app .BadReq) ∧
    ParseCondition "level >= ?0 & !".data testValues none freshState = .error (.app .BadReq) ∧
    ParseCondition "level = ?0".data testValues none freshState = .error (.app .BadReq) ∧
    ParseCondition "level <> ?0".data testValues none freshState = .error (.app .BadReq) :=
  have h := C26_rejected_conditions testValues none freshState (stateWith ["level".data])
    "level >= ?0".data "entity == ?1".data levelAtLeastOne (by decide) (by decide) (by decide)
  ⟨h.1, h.2.1, h.2.2.1, h.2.2.2.1, h.2.2.2.2.1,
    h.2.2.2.2.2.1 "level".data "?0".data (by decide) (by decide),
    h.2.2.2.2.2.2 "level".data "?0".data levelOperant (stateWith ["level".data]) (by decide)
      (by decide) (by decide)⟩


/-- C27: `ParseCondition` panics on the empty string and on a condition that ends in its
operator, `a &` and `a |` for an atom `a` that is parsed and holds none of `&`, `|`, `(`,
`)`: the message of the error for a missing condition reads `s[*i]` with `*i` the length
of `s`. -/
theorem C27_empty_operand_panics (values : List JsonValue) (ad : Option AggrData)
    (st st1 : ParseState) (a : List Char) (ca : Condition) (op : Char)
    (hop : op = '&' ∨ op = '|')
    (ha : plainText a = true)
    (hpa : ConditionParser.Parse a values ad st = .ok (ca, st1)) :
    ParseCondition [] values ad st = .error .panic ∧
    finishCondition [] values ad true 0 0 none none st = .error .panic ∧
    ParseCondition (a ++ [' ', op]) values ad st = .error .panic ∧
    finishCondition (a ++ [' ', op]) values ad true (a.length + 2) (a.length + 2) none
      (some (if op = '|' then .OR else .AND, .condition ca)) st1 = .error .panic := by
  have hfin : finishCondition (a ++ [' ', op]) values ad true (a.length + 2) (a.length + 2)
      none (some (if op = '|' then .OR else .AND, .condition ca)) st1 = .error .panic := by
    unfold finishCondition
    rw [if_neg (by simp), if_pos (by simp), if_neg (by simp)]
  refine ⟨rfl, rfl, ?_, hfin⟩
  generalize hs : a ++ [' ', op] = s at hfin ⊢
  have hlen : s.length = a.length + 2 := by rw [← hs]; simp
  unfold ParseCondition
  rw [atom_then_oper values ad true none st st1 s [] a [] op ca (s.length + 1) 0
    (by rw [← hs]; simp) rfl hop ha hpa (by omega)]
  have e : s.length + 1 - (a.length + 2) = 0 + 1 := by omega
  rw [e, step_end s values ad 0 true _ _ _ _ st1
    (by rw [List.getElem?_eq_none_iff, hlen]; omega)]
  simp only [closeComparator, Nat.zero_add] at hfin ⊢
  rw [hfin]

set_option maxRecDepth 16000 in
/-- The theorem `C27_empty_operand_panics` at the atom `level >= ?0` and the operator
`&`. -/
theorem C27_empty_operand_panics_witness :
    ParseCondition [] testValues none freshState = .error .panic ∧
    finishCondition [] testValues none true 0 0 none none freshState = .error .panic ∧
    ParseCondition ("level >= ?0".data ++ [' ', '&']) testValues none freshState
      = .error .panic ∧
    finishCondition ("level >= ?0".data ++ [' ', '&']) testValues none true
      ("level >= ?0".data.length + 2) ("level >= ?0".data.length + 2) none
      (some (if '&' = '|' then .OR else .AND, .condition levelAtLeastOne))
      (stateWith ["level".data]) = .error .panic :=
  C27_empty_operand_panics testValues none freshState (stateWith ["level".data])
    "level >= ?0".data levelAtLeastOne '&' (Or.inl rfl) (by decide) (by decide)

set_option maxRecDepth 16000 in
/-- C27, the other cases: a condition that starts with an operator, `()`, and an atom
without its left or its right operand are rejected with a `BadRequest` error. -/
theorem C27_other_empty_operands :
    ParseCondition "& level >= ?0".data testValues none freshState = .error (.app .BadReq) ∧
    ParseCondition "()".data testValues none freshState = .error (.app .BadReq) ∧
    ParseCondition "== ?0".data testValues none freshState = .error (.app .BadReq) ∧
    ParseCondition "level ==".data testValues none freshState = .error (.app .BadReq) := by
  decide

/-! ## `JoinSlicesRevers` -/

theorem set_mid {α : Type} (A : List α) (y x : α) (suf : List α) :
    (A ++ y :: suf).set A.length x = A ++ x :: suf := by
  induction A with
  | nil => rfl
  | cons a rest ih => simp [ih]

theorem reversInner_spec {α : Type} : ∀ (r A suf : List α), r.length ≤ A.length →
    reversInner r (A ++ suf) ((A.length : Int) - 1)
      = some (A.take (A.length - r.length) ++ r.reverse ++ suf,
          ((A.length - r.length : Nat) : Int) - 1) := by
  intro r
  induction r with
  | nil =>
    intro A suf _
    simp [reversInner]
  | cons x rest ih =>
    intro A suf h
    simp only [List.length_cons] at h
    have hne : A ≠ [] := by
      intro h0; rw [h0] at h; simp at h
    obtain ⟨A1, y, rfl⟩ : ∃ A1 y, A = A1 ++ [y] :=
      ⟨A.dropLast, A.getLast hne, (List.dropLast_append_getLast hne).symm⟩
    simp only [List.length_append, List.length_singleton] at h ⊢
    have hk : (((A1.length + 1 : Nat) : Int) - 1) = (A1.length : Int) := by push_cast; ring
    rw [reversInner, hk]
    have hset : sliceSet (A1 ++ [y] ++ suf) (A1.length : Int) x = some (A1 ++ x :: suf) := by
      unfold sliceSet
      rw [if_pos ⟨by omega, by simp⟩]
      simp only [Int.toNat_ofNat, List.append_assoc, List.singleton_append]
      rw [set_mid]
    rw [hset]
    simp only
    rw [ih A1 (x :: suf) (by omega)]
    have e1 : A1.length + 1 - (rest.length + 1) = A1.length - rest.length := by omega
    rw [List.length_cons, e1, List.take_append_of_le_length (by omega)]
    simp

theorem reversOuter_spec {α : Type} : ∀ (rs : List (List α)) (A suf : List α),
    (rs.map List.length).sum ≤ A.length →
    (reversOuter rs (A ++ suf) ((A.length : Int) - 1)).map Prod.fst
      = some (A.take (A.length - (rs.map List.length).sum) ++ rs.reverse.flatten ++ suf) := by
  intro rs
  induction rs with
  | nil =>
    intro A suf _
    simp [reversOuter]
  | cons a rest ih =>
    intro A suf h
    simp only [List.map_cons, List.sum_cons] at h ⊢
    rw [reversOuter, reversInner_spec a.reverse A suf (by rw [List.length_reverse]; omega)]
    simp only [List.length_reverse, List.reverse_reverse]
    have hlen : (A.take (A.length - a.length)).length = A.length - a.length := by
      rw [List.length_take]; omega
    have := ih (A.take (A.length - a.length)) (a ++ suf) (by rw [hlen]; omega)
    rw [hlen] at this
    rw [List.append_assoc, this, List.take_take]
    have e : min (A.length - a.length - (rest.map List.length).sum) (A.length - a.length)
        = A.length - (a.length + (rest.map List.length).sum) := by omega
    rw [e]
    simp

/-- The slice that `JoinSlicesRevers` returns is the one that `JoinSlices` returns. -/
theorem JoinSlicesRevers_eq {α : Type} [Inhabited α] (arrs : List (List α)) :
    JoinSlicesRevers arrs = some (JoinSlices arrs) := by
  unfold JoinSlicesRevers JoinSlices
  have h := reversOuter_spec arrs.reverse
    (List.replicate (arrs.map List.length).sum (default : α)) []
    (by simp [List.sum_reverse])
  simp only [List.append_nil, List.length_replicate] at h
  rw [h]
  simp [List.sum_reverse]

/-- C38: `JoinSlicesRevers` returns for every list of slices what `JoinSlices` returns,
the slices one after another in their order, and not the reverse of it; so the processor
returns the logs of the order `-timestamp` in the order of `timestamp`. -/
theorem C38_JoinSlicesRevers_not_reversed :
    (∀ arrs : List (List Log), JoinSlicesRevers arrs = some (JoinSlices arrs)) ∧
    JoinSlicesRevers [[logAt 1, logAt 2], [logAt 3]] = some [logAt 1, logAt 2, logAt 3] ∧
    (JoinSlices [[logAt 1, logAt 2], [logAt 3]]).reverse = [logAt 3, logAt 2, logAt 1] ∧
    (∀ (sortPacks : SliceSort (List Log) packKey) (logPacks : List (List Log)),
      sortAndJoinLogPacks sortPacks logPacks false = sortAndJoinLogPacks sortPacks logPacks true) ∧
    (sortAndJoinLogPacks (insertionSliceSort _) [[logAt 3], [logAt 1, logAt 2]] false).map
      (fun logs => logs.map (fun l => l.Timestamp)) = some [1, 2, 3] := by
  have hjoin : ∀ arrs : List (List Log), JoinSlicesRevers arrs = some (JoinSlices arrs) :=
    fun arrs => JoinSlicesRevers_eq arrs
  refine ⟨hjoin, by decide, by decide, ?_, by decide⟩
  intro sortPacks logPacks
  unfold sortAndJoinLogPacks
  by_cases h1 : logPacks.length = 0
  · rw [if_pos h1, if_pos h1]
  · rw [if_neg h1, if_neg h1]
    by_cases h2 : 2 ≤ logPacks.length ∧ [] ∈ logPacks
    · rw [if_pos h2, if_pos h2]
    · rw [if_neg h2, if_neg h2]
      cases sortPacks.run logPacks with
      | nil => rfl
      | cons first rest =>
        simp only [Bool.false_eq_true, if_false, if_true, hjoin]

/-! ## `sortAndJoinLogPacks` -/

theorem eq_of_perm_of_map_eq {α : Type} (key : α → Int) : ∀ (l l' : List α),
    l.Pairwise (fun a b => key a < key b) → l'.Perm l → l'.map key = l.map key → l' = l := by
  intro l
  induction l with
  | nil =>
    intro l' _ hp _
    exact hp.eq_nil
  | cons a t ih =>
    intro l' hs hp hm
    cases l' with
    | nil => simp at hm
    | cons a' t' =>
      simp only [List.map_cons, List.cons.injEq] at hm
      have hmem : a' ∈ a :: t := hp.subset (List.mem_cons_self _ _)
      have ha : a' = a := by
        rcases List.mem_cons.mp hmem with h | h
        · exact h
        · have := (List.pairwise_cons.mp hs).1 a' h
          omega
      subst ha
      rw [ih t' (List.pairwise_cons.mp hs).2 ((List.perm_cons _).mp hp) hm.2]

/-- On a list whose keys are strictly ascending `sort.Slice` changes nothing. -/
theorem SliceSort.run_of_strict {α : Type} {key : α → Int} (s : SliceSort α key) (l : List α)
    (h : l.Pairwise (fun a b => key a < key b)) : s.run l = l := by
  apply eq_of_perm_of_map_eq key l _ h (s.perm l)
  have h1 : ((s.run l).map key).Sorted (· ≤ ·) := (List.pairwise_map.mpr (s.sorted l))
  have h2 : (l.map key).Sorted (· ≤ ·) :=
    List.pairwise_map.mpr (h.imp (fun hab => le_of_lt hab))
  exact List.eq_of_perm_of_sorted ((s.perm l).map key) h1 h2

set_option maxRecDepth 8000 in
/-- C37: for the packs with the timestamps 1, 100 and 2, 3 and 4, 5, each of them sorted,
`sortAndJoinLogPacks(true)` returns the logs in the order 1, 2, 3, 100, 4, 5, whatever
`sort.Slice` does with equal keys: the pack 4, 5 is compared with the pack before it only,
and not with the pack 1, 100 that reaches over it. The result holds the logs of the packs
and is not in timestamp order. -/
theorem C37_overlapping_packs_unsorted :
    (∀ pack ∈ overlapPacks, pack.Sorted (fun a b => a.Timestamp ≤ b.Timestamp)) ∧
    (∀ sortPacks : SliceSort (List Log) packKey,
      sortAndJoinLogPacks sortPacks overlapPacks true
        = some [logAt 1, logAt 2, logAt 3, logAt 100, logAt 4, logAt 5]) ∧
    [logAt 1, logAt 2, logAt 3, logAt 100, logAt 4, logAt 5].Perm (JoinSlices overlapPacks) ∧
    ¬ [logAt 1, logAt 2, logAt 3, logAt 100, logAt 4, logAt 5].Sorted
        (fun a b => a.Timestamp ≤ b.Timestamp) := by
  refine ⟨by decide, ?_, by decide, by decide⟩
  intro sortPacks
  unfold sortAndJoinLogPacks
  rw [SliceSort.run_of_strict sortPacks overlapPacks (by decide)]
  decide

set_option maxRecDepth 16000 in
/-- C39: the logs with the traces `["a,b"]` and `["a", "b"]` both pass `Validate`, their
values of the column `traces` differ, and `ToOrderedValue` gives both the key `a,b`;
`Groups.Update` puts the two logs into one group, whose count is 2. -/
theorem C39_group_key_not_injective :
    (tracedLog 1 ["a,b"]).Validate = true ∧ (tracedLog 2 ["a", "b"]).Validate = true ∧
    (tracedLog 1 ["a,b"]).GetValue "traces".data ≠ (tracedLog 2 ["a", "b"]).GetValue "traces".data ∧
    ToOrderedValue (.strs ["a,b".data]) = .str "a,b".data ∧
    ToOrderedValue (.strs ["a".data, "b".data]) = .str "a,b".data ∧
    (groupsUpdateAll [tracedLog 1 ["a,b"], tracedLog 2 ["a", "b"]] traceCountGroups).map
        (fun g => g.groups)
      = .ok [(.str "a,b".data, [("count[]".data, .Count 2 none)])] ∧
    (∀ (x y : List Char) (rest : List (List Char)),
      ToOrderedValue (.strs (x :: y :: rest))
        = ToOrderedValue (.strs ((x ++ ',' :: y) :: rest))) := by
  refine ⟨by decide, by decide, by decide, by decide, by decide, by decide, ?_⟩
  intro x y rest
  cases rest with
  | nil => simp [ToOrderedValue, List.intercalate]
  | cons z more => simp [ToOrderedValue, List.intercalate]

/-! ## The aggregator `Avg` -/

theorem updateAll_Avg (column : List Char) (condition : Option ICondition)
    (hcol : GetColumnType column = some .INT) : ∀ (logs : List Log) (sum count : Int),
    (∀ l ∈ logs, passes condition l ≠ .error .panic) →
    updateAll logs (.Avg sum count column condition)
      = .ok (.Avg (((satisfying condition logs).map (columnValue column)).foldl
            (fun acc v => wrapInt64 (acc + v)) sum)
          ((satisfying condition logs).foldl (fun acc _ => wrapInt64 (acc + 1)) count)
          column condition) := by
  intro logs
  induction logs with
  | nil => intro sum count _; rfl
  | cons l rest ih =>
    intro sum count hnp
    unfold updateAll
    rw [updateDropErr_cases (.Avg sum count column condition) l condition
      (.Avg (wrapInt64 (sum + columnValue column l)) (wrapInt64 (count + 1)) column condition) ?_
      (hnp l (List.mem_cons_self _ _))]
    · simp only
      by_cases hp : passes condition l = .ok true
      · rw [if_pos hp, ih _ _ (fun x hx => hnp x (List.mem_cons_of_mem _ hx))]
        simp [satisfying, List.filter_cons, hp]
      · rw [if_neg hp, ih _ _ (fun x hx => hnp x (List.mem_cons_of_mem _ hx))]
        simp [satisfying, List.filter_cons, hp]
    · intro r hr
      simp only [IAggregator.Update, hr, columnInt_of_INT column l hcol]

theorem tdiv_bounds (s n : Int) (hn : 1 ≤ n) :
    (0 ≤ s → 0 ≤ s.tdiv n ∧ s.tdiv n ≤ s) ∧ (s ≤ 0 → s ≤ s.tdiv n ∧ s.tdiv n ≤ 0) := by
  constructor
  · intro hs
    rw [Int.tdiv_eq_ediv hs (by omega)]
    exact ⟨Int.ediv_nonneg hs (by omega), Int.ediv_le_self _ hs⟩
  · intro hs
    have e : s.tdiv n = -((-s).tdiv n) := by rw [Int.neg_tdiv, neg_neg]
    have h2 : 0 ≤ -s := by omega
    rw [e, Int.tdiv_eq_ediv h2 (by omega)]
    have := Int.ediv_nonneg h2 (show 0 ≤ n by omega)
    have := Int.ediv_le_self n h2
    omega

/-- C34: after `Update` has been called on each log of a list, none of the calls
panicking, `Avg.GetResult` panics with a division by zero when no log satisfies the
condition of the aggregator (and so for an empty list); when logs satisfy it and the sum
of their values fits `int64`, it returns the quotient of the sum and their number,
rounded towards zero. -/
theorem C34_Avg_division_by_zero (logs : List Log) (column : List Char)
    (condition : Option ICondition) (hcol : GetColumnType column = some .INT)
    (hnp : ∀ l ∈ logs, passes condition l ≠ .error .panic) :
    (satisfying condition logs = [] →
      resultAfter logs (.Avg 0 0 column condition) = .error .panic) ∧
    (satisfying condition logs ≠ [] →
      MinInt64 ≤ ((satisfying condition logs).map (columnValue column)).sum →
      ((satisfying condition logs).map (columnValue column)).sum ≤ MaxInt64 →
      ((satisfying condition logs).length : Int) ≤ MaxInt64 →
      resultAfter logs (.Avg 0 0 column condition)
        = .ok (.int ((((satisfying condition logs).map (columnValue column)).sum).tdiv
            ((satisfying condition logs).length : Int)))) := by
  have hw0 : wrapInt64 0 = 0 := by decide
  have hupd := updateAll_Avg column condition hcol logs 0 0 hnp
  have hs := foldl_wrap_sum ((satisfying condition logs).map (columnValue column)) 0
  have hc := foldl_wrap_count (satisfying condition logs) 0
  rw [hw0, zero_add] at hs hc
  rw [hs, hc] at hupd
  unfold resultAfter
  rw [hupd]
  simp only [IAggregator.GetResult]
  constructor
  · intro h0
    rw [h0]
    rfl
  · intro hne h1 h2 h3
    unfold MinInt64 at h1
    unfold MaxInt64 at h2 h3
    have hlen : 1 ≤ ((satisfying condition logs).length : Int) := by
      have : 0 < (satisfying condition logs).length := List.length_pos.mpr hne
      omega
    have e1 := wrapInt64_of_range (((satisfying condition logs).map (columnValue column)).sum)
      (by omega) (by omega)
    have e2 := wrapInt64_of_range ((satisfying condition logs).length : Int) (by omega)
      (by omega)
    rw [e1, e2, if_neg (by omega)]
    have hb := tdiv_bounds (((satisfying condition logs).map (columnValue column)).sum)
      ((satisfying condition logs).length : Int) hlen
    rw [wrapInt64_of_range _ (by
        rcases le_total 0 (((satisfying condition logs).map (columnValue column)).sum) with h | h
        · have := (hb.1 h).1; omega
        · have := (hb.2 h).1; omega)
      (by
        rcases le_total 0 (((satisfying condition logs).map (columnValue column)).sum) with h | h
        · have := (hb.1 h).2; omega
        · have := (hb.2 h).2; omega)]

set_option maxRecDepth 16000 in
/-- The theorem `C34_Avg_division_by_zero` on the logs of `TestProcessor`: no log has a
level above 5, and the logs with a level above 1 have the levels 2 and 3; in the grouped
query the group of `trace1` has no log with a level above 1. -/
theorem C34_Avg_division_by_zero_witness :
    resultAfter testProcessorLogs (.Avg 0 0 "level".data (some levelAboveOne)) = .ok (.int 2) ∧
    resultAfter (testProcessorLogs.take 2) (.Avg 0 0 "level".data (some levelAboveOne))
      = .error .panic ∧
    groupResults testClock avgLevelQuery testProcessorLogs
      = .ok [(.str "trace1".data, [("avg[level, level > ?0]".data, .error .panic)]),
             (.str "trace2".data, [("avg[level, level > ?0]".data, .ok (.int 2))])] :=
  ⟨((C34_Avg_division_by_zero testProcessorLogs "level".data (some levelAboveOne) (by decide)
      (by decide)).2 (by decide) (by decide) (by decide) (by decide)).trans (by decide),
   (C34_Avg_division_by_zero (testProcessorLogs.take 2) "level".data (some levelAboveOne)
      (by decide) (by decide)).1 (by decide),
   by decide⟩

/-! ## The choice of the path in `updateHandler` -/

/-- An update of a storage with blocks while metas are counted as deleted, the count being
below ten times the new length, leaves the count at zero: it has taken the path of
`updateAndReconstruct`. -/
theorem updateHandler_reconstructs (lib : Lib) (mm mm' : MetasMap) (task : UpdateStateTask)
    (hblocks : (mm.state.Get task.Storage).1.length > 0)
    (hver : (mm.state.Get task.Storage).2 ≠ 0)
    (hdc : 0 < mm.deletedCount)
    (hlen : mm.deletedCount
      < 10 * (mm.metasLen (mm.state.Get task.Storage).1 + task.ForAdd.length))
    (h : mm.updateHandler lib task = some mm') : mm'.deletedCount = 0 := by
  unfold MetasMap.updateHandler at h
  cases hg : mm.state.Get task.Storage with
  | mk blocks version =>
    rw [hg] at hblocks hver hlen h
    simp only at hblocks hver hlen h
    rw [if_neg hver, if_neg (by omega)] at h
    have hr : ratioAboveTenth (mm.metasLen blocks + task.ForAdd.length) mm.deletedCount = true := by
      unfold ratioAboveTenth
      exact decide_eq_true hlen
    have hcond : mm.deletedCount > 0 ∧
        ratioAboveTenth (mm.metasLen blocks + task.ForAdd.length) mm.deletedCount = true :=
      ⟨hdc, hr⟩
    simp only [if_pos hblocks, if_pos hcond] at h
    cases hc : mm.calcIndices (mm.metasLen blocks + task.ForAdd.length - 1) with
    | none => rw [hc] at h; cases h
    | some p =>
      obtain ⟨lastBlockIdx, q⟩ := p
      rw [hc] at h
      simp only at h
      by_cases h1 : lastBlockIdx + 1 < 0
      · rw [if_pos h1] at h; cases h
      · rw [if_neg h1] at h
        cases hu : mm.updateAndReconstruct (List.replicate (lastBlockIdx + 1).toNat []) blocks
            (lib.sortMetas.run task.ForUpdate) with
        | none => rw [hu] at h; cases h
        | some r =>
          obtain ⟨nb, index, deleted, dc⟩ := r
          have hdc0 : dc = 0 := by
            unfold MetasMap.updateAndReconstruct at hu
            by_cases hneg : mm.blockMaxSize < 0
            · rw [if_pos hneg] at hu; cases hu
            · rw [if_neg hneg] at hu
              cases hb0 : blocksSet (List.replicate (lastBlockIdx + 1).toNat []) 0 [] with
              | none => rw [hb0] at hu; cases hu
              | some nb0 =>
                rw [hb0] at hu
                simp only at hu
                cases hl : reconstructLoop mm.blockMaxSize blocks.flatten nb0 0 0
                    (lib.sortMetas.run task.ForUpdate) [] with
                | none => rw [hl] at hu; cases hu
                | some r2 =>
                  rw [hl] at hu
                  simp only [Option.some.injEq, Prod.mk.injEq] at hu
                  exact hu.2.2.2.symm
          rw [hu] at h
          simp only at h
          cases hc2 : mm.calcIndices (index - 1) with
          | none => rw [hc2] at h; cases h
          | some p2 =>
            rw [hc2] at h
            simp only at h
            cases ha : addLoop mm task.ForAdd index p2.1 nb with
            | none => rw [ha] at h; cases h
            | some r3 =>
              rw [ha] at h
              simp only at h
              cases hs : slice r3.1 0 (r3.2.2 + 1) with
              | none => rw [hs] at h; cases h
              | some nb2 =>
                rw [hs] at h
                simp only at h
                split_ifs at h <;>
                · injection h with h
                  rw [← h, hdc0]

set_option maxRecDepth 16000 in
/-- C40: `updateHandler` takes the path of `updateAndReconstruct` when the count of the
deleted metas is positive and the new length divided by the count is above one tenth,
which holds for every count that is not above the new length. For the storage of ten
metas with one of them marked deleted the count, 1, is not above 10 / 10, and the update
drops the deleted meta and resets the count, where the path of `update` keeps the ten
metas and the count. -/
theorem C40_reconstruct_condition :
    (∀ newLen deletedCount : Int, 0 < deletedCount →
      (ratioAboveTenth newLen deletedCount = true ↔ deletedCount < 10 * newLen)) ∧
    (∀ newLen deletedCount : Int, 0 < deletedCount → deletedCount ≤ newLen →
      ratioAboveTenth newLen deletedCount = true) ∧
    (∀ newLen deletedCount : Int, 0 < deletedCount → deletedCount ≤ newLen / 10 →
      ratioAboveTenth newLen deletedCount = true ∧ ¬ (deletedCount > newLen / 10)) ∧
    tenMetasMap.deletedCount = 1 ∧
    tenMetasMap.metasLen (tenMetasMap.state.Get "storage").1 + idleTask.ForAdd.length = 10 ∧
    ¬ ((1 : Int) > 10 / 10) ∧
    (tenMetasMap.updateHandler testLib idleTask).map
      (fun m => (m.deletedCount, (mapGet m.state.metasMap "storage").map
        (fun bs => bs.map (fun b => b.map (fun x => x.ID)))))
      = some (0, some [[2, 3, 4, 5, 6], [7, 8, 9, 10]]) ∧
    (tenMetasMap.update (List.replicate 2 []) (tenMetasMap.state.Get "storage").1 []).map
      (fun r => (r.2.2.2, r.1.map (fun b => b.map (fun x => x.ID))))
      = some (1, [[1, 2, 3, 4, 5], [6, 7, 8, 9, 10]]) := by
  refine ⟨?_, ?_, ?_, by decide, by decide, by decide, by decide, by decide⟩
  · intro newLen deletedCount _
    unfold ratioAboveTenth
    simp
  · intro newLen deletedCount h1 h2
    unfold ratioAboveTenth
    exact decide_eq_true (by omega)
  · intro newLen deletedCount h1 h4
    unfold ratioAboveTenth
    exact ⟨decide_eq_true (by omega), by omega⟩

set_option maxRecDepth 8000 in
/-- C32: a storage with one meta, once an update has marked the meta deleted and the next
update, with no metas or with the same deleted meta again, has dropped it, is published
with the block list of one empty block. On this state `Find` panics for every chunk id
and `GetLastVersionMetas` panics for every list of metas that is not empty: the binary
search reads the first meta of the first block. For comparison, a storage of three metas
whose last one is marked deleted and dropped keeps no empty block. -/
theorem C32_empty_block_published :
    (loneMetasMap.updateHandler testLib removingTask).bind
        (fun m => m.updateHandler testLib idleTask) = some emptiedMetasMap ∧
    (loneMetasMap.updateHandler testLib removingTask).bind
        (fun m => m.updateHandler testLib removingTask) = some emptiedMetasMap ∧
    emptiedMetasMap.state.Get "storage" = ([[]], 4) ∧
    (∀ chunkID : Nat, emptiedMetasMap.Find "storage" chunkID = none) ∧
    (∀ (mt : Meta) (rest : List Meta),
      emptiedMetasMap.GetLastVersionMetas "storage" (mt :: rest) = none) ∧
    ((removingMetasMap.updateHandler testLib
          { Storage := "storage", ForUpdate := [metaVer 3 2 true], ForAdd := [] }).bind
        (fun m => m.updateHandler testLib idleTask)).map
      (fun m => mapGet m.state.metasMap "storage")
      = some (some [[metaVer 1 1 false, metaVer 2 1 false]]) :=
  ⟨by decide, by decide, by decide, fun _ => rfl, fun _ _ => rfl, by decide⟩

/-! ## `DeleteByTimeRange` on a chunk with every record in the range -/

/-- C33: for a sealed chunk whose time range the deletion range does not cover while
every record of the chunk lies in the deletion range, `DeleteByTimeRange` does not
return: `GetLogsOutOfRange` leaves no record and `WriteNewVersionChunk` reads `logs[0]`
of the empty list. -/
theorem C33_rewrite_with_no_record_panics (lib : Lib) (sw : Writer) (storage : String)
    (mt : Meta) (tr : TimeRange) (b : Backuper) (w : World)
    (hsealed : mt.Offsets = none)
    (hlen : mt.LogsLen = ((w.chunks (chunkPath storage mt)).rows.length : Int))
    (hsorted : (w.chunks (chunkPath storage mt)).rows.Sorted
      (fun a b => a.Timestamp ≤ b.Timestamp))
    (hnot : IsInside tr mt.TimeRange = false)
    (hall : ∀ l ∈ (w.chunks (chunkPath storage mt)).rows, tr.Contains l.Timestamp)
    (htr : tr.Start = 0 ∨ tr.End = 0 ∨ tr.Start ≤ tr.End) :
    GetLogsOutOfRange lib (w.chunks (chunkPath storage mt)).rows tr true = some [] ∧
    (∀ b1 w1, sw.WriteNewVersionChunk lib storage mt [] b1 w1 = none) ∧
    DeleteByTimeRange lib sw storage mt tr b w = none := by
  have hout : GetLogsOutOfRange lib (w.chunks (chunkPath storage mt)).rows tr true = some [] := by
    rw [GetLogsOutOfRange_sorted lib _ tr hsorted htr]
    congr 1
    rw [List.filter_eq_nil_iff]
    intro l hl
    simp [hall l hl]
  refine ⟨hout, fun _ _ => rfl, ?_⟩
  unfold DeleteByTimeRange
  simp only [hnot, Bool.false_eq_true, if_false]
  have hread : ReadChunk storage mt w =
      some ((w.chunks (chunkPath storage mt)).rows,
        w.emit (FsEvent.readColumns (chunkPath storage mt))) := by
    unfold ReadChunk
    have hc : 0 ≤ mt.LogsLen ∧ mt.LogsLen ≤ ((w.chunks (chunkPath storage mt)).rows.length : Int) := by
      omega
    rw [if_pos hc, hlen, Int.toNat_ofNat, List.take_length]
  rw [hread]
  simp only [hsealed, beq_self_eq_true, hout]
  rfl

set_option maxRecDepth 8000 in
/-- The theorem `C33_rewrite_with_no_record_panics` on the second chunk that
`TestWriterAndReader` leaves: it holds the records 1, 3, 8 under the time range from 1
to 9, since the meta of a new chunk starts from the timestamp of the first log of the
task; the deletion range is 1 to 8. -/
theorem C33_rewrite_with_no_record_panics_witness :
    seedSecondMeta ∈ seedMetas ∧
    (seedWorld.chunks (chunkPath "storage" seedSecondMeta)).rows = [logAt 1, logAt 3, logAt 8] ∧
    IsInside ⟨1, 8⟩ seedSecondMeta.TimeRange = false ∧
    GetLogsOutOfRange testLib (seedWorld.chunks (chunkPath "storage" seedSecondMeta)).rows
      ⟨1, 8⟩ true = some [] ∧
    DeleteByTimeRange testLib ⟨3⟩ "storage" seedSecondMeta ⟨1, 8⟩ (NewBackuper "del_t")
      seedWorld = none :=
  have h := C33_rewrite_with_no_record_panics testLib ⟨3⟩ "storage" seedSecondMeta ⟨1, 8⟩
    (NewBackuper "del_t") seedWorld (by decide) (by decide) (by decide) (by decide)
    (by decide) (by decide)
  ⟨by decide, by decide, by decide, h.1, h.2.2⟩

/-! ## `Backuper.Cancel` without a staged file -/

/-- C35: a `Backuper` whose cancel journal exists and has been applied by a `Cancel`
keeps the journal object with no action, and the file of the journal is removed; the
next `Cancel`, with nothing staged in between, does not complete: `Commit` writes no file
for a journal without actions and `Apply` ends with the removal of that file, which is
fatal when the file does not exist. -/
theorem C35_second_cancel_is_fatal (b : Backuper) (w : World) (acts : List ChunkPath)
    (r : Backuper × World) (hc : b.cancelTx = some acts) (h : b.Cancel w = some r) :
    r.1.cancelTx = some [] ∧ r.2.journals r.1.name = none ∧ r.1.Cancel r.2 = none := by
  unfold Backuper.Cancel at h
  rw [hc] at h
  simp only at h
  split at h
  · cases h
  · injection h with h
    subst h
    refine ⟨rfl, ?_, ?_⟩
    · simp [World.emit]
    · simp [Backuper.Cancel, World.emit]

set_option maxRecDepth 16000 in
/-- The theorem `C35_second_cancel_is_fatal` in the delete task of `TestDeleter` with the
condition `level == 1` and no time range: the first chunk is rewritten and its `Cancel`
completes, the second `Cancel`, after the rewrite of the second chunk, completes as well,
the third chunk has no log of level 1, nothing is staged for it, and the task does not
complete. -/
theorem C35_second_cancel_is_fatal_witness :
    (∃ r r1, DeleteByCondition testLib ⟨4⟩ "storage" (sealedMeta 1 4 ⟨1, 4⟩) ⟨0, 0⟩ levelIsOne
        (NewBackuper "del_t") deleterWorld = some r ∧ r.1 = true ∧
      r.2.2.1.Cancel r.2.2.2 = some r1 ∧
      r1.1.cancelTx = some [] ∧ r1.2.journals r1.1.name = none ∧ r1.1.Cancel r1.2 = none) ∧
    (deleterLoop testLib ⟨4⟩ deleterMetasMap "storage" ⟨0, 0⟩ (some levelIsOne)
        (deleterMetas.take 2) (NewBackuper "del_t") deleterWorld []).isSome = true ∧
    (deleterLoop testLib ⟨4⟩ deleterMetasMap "storage" ⟨0, 0⟩ (some levelIsOne)
        deleterMetas (NewBackuper "del_t") deleterWorld []).isNone = true := by
  refine ⟨?_, by decide, by decide⟩
  cases hd : DeleteByCondition testLib ⟨4⟩ "storage" (sealedMeta 1 4 ⟨1, 4⟩) ⟨0, 0⟩ levelIsOne
      (NewBackuper "del_t") deleterWorld with
  | none =>
    have : (DeleteByCondition testLib ⟨4⟩ "storage" (sealedMeta 1 4 ⟨1, 4⟩) ⟨0, 0⟩ levelIsOne
      (NewBackuper "del_t") deleterWorld).isSome = true := by decide
    rw [hd] at this
    cases this
  | some r =>
    have hdel : r.1 = true := by
      have : (DeleteByCondition testLib ⟨4⟩ "storage" (sealedMeta 1 4 ⟨1, 4⟩) ⟨0, 0⟩ levelIsOne
        (NewBackuper "del_t") deleterWorld).map (fun x => x.1) = some true := by decide
      rw [hd] at this
      simpa using this
    have hct : r.2.2.1.cancelTx = some [⟨"storage", 1, 2⟩] := by
      have : (DeleteByCondition testLib ⟨4⟩ "storage" (sealedMeta 1 4 ⟨1, 4⟩) ⟨0, 0⟩ levelIsOne
        (NewBackuper "del_t") deleterWorld).map (fun x => x.2.2.1.cancelTx)
          = some (some [⟨"storage", 1, 2⟩]) := by decide
      rw [hd] at this
      simpa using this
    cases hcan : r.2.2.1.Cancel r.2.2.2 with
    | none =>
      have : ((DeleteByCondition testLib ⟨4⟩ "storage" (sealedMeta 1 4 ⟨1, 4⟩) ⟨0, 0⟩
        levelIsOne (NewBackuper "del_t") deleterWorld).bind
          (fun x => x.2.2.1.Cancel x.2.2.2)).isSome = true := by decide
      rw [hd] at this
      change (r.2.2.1.Cancel r.2.2.2).isSome = true at this
      rw [hcan] at this
      cases this
    | some r1 =>
      have h := C35_second_cancel_is_fatal r.2.2.1 r.2.2.2 _ r1 hct hcan
      exact ⟨r, r1, rfl, hdel, hcan, h.1, h.2.1, h.2.2⟩

/-! ## The framing of a column file -/

theorem uint16LE_lenToBytes (data : List Nat) (h : data.length < 65536) :
    uint16LE (lenToBytes data) = data.length := by
  unfold uint16LE lenToBytes
  simp only [List.getD_cons_zero, List.getD_cons_succ]
  omega

theorem getLine_frame (pre data post : List Nat) (h : data.length < 65536) :
    getLine (pre ++ (lenToBytes data ++ data) ++ post) (pre.length : Int)
      = .ok (data, ((pre ++ (lenToBytes data ++ data)).length : Int)) := by
  have hlb : (lenToBytes data).length = 2 := rfl
  have hlen : (pre ++ (lenToBytes data ++ data) ++ post).length
      = pre.length + 2 + data.length + post.length := by
    simp only [List.length_append, hlb]; omega
  unfold getLine
  rw [if_neg (by rw [hlen]; omega)]
  have e1 : (pre.length : Int) + 2 = ((pre.length + 2 : Nat) : Int) := by push_cast; ring
  have hs1 : slice (pre ++ (lenToBytes data ++ data) ++ post) (pre.length : Int)
      ((pre.length : Int) + 2) = some (lenToBytes data) := by
    rw [e1, slice_nat _ _ _ (by omega) (by rw [hlen]; omega)]
    congr 1
    rw [List.append_assoc, List.drop_left', List.append_assoc, List.take_left']
    · rw [hlb]; omega
    · rfl
  rw [hs1]
  simp only
  rw [uint16LE_lenToBytes data h]
  have e2 : (pre.length : Int) + 2 + (data.length : Int)
      = ((pre.length + 2 + data.length : Nat) : Int) := by push_cast; ring
  rw [if_neg (by rw [hlen]; push_cast; omega)]
  have hs2 : slice (pre ++ (lenToBytes data ++ data) ++ post) ((pre.length : Int) + 2)
      ((pre.length : Int) + 2 + (data.length : Int)) = some data := by
    rw [e2, e1, slice_nat _ _ _ (by omega) (by rw [hlen]; omega)]
    congr 1
    have e3 : pre ++ (lenToBytes data ++ data) ++ post
        = (pre ++ lenToBytes data) ++ (data ++ post) := by simp
    rw [e3, List.drop_left' (by rw [List.length_append, hlb]), List.take_left' (by omega)]
  rw [hs2]
  simp only [List.length_append, hlb]
  congr 2
  push_cast
  ring

theorem readLines_frames : ∀ (datas : List (List Nat)) (pre post : List Nat),
    (∀ data ∈ datas, data.length < 65536) →
    readLines (pre ++ columnFrames datas ++ post) datas.length (pre.length : Int)
      = .ok (datas, ((pre ++ columnFrames datas).length : Int)) := by
  intro datas
  induction datas with
  | nil =>
    intro pre post _
    simp [readLines, columnFrames]
  | cons data rest ih =>
    intro pre post h
    have hd := h data (List.mem_cons_self _ _)
    have e : pre ++ columnFrames (data :: rest) ++ post
        = pre ++ (lenToBytes data ++ data) ++ (columnFrames rest ++ post) := by
      simp [columnFrames]
    have e' : pre ++ columnFrames (data :: rest) ++ post
        = (pre ++ (lenToBytes data ++ data)) ++ columnFrames rest ++ post := by
      simp [columnFrames]
    rw [List.length_cons, readLines, e, getLine_frame pre data _ hd]
    simp only
    rw [← e, e', ih (pre ++ (lenToBytes data ++ data)) post
      (fun x hx => h x (List.mem_cons_of_mem _ hx))]
    simp [columnFrames]

/-- C31: for every list of byte strings each shorter than 65 536 bytes, `n` successive
calls of `getLine` on the bytes that `columnWriter` appends for them, the length of every
string in two bytes and the string, return the strings in their order, and the index
after the last call is the length of the data; this holds as well behind the frames that
the file held before. -/
theorem C31_framing_round_trip (datas : List (List Nat))
    (h : ∀ data ∈ datas, data.length < 65536) :
    readLines (columnFrames datas) datas.length 0
      = .ok (datas, ((columnFrames datas).length : Int)) ∧
    (∀ earlier : List (List Nat),
      readLines (columnFrames (earlier ++ datas)) datas.length
          ((columnFrames earlier).length : Int)
        = .ok (datas, ((columnFrames (earlier ++ datas)).length : Int))) := by
  constructor
  · have := readLines_frames datas [] [] h
    simpa using this
  · intro earlier
    have := readLines_frames datas (columnFrames earlier) [] h
    have e : columnFrames (earlier ++ datas) = columnFrames earlier ++ columnFrames datas := by
      simp [columnFrames]
    rw [e]
    simpa using this

/-- The theorem `C31_framing_round_trip` on three byte strings, one of them empty and one
of 300 bytes. -/
theorem C31_framing_round_trip_witness :
    readLines (columnFrames [[1, 2, 3], [], List.replicate 300 7]) 3 0
      = .ok ([[1, 2, 3], [], List.replicate 300 7],
          ((columnFrames [[1, 2, 3], [], List.replicate 300 7]).length : Int)) ∧
    lenToBytes (List.replicate 300 7) = [44, 1] ∧
    columnFrames [[1, 2, 3], []] = [3, 0, 1, 2, 3, 0, 0] :=
  ⟨(C31_framing_round_trip [[1, 2, 3], [], List.replicate 300 7] (by
      intro data hd
      simp only [List.mem_cons, List.mem_singleton, List.not_mem_nil, or_false] at hd
      rcases hd with rfl | rfl | rfl
      · decide
      · decide
      · rw [List.length_replicate]; decide)).1,
   by rw [lenToBytes, List.length_replicate],
   by decide⟩

/-! ## `updateAndReconstruct` and `update` on the same blocks -/

/-- The loop of `updateAndReconstruct` on packed blocks is its flat form. -/
theorem reconstructLoop_flat (b n : Nat) (hpos : 0 < b) :
    ∀ (metas K : List Meta) (i j : Nat) (forUpd deleted : List Meta),
      K.length = i * b + j → j ≤ b → K.length + metas.length ≤ n * b → i < n →
      ∃ (i' j' : Nat),
        reconstructLoop (b : Int) metas (pack b n K) i (j : Int) forUpd deleted
          = some (pack b n (K ++ (rebuildFlat metas forUpd).1), i', (j' : Int),
              deleted ++ (rebuildFlat metas forUpd).2) ∧
        (K ++ (rebuildFlat metas forUpd).1).length = i' * b + j' ∧ j' ≤ b ∧ i' < n := by
  intro metas
  induction metas with
  | nil =>
    intro K i j forUpd deleted hK hj _ hi
    exact ⟨i, j, by simp [reconstructLoop, rebuildFlat], by simpa [rebuildFlat] using hK, hj, hi⟩
  | cons m rest ih =>
    intro K i j forUpd deleted hK hj hn hi
    have hlen : (m :: rest).length = rest.length + 1 := rfl
    rw [hlen] at hn
    have halloc : ∃ (i1 j1 : Nat), (if (j : Int) = (b : Int) then
          (blocksSet (pack b n K) ((i : Int) + 1) []).map (fun nb => (nb, i + 1, (0 : Int)))
        else some (pack b n K, i, (j : Int))) = some (pack b n K, i1, (j1 : Int)) ∧
        K.length = i1 * b + j1 ∧ j1 < b ∧ i1 < n := by
      by_cases hjb : (j : Int) = (b : Int)
      · have hjb' : j = b := by exact_mod_cast hjb
        have e : (i + 1) * b = i * b + b := by ring
        have hi1 : i + 1 < n := by
          have h1 : (i + 1) * b < n * b := by omega
          exact lt_of_mul_lt_mul_right h1 (Nat.zero_le _)
        refine ⟨i + 1, 0, ?_, by omega, hpos, hi1⟩
        rw [if_pos hjb]
        have hbs : blocksSet (pack b n K) ((i : Int) + 1) []
            = some ((pack b n K).set (i + 1) []) := by
          unfold blocksSet
          have e1 : ((i : Int) + 1).toNat = i + 1 := by omega
          rw [if_pos ⟨by omega, by rw [e1, pack_length]; exact hi1⟩, e1]
        rw [hbs, pack_set_nil b n K _ hi1 (by omega)]
        rfl
      · have hjb' : j ≠ b := fun h => hjb (by exact_mod_cast congrArg Nat.cast h)
        exact ⟨i, j, by rw [if_neg hjb], hK, by omega, hi⟩
    obtain ⟨i1, j1, hal, hK1, hj1, hi1⟩ := halloc
    have hlo : i1 * b ≤ K.length := by omega
    have hhi : K.length < (i1 + 1) * b := by
      have e : (i1 + 1) * b = i1 * b + b := by ring
      omega
    obtain ⟨blk, hblk, _⟩ := pack_append b n K i1 m hi1 hlo hhi
    -- keeping a meta `x`
    have hkeep : ∀ (x : Meta) (fu del : List Meta),
        ∃ (i' j' : Nat),
          reconstructLoop (b : Int) rest ((pack b n K).set i1 (blk ++ [x])) i1 ((j1 : Int) + 1)
            fu del = some (pack b n (K ++ x :: (rebuildFlat rest fu).1), i', (j' : Int),
              del ++ (rebuildFlat rest fu).2) ∧
          (K ++ x :: (rebuildFlat rest fu).1).length = i' * b + j' ∧ j' ≤ b ∧ i' < n := by
      intro x fu del
      obtain ⟨blk', hblk', happ⟩ := pack_append b n K i1 x hi1 hlo hhi
      rw [hblk] at hblk'
      injection hblk' with hblk'
      subst hblk'
      rw [happ]
      have e : ((j1 : Int) + 1) = ((j1 + 1 : Nat) : Int) := by push_cast; ring
      rw [e]
      obtain ⟨i', j', h1, h2, h3, h4⟩ := ih (K ++ [x]) i1 (j1 + 1) fu del
        (by simp; omega) (by omega) (by simp; omega) hi1
      have e2 : K ++ [x] ++ (rebuildFlat rest fu).1 = K ++ x :: (rebuildFlat rest fu).1 := by
        simp
      rw [e2] at h1 h2
      exact ⟨i', j', h1, h2, h3, h4⟩
    -- dropping the meta `m`
    have hdrop : ∀ (fu del : List Meta),
        ∃ (i' j' : Nat),
          reconstructLoop (b : Int) rest (pack b n K) i1 (j1 : Int) fu del
            = some (pack b n (K ++ (rebuildFlat rest fu).1), i', (j' : Int),
                del ++ (rebuildFlat rest fu).2) ∧
          (K ++ (rebuildFlat rest fu).1).length = i' * b + j' ∧ j' ≤ b ∧ i' < n :=
      fun fu del => ih K i1 j1 fu del hK1 (by omega) (by omega) hi1
    unfold reconstructLoop
    rw [hal]
    simp only
    by_cases hdel : m.IsDeleted = true
    · rw [if_pos hdel]
      have e : rebuildFlat (m :: rest) forUpd = rebuildFlat rest forUpd := by
        simp only [rebuildFlat, if_pos hdel]
      rw [e]
      exact hdrop forUpd deleted
    · rw [if_neg hdel]
      cases forUpd with
      | nil =>
        simp only [hblk]
        have e : rebuildFlat (m :: rest) []
            = (m :: (rebuildFlat rest []).1, (rebuildFlat rest []).2) := by
          simp only [rebuildFlat, if_neg hdel]
        rw [e]
        exact hkeep m [] deleted
      | cons u us =>
        simp only
        by_cases hid : m.ID = u.ID
        · rw [if_pos hid]
          by_cases hc : u.Version > m.Version ∨ u.IsDeleted = true
          · rw [if_pos hc]
            by_cases hud : u.IsDeleted = true
            · rw [if_pos hud]
              have e : rebuildFlat (m :: rest) (u :: us)
                  = ((rebuildFlat rest us).1, m :: (rebuildFlat rest us).2) := by
                simp only [rebuildFlat, if_neg hdel, if_pos hid, if_pos hc, if_pos hud]
              rw [e]
              obtain ⟨i', j', h1, h2⟩ := hdrop us (deleted ++ [m])
              refine ⟨i', j', ?_, h2⟩
              rw [h1]
              simp
            · rw [if_neg hud]
              simp only [hblk]
              have e : rebuildFlat (m :: rest) (u :: us)
                  = (u :: (rebuildFlat rest us).1, m :: (rebuildFlat rest us).2) := by
                simp only [rebuildFlat, if_neg hdel, if_pos hid, if_pos hc, if_neg hud]
              rw [e]
              obtain ⟨i', j', h1, h2⟩ := hkeep u us (deleted ++ [m])
              refine ⟨i', j', ?_, h2⟩
              rw [h1]
              simp
          · rw [if_neg hc]
            simp only [hblk]
            have e : rebuildFlat (m :: rest) (u :: us)
                = (u :: (rebuildFlat rest us).1, (rebuildFlat rest us).2) := by
              simp only [rebuildFlat, if_neg hdel, if_pos hid, if_neg hc]
            rw [e]
            exact hkeep u us deleted
        · rw [if_neg hid]
          simp only [hblk]
          have e : rebuildFlat (m :: rest) (u :: us)
              = (m :: (rebuildFlat rest (u :: us)).1, (rebuildFlat rest (u :: us)).2) := by
            simp only [rebuildFlat, if_neg hdel, if_neg hid]
          rw [e]
          exact hkeep m (u :: us) deleted

theorem findByID_of_mem (F : List Meta) (hF : F.Pairwise (fun a c => a.ID < c.ID)) (x : Meta)
    (hx : x ∈ F) : findByID F x.ID = some x := by
  unfold findByID
  cases h : F.find? (fun y => decide (y.ID = x.ID)) with
  | none =>
    rw [List.find?_eq_none] at h
    exact absurd (by simp) (h x hx)
  | some y =>
    have hy := List.mem_of_find?_eq_some h
    have hp := List.find?_some h
    simp only [decide_eq_true_eq] at hp
    rw [pairwise_unique F hF y x hy hx hp]

theorem findByID_none (F : List Meta) (id : Nat) (h : ∀ x ∈ F, x.ID ≠ id) :
    findByID F id = none := by
  unfold findByID
  rw [List.find?_eq_none]
  intro x hx
  simpa using h x hx

theorem findByID_cons_ne (u : Meta) (rest : List Meta) (id : Nat) (h : u.ID ≠ id) :
    findByID (u :: rest) id = findByID rest id := by
  unfold findByID
  rw [List.find?_cons_of_neg]
  simpa using h

theorem findByID_cons_eq (u : Meta) (rest : List Meta) (id : Nat) (h : u.ID = id) :
    findByID (u :: rest) id = some u := by
  unfold findByID
  rw [List.find?_cons_of_pos]
  simpa using h

/-- Writing an update to the place of the meta of its id, and then the later updates, is
the replacement of the metas by all the updates. -/
theorem updatedFlat_set (F1 : List Meta) (hF1 : F1.Pairwise (fun a c => a.ID < c.ID))
    (k : Nat) (u old : Meta) (rest : List Meta) (hold : F1[k]? = some old)
    (hid : old.ID = u.ID) (hrest : ∀ u' ∈ rest, u.ID < u'.ID) :
    updatedFlat rest (F1.set k u) = updatedFlat (u :: rest) F1 := by
  unfold updatedFlat
  apply List.ext_getElem?
  intro i
  simp only [List.getElem?_map, List.getElem?_set]
  have hk : k < F1.length := (List.getElem?_eq_some_iff.mp hold).1
  by_cases hi : k = i
  · subst hi
    simp only [if_true, if_pos hk, hold, Option.map_some']
    rw [findByID_none rest u.ID (fun u' hu' => by have := hrest u' hu'; omega),
      findByID_cons_eq u rest old.ID hid.symm]
    rfl
  · simp only [if_neg hi]
    cases hx : F1[i]? with
    | none => rfl
    | some x =>
      simp only [Option.map_some']
      have hne : u.ID ≠ x.ID := by
        intro he
        have h1 := pairwise_index_le F1 hF1 k i old x hold hx (by omega)
        have h2 := pairwise_index_le F1 hF1 i k x old hx hold (by omega)
        omega
      rw [findByID_cons_ne u rest x.ID hne]

/-- The loop of `update` on packed blocks in strict id order with no empty block, for
updates in strict id order that each have the id of a meta: the loop returns the packed
metas with the updates in their places, the metas it has appended to `deleted` and the
count of the deleted metas. -/
theorem updateLoop_flat (b m n : Nat) (hpos : 0 < b) (F : List Meta)
    (hF : F.Pairwise (fun a c => a.ID < c.ID)) (hne : ∀ blk ∈ pack b m F, blk ≠ [])
    (hfl : F.length ≤ m * b) (hmn : m ≤ n) :
    ∀ (forUpd : List Meta), forUpd.Pairwise (fun a c => a.ID < c.ID) →
      (∀ u ∈ forUpd, ∃ y ∈ F, y.ID = u.ID) →
    ∀ (F1 : List Meta) (prev : Int) (bound : Nat) (deleted : List Meta) (dc : Int),
      F1.map (fun x => x.ID) = F.map (fun x => x.ID) →
      (∀ k, (prev + 1).toNat * b ≤ k → F1[k]? = F[k]?) →
      -1 ≤ prev →
      (∀ u ∈ forUpd, ∀ k x, F[k]? = some x → x.ID = u.ID → prev ≤ ((k / b : Nat) : Int)) →
      (∀ k, bound ≤ k → F1[k]? = F[k]?) →
      (∀ u ∈ forUpd, ∀ k x, F[k]? = some x → x.ID = u.ID → bound ≤ k) →
      updateLoop (pack b m F) forUpd (pack b n F1) prev deleted dc
        = some (pack b n (updatedFlat forUpd F1), deleted ++ supersededFlat forUpd F,
            dc + ((forUpd.filter (fun u => u.IsDeleted)).length : Int)) := by
  have hflat : (pack b m F).flatten = F := pack_flatten b m F hfl
  have hFs : (pack b m F).flatten.Pairwise (fun a c => a.ID < c.ID) := by rw [hflat]; exact hF
  intro forUpd
  induction forUpd with
  | nil =>
    intro _ _ F1 prev bound deleted dc _ _ _ _ _ _
    simp [updateLoop, updatedFlat, supersededFlat, findByID]
  | cons u rest ih =>
    intro hsort hmatch F1 prev bound deleted dc hid habove hprev hP hbd hB
    have hsort' := List.pairwise_cons.mp hsort
    obtain ⟨y, hyF, hyid⟩ := hmatch u (List.mem_cons_self _ _)
    have hF1 : F1.Pairwise (fun a c => a.ID < c.ID) := pairwise_of_map_ID _ _ hid hF
    rcases binSearchBlock_spec (pack b m F) u.ID hne hFs with ⟨hb, hno⟩ | ⟨t, ht, hb, hall⟩
    · exact absurd hyid (hno y (by rw [hflat]; exact hyF))
    · rw [pack_length] at ht
      have hblk : (pack b m F)[t]? = some ((F.drop (t * b)).take b) := pack_getElem? b m F t ht
      have hblks : ((F.drop (t * b)).take b).Pairwise (fun a c => a.ID < c.ID) :=
        (hF.sublist (List.drop_sublist _ _)).sublist (List.take_sublist _ _)
      have hget : (pack b m F)[t] = (F.drop (t * b)).take b := by
        have := List.getElem?_eq_getElem (l := pack b m F) (by rw [pack_length]; exact ht)
        rw [hblk] at this
        injection this with this
        exact this.symm
      rw [hflat] at hall
      rcases binSearchMeta_spec ((F.drop (t * b)).take b) u.ID hblks with
        ⟨hm, hno⟩ | ⟨j, hj, hm, hjid⟩
      · exact absurd hyid (hno y (by rw [← hget]; exact hall y hyF hyid))
      · have hjb : j < b := by
          rw [List.length_take] at hj; omega
        have hjF : t * b + j < F.length := by
          rw [List.length_take, List.length_drop] at hj; omega
        have hFk : F[t * b + j]? = some (((F.drop (t * b)).take b)[j]) := by
          have h1 : ((F.drop (t * b)).take b)[j]? = F[t * b + j]? := by
            rw [List.getElem?_take, if_pos hjb, List.getElem?_drop]
          rw [← h1, List.getElem?_eq_getElem hj]
        have hdm : (t * b + j) / b = t ∧ (t * b + j) % b = j :=
          (Nat.div_mod_unique hpos).mpr ⟨by rw [Nat.mul_comm]; omega, hjb⟩
        have hpt : prev ≤ (t : Int) := by
          have := hP u (List.mem_cons_self _ _) (t * b + j) _ hFk hjid
          rw [hdm.1] at this
          exact this
        have hbk : bound ≤ t * b + j := hB u (List.mem_cons_self _ _) _ _ hFk hjid
        have hold : F1[t * b + j]? = some (((F.drop (t * b)).take b)[j]) := by
          rw [hbd _ hbk, hFk]
        generalize hox : ((F.drop (t * b)).take b)[j] = old at hFk hold hjid
        have hclone : (if (t : Int) > prev then
              (blocksSet (pack b n F1) (t : Int) ((F.drop (t * b)).take b)).map
                (fun nb => (nb, (t : Int)))
            else some (pack b n F1, prev)) = some (pack b n F1, (t : Int)) := by
          by_cases hgt : (t : Int) > prev
          · rw [if_pos hgt]
            have hsame : (F1.drop (t * b)).take b = (F.drop (t * b)).take b := by
              apply List.ext_getElem?
              intro i
              simp only [List.getElem?_take, List.getElem?_drop]
              by_cases hi : i < b
              · simp only [if_pos hi]
                apply habove
                have h1 : (prev + 1).toNat ≤ t := by omega
                have := Nat.mul_le_mul_right b h1
                omega
              · simp only [if_neg hi]
            have hbs : blocksSet (pack b n F1) (t : Int) ((F.drop (t * b)).take b)
                = some ((pack b n F1).set t ((F.drop (t * b)).take b)) := by
              unfold blocksSet
              rw [if_pos ⟨Int.natCast_nonneg _, by
                rw [Int.toNat_ofNat, pack_length]; omega⟩, Int.toNat_ofNat]
            have hnoop : (pack b n F1).set t ((F.drop (t * b)).take b) = pack b n F1 := by
              apply List.ext_getElem?
              intro i
              rw [List.getElem?_set]
              by_cases hit : t = i
              · subst hit
                simp only [if_true, pack_length]
                rw [if_pos (by omega), pack_getElem? b n F1 t (by omega), hsame]
              · simp only [if_neg hit]
            rw [hbs, hnoop]
            rfl
          · rw [if_neg hgt]
            have : prev = (t : Int) := by omega
            rw [this]
        have htn : (t * b + j) / b < n := by rw [hdm.1]; omega
        have hk1 : t * b + j < F1.length := (List.getElem?_eq_some_iff.mp hold).1
        have hbg : blockGet (pack b n F1) (t : Int) (j : Int) = some old := by
          have := blockGet_pack b n hpos F1 (t * b + j) htn
          rw [hdm.1, hdm.2] at this
          rw [this, hold]
        have hbset : blockSet (pack b n F1) (t : Int) (j : Int) u
            = some (pack b n (F1.set (t * b + j) u)) := by
          have := blockSet_pack b n hpos F1 (t * b + j) u htn hk1
          rw [hdm.1, hdm.2] at this
          exact this
        have hid' : (F1.set (t * b + j) u).map (fun x => x.ID) = F.map (fun x => x.ID) := by
          rw [map_ID_set F1 _ u old hold hjid, hid]
        have habove' : ∀ k, ((t : Int) + 1).toNat * b ≤ k →
            (F1.set (t * b + j) u)[k]? = F[k]? := by
          intro k hk
          have e1 : ((t : Int) + 1).toNat = t + 1 := by omega
          rw [e1] at hk
          have e2 : (t + 1) * b = t * b + b := by ring
          rw [List.getElem?_set, if_neg (by omega)]
          apply habove
          have h1 : (prev + 1).toNat ≤ t + 1 := by omega
          have := Nat.mul_le_mul_right b h1
          omega
        have hB' : ∀ u' ∈ rest, ∀ k x, F[k]? = some x → x.ID = u'.ID → t * b + j + 1 ≤ k := by
          intro u' hu' k x hx hxid
          have hlt : old.ID < x.ID := by
            rw [hjid, hxid]; exact hsort'.1 u' hu'
          have h1 := pairwise_index_le F hF _ _ _ _ hFk hx (le_of_lt hlt)
          rcases Nat.lt_or_ge (t * b + j) k with h | h
          · omega
          · have : k = t * b + j := by omega
            subst this
            rw [hFk] at hx
            injection hx with hx
            rw [hx] at hlt
            omega
        have hP' : ∀ u' ∈ rest, ∀ k x, F[k]? = some x → x.ID = u'.ID →
            (t : Int) ≤ ((k / b : Nat) : Int) := by
          intro u' hu' k x hx hxid
          have := hB' u' hu' k x hx hxid
          have h2 := Nat.div_le_div_right (c := b) (show t * b + j ≤ k by omega)
          rw [hdm.1] at h2
          exact_mod_cast h2
        have hbd' : ∀ k, t * b + j + 1 ≤ k → (F1.set (t * b + j) u)[k]? = F[k]? := by
          intro k hk
          rw [List.getElem?_set, if_neg (by omega)]
          exact hbd k (by omega)
        have hrec := fun (del : List Meta) (c : Int) =>
          ih hsort'.2 (fun u' hu' => hmatch u' (List.mem_cons_of_mem _ hu'))
            (F1.set (t * b + j) u) (t : Int) (t * b + j + 1) del c hid' habove' (by omega)
            hP' hbd' hB'
        have hunf : updateLoop (pack b m F) (u :: rest) (pack b n F1) prev deleted dc
            = (if u.Version > old.Version ∨ u.IsDeleted = true then
                updateLoop (pack b m F) rest (pack b n (F1.set (t * b + j) u)) (t : Int)
                  (deleted ++ [old]) (if u.IsDeleted = true then dc + 1 else dc)
              else
                updateLoop (pack b m F) rest (pack b n (F1.set (t * b + j) u)) (t : Int)
                  deleted dc) := by
          conv_lhs => unfold updateLoop
          rw [hb]
          have hneg : ¬ ((t : Int) = -1) := by omega
          have hneg2 : ¬ ((j : Int) = -1) := by omega
          simp only [if_neg hneg, Int.toNat_ofNat, hblk, hm, if_neg hneg2, hclone, hbg, hbset]
        have holdF : old ∈ F := by
          obtain ⟨h1, h2⟩ := List.getElem?_eq_some_iff.mp hFk
          rw [← h2]
          exact List.getElem_mem _
        have hfind : findByID F u.ID = some old := by
          rw [← hjid]; exact findByID_of_mem F hF old holdF
        have hupd := updatedFlat_set F1 hF1 (t * b + j) u old rest hold hjid hsort'.1
        have hsup : supersededFlat (u :: rest) F
            = (if u.Version > old.Version ∨ u.IsDeleted = true then [old] else [])
              ++ supersededFlat rest F := by
          unfold supersededFlat
          rw [List.filterMap_cons, hfind]
          simp only [Option.some_bind]
          split_ifs <;> simp
        rw [hunf, hsup, ← hupd]
        by_cases hc : u.Version > old.Version ∨ u.IsDeleted = true
        · have hdc : (if u.IsDeleted = true then dc + 1 else dc)
              + (((rest.filter (fun u => u.IsDeleted)).length : Nat) : Int)
              = dc + ((((u :: rest).filter (fun u => u.IsDeleted)).length : Nat) : Int) := by
            by_cases hud : u.IsDeleted = true
            · rw [if_pos hud, List.filter_cons, if_pos hud, List.length_cons]
              push_cast; ring
            · rw [if_neg hud, List.filter_cons, if_neg hud]
          rw [if_pos hc, if_pos hc, hrec, hdc, List.append_assoc]
        · have hud : ¬ u.IsDeleted = true := fun h => hc (Or.inr h)
          rw [if_neg hc, if_neg hc, hrec, List.filter_cons, if_neg hud, List.nil_append]

theorem supersededFlat_cons_skip (U : List Meta) (m : Meta) (rest : List Meta)
    (h : ∀ u ∈ U, m.ID ≠ u.ID) : supersededFlat U (m :: rest) = supersededFlat U rest := by
  unfold supersededFlat
  apply List.filterMap_congr
  intro u hu
  rw [findByID_cons_ne m rest u.ID (h u hu)]

theorem updatedFlat_skip_head (u : Meta) (us rest : List Meta)
    (h : ∀ x ∈ rest, u.ID ≠ x.ID) : updatedFlat (u :: us) rest = updatedFlat us rest := by
  unfold updatedFlat
  apply List.map_congr_left
  intro x hx
  rw [findByID_cons_ne u us x.ID (h x hx)]

theorem updatedFlat_cons (U : List Meta) (m : Meta) (rest : List Meta) :
    updatedFlat U (m :: rest) = (findByID U m.ID).getD m :: updatedFlat U rest := rfl

/-- For metas and updates in strict id order, every update with the id of a meta that is
not marked deleted, the flat form of `updateAndReconstruct` keeps the metas that the
loop of `update` leaves unmarked, and its `deleted` is the `deleted` of that loop. -/
theorem rebuildFlat_spec : ∀ (F U : List Meta),
    F.Pairwise (fun a c => a.ID < c.ID) → U.Pairwise (fun a c => a.ID < c.ID) →
    (∀ u ∈ U, ∃ y ∈ F, y.ID = u.ID ∧ y.IsDeleted = false) →
    (rebuildFlat F U).1 = (updatedFlat U F).filter (fun x => !x.IsDeleted) ∧
    (rebuildFlat F U).2 = supersededFlat U F := by
  intro F
  induction F with
  | nil =>
    intro U _ _ _
    simp [rebuildFlat, updatedFlat, supersededFlat, findByID]
  | cons m rest ih =>
    intro U hF hU hH
    have hF' := List.pairwise_cons.mp hF
    -- the matches of the updates of another id than the id of `m` are among the rest
    have hrestH : ∀ (V : List Meta), (∀ u ∈ V, u ∈ U) → (∀ u ∈ V, m.ID ≠ u.ID) →
        ∀ u ∈ V, ∃ y ∈ rest, y.ID = u.ID ∧ y.IsDeleted = false := by
      intro V hV hne u hu
      obtain ⟨y, hy, hyid, hyl⟩ := hH u (hV u hu)
      rcases List.mem_cons.mp hy with h | h
      · subst h; exact absurd hyid (hne u hu)
      · exact ⟨y, h, hyid, hyl⟩
    by_cases hdel : m.IsDeleted = true
    · have hne : ∀ u ∈ U, m.ID ≠ u.ID := by
        intro u hu he
        obtain ⟨y, hy, hyid, hyl⟩ := hH u hu
        have := pairwise_unique _ hF m y (List.mem_cons_self _ _) hy (by rw [he, hyid])
        rw [← this, hdel] at hyl
        cases hyl
      obtain ⟨h1, h2⟩ := ih U hF'.2 hU (hrestH U (fun _ h => h) hne)
      have e : rebuildFlat (m :: rest) U = rebuildFlat rest U := by
        simp only [rebuildFlat, if_pos hdel]
      rw [e, h1, h2, supersededFlat_cons_skip U m rest hne, updatedFlat_cons,
        findByID_none U m.ID (fun u hu he => hne u hu he.symm)]
      simp [hdel]
    · have hlive : m.IsDeleted = false := by simpa using hdel
      cases U with
      | nil =>
        obtain ⟨h1, h2⟩ := ih [] hF'.2 List.Pairwise.nil (fun u hu => by simp at hu)
        have e : rebuildFlat (m :: rest) []
            = (m :: (rebuildFlat rest []).1, (rebuildFlat rest []).2) := by
          simp only [rebuildFlat, if_neg hdel]
        rw [e, h1, h2, updatedFlat_cons]
        simp [findByID, supersededFlat, hlive]
      | cons u us =>
        have hU' := List.pairwise_cons.mp hU
        by_cases hid : m.ID = u.ID
        · have hne : ∀ u' ∈ us, m.ID ≠ u'.ID := by
            intro u' hu'
            have := hU'.1 u' hu'
            omega
          obtain ⟨h1, h2⟩ := ih us hF'.2 hU'.2
            (hrestH us (fun _ h => List.mem_cons_of_mem _ h) hne)
          have hskip : updatedFlat (u :: us) rest = updatedFlat us rest :=
            updatedFlat_skip_head u us rest (fun x hx => by
              have := hF'.1 x hx
              omega)
          have hsup : supersededFlat (u :: us) (m :: rest)
              = (if u.Version > m.Version ∨ u.IsDeleted = true then [m] else [])
                ++ supersededFlat us rest := by
            have e1 : supersededFlat (u :: us) (m :: rest)
                = (if u.Version > m.Version ∨ u.IsDeleted = true then [m] else [])
                  ++ supersededFlat us (m :: rest) := by
              unfold supersededFlat
              rw [List.filterMap_cons, findByID_cons_eq m rest u.ID hid]
              simp only [Option.some_bind]
              split_ifs <;> simp
            rw [e1, supersededFlat_cons_skip us m rest hne]
          rw [hsup, updatedFlat_cons, findByID_cons_eq u us m.ID hid.symm, hskip]
          simp only [Option.getD_some]
          by_cases hc : u.Version > m.Version ∨ u.IsDeleted = true
          · by_cases hud : u.IsDeleted = true
            · have e : rebuildFlat (m :: rest) (u :: us)
                  = ((rebuildFlat rest us).1, m :: (rebuildFlat rest us).2) := by
                simp only [rebuildFlat, if_neg hdel, if_pos hid, if_pos hc, if_pos hud]
              rw [e, h1, h2, if_pos hc]
              simp [hud]
            · have e : rebuildFlat (m :: rest) (u :: us)
                  = (u :: (rebuildFlat rest us).1, m :: (rebuildFlat rest us).2) := by
                simp only [rebuildFlat, if_neg hdel, if_pos hid, if_pos hc, if_neg hud]
              rw [e, h1, h2, if_pos hc]
              simp [hud]
          · have hud : ¬ u.IsDeleted = true := fun h => hc (Or.inr h)
            have e : rebuildFlat (m :: rest) (u :: us)
                = (u :: (rebuildFlat rest us).1, (rebuildFlat rest us).2) := by
              simp only [rebuildFlat, if_neg hdel, if_pos hid, if_neg hc]
            rw [e, h1, h2, if_neg hc]
            simp [hud]
        · have hne : ∀ u' ∈ u :: us, m.ID ≠ u'.ID := by
            intro u' hu' hc
            rcases List.mem_cons.mp hu' with h | h
            · subst h; exact hid hc
            · have hlt := hU'.1 u' h
              obtain ⟨y, hy, hyid, _⟩ := hH u (List.mem_cons_self _ _)
              rcases List.mem_cons.mp hy with h2 | h2
              · subst h2; exact hid hyid
              · have := hF'.1 y h2
                omega
          obtain ⟨h1, h2⟩ := ih (u :: us) hF'.2 hU (hrestH (u :: us) (fun _ h => h) hne)
          have e : rebuildFlat (m :: rest) (u :: us)
              = (m :: (rebuildFlat rest (u :: us)).1, (rebuildFlat rest (u :: us)).2) := by
            simp only [rebuildFlat, if_neg hdel, if_neg hid]
          rw [e, h1, h2, supersededFlat_cons_skip (u :: us) m rest hne, updatedFlat_cons,
            findByID_none (u :: us) m.ID (fun u' hu' he => hne u' hu' he.symm)]
          simp [hlive]

/-- C36: on blocks that meet the invariant of a storage (strict id order, full but for
the last, none above `blockMaxSize ≥ 1`, none empty), with `newBlocks` of at least as many
blocks, and a `forUpd` in strict id order whose every id is the id of a meta that is not
marked deleted, `update` and `updateAndReconstruct` both return; they return the same
list `deleted` of superseded metas, `update` returns the metas with the updates in the
places of the metas of their ids, and `updateAndReconstruct` returns the metas of that
same sequence that are not marked deleted, packed into the blocks from the first on, with
their number as `index` and with 0 as `deletedCount`, where `update` keeps the number of
the old metas and adds the number of deleting updates to `deletedCount`. -/
theorem C36_update_paths_agree (mm : MetasMap) (blocks : List (List Meta))
    (forUpd : List Meta) (n : Nat) (hbms : 1 ≤ mm.blockMaxSize)
    (hinv : BlocksInv mm.blockMaxSize blocks) (hne : ∀ blk ∈ blocks, blk ≠ [])
    (hlen : blocks.length ≤ n) (hn : 1 ≤ n)
    (hsort : forUpd.Pairwise (fun a c => a.ID < c.ID))
    (hmatch : ∀ u ∈ forUpd, ∃ y ∈ blocks.flatten, y.ID = u.ID ∧ y.IsDeleted = false) :
    ∃ (nb1 nb2 : List (List Meta)) (deleted : List Meta),
      mm.update (List.replicate n []) blocks forUpd
        = some (nb1, mm.metasLen blocks, deleted,
            mm.deletedCount + ((forUpd.filter (fun u => u.IsDeleted)).length : Int)) ∧
      mm.updateAndReconstruct (List.replicate n []) blocks forUpd
        = some (nb2, (nb2.flatten.length : Int), deleted, 0) ∧
      nb1.flatten = updatedFlat forUpd blocks.flatten ∧
      nb2.flatten = nb1.flatten.filter (fun x => !x.IsDeleted) ∧
      deleted = supersededFlat forUpd blocks.flatten ∧
      nb1 = pack mm.blockMaxSize.toNat n nb1.flatten ∧
      nb2 = pack mm.blockMaxSize.toNat n nb2.flatten := by
  have hb : mm.blockMaxSize = ((mm.blockMaxSize.toNat : Nat) : Int) := by omega
  have hpos : 0 < mm.blockMaxSize.toNat := by omega
  obtain ⟨hfull, hle⟩ := BlocksInv_nat _ _ hb blocks hinv
  have hF := hinv.1
  have hcap0 := flatten_length_le mm.blockMaxSize.toNat blocks hle
  have hcap : blocks.flatten.length ≤ n * mm.blockMaxSize.toNat :=
    le_trans hcap0 (Nat.mul_le_mul_right _ hlen)
  have hul : (updatedFlat forUpd blocks.flatten).length = blocks.flatten.length := by
    unfold updatedFlat
    rw [List.length_map]
  have hfl : ((updatedFlat forUpd blocks.flatten).filter (fun x => !x.IsDeleted)).length
      ≤ n * mm.blockMaxSize.toNat :=
    le_trans (List.length_filter_le _ _) (by rw [hul]; exact hcap)
  have hflat1 := pack_flatten mm.blockMaxSize.toNat n (updatedFlat forUpd blocks.flatten)
    (by rw [hul]; exact hcap)
  have hflat2 := pack_flatten mm.blockMaxSize.toNat n
    ((updatedFlat forUpd blocks.flatten).filter (fun x => !x.IsDeleted)) hfl
  obtain ⟨hr1, hr2⟩ := rebuildFlat_spec blocks.flatten forUpd hF hsort hmatch
  refine ⟨pack mm.blockMaxSize.toNat n (updatedFlat forUpd blocks.flatten),
    pack mm.blockMaxSize.toNat n
      ((updatedFlat forUpd blocks.flatten).filter (fun x => !x.IsDeleted)),
    supersededFlat forUpd blocks.flatten, ?_, ?_, hflat1, by rw [hflat1, hflat2], rfl,
    by rw [hflat1], by rw [hflat2]⟩
  · unfold MetasMap.update
    have htake : blocks.take (List.replicate n ([] : List Meta)).length = blocks := by
      rw [List.length_replicate]; exact List.take_of_length_le hlen
    have hdrop : (List.replicate n ([] : List Meta)).drop blocks.length
        = List.replicate (n - blocks.length) [] := by simp
    have hp1 := pack_of_blocks mm.blockMaxSize.toNat blocks n hlen hfull hle
    have hp0 := pack_of_blocks mm.blockMaxSize.toNat blocks blocks.length (le_refl _) hfull hle
    simp only [Nat.sub_self, List.replicate_zero, List.append_nil] at hp0
    rw [htake, hdrop, hp1]
    have hne' : ∀ blk ∈ pack mm.blockMaxSize.toNat blocks.length blocks.flatten, blk ≠ [] := by
      rw [← hp0]; exact hne
    have h1 := updateLoop_flat mm.blockMaxSize.toNat blocks.length n hpos blocks.flatten
      hF hne' hcap0 hlen forUpd hsort
      (fun u hu => by
        obtain ⟨y, hy, hyid, _⟩ := hmatch u hu
        exact ⟨y, hy, hyid⟩)
      blocks.flatten (-1) 0 [] mm.deletedCount rfl (fun _ _ => rfl) (le_refl _)
      (fun _ _ _ _ _ _ => le_trans (by decide) (Int.natCast_nonneg _))
      (fun _ _ => rfl) (fun _ _ _ _ _ _ => Nat.zero_le _)
    rw [← hp0] at h1
    rw [h1]
    simp only [List.nil_append]
  · unfold MetasMap.updateAndReconstruct
    have hnn : ¬ mm.blockMaxSize < 0 := by omega
    rw [if_neg hnn, blocksSet_replicate mm.blockMaxSize.toNat n hn]
    simp only
    obtain ⟨i', j', h1, h2, _, _⟩ := reconstructLoop_flat mm.blockMaxSize.toNat n hpos
      blocks.flatten [] 0 0 forUpd [] (by simp) (Nat.zero_le _)
      (by simp only [List.length_nil, Nat.zero_add]; exact hcap) (by omega)
    simp only [Nat.cast_zero, List.nil_append] at h1 h2
    rw [← hb] at h1
    rw [h1]
    simp only
    rw [hr1] at h2 ⊢
    rw [hr2, hflat2, h2]
    have e : (i' : Int) * mm.blockMaxSize + (j' : Int)
        = ((i' * mm.blockMaxSize.toNat + j' : Nat) : Int) := by
      rw [hb]; push_cast
      simp
    rw [e]

set_option maxRecDepth 8000 in
/-- The theorem `C36_update_paths_agree` on the blocks of `TestRemoving` with an update
that deletes the meta of id 1 and an update of the meta of id 3 to version 2. -/
theorem C36_update_paths_agree_witness :
    ∃ (nb1 nb2 : List (List Meta)) (deleted : List Meta),
      removingMetasMap.update (List.replicate 2 [])
          [[metaVer 1 1 false, metaVer 2 1 false], [metaVer 3 1 false]]
          [metaVer 1 2 true, metaVer 3 2 false]
        = some (nb1, 3, deleted, 1) ∧
      removingMetasMap.updateAndReconstruct (List.replicate 2 [])
          [[metaVer 1 1 false, metaVer 2 1 false], [metaVer 3 1 false]]
          [metaVer 1 2 true, metaVer 3 2 false]
        = some (nb2, 2, deleted, 0) ∧
      nb1 = [[metaVer 1 2 true, metaVer 2 1 false], [metaVer 3 2 false]] ∧
      nb2 = [[metaVer 2 1 false, metaVer 3 2 false], []] ∧
      deleted = [metaVer 1 1 false, metaVer 3 1 false] := by
  obtain ⟨nb1, nb2, deleted, h1, h2, h3, h4, h5, h6, h7⟩ := C36_update_paths_agree
    removingMetasMap [[metaVer 1 1 false, metaVer 2 1 false], [metaVer 3 1 false]]
    [metaVer 1 2 true, metaVer 3 2 false] 2 (by decide)
    (BlocksInv_pack 2 2 [metaVer 1 1 false, metaVer 2 1 false, metaVer 3 1 false]
      (by decide) (by decide) (by decide))
    (by decide) (by decide) (by decide) (by decide) (by decide)
  have e1 : nb1 = [[metaVer 1 2 true, metaVer 2 1 false], [metaVer 3 2 false]] := by
    rw [h6, h3]; decide
  have e3 : deleted = [metaVer 1 1 false, metaVer 3 1 false] := by rw [h5]; decide
  have e2 : nb2 = [[metaVer 2 1 false, metaVer 3 2 false], []] := by
    rw [h7, h4, h3]; decide
  refine ⟨nb1, nb2, deleted, ?_, ?_, e1, e2, e3⟩
  · rw [h1]; rfl
  · rw [h2, e2]; rfl

end SherLogDB
